import Mathlib

/-!
# Statement lowering of the golua code generator (`compiler/codegen/cg_stat.go`)

A shallow embedding of the statement-level code generator.  The routines of
`cg_stat.go` are translated one by one.  They run on a `funcInfo` whose
methods live in another file of the package and on the expression emitter;
the former are modelled from the specification (each such definition says
so), the latter is a parameter (`Collaborators`).

Go `int` values are `Int`; no arithmetic of the file can overflow on inputs
of realistic size, so no wrap-around is modelled.
-/

namespace Codegen

/-! ## Abstract syntax (package `ast`) -/

/-- Expression nodes, with the distinctions `cg_stat.go` makes by type
switch or type assertion: nil literal, vararg, function call, name and
table access.  Every other node kind is `OtherExpression`; the content of a
call or of another node, which statement lowering never inspects, is an
identifier handed to the expression emitter. -/
inductive Expression where
  | NilExpression (line : Int)
  | VarargExpression (line : Int)
  | FunctionCallExpression (id : Nat)
  | NameExpression (line : Int) (name : String)
  | TableAccessExpression (lastLine : Int) (prefixExpression keyExpression : Expression)
  | OtherExpression (id : Nat)
deriving DecidableEq, Repr

mutual
/-- Statement nodes: one constructor per case of the type switch in `cgStat`.
A function-call statement is the call expression itself; a local function
definition carries the identifier of its function-definition expression. -/
inductive Statement where
  | FunctionCallStatement (call : Nat)
  | BreakStatement (line : Int)
  | DoStatement (block : Block)
  | WhileStatement (expression : Expression) (block : Block)
  | RepeatStatement (block : Block) (expression : Expression)
  | IfStatement (expressions : List Expression) (blocks : List Block)
  | ForNumStatement (lineOfFor lineOfDo : Int) (varName : String)
      (initExpression limitExpression stepExpression : Expression) (block : Block)
  | ForInStatement (lineOfDo : Int) (nameList : List String)
      (expressionList : List Expression) (block : Block)
  | AssignStatement (lastLine : Int) (variableList expressionList : List Expression)
  | LocalVariableDeclareStatement (lastLine : Int) (nameList : List String)
      (expressionList : List Expression)
  | LocalFunctionDefineStatement (name : String) (expression : Nat)
  | LabelStatement (name : String)
  | GotoStatement (name : String)
/-- A block: its statements in source order and the line of its end. -/
inductive Block where
  | mk (stats : List Statement) (lastLine : Int)
end

/-- The `LastLine` field of a block. -/
def Block.LastLine : Block → Int
  | .mk _ l => l

/-- The statements of a block. -/
def Block.Stats : Block → List Statement
  | .mk ss _ => ss

/-! ## Bytecode and function compile state -/

/-- An emitted instruction: one constructor per `emit…` method used by
`cg_stat.go`, with the fields passed to it, and `other` for what the
expression emitter produces.  The encoding into words is not modelled. -/
inductive Instruction where
  | jmp (line a sBx : Int)
  | test (line a c : Int)
  | forPrep (line a sBx : Int)
  | forLoop (line a sBx : Int)
  | tForCall (line a c : Int)
  | tForLoop (line a sBx : Int)
  | loadNil (line a n : Int)
  | move (line a b : Int)
  | setUpval (line a b : Int)
  | setTable (line a b c : Int)
  | setTabUp (line a b c : Int)
  | other (code : Nat) (a b c : Int)
deriving DecidableEq, Repr

/-- The relative offset of an instruction that has one. -/
def Instruction.sBx? : Instruction → Option Int
  | .jmp _ _ s => some s
  | .forPrep _ _ s => some s
  | .forLoop _ _ s => some s
  | .tForLoop _ _ s => some s
  | _ => none

/-- Overwrite the offset field; an instruction without one is left alone. -/
def Instruction.setSBx (s : Int) : Instruction → Instruction
  | .jmp l a _ => .jmp l a s
  | .forPrep l a _ => .forPrep l a s
  | .forLoop l a _ => .forLoop l a s
  | .tForLoop l a _ => .tForLoop l a s
  | i => i

/-- An entry of the locals table (spec §3, `localVars`). -/
structure LocVarInfo where
  name : String
  slot : Int
  startPC : Int
  endPC : Int
deriving DecidableEq, Repr

/-- A lexical scope frame (spec §3, `scopes`): the locals declared in it
(positions in the locals table, most recent first), whether it is
breakable, and the PCs of the `break` jumps waiting for a target. -/
structure Scope where
  locals : List Nat
  breakable : Bool
  breaks : List Int
deriving DecidableEq, Repr

/-- Function compile state (spec §3).  `scopes` has the innermost frame
first. -/
structure FuncInfo where
  usedRegs : Int
  maxRegs : Int
  insts : List Instruction
  scopes : List Scope
  localVars : List LocVarInfo
deriving DecidableEq, Repr

namespace FuncInfo

/-- Modelled from the spec: `fi.pc()`, missing from the sources.  The PC of
the instruction emitted last (§4.10: a start-PC of `pc()+1` is "the
instruction after the declaration's final instruction"), `-1` when there is
none. -/
def pc (fi : FuncInfo) : Int := (fi.insts.length : Int) - 1

/-- Modelled from the spec: `fi.allocReg()` (§4.1 `allocate()`): returns the
next free register and raises `usedRegs`, and `maxRegs` when needed. -/
def allocReg (fi : FuncInfo) : FuncInfo × Int :=
  ({ fi with usedRegs := fi.usedRegs + 1, maxRegs := max fi.maxRegs (fi.usedRegs + 1) },
   fi.usedRegs)

/-- Modelled from the spec: `fi.allocRegs(n)` (§4.1 `allocateRun(n)`):
reserves `n` contiguous registers and returns the first. -/
def allocRegs (fi : FuncInfo) (n : Int) : FuncInfo × Int :=
  ({ fi with usedRegs := fi.usedRegs + n, maxRegs := max fi.maxRegs (fi.usedRegs + n) },
   fi.usedRegs)

/-- Modelled from the spec: `fi.freeReg()` (§4.1 `free()`): one register
less is in use. -/
def freeReg (fi : FuncInfo) : FuncInfo :=
  { fi with usedRegs := fi.usedRegs - 1 }

/-- Modelled from the spec: the `fi.emit…` methods append one instruction
and return its PC (§1: "emit an instruction with these fields, get back its
program-counter position"). -/
def emit (fi : FuncInfo) (ins : Instruction) : FuncInfo × Int :=
  ({ fi with insts := fi.insts ++ [ins] }, fi.insts.length)

/-- Modelled from the spec: `fi.fixSbx(pc, sBx)` (§4.3 `fixOffset`):
overwrites the offset of the instruction at `pc`, whose position does not
change.  A `pc` outside the buffer, which no caller passes, changes
nothing. -/
def fixSbx (fi : FuncInfo) (pc sBx : Int) : FuncInfo :=
  if 0 ≤ pc then
    { fi with insts := fi.insts.modify (Instruction.setSBx sBx) pc.toNat }
  else fi

/-- Modelled from the spec: `fi.enterScope(breakable)` pushes a frame
(§4.2). -/
def enterScope (fi : FuncInfo) (breakable : Bool) : FuncInfo :=
  { fi with scopes := { locals := [], breakable := breakable, breaks := [] } :: fi.scopes }

/-- Record a break jump in the innermost breakable frame of a scope stack. -/
def addBreak (pc : Int) : List Scope → List Scope
  | [] => []
  | s :: rest =>
    if s.breakable then { s with breaks := s.breaks ++ [pc] } :: rest
    else s :: addBreak pc rest

/-- Modelled from the spec: `fi.addBreakJmp(pc)`: the jump is collected by
the innermost breakable frame (§3: a breakable frame holds "the list of PCs
of `break` jump instructions emitted inside it awaiting a target"). -/
def addBreakJmp (fi : FuncInfo) (pc : Int) : FuncInfo :=
  { fi with scopes := addBreak pc fi.scopes }

/-- Modelled from the spec: `fi.addLocalVariable(name, startPC)`: the local
takes the next free register as its permanent slot (§4.10), is appended to
the locals table and is recorded in the innermost frame; the slot is
returned. -/
def addLocalVariable (fi : FuncInfo) (name : String) (startPC : Int) : FuncInfo × Int :=
  ({ fi with
      usedRegs := fi.usedRegs + 1
      maxRegs := max fi.maxRegs (fi.usedRegs + 1)
      localVars := fi.localVars ++
        [{ name := name, slot := fi.usedRegs, startPC := startPC, endPC := 0 }]
      scopes := match fi.scopes with
        | [] => []
        | s :: rest => { s with locals := fi.localVars.length :: s.locals } :: rest },
   fi.usedRegs)

/-- The first of the given table positions whose entry has the name. -/
def findLocal (vars : List LocVarInfo) (name : String) : List Nat → Option LocVarInfo
  | [] => none
  | i :: rest =>
    match vars[i]? with
    | some v => if v.name = name then some v else findLocal vars name rest
    | none => findLocal vars name rest

/-- The local a name is bound to: the most recent declaration of the name
in the innermost frame that has one. -/
def lookupLocal (vars : List LocVarInfo) (name : String) : List Scope → Option LocVarInfo
  | [] => none
  | s :: rest =>
    match findLocal vars name s.locals with
    | some v => some v
    | none => lookupLocal vars name rest

/-- Modelled from the spec: `fi.slotOfLocalVariable(name)` (§6
`localSlotOf`): the register of the local the name is bound to in the open
scopes, or `-1` for "not found". -/
def slotOfLocalVariable (fi : FuncInfo) (name : String) : Int :=
  match lookupLocal fi.localVars name fi.scopes with
  | some v => v.slot
  | none => -1

/-- Set the end-PC of the table entries at the given positions. -/
def closeLocals (endPC : Int) (vars : List LocVarInfo) : List Nat → List LocVarInfo
  | [] => vars
  | i :: rest => closeLocals endPC (vars.modify (fun v => { v with endPC := endPC }) i) rest

/-- Patch the collected break jumps of a frame, each like every back-patch
of `cg_stat.go`: `fixSbx(pc, fi.pc() - pc)`. -/
def patchBreaks (fi : FuncInfo) : List Int → FuncInfo
  | [] => fi
  | p :: rest => patchBreaks (fi.fixSbx p (fi.pc - p)) rest

/-- Modelled from the spec: `fi.exitScope(endPC)` pops the innermost frame;
its code is not in `cg_stat.go`.  Every local declared in the frame gets
`endPC` as its end-PC (§4.2).  The closing of upvalues that §4.2 mentions is
the separate call `closeOpenUpvals` of the callers.  Two lines of this
definition are readings of the spec where its sections do not agree or are
silent, and the facts that rest on them hold for this reading only.

* The break jumps of a breakable frame are patched like every back-patch of
  `cg_stat.go`, with `fixSbx(pc, fi.pc() - pc)`, so that they land on the
  instruction that follows the last one emitted when the scope is left:
  §4.6 ("exit scope (patches break-jumps to current PC)") and Invariant B of
  §3.  §4.2 says "to target `endPC`"; the arguments of the four loops are
  `pc()` (lines 81 and 175), `pc() + 1` (line 107) and `pc() - 1`
  (line 207), all of them taken after the last instruction of the loop, so
  that a target equal to the argument would be the back-jump itself in a
  while loop and could not satisfy Invariant B in all four.
* The registers of the locals of the frame are given back: `usedRegs` is
  the "count of registers currently live" (§3), and §5 has every statement
  return with `usedRegs` at its entry value.  §4.2 does not list this
  effect, and `cg_stat.go` frees only the registers of conditions and of
  value lists, never those of the locals of a block. -/
def exitScope (fi : FuncInfo) (endPC : Int) : FuncInfo :=
  match fi.scopes with
  | [] => fi
  | s :: rest =>
    let fi1 := if s.breakable then patchBreaks fi s.breaks else fi
    { fi1 with
        scopes := rest
        usedRegs := fi1.usedRegs - s.locals.length
        localVars := closeLocals endPC fi1.localVars s.locals }

/-- The position of the last table entry with the name. -/
def lastIndexOf (name : String) : List LocVarInfo → Option Nat
  | [] => none
  | v :: rest =>
    match lastIndexOf name rest with
    | some i => some (i + 1)
    | none => if v.name = name then some 0 else none

/-- Modelled from the spec: `fi.fixEndPC(name, delta)` (§4.8): the end-PC of
the most recently declared local of that name is moved by `delta`. -/
def fixEndPC (fi : FuncInfo) (name : String) (delta : Int) : FuncInfo :=
  match lastIndexOf name fi.localVars with
  | some i =>
    { fi with localVars := fi.localVars.modify (fun v => { v with endPC := v.endPC + delta }) i }
  | none => fi

end FuncInfo

/-! ## Collaborators of the statement level -/

/-- The services `cg_stat.go` consumes and that other files of the package
implement (spec §2, §6): the expression emitter in its four entry points,
the lookup services, and the line helpers.  They are parameters of the
embedding: every theorem holds for whatever implements them, under the
contract stated as hypothesis where one is needed. -/
structure Collaborators where
  /-- `cgExp(fi, node, a, n)`: lower an expression into register `a`,
  `n` results wanted. -/
  cgExp : FuncInfo → Expression → Int → Int → FuncInfo
  /-- `cgFuncCallExp(fi, node, a, n)`. -/
  cgFuncCallExp : FuncInfo → Nat → Int → Int → FuncInfo
  /-- `cgFuncDefExp(fi, node, a)`. -/
  cgFuncDefExp : FuncInfo → Nat → Int → FuncInfo
  /-- `expToOpArg(fi, node, argKinds)`: the state after lowering and the
  operand (the second result of the Go function is dropped by every
  caller). -/
  expToOpArg : FuncInfo → Expression → Int → FuncInfo × Int
  /-- The constant `ARG_REG`. -/
  ARG_REG : Int
  /-- `fi.getJmpArgA()`. -/
  getJmpArgA : FuncInfo → Int
  /-- `fi.indexOfUpValue(name)`. -/
  indexOfUpValue : FuncInfo → String → Int
  /-- `fi.indexOfConstant(name)`. -/
  indexOfConstant : FuncInfo → String → Int
  /-- `lineOf(exp)`. -/
  lineOf : Expression → Int
  /-- `lastLineOf(exp)`. -/
  lastLineOf : Expression → Int

/-- Modelled from the spec: `isVarargOrFuncCall`, missing from the sources
(§4.10: "a call or variadic reference"). -/
def isVarargOrFuncCall : Expression → Bool
  | .VarargExpression _ => true
  | .FunctionCallExpression _ => true
  | _ => false

/-- Whether an expression is the nil literal. -/
def isNilExpression : Expression → Bool
  | .NilExpression _ => true
  | _ => false

/-- Modelled from the spec: `removeTailNils`, missing from the sources: the
expression list without the nil literals that end it. -/
def removeTailNils (exps : List Expression) : List Expression :=
  exps.rdropWhile isNilExpression

/-! ## Instrumented compile state

The lowering routines run on the function compile state together with a
ghost trace: every instruction the statement level emits itself and every
call it makes to the expression emitter is logged with the compile state in
which it happens.  The trace is write-only: no routine reads it. -/

/-- What the statement level does to the outside. -/
inductive Action where
  | emit (ins : Instruction)
  | cgExp (exp : Expression) (a n : Int)
  | cgFuncCallExp (call : Nat) (a n : Int)
  | cgFuncDefExp (fn : Nat) (a : Int)
  | expToOpArg (exp : Expression) (argKinds : Int)
  | breakJmp (pc : Int)
deriving DecidableEq, Repr

/-- A logged action and the compile state in which it started. -/
structure Event where
  pre : FuncInfo
  act : Action
deriving DecidableEq, Repr

/-- Compile state and ghost trace. -/
structure CgState where
  fi : FuncInfo
  trace : List Event
deriving DecidableEq, Repr

namespace CgState

/-- Run a `funcInfo` method that the trace does not record. -/
def onFi (st : CgState) (f : FuncInfo → FuncInfo) : CgState :=
  { st with fi := f st.fi }

/-- Emit an instruction, logged; returns the state and the PC. -/
def emit (st : CgState) (ins : Instruction) : CgState × Int :=
  ({ fi := (st.fi.emit ins).1, trace := st.trace ++ [⟨st.fi, .emit ins⟩] }, (st.fi.emit ins).2)

def emitJmp (st : CgState) (line a sBx : Int) : CgState × Int := st.emit (.jmp line a sBx)
def emitTest (st : CgState) (line a c : Int) : CgState × Int := st.emit (.test line a c)
def emitForPrep (st : CgState) (line a sBx : Int) : CgState × Int := st.emit (.forPrep line a sBx)
def emitForLoop (st : CgState) (line a sBx : Int) : CgState × Int := st.emit (.forLoop line a sBx)
def emitTForCall (st : CgState) (line a c : Int) : CgState × Int := st.emit (.tForCall line a c)
def emitTForLoop (st : CgState) (line a sBx : Int) : CgState × Int := st.emit (.tForLoop line a sBx)
def emitLoadNil (st : CgState) (line a n : Int) : CgState × Int := st.emit (.loadNil line a n)
def emitMove (st : CgState) (line a b : Int) : CgState × Int := st.emit (.move line a b)
def emitSetUpval (st : CgState) (line a b : Int) : CgState × Int := st.emit (.setUpval line a b)
def emitSetTable (st : CgState) (line a b c : Int) : CgState × Int :=
  st.emit (.setTable line a b c)
def emitSetTabUp (st : CgState) (line a b c : Int) : CgState × Int :=
  st.emit (.setTabUp line a b c)

def allocReg (st : CgState) : CgState × Int := (st.onFi fun fi => fi.allocReg.1, st.fi.allocReg.2)
def allocRegs (st : CgState) (n : Int) : CgState × Int :=
  (st.onFi fun fi => (fi.allocRegs n).1, (st.fi.allocRegs n).2)
def freeReg (st : CgState) : CgState := st.onFi FuncInfo.freeReg
def fixSbx (st : CgState) (pc sBx : Int) : CgState := st.onFi fun fi => fi.fixSbx pc sBx
def enterScope (st : CgState) (breakable : Bool) : CgState :=
  st.onFi fun fi => fi.enterScope breakable
def exitScope (st : CgState) (endPC : Int) : CgState := st.onFi fun fi => fi.exitScope endPC
def fixEndPC (st : CgState) (name : String) (delta : Int) : CgState :=
  st.onFi fun fi => fi.fixEndPC name delta
def addLocalVariable (st : CgState) (name : String) (startPC : Int) : CgState × Int :=
  (st.onFi fun fi => (fi.addLocalVariable name startPC).1, (st.fi.addLocalVariable name startPC).2)

/-- The assignment `fi.usedRegs = r`. -/
def setUsedRegs (st : CgState) (r : Int) : CgState :=
  st.onFi fun fi => { fi with usedRegs := r }

/-- `fi.addBreakJmp(pc)`, logged. -/
def addBreakJmp (st : CgState) (pc : Int) : CgState :=
  { fi := st.fi.addBreakJmp pc, trace := st.trace ++ [⟨st.fi, .breakJmp pc⟩] }

/-- `cgExp(fi, exp, a, n)`, logged. -/
def cgExp (E : Collaborators) (st : CgState) (exp : Expression) (a n : Int) : CgState :=
  { fi := E.cgExp st.fi exp a n, trace := st.trace ++ [⟨st.fi, .cgExp exp a n⟩] }

/-- `cgFuncCallExp(fi, node, a, n)`, logged. -/
def cgFuncCallExp (E : Collaborators) (st : CgState) (call : Nat) (a n : Int) : CgState :=
  { fi := E.cgFuncCallExp st.fi call a n, trace := st.trace ++ [⟨st.fi, .cgFuncCallExp call a n⟩] }

/-- `cgFuncDefExp(fi, node, a)`, logged. -/
def cgFuncDefExp (E : Collaborators) (st : CgState) (fn : Nat) (a : Int) : CgState :=
  { fi := E.cgFuncDefExp st.fi fn a, trace := st.trace ++ [⟨st.fi, .cgFuncDefExp fn a⟩] }

/-- `expToOpArg(fi, exp, argKinds)`, logged; returns the state and the
operand. -/
def expToOpArg (E : Collaborators) (st : CgState) (exp : Expression) (argKinds : Int) :
    CgState × Int :=
  ({ fi := (E.expToOpArg st.fi exp argKinds).1,
     trace := st.trace ++ [⟨st.fi, .expToOpArg exp argKinds⟩] },
   (E.expToOpArg st.fi exp argKinds).2)

/-- Modelled from the spec: `fi.closeOpenUpvals(line)` (§4.2): emits the
upvalue-closing instruction, a jump of offset 0 whose `A` operand is
`getJmpArgA()`, when that operand says there is something to close. -/
def closeOpenUpvals (E : Collaborators) (st : CgState) (line : Int) : CgState :=
  if E.getJmpArgA st.fi > 0 then (st.emitJmp line (E.getJmpArgA st.fi) 0).1 else st

end CgState

/-- Why a lowering routine did not return. -/
inductive CgError where
  /-- The `panic` of `cgStat` on a label or goto statement. -/
  | unsupportedConstruct
  /-- A Go run-time panic on an index out of range. -/
  | indexOutOfRange
  /-- A Go run-time panic on a failed type assertion. -/
  | typeAssertion
deriving DecidableEq, Repr

/-- How a routine ends: it returns, or it panics; the compile state is
mutated in place, so a panic leaves the state reached so far. -/
inductive Outcome where
  | done (st : CgState)
  | panicked (err : CgError) (st : CgState)
deriving DecidableEq, Repr

/-- Continue after a routine that returned; a panic propagates. -/
def Outcome.andThen (o : Outcome) (k : CgState → Outcome) : Outcome :=
  match o with
  | .done st => k st
  | .panicked e st => .panicked e st

/-! ## The lowering routines of `cg_stat.go` -/

/-- A block as a lowering routine sees it: its `LastLine` and what `cgBlock`
does on it. -/
structure LoweredBlock where
  LastLine : Int
  run : CgState → Outcome

/-- Source lines 34-37. -/
def cgLocalFuncDefStat (E : Collaborators) (st : CgState) (name : String) (expression : Nat) :
    CgState :=
  let r := st.addLocalVariable name (st.fi.pc + 2)
  r.1.cgFuncDefExp E expression r.2

/-- Source lines 39-43. -/
def cgFuncCallStat (E : Collaborators) (st : CgState) (call : Nat) : CgState :=
  let r := st.allocReg
  (r.1.cgFuncCallExp E call r.2 0).freeReg

/-- Source lines 45-48. -/
def cgBreakStat (st : CgState) (line : Int) : CgState :=
  let j := st.emitJmp line 0 0
  j.1.addBreakJmp j.2

/-- Source lines 50-55. -/
def cgDoStat (E : Collaborators) (st : CgState) (block : LoweredBlock) : Outcome :=
  (block.run (st.enterScope false)).andThen fun st1 =>
    let st2 := st1.closeOpenUpvals E block.LastLine
    .done (st2.exitScope (st2.fi.pc + 1))

/-- Source lines 66-84. -/
def cgWhileStat (E : Collaborators) (st : CgState) (expression : Expression)
    (block : LoweredBlock) : Outcome :=
  let pcBeforeExp := st.fi.pc
  let oldRegs := st.fi.usedRegs
  let r := st.expToOpArg E expression E.ARG_REG
  let st1 := r.1.setUsedRegs oldRegs
  let line := E.lastLineOf expression
  let st2 := (st1.emitTest line r.2 0).1
  let j := st2.emitJmp line 0 0
  let pcJmpToEnd := j.2
  (block.run (j.1.enterScope true)).andThen fun st3 =>
    let st4 := st3.closeOpenUpvals E block.LastLine
    let st5 := (st4.emitJmp block.LastLine 0 (pcBeforeExp - st4.fi.pc - 1)).1
    let st6 := st5.exitScope st5.fi.pc
    .done (st6.fixSbx pcJmpToEnd (st6.fi.pc - pcJmpToEnd))

/-- Source lines 92-108. -/
def cgRepeatStat (E : Collaborators) (st : CgState) (block : LoweredBlock)
    (expression : Expression) : Outcome :=
  let st1 := st.enterScope true
  let pcBeforeBlock := st1.fi.pc
  (block.run st1).andThen fun st2 =>
    let oldRegs := st2.fi.usedRegs
    let r := st2.expToOpArg E expression E.ARG_REG
    let st3 := r.1.setUsedRegs oldRegs
    let line := E.lastLineOf expression
    let st4 := (st3.emitTest line r.2 0).1
    let st5 := (st4.emitJmp line (E.getJmpArgA st4.fi) (pcBeforeBlock - st4.fi.pc - 1)).1
    let st6 := st5.closeOpenUpvals E line
    .done (st6.exitScope (st6.fi.pc + 1))

/-- The first loop of `cgIfStat` (source lines 123-146), from branch `i` on:
`pcJmpToNextExp` is the pending false-jump (`-1` for none) and `ends` the
entries `pcJmpToEnds[0..i)` filled so far.  Returns how the loop ended and
the filled `pcJmpToEnds`.  `node.Blocks[i]` panics when there is no such
block. -/
def cgIfLoop (E : Collaborators) (nExps : Int) (blocks : List LoweredBlock) :
    CgState → Int → List Int → Nat → List Expression → Outcome × List Int
  | st, _, ends, _, [] => (.done st, ends)
  | st, pcJmpToNextExp, ends, i, exp :: rest =>
    let st0 := if pcJmpToNextExp ≥ 0 then st.fixSbx pcJmpToNextExp (st.fi.pc - pcJmpToNextExp)
      else st
    let oldRegs := st0.fi.usedRegs
    let r := st0.expToOpArg E exp E.ARG_REG
    let st1 := r.1.setUsedRegs oldRegs
    let line := E.lastLineOf exp
    let st2 := (st1.emitTest line r.2 0).1
    let j := st2.emitJmp line 0 0
    match blocks[i]? with
    | none => (.panicked .indexOutOfRange j.1, ends)
    | some block =>
      match block.run (j.1.enterScope false) with
      | .panicked e s => (.panicked e s, ends)
      | .done st3 =>
        let st4 := st3.closeOpenUpvals E block.LastLine
        let st5 := st4.exitScope (st4.fi.pc + 1)
        if (i : Int) < nExps - 1 then
          let k := st5.emitJmp block.LastLine 0 0
          cgIfLoop E nExps blocks k.1 j.2 (ends ++ [k.2]) (i + 1) rest
        else
          cgIfLoop E nExps blocks st5 j.2 (ends ++ [j.2]) (i + 1) rest

/-- The second loop of `cgIfStat` (source lines 148-150). -/
def fixJmpToEnds : CgState → List Int → CgState
  | st, [] => st
  | st, pc :: rest => fixJmpToEnds (st.fixSbx pc (st.fi.pc - pc)) rest

/-- Source lines 119-151. -/
def cgIfStat (E : Collaborators) (st : CgState) (expressions : List Expression)
    (blocks : List LoweredBlock) : Outcome :=
  let r := cgIfLoop E expressions.length blocks st (-1) [] 0 expressions
  r.1.andThen fun st1 => .done (fixJmpToEnds st1 r.2)

/-- The loop of source lines 220-223. -/
def cgExpsEqual (E : Collaborators) : CgState → List Expression → CgState
  | st, [] => st
  | st, exp :: rest =>
    let r := st.allocReg
    cgExpsEqual E (r.1.cgExp E exp r.2 1) rest

/-- The loop of source lines 225-232, from index `i` on. -/
def cgExpsMore (E : Collaborators) (nExps : Int) : CgState → Nat → List Expression → CgState
  | st, _, [] => st
  | st, i, exp :: rest =>
    let r := st.allocReg
    let st1 := if (i : Int) = nExps - 1 ∧ isVarargOrFuncCall exp = true then r.1.cgExp E exp r.2 0
      else r.1.cgExp E exp r.2 1
    cgExpsMore E nExps st1 (i + 1) rest

/-- The loop of source lines 235-245 (and 302-312, the same text with
`nVars` for `nNames`), from index `i` on; returns the state and
`multRet`. -/
def cgExpsFewer (E : Collaborators) (nNames nExps : Int) :
    CgState → Bool → Nat → List Expression → CgState × Bool
  | st, multRet, _, [] => (st, multRet)
  | st, multRet, i, exp :: rest =>
    let r := st.allocReg
    if (i : Int) = nExps - 1 ∧ isVarargOrFuncCall exp = true then
      let n := nNames - nExps + 1
      let st1 := r.1.cgExp E exp r.2 n
      cgExpsFewer E nNames nExps (st1.allocRegs (n - 1)).1 true (i + 1) rest
    else
      cgExpsFewer E nNames nExps (r.1.cgExp E exp r.2 1) multRet (i + 1) rest

/-- Source lines 233-251 (and 300-318): the branch `nNames > nExps`. -/
def cgExpsFill (E : Collaborators) (st : CgState) (lastLine : Int) (nNames nExps : Int)
    (exps : List Expression) : CgState :=
  let r := cgExpsFewer E nNames nExps st false 0 exps
  if !r.2 then
    let n := nNames - nExps
    let al := r.1.allocRegs n
    (al.1.emitLoadNil lastLine al.2 n).1
  else r.1

/-- The loop of source lines 255-257. -/
def addLocalVariables : CgState → Int → List String → CgState
  | st, _, [] => st
  | st, startPC, name :: rest => addLocalVariables (st.addLocalVariable name startPC).1 startPC rest

/-- Source lines 213-258. -/
def cgLocalVarDeclStat (E : Collaborators) (st : CgState) (lastLine : Int)
    (nameList : List String) (expressionList : List Expression) : CgState :=
  let exps := removeTailNils expressionList
  let nExps : Int := exps.length
  let nNames : Int := nameList.length
  let oldRegs := st.fi.usedRegs
  let st1 :=
    if nExps = nNames then cgExpsEqual E st exps
    else if nExps > nNames then cgExpsMore E nExps st 0 exps
    else cgExpsFill E st lastLine nNames nExps exps
  let st2 := st1.setUsedRegs oldRegs
  let startPC := st2.fi.pc + 1
  addLocalVariables st2 startPC nameList

/-- Source lines 153-179.  The declaration built for the three hidden
locals has no `LastLine`, which is 0 in Go. -/
def cgForNumStat (E : Collaborators) (st : CgState) (lineOfFor lineOfDo : Int) (varName : String)
    (initExpression limitExpression stepExpression : Expression) (block : LoweredBlock) :
    Outcome :=
  let forIndexVar := "(for index)"
  let forLimitVar := "(for limit)"
  let forStepVar := "(for step)"
  let st1 := st.enterScope true
  let st2 := cgLocalVarDeclStat E st1 0 [forIndexVar, forLimitVar, forStepVar]
    [initExpression, limitExpression, stepExpression]
  let st3 := (st2.addLocalVariable varName (st2.fi.pc + 2)).1
  let a := st3.fi.usedRegs - 4
  let p := st3.emitForPrep lineOfDo a 0
  let pcForPrep := p.2
  (block.run p.1).andThen fun st4 =>
    let st5 := st4.closeOpenUpvals E block.LastLine
    let l := st5.emitForLoop lineOfFor a 0
    let pcForLoop := l.2
    let st6 := l.1.fixSbx pcForPrep (pcForLoop - pcForPrep - 1)
    let st7 := st6.fixSbx pcForLoop (pcForPrep - pcForLoop)
    let st8 := st7.exitScope st7.fi.pc
    .done (((st8.fixEndPC forIndexVar 1).fixEndPC forLimitVar 1).fixEndPC forStepVar 1)

/-- The loop of source lines 193-195. -/
def addLoopVariables : CgState → List String → CgState
  | st, [] => st
  | st, name :: rest => addLoopVariables (st.addLocalVariable name (st.fi.pc + 2)).1 rest

/-- Source lines 181-211.  `node.ExpressionList[0]` panics on an empty
list. -/
def cgForInStat (E : Collaborators) (st : CgState) (lineOfDo : Int) (nameList : List String)
    (expressionList : List Expression) (block : LoweredBlock) : Outcome :=
  let forGeneratorVar := "(for generator)"
  let forStateVar := "(for state)"
  let forControlVar := "(for control)"
  let st1 := st.enterScope true
  let st2 := cgLocalVarDeclStat E st1 0 [forGeneratorVar, forStateVar, forControlVar]
    expressionList
  let st3 := addLoopVariables st2 nameList
  let j := st3.emitJmp lineOfDo 0 0
  let pcJmpToTFC := j.2
  (block.run j.1).andThen fun st4 =>
    let st5 := st4.closeOpenUpvals E block.LastLine
    let st6 := st5.fixSbx pcJmpToTFC (st5.fi.pc - pcJmpToTFC)
    match expressionList with
    | [] => .panicked .indexOutOfRange st6
    | exp0 :: _ =>
      let line := E.lineOf exp0
      let rGenerator := st6.fi.slotOfLocalVariable forGeneratorVar
      let st7 := (st6.emitTForCall line rGenerator nameList.length).1
      let st8 := (st7.emitTForLoop line (rGenerator + 2) (pcJmpToTFC - st7.fi.pc - 1)).1
      let st9 := st8.exitScope (st8.fi.pc - 1)
      .done (((st9.fixEndPC forGeneratorVar 2).fixEndPC forStateVar 2).fixEndPC forControlVar 2)

/-- The loop of source lines 270-286: returns how it ended and the arrays
`tRegs` and `kRegs` filled so far (an entry that the loop does not assign
keeps the 0 of `make`).  The assertion `exp.(*NameExpression)` panics on a
target that is neither a table access nor a name. -/
def cgAssignTargets (E : Collaborators) :
    CgState → List Int → List Int → List Expression → Outcome × List Int × List Int
  | st, tRegs, kRegs, [] => (.done st, tRegs, kRegs)
  | st, tRegs, kRegs, exp :: rest =>
    match exp with
    | .TableAccessExpression _ prefixExpression keyExpression =>
      let t := st.allocReg
      let st1 := t.1.cgExp E prefixExpression t.2 1
      let k := st1.allocReg
      let st2 := k.1.cgExp E keyExpression k.2 1
      cgAssignTargets E st2 (tRegs ++ [t.2]) (kRegs ++ [k.2]) rest
    | .NameExpression _ name =>
      if st.fi.slotOfLocalVariable name < 0 ∧ E.indexOfUpValue st.fi name < 0 then
        if E.indexOfConstant st.fi name > 0xFF then
          let k := st.allocReg
          cgAssignTargets E k.1 (tRegs ++ [0]) (kRegs ++ [k.2]) rest
        else
          cgAssignTargets E st (tRegs ++ [0]) (kRegs ++ [-1]) rest
      else
        cgAssignTargets E st (tRegs ++ [0]) (kRegs ++ [0]) rest
    | _ => (.panicked .typeAssertion st, tRegs, kRegs)

/-- The loop of source lines 292-299, from index `i` on. -/
def cgAssignExps (E : Collaborators) (nVars nExps : Int) :
    CgState → Nat → List Expression → CgState
  | st, _, [] => st
  | st, i, exp :: rest =>
    let r := st.allocReg
    let st1 :=
      if (i : Int) ≥ nVars ∧ (i : Int) = nExps - 1 ∧ isVarargOrFuncCall exp = true then
        r.1.cgExp E exp r.2 0
      else r.1.cgExp E exp r.2 1
    cgAssignExps E nVars nExps st1 (i + 1) rest

/-- The loop of source lines 321-347, from index `i` on. -/
def cgAssignStores (E : Collaborators) (lastLine : Int) (tRegs kRegs vRegs : List Int) :
    CgState → Nat → List Expression → CgState
  | st, _, [] => st
  | st, i, exp :: rest =>
    let st1 :=
      match exp with
      | .NameExpression _ varName =>
        if st.fi.slotOfLocalVariable varName ≥ 0 then
          (st.emitMove lastLine (st.fi.slotOfLocalVariable varName) (vRegs.getD i 0)).1
        else if E.indexOfUpValue st.fi varName ≥ 0 then
          (st.emitSetUpval lastLine (vRegs.getD i 0) (E.indexOfUpValue st.fi varName)).1
        else if st.fi.slotOfLocalVariable "_ENV" ≥ 0 then
          if kRegs.getD i 0 < 0 then
            (st.emitSetTable lastLine (st.fi.slotOfLocalVariable "_ENV")
              (0x100 + E.indexOfConstant st.fi varName) (vRegs.getD i 0)).1
          else
            (st.emitSetTable lastLine (st.fi.slotOfLocalVariable "_ENV") (kRegs.getD i 0)
              (vRegs.getD i 0)).1
        else
          if kRegs.getD i 0 < 0 then
            (st.emitSetTabUp lastLine (E.indexOfUpValue st.fi "_ENV")
              (0x100 + E.indexOfConstant st.fi varName) (vRegs.getD i 0)).1
          else
            (st.emitSetTabUp lastLine (E.indexOfUpValue st.fi "_ENV") (kRegs.getD i 0)
              (vRegs.getD i 0)).1
      | _ => (st.emitSetTable lastLine (tRegs.getD i 0) (kRegs.getD i 0) (vRegs.getD i 0)).1
    cgAssignStores E lastLine tRegs kRegs vRegs st1 (i + 1) rest

/-- Source lines 260-351. -/
def cgAssignStat (E : Collaborators) (st : CgState) (lastLine : Int)
    (variableList expressionList : List Expression) : Outcome :=
  let exps := removeTailNils expressionList
  let nExps : Int := exps.length
  let nVars : Int := variableList.length
  let oldRegs := st.fi.usedRegs
  let t := cgAssignTargets E st [] [] variableList
  t.1.andThen fun st1 =>
    let tRegs := t.2.1
    let kRegs := t.2.2
    let vRegs := (List.range variableList.length).map fun (i : Nat) => st1.fi.usedRegs + (i : Int)
    let st2 :=
      if nExps ≥ nVars then cgAssignExps E nVars nExps st1 0 exps
      else cgExpsFill E st1 lastLine nVars nExps exps
    let st3 := cgAssignStores E lastLine tRegs kRegs vRegs st2 0 variableList
    .done (st3.setUsedRegs oldRegs)

mutual
/-- Source lines 5-32: the dispatcher. -/
def cgStat (E : Collaborators) (st : CgState) : Statement → Outcome
  | .FunctionCallStatement call => .done (cgFuncCallStat E st call)
  | .BreakStatement line => .done (cgBreakStat st line)
  | .DoStatement block => cgDoStat E st ⟨block.LastLine, fun s => cgBlock E s block⟩
  | .WhileStatement expression block =>
    cgWhileStat E st expression ⟨block.LastLine, fun s => cgBlock E s block⟩
  | .RepeatStatement block expression =>
    cgRepeatStat E st ⟨block.LastLine, fun s => cgBlock E s block⟩ expression
  | .IfStatement expressions blocks => cgIfStat E st expressions (lowerBlocks E blocks)
  | .ForNumStatement lineOfFor lineOfDo varName initExpression limitExpression stepExpression
      block =>
    cgForNumStat E st lineOfFor lineOfDo varName initExpression limitExpression stepExpression
      ⟨block.LastLine, fun s => cgBlock E s block⟩
  | .ForInStatement lineOfDo nameList expressionList block =>
    cgForInStat E st lineOfDo nameList expressionList ⟨block.LastLine, fun s => cgBlock E s block⟩
  | .AssignStatement lastLine variableList expressionList =>
    cgAssignStat E st lastLine variableList expressionList
  | .LocalVariableDeclareStatement lastLine nameList expressionList =>
    .done (cgLocalVarDeclStat E st lastLine nameList expressionList)
  | .LocalFunctionDefineStatement name expression =>
    .done (cgLocalFuncDefStat E st name expression)
  | .LabelStatement _ => .panicked .unsupportedConstruct st
  | .GotoStatement _ => .panicked .unsupportedConstruct st
/-- Modelled from the spec: `cgBlock`, missing from the sources (§2: the
statements of a block are lowered in source order on the one compile
state). -/
def cgBlock (E : Collaborators) (st : CgState) : Block → Outcome
  | .mk stats _ => cgStats E st stats
/-- The statements of a block, in order; a panic ends the lowering. -/
def cgStats (E : Collaborators) (st : CgState) : List Statement → Outcome
  | [] => .done st
  | s :: rest =>
    match cgStat E st s with
    | .done st1 => cgStats E st1 rest
    | .panicked e st1 => .panicked e st1
/-- The blocks of an if statement, each with its lowering. -/
def lowerBlocks (E : Collaborators) : List Block → List LoweredBlock
  | [] => []
  | b :: rest => ⟨b.LastLine, fun s => cgBlock E s b⟩ :: lowerBlocks E rest
end

/-! ## Predicates of the lowering invariant, and sample inputs

The vocabulary of the theorems below: what is compared of two buffers
and two locals tables, the contract of the expression
emitter, the invariant that relates the compile state before and after a
statement, and the sample emitter and programs at which the theorems are
instantiated. -/

/-- An instruction with its offset field cleared: what never changes once
the instruction is emitted. -/
def Instruction.erase (i : Instruction) : Instruction := i.setSBx 0

/-- What identifies a local: its name and its register. -/
def LocVarInfo.key (v : LocVarInfo) : String × Int := (v.name, v.slot)

/-- The buffer after `exitScope`, which does not depend on the end-PC. -/
def FuncInfo.exitInsts (fi : FuncInfo) : List Instruction := (fi.exitScope 0).insts

/-- The register count after `exitScope`, which does not depend on the
end-PC. -/
def FuncInfo.exitRegs (fi : FuncInfo) : Int := (fi.exitScope 0).usedRegs

/-- An emitter call leaves scopes and locals alone and only appends
instructions (spec §3: the instruction sequence is append-only). -/
def Appends (fi fi' : FuncInfo) : Prop :=
  fi'.scopes = fi.scopes ∧ fi'.localVars = fi.localVars ∧ ∃ ext, fi'.insts = fi.insts ++ ext

/-- The contract under which the statement level calls the expression
emitter (spec §2, §4.1): every entry point only appends instructions, and
the three that lower into a given register return with the register count
they were called with.  `expToOpArg` may keep a register; its callers
reset `usedRegs`. -/
structure Collaborators.Lawful (E : Collaborators) : Prop where
  cgExp : ∀ fi e a n, Appends fi (E.cgExp fi e a n) ∧ (E.cgExp fi e a n).usedRegs = fi.usedRegs
  cgFuncCallExp : ∀ fi c a n,
    Appends fi (E.cgFuncCallExp fi c a n) ∧ (E.cgFuncCallExp fi c a n).usedRegs = fi.usedRegs
  cgFuncDefExp : ∀ fi f a,
    Appends fi (E.cgFuncDefExp fi f a) ∧ (E.cgFuncDefExp fi f a).usedRegs = fi.usedRegs
  expToOpArg : ∀ fi e k, Appends fi (E.expToOpArg fi e k).1

/-- The height (number of frames below it) of the innermost breakable frame:
the frame in which `addBreakJmp` records a jump. -/
def breakLevel : List Scope → Option Nat
  | [] => none
  | s :: rest => if s.breakable then some rest.length else breakLevel rest

/-- The PC of a logged `addBreakJmp` that went to the frame of height `h`. -/
def Event.breakAt (h : Nat) (ev : Event) : Option Int :=
  match ev.act with
  | .breakJmp pc => if breakLevel ev.pre.scopes = some h then some pc else none
  | _ => none

/-- The break jumps that a stretch of the trace recorded in the frame of
height `h`, in order. -/
def evBreaks (h : Nat) (evs : List Event) : List Int := evs.filterMap (Event.breakAt h)

/-- The instructions of the two loop pairs. -/
def Instruction.isLoopOp : Instruction → Bool
  | .forPrep _ _ _ => true
  | .forLoop _ _ _ => true
  | .tForCall _ _ _ => true
  | .tForLoop _ _ _ => true
  | _ => false

/-- What holds of an event logged while a statement is lowered that was
entered at scope depth `d` with `n` instructions in the buffer, `fin` being
the buffer afterwards: it happened at depth `d` or deeper and at or after
PC `n`; an emitted instruction is in the buffer at its PC, up to its offset
field, and a loop instruction was emitted inside a scope of the statement;
a recorded break jump is a jump of the buffer. -/
def EvOk (d n : Nat) (fin : List Instruction) (ev : Event) : Prop :=
  d ≤ ev.pre.scopes.length ∧ n ≤ ev.pre.insts.length ∧ ev.pre.insts.length ≤ fin.length ∧
  (∀ ins, ev.act = .emit ins →
    (fin[ev.pre.insts.length]?).map Instruction.erase = some ins.erase ∧
    (ins.isLoopOp = true → d < ev.pre.scopes.length)) ∧
  (∀ pc, ev.act = .breakJmp pc →
    ∃ k : Nat, pc = (k : Int) ∧ n ≤ k ∧
      ∃ l, (fin[k]?).map Instruction.erase = some (.jmp l 0 0))

/-- From `st` to `st'` the statement level logged exactly `new`, the buffer
and the locals table only grew (up to offsets and end-PCs), and every new
event is as `EvOk` says for depth `d`. -/
structure Step (d : Nat) (new : List Event) (st st' : CgState) : Prop where
  trace : st'.trace = st.trace ++ new
  insts : ∃ ext, st'.fi.insts.map Instruction.erase = st.fi.insts.map Instruction.erase ++ ext
  vars : ∃ ext, st'.fi.localVars.map LocVarInfo.key = st.fi.localVars.map LocVarInfo.key ++ ext
  events : ∀ ev ∈ new, EvOk d st.fi.insts.length st'.fi.insts ev

/-- The frames below the innermost one after a statement: same flag, same
locals, and the break jumps that `brk` gives for their height added. -/
def LowerFrames (brk : Nat → List Int) : List Scope → List Scope → Prop
  | [], [] => True
  | f :: rest, f' :: rest' =>
    f'.breakable = f.breakable ∧ f'.locals = f.locals ∧
    f'.breaks = f.breaks ++ brk rest.length ∧ LowerFrames brk rest rest'
  | _, _ => False

/-- The scope stack and the register count after a statement that logged
`new` and declared the locals `added` (most recent first) in the innermost
frame: the stack has the same frames; the innermost one has the new locals,
each in a register at or above the count on entry, and `usedRegs` went up
by their number; every frame has got the break jumps recorded for it. -/
def Frames (new : List Event) (added : List Nat) (st st' : CgState) : Prop :=
  (st.fi.scopes = [] ∧ st'.fi.scopes = []) ∨
  ∃ f rest f' rest', st.fi.scopes = f :: rest ∧ st'.fi.scopes = f' :: rest' ∧
    f'.breakable = f.breakable ∧ f'.breaks = f.breaks ++ evBreaks rest.length new ∧
    f'.locals = added ++ f.locals ∧ st'.fi.usedRegs = st.fi.usedRegs + added.length ∧
    (∀ i ∈ added, ∃ v, st'.fi.localVars[i]? = some v ∧ st.fi.usedRegs ≤ v.slot) ∧
    LowerFrames (fun h => evBreaks h new) rest rest'

/-- The invariant of statement lowering: what relates the compile state
before a statement (or block) to the one after it. -/
def Lowered (st st' : CgState) : Prop :=
  ∃ new added, Step st.fi.scopes.length new st st' ∧ Frames new added st st'

/-- The invariant for a stretch that declares nothing in the scope it runs
in: the register count is back at its value on entry. -/
def NeutralAt (d : Nat) (st st' : CgState) : Prop :=
  (∃ new, Step d new st st' ∧ Frames new [] st st') ∧ st'.fi.usedRegs = st.fi.usedRegs

/-- A statement that declares nothing in the scope it runs in. -/
def Neutral (st st' : CgState) : Prop := NeutralAt st.fi.scopes.length st st'

/-- The invariant with the depth bound of the events given apart. -/
def LoweredAt (d : Nat) (st st' : CgState) : Prop :=
  ∃ new added, Step d new st st' ∧ Frames new added st st'

/-- A stretch of lowering that records no break and leaves the scope
stack as it is. -/
def Quiet (d : Nat) (st st' : CgState) : Prop :=
  ∃ new, Step d new st st' ∧ (∀ h, evBreaks h new = []) ∧ st'.fi.scopes = st.fi.scopes

/-- What the induction gives for a block. -/
def LoweredBlock.Ok (block : LoweredBlock) : Prop :=
  ∀ s s', block.run s = .done s' → Lowered s s'

/-- The break jumps `pcs` land right after the last instruction of the
buffer: each is a jump whose target, its PC + 1 + its offset, is the
length of the buffer. -/
def BreaksLand (pcs : List Int) (insts : List Instruction) : Prop :=
  ∀ pc ∈ pcs, ∃ k : Nat, pc = (k : Int) ∧
    ∃ l a off, insts[k]? = some (.jmp l a off) ∧ pc + 1 + off = insts.length

/-- What the four loop routines have in common: some lowering `st → sp` that
records no break and keeps the register count, then a breakable scope
entered at `sp` and left at `sx`, then changes that touch no instruction
emitted from `sp` on. -/
def LoopShape (st st' : CgState) : Prop :=
  ∃ (sp sx : CgState) (npre nin : List Event) (added : List Nat),
    Step st.fi.scopes.length npre st sp ∧ (∀ h, evBreaks h npre = []) ∧
    sp.fi.scopes = st.fi.scopes ∧ sp.fi.usedRegs = st.fi.usedRegs ∧
    Step st.fi.scopes.length nin (sp.enterScope true) sx ∧
    Frames nin added (sp.enterScope true) sx ∧
    st'.trace = sx.trace ∧ st'.fi.scopes = sx.fi.scopes.tail ∧
    st'.fi.usedRegs = sx.fi.exitRegs ∧
    st'.fi.localVars.map LocVarInfo.key = sx.fi.localVars.map LocVarInfo.key ∧
    st'.fi.insts.map Instruction.erase = sx.fi.insts.map Instruction.erase ∧
    ∀ k, sp.fi.insts.length ≤ k → st'.fi.insts[k]? = sx.fi.exitInsts[k]?

/-- A statement kind whose purpose is to claim registers for good: a local
variable declaration or a local function definition. -/
def Statement.declares : Statement → Bool
  | .LocalVariableDeclareStatement _ _ _ => true
  | .LocalFunctionDefineStatement _ _ => true
  | _ => false

/-- The sample emitter, for the concrete instances of the theorems: a name
bound to a local is lowered as a move from its slot, every other expression
as one instruction that writes the destination register; an operand that is
not a local takes a new register. -/
def sampleEmitter : Collaborators where
  cgExp fi exp a n :=
    match exp with
    | .NameExpression line name =>
      if fi.slotOfLocalVariable name ≥ 0 then
        (fi.emit (.move line a (fi.slotOfLocalVariable name))).1
      else (fi.emit (.other 0 a n 0)).1
    | _ => (fi.emit (.other 1 a n 0)).1
  cgFuncCallExp fi _ a n := (fi.emit (.other 2 a n 0)).1
  cgFuncDefExp fi _ a := (fi.emit (.other 3 a 0 0)).1
  expToOpArg fi exp _ :=
    match exp with
    | .NameExpression _ name =>
      if fi.slotOfLocalVariable name ≥ 0 then (fi, fi.slotOfLocalVariable name)
      else ((fi.allocReg.1.emit (.other 4 fi.usedRegs 0 0)).1, fi.usedRegs)
    | _ => ((fi.allocReg.1.emit (.other 5 fi.usedRegs 0 0)).1, fi.usedRegs)
  ARG_REG := 2
  getJmpArgA _ := 0
  indexOfUpValue _ name := if name = "_ENV" then 0 else -1
  indexOfConstant _ name := name.length
  lineOf _ := 0
  lastLineOf _ := 0

/-- The state in which the compilation of a function starts (spec §6): no
register, no instruction, no local, one root scope that is not breakable. -/
def initialState : CgState :=
  { fi := { usedRegs := 0, maxRegs := 0, insts := [],
            scopes := [{ locals := [], breakable := false, breaks := [] }], localVars := [] },
    trace := [] }

/-- The state a routine ended in, returned or not. -/
def Outcome.state : Outcome → CgState
  | .done st => st
  | .panicked _ st => st

/-- The statement `while e do local a = e1; break end`. -/
def sampleWhile : Statement :=
  .WhileStatement (.OtherExpression 0)
    (.mk [.LocalVariableDeclareStatement 1 ["a"] [.OtherExpression 1], .BreakStatement 2] 3)

/-- The four loop statements. -/
def Statement.isLoop : Statement → Bool
  | .WhileStatement _ _ => true
  | .RepeatStatement _ _ => true
  | .ForNumStatement _ _ _ _ _ _ _ => true
  | .ForInStatement _ _ _ _ => true
  | _ => false

/-- The expression and the wanted result count of a logged `cgExp` call. -/
def Action.lowering? : Action → Option (Expression × Int)
  | .cgExp e _ n => some (e, n)
  | _ => none

/-- The calls that lower a list of expressions for one value each into the
registers from `b` on. -/
def lowerActs (b : Int) : List Expression → List Action
  | [] => []
  | e :: rest => .cgExp e b 1 :: lowerActs (b + 1) rest

/-- Run a sequence of instructions as register moves on a register file:
`move _ a b` copies register `b` into register `a` (the operand order of
`emitMove(line, a, b)`); any other instruction leaves the registers
alone. -/
def execMoves {α : Type} : List Instruction → (Int → α) → (Int → α)
  | [], R => R
  | .move _ a b :: rest, R => execMoves rest (Function.update R a (R b))
  | _ :: rest, R => execMoves rest R

/-- The state after `local a = e0; local b = e1` from the initial state:
`a` is in register 0, `b` in register 1, and two registers are in use. -/
def swapState : CgState :=
  (cgStats sampleEmitter initialState
    [.LocalVariableDeclareStatement 1 ["a"] [.OtherExpression 0],
     .LocalVariableDeclareStatement 1 ["b"] [.OtherExpression 1]]).state

/-- The names a statement declares in the scope it stands in. -/
def Statement.declaredNames : Statement → List String
  | .LocalVariableDeclareStatement _ nameList _ => nameList
  | .LocalFunctionDefineStatement name _ => [name]
  | _ => []

/-- The names declared directly in a block (not in a nested block). -/
def Block.declaredNames : Block → List String
  | .mk stats _ => stats.flatMap Statement.declaredNames

/-- What holds of the compile state while a body entered with `base`
registers in use is lowered, `names` being the names declared so far
directly in the body: the innermost frame lists only entries of the locals
table, all of them in registers from `base` on, and among them one for
every declared name. -/
def InBody (base : Int) (names : List String) (fi : FuncInfo) : Prop :=
  base ≤ fi.usedRegs ∧ ∃ f rest, fi.scopes = f :: rest ∧
    (∀ i ∈ f.locals, ∃ v, fi.localVars[i]? = some v ∧ base ≤ v.slot) ∧
    ∀ name ∈ names, ∃ i ∈ f.locals, ∃ v, fi.localVars[i]? = some v ∧ v.name = name

/-- The innermost frame, if there is one, lists an entry with the name. -/
def DeclaredIn (fi : FuncInfo) (name : String) : Prop :=
  ∀ f rest, fi.scopes = f :: rest →
    ∃ i ∈ f.locals, ∃ v, fi.localVars[i]? = some v ∧ v.name = name

/-- The statement `repeat local a = e1 until a`. -/
def sampleRepeat : Statement :=
  .RepeatStatement (.mk [.LocalVariableDeclareStatement 1 ["a"] [.OtherExpression 1]] 2)
    (.NameExpression 2 "a")

/-- Whether an event is the emission of a loop instruction at scope depth
`d`: the loop routine that opened its scope at depth `d - 1` emitted it
itself, a loop nested in its body emits at a greater depth. -/
def Event.ownLoopOp (d : Nat) (ev : Event) : Bool :=
  decide (ev.pre.scopes.length = d) &&
    match ev.act with
    | .emit ins => ins.isLoopOp
    | _ => false

/-- The statement `for i = e1, e2, e3 do f() end`. -/
def sampleForNum : Statement :=
  .ForNumStatement 1 1 "i" (.OtherExpression 1) (.OtherExpression 2) (.OtherExpression 3)
    (.mk [.FunctionCallStatement 0] 2)

/-- The PC and the instruction of an emission logged at scope depth `d`. -/
def Event.ownEmit (d : Nat) (ev : Event) : Option (Nat × Instruction) :=
  match ev.act with
  | .emit ins => if ev.pre.scopes.length = d then some (ev.pre.insts.length, ins) else none
  | _ => none

/-- The instructions that a stretch of the trace emitted at scope depth `d`,
each with its PC, in order.  For a routine entered at depth `d` these are
the instructions it emitted itself outside the scopes it opened. -/
def ownEmits (d : Nat) (evs : List Event) : List (Nat × Instruction) :=
  evs.filterMap (Event.ownEmit d)

/-- What `cgIfStat` emits itself for one branch: the test at PC `p`, of the
operand `a`, and the false-jump at `p + 1`, both on the line of the
condition; for a branch that is not the last, the jump to the end at PC `q`
on the last line of the block. -/
structure Branch where
  p : Nat
  line : Int
  a : Int
  q : Nat
  blockLine : Int

/-- The instructions that `cgIfStat` emits itself for a chain of branches,
with their PCs, in order. -/
def chainEmits : List Branch → List (Nat × Instruction)
  | [] => []
  | [b] => [(b.p, .test b.line b.a 0), (b.p + 1, .jmp b.line 0 0)]
  | b :: c :: rest =>
    [(b.p, .test b.line b.a 0), (b.p + 1, .jmp b.line 0 0), (b.q, .jmp b.blockLine 0 0)]
      ++ chainEmits (c :: rest)

/-- The PCs recorded in `pcJmpToEnds` for a chain of branches: the jump to
the end of each branch but the last, and the false-jump of the last. -/
def chainEnds : List Branch → List Nat
  | [] => []
  | [b] => [b.p + 1]
  | b :: c :: rest => b.q :: chainEnds (c :: rest)

/-- Whether an instruction is a test. -/
def Instruction.isTest : Instruction → Bool
  | .test _ _ _ => true
  | _ => false

/-- The statement `if e1 then f() elseif e2 then g() end`. -/
def sampleIf : Statement :=
  .IfStatement [.OtherExpression 1, .OtherExpression 2]
    [.mk [.FunctionCallStatement 0] 1, .mk [.FunctionCallStatement 1] 2]

/-- The statement `for k, v in e1, e2, e3 do f() end`. -/
def sampleForIn : Statement :=
  .ForInStatement 1 ["k", "v"] [.OtherExpression 1, .OtherExpression 2, .OtherExpression 3]
    (.mk [.FunctionCallStatement 0] 2)

/-- Whether a logged action puts a value into register `r`: a call of the
expression emitter for `n` results from register `a` on, or a load-nil of
`n` registers from `a` on, with `a ≤ r < a + n`. -/
def Action.produces (r : Int) : Action → Bool
  | .cgExp _ a n => decide (a ≤ r ∧ r < a + n)
  | .emit (.loadNil _ a n) => decide (a ≤ r ∧ r < a + n)
  | _ => false

/-- Whether an expression list ends in a function call or a vararg
reference. -/
def endsInCall (exps : List Expression) : Bool :=
  match exps.getLast? with
  | some last => isVarargOrFuncCall last
  | none => false

/-- The result count that the loops over the value expressions (source
lines 220-245 and 292-312) ask for expression `i` of `M`, for `N` names or
targets: one, except for a last expression that is a call or a vararg
reference, for which it is 0 when `M > N` and `N - M + 1` when `M < N`. -/
def wantedCount (N M : Nat) (i : Nat) (e : Expression) : Int :=
  if i + 1 = M ∧ isVarargOrFuncCall e = true then
    if M > N then 0 else if M < N then (N : Int) - (M : Int) + 1 else 1
  else 1

/-- Calls of the expression emitter for the expressions of a list, from
index `i` on, each into the next register from `b` on, with the result
counts `f`. -/
def loopActs (f : Nat → Expression → Int) : Int → Nat → List Expression → List Action
  | _, _, [] => []
  | b, i, e :: rest => .cgExp e b (f i e) :: loopActs f (b + 1) (i + 1) rest

/-- What lowering the `M` value expressions `exps` for `N` names or targets
logs, `b` being the first free register: expression `i` is lowered into
register `b + i`, and when `M < N` and the last expression is neither a call
nor a vararg reference, a load-nil of the registers `b + M` to `b + N - 1`
follows. -/
def valueActs (b : Int) (N : Nat) (lastLine : Int) (exps : List Expression) : List Action :=
  loopActs (wantedCount N exps.length) b 0 exps ++
    if exps.length < N ∧ endsInCall exps = false then
      [.emit (.loadNil lastLine (b + (exps.length : Int)) ((N : Int) - (exps.length : Int)))]
    else []

/-- The entries that `addLocalVariable` appends for a list of names, the
first one in register `b`, all with the start-PC `p`. -/
def newLocals (p : Int) : Int → List String → List LocVarInfo
  | _, [] => []
  | b, name :: rest => { name := name, slot := b, startPC := p, endPC := 0 } :: newLocals p (b + 1) rest

/-- The innermost frame binds `name` to the register `slot`: its list of
locals has an entry of that name and register, and every position before it
is an entry of the table with another name. -/
def BoundOnTop (name : String) (slot : Int) (fi : FuncInfo) : Prop :=
  ∃ f rest l1 i l2 w, fi.scopes = f :: rest ∧ f.locals = l1 ++ i :: l2 ∧
    fi.localVars[i]? = some w ∧ w.name = name ∧ w.slot = slot ∧
    ∀ k ∈ l1, ∃ u, fi.localVars[k]? = some u ∧ u.name ≠ name

/-- Whether an expression can stand left of `=`: a name or a table access
(the two node kinds that the type switches of `cgAssignStat` expect). -/
def Expression.isTarget : Expression → Bool
  | .NameExpression _ _ => true
  | .TableAccessExpression _ _ _ => true
  | _ => false

/-- The register from which a store instruction takes the value: operand
`b` of `emitMove(line, a, b)`, operand `a` of `emitSetUpval(line, a, b)`,
operand `c` of `emitSetTable` and `emitSetTabUp`. -/
def Instruction.storeSrc? : Instruction → Option Int
  | .move _ _ b => some b
  | .setUpval _ a _ => some a
  | .setTable _ _ _ c => some c
  | .setTabUp _ _ _ c => some c
  | _ => none

/-- Whether an action is a call of `cgExp`. -/
def Action.isCgExp : Action → Bool
  | .cgExp _ _ _ => true
  | _ => false

/-- The statement `t[e1], g = f()`. -/
def sampleAssign : Statement :=
  .AssignStatement 1
    [.TableAccessExpression 1 (.NameExpression 1 "t") (.OtherExpression 1), .NameExpression 1 "g"]
    [.FunctionCallExpression 0]

/-- The sample emitter inside a function whose constant pool already has
more than 256 entries: the constant of a name gets the index 300. -/
def bigPoolEmitter : Collaborators :=
  { sampleEmitter with indexOfConstant := fun _ _ => 300 }

/-- The statement `g = e1`, where `g` is a global. -/
def sampleGlobalAssign : Statement :=
  .AssignStatement 1 [.NameExpression 1 "g"] [.OtherExpression 1]

mutual
/-- A statement that the parser can hand to `cgStat` and that `cgStat`
supports, in every nested block: no labeled statement and no goto; an if
statement has a block for every condition; a generic for has at least one
iterator expression; the targets of an assignment are names or table
accesses. -/
def Statement.wellFormed : Statement → Bool
  | .FunctionCallStatement _ => true
  | .BreakStatement _ => true
  | .DoStatement block => block.wellFormed
  | .WhileStatement _ block => block.wellFormed
  | .RepeatStatement block _ => block.wellFormed
  | .IfStatement expressions blocks =>
    decide (expressions.length ≤ blocks.length) && Block.allWellFormed blocks
  | .ForNumStatement _ _ _ _ _ _ block => block.wellFormed
  | .ForInStatement _ _ expressionList block => !expressionList.isEmpty && block.wellFormed
  | .AssignStatement _ variableList _ => variableList.all Expression.isTarget
  | .LocalVariableDeclareStatement _ _ _ => true
  | .LocalFunctionDefineStatement _ _ => true
  | .LabelStatement _ => false
  | .GotoStatement _ => false
/-- A block of well-formed statements. -/
def Block.wellFormed : Block → Bool
  | .mk stats _ => Statement.allWellFormed stats
/-- Every statement of the list is well-formed. -/
def Statement.allWellFormed : List Statement → Bool
  | [] => true
  | s :: rest => s.wellFormed && Statement.allWellFormed rest
/-- Every block of the list is well-formed. -/
def Block.allWellFormed : List Block → Bool
  | [] => true
  | b :: rest => b.wellFormed && Block.allWellFormed rest
end

/-- The statement `while e do if e1 then break end; for k in e2 do t[e3] = k end end`. -/
def sampleNested : Statement :=
  .WhileStatement (.OtherExpression 0)
    (.mk [.IfStatement [.OtherExpression 1] [.mk [.BreakStatement 1] 1],
          .ForInStatement 2 ["k"] [.OtherExpression 2]
            (.mk [.AssignStatement 2
              [.TableAccessExpression 2 (.NameExpression 2 "t") (.OtherExpression 3)]
              [.NameExpression 2 "k"]] 2)] 3)

/-- A relation between the compile state on entry and on return that every
lowering routine establishes, the routines with blocks when the lowering of
their blocks does. -/
structure Collaborators.Closed (E : Collaborators) (R : CgState → CgState → Prop) : Prop where
  rrefl : ∀ st, R st st
  rtrans : ∀ a b c, Lowered a b → Lowered b c → R a b → R b c → R a c
  callStat : ∀ st c, R st (cgFuncCallStat E st c)
  breakStat : ∀ st line, R st (cgBreakStat st line)
  doStat : ∀ st st' (block : LoweredBlock),
    (∀ s s', block.run s = .done s' → Lowered s s' ∧ R s s') →
    cgDoStat E st block = .done st' → R st st'
  whileStat : ∀ st st' e (block : LoweredBlock),
    (∀ s s', block.run s = .done s' → Lowered s s' ∧ R s s') →
    cgWhileStat E st e block = .done st' → R st st'
  repeatStat : ∀ st st' (block : LoweredBlock) e,
    (∀ s s', block.run s = .done s' → Lowered s s' ∧ R s s') →
    cgRepeatStat E st block e = .done st' → R st st'
  ifStat : ∀ st st' exps (blocks : List LoweredBlock),
    (∀ b ∈ blocks, ∀ s s', b.run s = .done s' → Lowered s s' ∧ R s s') →
    cgIfStat E st exps blocks = .done st' → R st st'
  forNumStat : ∀ st st' lineOfFor lineOfDo varName e1 e2 e3 (block : LoweredBlock),
    (∀ s s', block.run s = .done s' → Lowered s s' ∧ R s s') →
    cgForNumStat E st lineOfFor lineOfDo varName e1 e2 e3 block = .done st' → R st st'
  forInStat : ∀ st st' lineOfDo nameList exps (block : LoweredBlock),
    (∀ s s', block.run s = .done s' → Lowered s s' ∧ R s s') →
    cgForInStat E st lineOfDo nameList exps block = .done st' → R st st'
  assignStat : ∀ st st' lastLine vars exps,
    cgAssignStat E st lastLine vars exps = .done st' → R st st'
  localVarDecl : ∀ st lastLine names exps, R st (cgLocalVarDeclStat E st lastLine names exps)
  localFuncDef : ∀ st name f, R st (cgLocalFuncDefStat E st name f)

/-- What the statement level needs of the expression emitter about the
register counts (spec §3: `maxRegs` never decreases): no entry point lowers
`maxRegs`, and `expToOpArg`, which may keep a register for the operand,
does not lower `usedRegs`. -/
structure Collaborators.RegsOk (E : Collaborators) : Prop where
  cgExp : ∀ fi e a n, fi.maxRegs ≤ (E.cgExp fi e a n).maxRegs
  cgFuncCallExp : ∀ fi c a n, fi.maxRegs ≤ (E.cgFuncCallExp fi c a n).maxRegs
  cgFuncDefExp : ∀ fi f a, fi.maxRegs ≤ (E.cgFuncDefExp fi f a).maxRegs
  expToOpArg : ∀ fi e k, fi.maxRegs ≤ (E.expToOpArg fi e k).1.maxRegs ∧
    fi.usedRegs ≤ (E.expToOpArg fi e k).1.usedRegs

/-- The high-water mark did not go down. -/
def MaxKept (st st' : CgState) : Prop := st.fi.maxRegs ≤ st'.fi.maxRegs

/-- Source lines 214-252: `cgLocalVarDeclStat` up to the reset
`fi.usedRegs = oldRegs` of line 253. -/
def declValues (E : Collaborators) (st : CgState) (lastLine : Int) (nameList : List String)
    (expressionList : List Expression) : CgState :=
  let exps := removeTailNils expressionList
  let nExps : Int := exps.length
  let nNames : Int := nameList.length
  if nExps = nNames then cgExpsEqual E st exps
  else if nExps > nNames then cgExpsMore E nExps st 0 exps
  else cgExpsFill E st lastLine nNames nExps exps

/-- Source lines 261-347: `cgAssignStat` up to the reset
`fi.usedRegs = oldRegs` of line 350. -/
def assignBody (E : Collaborators) (st : CgState) (lastLine : Int)
    (variableList expressionList : List Expression) : Outcome :=
  let exps := removeTailNils expressionList
  let nExps : Int := exps.length
  let nVars : Int := variableList.length
  let t := cgAssignTargets E st [] [] variableList
  t.1.andThen fun st1 =>
    let vRegs := (List.range variableList.length).map fun (i : Nat) => st1.fi.usedRegs + (i : Int)
    let st2 :=
      if nExps ≥ nVars then cgAssignExps E nVars nExps st1 0 exps
      else cgExpsFill E st1 lastLine nVars nExps exps
    .done (cgAssignStores E lastLine t.2.1 t.2.2 vRegs st2 0 variableList)

/-- The lists of locals of the open frames, innermost first. -/
def FuncInfo.frames (fi : FuncInfo) : List (List Nat) := fi.scopes.map Scope.locals

/-- Invariant C for the locals whose scope is closed: an entry of the locals
table that no open frame lists has its end-PC at or after its start-PC. -/
def ClosedOk (fi : FuncInfo) : Prop :=
  ∀ (i : Nat) (v : LocVarInfo), fi.localVars[i]? = some v → (∀ l ∈ fi.frames, i ∉ l) →
    v.startPC ≤ v.endPC

/-- The locals of the frames above depth `d0` (the frames opened since the
stack had `d0` frames) are entries of the table that start at or before
`bound`. -/
def OpenUpTo (d0 : Nat) (bound : Int) (fi : FuncInfo) : Prop :=
  ∀ l ∈ fi.frames.take (fi.frames.length - d0), ∀ i ∈ l,
    ∃ v, fi.localVars[i]? = some v ∧ v.startPC ≤ bound

/-- The two parts of the invariant of the end-PCs. -/
def Ends (d0 : Nat) (bound : Int) (fi : FuncInfo) : Prop := ClosedOk fi ∧ OpenUpTo d0 bound fi

/-- A stretch of lowering keeps the invariant of the end-PCs, with the
length of the buffer as bound, whatever the depth `d0` from which the open
frames are counted. -/
def EndsKept (st st' : CgState) : Prop :=
  st.fi.scopes ≠ [] → ∀ d0 : Nat, d0 ≤ st.fi.scopes.length →
    Ends d0 st.fi.insts.length st.fi → Ends d0 st'.fi.insts.length st'.fi

/-- Locals table and lists of the frames are the same. -/
def SameLocals (fi fi' : FuncInfo) : Prop :=
  fi'.localVars = fi.localVars ∧ fi'.frames = fi.frames

/-- The statement `for i = e1, e2, e3 do local function f; local a = e4 end`:
a loop whose body declares locals. -/
def sampleForLocals : Statement :=
  .ForNumStatement 1 1 "i" (.OtherExpression 1) (.OtherExpression 2) (.OtherExpression 3)
    (.mk [.LocalFunctionDefineStatement "f" 0,
          .LocalVariableDeclareStatement 2 ["a"] [.OtherExpression 4]] 3)

/-- A stretch of lowering that neither declares nor closes a local and
does not shorten the buffer. -/
def Grow (st st' : CgState) : Prop :=
  SameLocals st.fi st'.fi ∧ st.fi.insts.length ≤ st'.fi.insts.length

/-- The break jumps collected by the frames above depth `d0` (the frames
opened since the stack had `d0` frames) are at PCs from `lo` on. -/
def BreaksFrom (d0 lo : Nat) (fi : FuncInfo) : Prop :=
  ∀ l ∈ (fi.scopes.map Scope.breaks).take (fi.scopes.length - d0), ∀ pc ∈ l, (lo : Int) ≤ pc

/-- The buffer did not get shorter and the instructions below PC `lo` are
as they were. -/
def KeepsBelow (lo : Nat) (st st' : CgState) : Prop :=
  st.fi.insts.length ≤ st'.fi.insts.length ∧
  ∀ k : Nat, k < lo → k < st.fi.insts.length → st'.fi.insts[k]? = st.fi.insts[k]?

/-- On the way from `st` the instructions below `lo` were kept, and in the
state reached the frames above depth `d0` have collected break jumps from
`lo` on only. -/
def Kept (d0 lo : Nat) (st sx : CgState) : Prop :=
  BreaksFrom d0 lo sx.fi ∧ KeepsBelow lo st sx

/-- A stretch of lowering changes no instruction that was in the buffer
before it, as far as the frames opened before it have collected no break
jump there: whatever `lo` within the buffer and depth `d0` within the
stack. -/
def Keeps (st st' : CgState) : Prop :=
  ∀ d0 lo : Nat, d0 ≤ st.fi.scopes.length → lo ≤ st.fi.insts.length →
    BreaksFrom d0 lo st.fi → Kept d0 lo st st'

/-- The buffer length at which a condition was handed to `expToOpArg` at
scope depth `d`: the PC that the first instruction emitted for the
condition gets. -/
def Event.ownCond (d : Nat) (ev : Event) : Option Nat :=
  match ev.act with
  | .expToOpArg _ _ => if ev.pre.scopes.length = d then some ev.pre.insts.length else none
  | _ => none

/-- The PCs at which the conditions lowered at scope depth `d` start, in
order. -/
def ownConds (d : Nat) (evs : List Event) : List Nat := evs.filterMap (Event.ownCond d)

/-- Where the conditions of a chain of branches start when the chain starts
at PC `c`: the first at `c`, each later one right after the jump to the end
of the branch before it. -/
def condStarts : Nat → List Branch → List Nat
  | _, [] => []
  | c, b :: rest => c :: condStarts (b.q + 1) rest

/-- The line of a jump instruction. -/
def Instruction.jmpLine? : Instruction → Option Int
  | .jmp l _ _ => some l
  | _ => none

/-- The line of the jump at the PC `pc` of a buffer, if that PC holds a
jump. -/
def jmpLineAt (insts : List Instruction) (pc : Int) : Option Int :=
  if 0 ≤ pc then (insts[pc.toNat]?).bind Instruction.jmpLine? else none

mutual
/-- The break statements of a statement that belong to the loop the
statement stands in, by their lines and in source order: the statement
itself if it is a break, and the break statements inside the block of a do
statement and inside the branches of an if statement (`cgIfStat` lowers the
first `len(Expressions)` blocks), at any depth of such nesting.  A break
inside a nested loop belongs to that loop. -/
def Statement.ownBreaks : Statement → List Int
  | .FunctionCallStatement _ => []
  | .BreakStatement line => [line]
  | .DoStatement block => block.ownBreaks
  | .WhileStatement _ _ => []
  | .RepeatStatement _ _ => []
  | .IfStatement expressions blocks => Block.ownBreaksOf blocks expressions.length
  | .ForNumStatement _ _ _ _ _ _ _ => []
  | .ForInStatement _ _ _ _ => []
  | .AssignStatement _ _ _ => []
  | .LocalVariableDeclareStatement _ _ _ => []
  | .LocalFunctionDefineStatement _ _ => []
  | .LabelStatement _ => []
  | .GotoStatement _ => []
/-- The break statements of a block that belong to the loop around it. -/
def Block.ownBreaks : Block → List Int
  | .mk stats _ => Statement.ownBreaksAll stats
/-- The break statements of a list of statements that belong to the loop
around them. -/
def Statement.ownBreaksAll : List Statement → List Int
  | [] => []
  | s :: rest => s.ownBreaks ++ Statement.ownBreaksAll rest
/-- The break statements of the first `n` blocks of a list that belong to
the loop around them. -/
def Block.ownBreaksOf : List Block → Nat → List Int
  | [], _ => []
  | _ :: _, 0 => []
  | b :: rest, n + 1 => b.ownBreaks ++ Block.ownBreaksOf rest n
end

/-- The break statements of the body of a loop statement that belong to
this loop: those that `break` out of it. -/
def Statement.loopBreaks : Statement → List Int
  | .WhileStatement _ block => block.ownBreaks
  | .RepeatStatement block _ => block.ownBreaks
  | .ForNumStatement _ _ _ _ _ _ block => block.ownBreaks
  | .ForInStatement _ _ _ block => block.ownBreaks
  | _ => []

/-- A stretch of lowering that records no break at all. -/
def NoBreaks (a b : CgState) : Prop :=
  ∃ new, Step 0 new a b ∧ ∀ h, evBreaks h new = []

/-- From `a` to `b` the break jumps recorded in the frame of height `h` are
jumps that have, in the buffer of `b` and in the order of their recording,
the lines `lines`. -/
def LogAt (h : Nat) (lines : List Int) (a b : CgState) : Prop :=
  ∃ new, Step 0 new a b ∧ (evBreaks h new).map (jmpLineAt b.fi.insts) = lines.map some

/-- What lowering a statement or block whose own break statements have the
lines `lines` records in the frames that were open on entry: the jumps of
these break statements, one for one and in source order, in the innermost
breakable frame, and nothing in any other frame. -/
def BreakLog (lines : List Int) (st st' : CgState) : Prop :=
  ∀ h, h < st.fi.scopes.length →
    LogAt h (if breakLevel st.fi.scopes = some h then lines else []) st st'

/-- The statement `while e do if e1 then break end; f() end`. -/
def sampleBreakInIf : Statement :=
  .WhileStatement (.OtherExpression 0)
    (.mk [.IfStatement [.OtherExpression 1] [.mk [.BreakStatement 7] 1],
          .FunctionCallStatement 0] 3)

/-! ## Facts about the compile-state operations -/

theorem Instruction.erase_setSBx (s : Int) (i : Instruction) : (i.setSBx s).erase = i.erase := by
  cases i <;> rfl

theorem Instruction.setSBx_of_erase_jmp {i : Instruction} {l a z s : Int}
    (h : i.erase = .jmp l a z) : i.setSBx s = .jmp l a s := by
  cases i <;> simp_all [Instruction.erase, Instruction.setSBx]

theorem map_modify_same {α β : Type} (g : α → β) (f : α → α) (hf : ∀ x, g (f x) = g x)
    (l : List α) (n : Nat) : (l.modify f n).map g = l.map g := by
  induction l generalizing n with
  | nil => simp
  | cons a l ih =>
    cases n with
    | zero => simp [hf]
    | succ n => simp [ih]

namespace FuncInfo

theorem fixSbx_insts_erase (fi : FuncInfo) (pc s : Int) :
    (fi.fixSbx pc s).insts.map Instruction.erase = fi.insts.map Instruction.erase := by
  unfold fixSbx
  split
  · exact map_modify_same _ _ (Instruction.erase_setSBx s) _ _
  · rfl

@[simp] theorem fixSbx_insts_length (fi : FuncInfo) (pc s : Int) :
    (fi.fixSbx pc s).insts.length = fi.insts.length := by
  unfold fixSbx
  split <;> simp

@[simp] theorem fixSbx_pc (fi : FuncInfo) (pc s : Int) : (fi.fixSbx pc s).pc = fi.pc := by
  simp [FuncInfo.pc]

@[simp] theorem fixSbx_scopes (fi : FuncInfo) (pc s : Int) :
    (fi.fixSbx pc s).scopes = fi.scopes := by
  unfold fixSbx
  split <;> rfl

@[simp] theorem fixSbx_usedRegs (fi : FuncInfo) (pc s : Int) :
    (fi.fixSbx pc s).usedRegs = fi.usedRegs := by
  unfold fixSbx
  split <;> rfl

@[simp] theorem fixSbx_maxRegs (fi : FuncInfo) (pc s : Int) :
    (fi.fixSbx pc s).maxRegs = fi.maxRegs := by
  unfold fixSbx
  split <;> rfl

@[simp] theorem fixSbx_localVars (fi : FuncInfo) (pc s : Int) :
    (fi.fixSbx pc s).localVars = fi.localVars := by
  unfold fixSbx
  split <;> rfl

/-- The instruction at `k` after `fixSbx(pc, s)`. -/
theorem fixSbx_getElem? (fi : FuncInfo) (pc s : Int) (k : Nat) :
    (fi.fixSbx pc s).insts[k]? =
      if pc = (k : Int) then (fi.insts[k]?).map (Instruction.setSBx s) else fi.insts[k]? := by
  unfold fixSbx
  by_cases h0 : 0 ≤ pc
  · simp only [h0, if_true, List.getElem?_modify]
    by_cases hk : pc = (k : Int)
    · have : pc.toNat = k := by omega
      simp [hk, this]
    · have : pc.toNat ≠ k := by omega
      simp [hk, this]
  · have : pc ≠ (k : Int) := by omega
    simp [h0, this]

@[simp] theorem patchBreaks_insts_length (fi : FuncInfo) (ps : List Int) :
    (fi.patchBreaks ps).insts.length = fi.insts.length := by
  induction ps generalizing fi with
  | nil => rfl
  | cons p ps ih => simp [patchBreaks, ih]

@[simp] theorem patchBreaks_pc (fi : FuncInfo) (ps : List Int) : (fi.patchBreaks ps).pc = fi.pc := by
  simp [FuncInfo.pc]

theorem patchBreaks_insts_erase (fi : FuncInfo) (ps : List Int) :
    (fi.patchBreaks ps).insts.map Instruction.erase = fi.insts.map Instruction.erase := by
  induction ps generalizing fi with
  | nil => rfl
  | cons p ps ih => simp [patchBreaks, ih, fixSbx_insts_erase]

@[simp] theorem patchBreaks_scopes (fi : FuncInfo) (ps : List Int) :
    (fi.patchBreaks ps).scopes = fi.scopes := by
  induction ps generalizing fi with
  | nil => rfl
  | cons p ps ih => simp [patchBreaks, ih]

@[simp] theorem patchBreaks_usedRegs (fi : FuncInfo) (ps : List Int) :
    (fi.patchBreaks ps).usedRegs = fi.usedRegs := by
  induction ps generalizing fi with
  | nil => rfl
  | cons p ps ih => simp [patchBreaks, ih]

@[simp] theorem patchBreaks_maxRegs (fi : FuncInfo) (ps : List Int) :
    (fi.patchBreaks ps).maxRegs = fi.maxRegs := by
  induction ps generalizing fi with
  | nil => rfl
  | cons p ps ih => simp [patchBreaks, ih]

@[simp] theorem patchBreaks_localVars (fi : FuncInfo) (ps : List Int) :
    (fi.patchBreaks ps).localVars = fi.localVars := by
  induction ps generalizing fi with
  | nil => rfl
  | cons p ps ih => simp [patchBreaks, ih]

/-- After the break jumps of a frame are patched, the instruction at a
collected PC has the offset `pc() - PC`, and every other one is as
before. -/
theorem patchBreaks_getElem? (fi : FuncInfo) (ps : List Int) (k : Nat) :
    (fi.patchBreaks ps).insts[k]? =
      if (k : Int) ∈ ps then (fi.insts[k]?).map (Instruction.setSBx (fi.pc - k))
      else fi.insts[k]? := by
  induction ps generalizing fi with
  | nil => simp [patchBreaks]
  | cons p ps ih =>
    simp only [patchBreaks, ih, fixSbx_pc, fixSbx_getElem?, List.mem_cons]
    by_cases hp : p = (k : Int)
    · subst hp
      by_cases hm : (k : Int) ∈ ps
      · cases h : fi.insts[k]? with
        | none => simp [hm]
        | some i => cases i <;> simp [hm, Instruction.setSBx]
      · simp [hm]
    · have hp2 : ¬ ((k : Int) = p) := fun h => hp h.symm
      simp [hp, hp2]

theorem closeLocals_key (endPC : Int) (vars : List LocVarInfo) (is : List Nat) :
    (closeLocals endPC vars is).map LocVarInfo.key = vars.map LocVarInfo.key := by
  induction is generalizing vars with
  | nil => rfl
  | cons i is ih =>
    simp only [closeLocals, ih]
    apply map_modify_same
    intro v
    rfl

@[simp] theorem closeLocals_length (endPC : Int) (vars : List LocVarInfo) (is : List Nat) :
    (closeLocals endPC vars is).length = vars.length := by
  induction is generalizing vars with
  | nil => rfl
  | cons i is ih => simp [closeLocals, ih]

theorem exitScope_cons (fi : FuncInfo) (endPC : Int) (s : Scope) (rest : List Scope)
    (h : fi.scopes = s :: rest) :
    fi.exitScope endPC =
      { (if s.breakable then patchBreaks fi s.breaks else fi) with
          scopes := rest
          usedRegs := (if s.breakable then patchBreaks fi s.breaks else fi).usedRegs
            - s.locals.length
          localVars := closeLocals endPC
            (if s.breakable then patchBreaks fi s.breaks else fi).localVars s.locals } := by
  unfold exitScope
  rw [h]

theorem exitScope_scopes (fi : FuncInfo) (endPC : Int) :
    (fi.exitScope endPC).scopes = fi.scopes.tail := by
  unfold exitScope
  split
  · next h => simp [h]
  · next s rest h => simp [h]

theorem exitScope_usedRegs (fi : FuncInfo) (endPC : Int) (s : Scope) (rest : List Scope)
    (h : fi.scopes = s :: rest) :
    (fi.exitScope endPC).usedRegs = fi.usedRegs - s.locals.length := by
  rw [exitScope_cons fi endPC s rest h]
  split <;> simp

@[simp] theorem exitScope_maxRegs (fi : FuncInfo) (endPC : Int) :
    (fi.exitScope endPC).maxRegs = fi.maxRegs := by
  unfold exitScope
  split
  · rfl
  · split <;> simp

@[simp] theorem exitScope_insts_length (fi : FuncInfo) (endPC : Int) :
    (fi.exitScope endPC).insts.length = fi.insts.length := by
  unfold exitScope
  split
  · rfl
  · split <;> simp

@[simp] theorem exitScope_pc (fi : FuncInfo) (endPC : Int) : (fi.exitScope endPC).pc = fi.pc := by
  simp [FuncInfo.pc]

theorem exitScope_insts_erase (fi : FuncInfo) (endPC : Int) :
    (fi.exitScope endPC).insts.map Instruction.erase = fi.insts.map Instruction.erase := by
  unfold exitScope
  split
  · rfl
  · split <;> simp [patchBreaks_insts_erase]

theorem exitScope_key (fi : FuncInfo) (endPC : Int) :
    (fi.exitScope endPC).localVars.map LocVarInfo.key = fi.localVars.map LocVarInfo.key := by
  unfold exitScope
  split
  · rfl
  · split <;> simp [closeLocals_key]

/-- The instructions after `exitScope`: the break jumps of a breakable
frame are patched, nothing else changes. -/
theorem exitScope_getElem? (fi : FuncInfo) (endPC : Int) (s : Scope) (rest : List Scope)
    (h : fi.scopes = s :: rest) (k : Nat) :
    (fi.exitScope endPC).insts[k]? =
      if s.breakable = true ∧ (k : Int) ∈ s.breaks then
        (fi.insts[k]?).map (Instruction.setSBx (fi.pc - k))
      else fi.insts[k]? := by
  rw [exitScope_cons fi endPC s rest h]
  by_cases hb : s.breakable = true
  · simp [hb, patchBreaks_getElem?]
  · simp [hb]

theorem exitScope_insts_eq (fi : FuncInfo) (endPC : Int) :
    (fi.exitScope endPC).insts = fi.exitInsts := by
  unfold exitInsts exitScope
  split
  · rfl
  · split <;> rfl

theorem exitScope_usedRegs_eq (fi : FuncInfo) (endPC : Int) :
    (fi.exitScope endPC).usedRegs = fi.exitRegs := by
  unfold exitRegs exitScope
  split
  · rfl
  · split <;> rfl

theorem fixEndPC_key (fi : FuncInfo) (name : String) (delta : Int) :
    (fi.fixEndPC name delta).localVars.map LocVarInfo.key = fi.localVars.map LocVarInfo.key := by
  unfold fixEndPC
  split
  · apply map_modify_same
    intro v
    rfl
  · rfl

@[simp] theorem fixEndPC_insts (fi : FuncInfo) (name : String) (delta : Int) :
    (fi.fixEndPC name delta).insts = fi.insts := by
  unfold fixEndPC
  split <;> rfl

@[simp] theorem fixEndPC_scopes (fi : FuncInfo) (name : String) (delta : Int) :
    (fi.fixEndPC name delta).scopes = fi.scopes := by
  unfold fixEndPC
  split <;> rfl

@[simp] theorem fixEndPC_usedRegs (fi : FuncInfo) (name : String) (delta : Int) :
    (fi.fixEndPC name delta).usedRegs = fi.usedRegs := by
  unfold fixEndPC
  split <;> rfl

@[simp] theorem fixEndPC_maxRegs (fi : FuncInfo) (name : String) (delta : Int) :
    (fi.fixEndPC name delta).maxRegs = fi.maxRegs := by
  unfold fixEndPC
  split <;> rfl

end FuncInfo

/-! ## The contract of the expression emitter and the lowering invariant -/

/-! ### Lists that grow -/

theorem grow_length {α β : Type} {g : α → β} {l l' : List α} {ext : List β}
    (h : l'.map g = l.map g ++ ext) : l.length ≤ l'.length := by
  have := congrArg List.length h
  simp at this
  omega

theorem grow_getElem? {α β : Type} {g : α → β} {l l' : List α} {ext : List β}
    (h : l'.map g = l.map g ++ ext) {k : Nat} (hk : k < l.length) :
    (l'[k]?).map g = (l[k]?).map g := by
  have h1 : (l'.map g)[k]? = (l.map g ++ ext)[k]? := by rw [h]
  rw [List.getElem?_append_left (by simpa using hk)] at h1
  simpa using h1

theorem grow_getElem?_some {α β : Type} {g : α → β} {l l' : List α} {ext : List β}
    (h : l'.map g = l.map g ++ ext) {k : Nat} {b : β} (hk : (l[k]?).map g = some b) :
    (l'[k]?).map g = some b := by
  have hlt : k < l.length := by
    by_contra hc
    rw [List.getElem?_eq_none (by omega)] at hk
    simp at hk
  rw [grow_getElem? h hlt, hk]

theorem grow_trans {α β : Type} {g : α → β} {l l1 l2 : List α}
    (h1 : ∃ ext, l1.map g = l.map g ++ ext) (h2 : ∃ ext, l2.map g = l1.map g ++ ext) :
    ∃ ext, l2.map g = l.map g ++ ext := by
  obtain ⟨e1, h1⟩ := h1
  obtain ⟨e2, h2⟩ := h2
  exact ⟨e1 ++ e2, by rw [h2, h1, List.append_assoc]⟩

/-! ### Events -/

theorem EvOk.mono {d n d' n' : Nat} {fin fin' : List Instruction} {ev : Event}
    (h : EvOk d n fin ev) (hd : d' ≤ d) (hn : n' ≤ n)
    (hf : ∃ ext, fin'.map Instruction.erase = fin.map Instruction.erase ++ ext) :
    EvOk d' n' fin' ev := by
  obtain ⟨ext, hf⟩ := hf
  obtain ⟨h1, h2, h3, h4, h5⟩ := h
  have hl := grow_length hf
  refine ⟨by omega, by omega, by omega, ?_, ?_⟩
  · intro ins hi
    obtain ⟨ha, hb⟩ := h4 ins hi
    exact ⟨grow_getElem?_some hf ha, fun hc => by have := hb hc; omega⟩
  · intro pc hp
    obtain ⟨k, hk, hnk, l, hl⟩ := h5 pc hp
    exact ⟨k, hk, by omega, l, grow_getElem?_some hf hl⟩

@[simp] theorem evBreaks_nil (h : Nat) : evBreaks h [] = [] := rfl

theorem evBreaks_append (h : Nat) (a b : List Event) :
    evBreaks h (a ++ b) = evBreaks h a ++ evBreaks h b := by
  simp [evBreaks, List.filterMap_append]

theorem evBreaks_cons (h : Nat) (e : Event) (b : List Event) :
    evBreaks h (e :: b) = evBreaks h [e] ++ evBreaks h b :=
  evBreaks_append h [e] b

@[simp] theorem evBreaks_emit (h : Nat) (fi : FuncInfo) (ins : Instruction) :
    evBreaks h [⟨fi, .emit ins⟩] = [] := rfl

@[simp] theorem evBreaks_cgExp (h : Nat) (fi : FuncInfo) (e : Expression) (a n : Int) :
    evBreaks h [⟨fi, .cgExp e a n⟩] = [] := rfl

@[simp] theorem evBreaks_cgFuncCallExp (h : Nat) (fi : FuncInfo) (c : Nat) (a n : Int) :
    evBreaks h [⟨fi, .cgFuncCallExp c a n⟩] = [] := rfl

@[simp] theorem evBreaks_cgFuncDefExp (h : Nat) (fi : FuncInfo) (c : Nat) (a : Int) :
    evBreaks h [⟨fi, .cgFuncDefExp c a⟩] = [] := rfl

@[simp] theorem evBreaks_expToOpArg (h : Nat) (fi : FuncInfo) (e : Expression) (k : Int) :
    evBreaks h [⟨fi, .expToOpArg e k⟩] = [] := rfl

/-! ### Steps -/

theorem Step.srefl (d : Nat) (st : CgState) : Step d [] st st :=
  ⟨by simp, ⟨[], by simp⟩, ⟨[], by simp⟩, by simp⟩

theorem Step.strans {d : Nat} {n1 n2 : List Event} {st st1 st2 : CgState}
    (h1 : Step d n1 st st1) (h2 : Step d n2 st1 st2) : Step d (n1 ++ n2) st st2 := by
  refine ⟨by rw [h2.trace, h1.trace, List.append_assoc], grow_trans h1.insts h2.insts,
    grow_trans h1.vars h2.vars, ?_⟩
  intro ev hev
  rcases List.mem_append.1 hev with h | h
  · exact (h1.events ev h).mono (le_refl _) (le_refl _) h2.insts
  · obtain ⟨e1, he1⟩ := h1.insts
    exact (h2.events ev h).mono (le_refl _) (grow_length he1) ⟨[], by simp⟩

theorem Step.sweaken {d d' : Nat} {new : List Event} {st st' : CgState}
    (h : Step d new st st') (hd : d' ≤ d) : Step d' new st st' :=
  ⟨h.trace, h.insts, h.vars,
    fun ev hev => (h.events ev hev).mono hd (le_refl _) ⟨[], by simp⟩⟩

/-- A `funcInfo` method that logs nothing, and keeps the buffer and the
locals table up to offsets and end-PCs. -/
theorem Step.sOnFi (d : Nat) (st : CgState) (f : FuncInfo → FuncInfo)
    (hi : (f st.fi).insts.map Instruction.erase = st.fi.insts.map Instruction.erase)
    (hv : ∃ ext, (f st.fi).localVars.map LocVarInfo.key
      = st.fi.localVars.map LocVarInfo.key ++ ext) :
    Step d [] st (st.onFi f) :=
  ⟨by simp [CgState.onFi], ⟨[], by simpa [CgState.onFi] using hi⟩, hv, by simp⟩

theorem Step.semit {d : Nat} (st : CgState) (ins : Instruction)
    (hd : d ≤ st.fi.scopes.length) (hl : ins.isLoopOp = true → d < st.fi.scopes.length) :
    Step d [⟨st.fi, .emit ins⟩] st (st.emit ins).1 := by
  refine ⟨rfl, ⟨[ins.erase], by simp [CgState.emit, FuncInfo.emit]⟩,
    ⟨[], by simp [CgState.emit, FuncInfo.emit]⟩, ?_⟩
  intro ev hev
  simp only [List.mem_singleton] at hev
  subst hev
  refine ⟨hd, le_refl _, by simp [CgState.emit, FuncInfo.emit], ?_, ?_⟩
  · intro i hi
    simp only [Action.emit.injEq] at hi
    subst hi
    exact ⟨by simp [CgState.emit, FuncInfo.emit], hl⟩
  · intro pc hp
    simp at hp

/-- A call to the expression emitter. -/
theorem Step.call {d : Nat} (st st' : CgState) (act : Action)
    (ht : st'.trace = st.trace ++ [⟨st.fi, act⟩]) (ha : Appends st.fi st'.fi)
    (hd : d ≤ st.fi.scopes.length) (h1 : ∀ ins, act ≠ .emit ins) (h2 : ∀ pc, act ≠ .breakJmp pc) :
    Step d [⟨st.fi, act⟩] st st' := by
  obtain ⟨_, hv, ext, hi⟩ := ha
  refine ⟨ht, ⟨ext.map Instruction.erase, by simp [hi]⟩, ⟨[], by simp [hv]⟩, ?_⟩
  intro ev hev
  simp only [List.mem_singleton] at hev
  subst hev
  exact ⟨hd, le_refl _, by simp [hi], fun i hi => absurd hi (h1 i), fun p hp => absurd hp (h2 p)⟩

/-! ### Field lemmas for the instrumented operations -/

attribute [simp] CgState.emitJmp CgState.emitTest CgState.emitForPrep CgState.emitForLoop
  CgState.emitTForCall CgState.emitTForLoop CgState.emitLoadNil CgState.emitMove
  CgState.emitSetUpval CgState.emitSetTable CgState.emitSetTabUp

namespace CgState

@[simp] theorem onFi_fi (st : CgState) (f : FuncInfo → FuncInfo) : (st.onFi f).fi = f st.fi := rfl
@[simp] theorem onFi_trace (st : CgState) (f : FuncInfo → FuncInfo) :
    (st.onFi f).trace = st.trace := rfl

@[simp] theorem emit_insts (st : CgState) (ins : Instruction) :
    (st.emit ins).1.fi.insts = st.fi.insts ++ [ins] := rfl
@[simp] theorem emit_scopes (st : CgState) (ins : Instruction) :
    (st.emit ins).1.fi.scopes = st.fi.scopes := rfl
@[simp] theorem emit_usedRegs (st : CgState) (ins : Instruction) :
    (st.emit ins).1.fi.usedRegs = st.fi.usedRegs := rfl
@[simp] theorem emit_maxRegs (st : CgState) (ins : Instruction) :
    (st.emit ins).1.fi.maxRegs = st.fi.maxRegs := rfl
@[simp] theorem emit_localVars (st : CgState) (ins : Instruction) :
    (st.emit ins).1.fi.localVars = st.fi.localVars := rfl
@[simp] theorem emit_trace (st : CgState) (ins : Instruction) :
    (st.emit ins).1.trace = st.trace ++ [⟨st.fi, .emit ins⟩] := rfl
@[simp] theorem emit_snd (st : CgState) (ins : Instruction) :
    (st.emit ins).2 = st.fi.insts.length := rfl
@[simp] theorem emit_pc (st : CgState) (ins : Instruction) :
    (st.emit ins).1.fi.pc = st.fi.pc + 1 := by
  simp [FuncInfo.pc]

@[simp] theorem allocReg_scopes (st : CgState) : st.allocReg.1.fi.scopes = st.fi.scopes := rfl
@[simp] theorem allocReg_insts (st : CgState) : st.allocReg.1.fi.insts = st.fi.insts := rfl
@[simp] theorem allocReg_localVars (st : CgState) :
    st.allocReg.1.fi.localVars = st.fi.localVars := rfl
@[simp] theorem allocReg_usedRegs (st : CgState) :
    st.allocReg.1.fi.usedRegs = st.fi.usedRegs + 1 := rfl
@[simp] theorem allocReg_trace (st : CgState) : st.allocReg.1.trace = st.trace := rfl
@[simp] theorem allocReg_snd (st : CgState) : st.allocReg.2 = st.fi.usedRegs := rfl

@[simp] theorem allocRegs_scopes (st : CgState) (n : Int) :
    (st.allocRegs n).1.fi.scopes = st.fi.scopes := rfl
@[simp] theorem allocRegs_insts (st : CgState) (n : Int) :
    (st.allocRegs n).1.fi.insts = st.fi.insts := rfl
@[simp] theorem allocRegs_localVars (st : CgState) (n : Int) :
    (st.allocRegs n).1.fi.localVars = st.fi.localVars := rfl
@[simp] theorem allocRegs_usedRegs (st : CgState) (n : Int) :
    (st.allocRegs n).1.fi.usedRegs = st.fi.usedRegs + n := rfl
@[simp] theorem allocRegs_trace (st : CgState) (n : Int) :
    (st.allocRegs n).1.trace = st.trace := rfl
@[simp] theorem allocRegs_snd (st : CgState) (n : Int) :
    (st.allocRegs n).2 = st.fi.usedRegs := rfl

@[simp] theorem freeReg_scopes (st : CgState) : st.freeReg.fi.scopes = st.fi.scopes := rfl
@[simp] theorem freeReg_insts (st : CgState) : st.freeReg.fi.insts = st.fi.insts := rfl
@[simp] theorem freeReg_localVars (st : CgState) : st.freeReg.fi.localVars = st.fi.localVars := rfl
@[simp] theorem freeReg_usedRegs (st : CgState) :
    st.freeReg.fi.usedRegs = st.fi.usedRegs - 1 := rfl
@[simp] theorem freeReg_trace (st : CgState) : st.freeReg.trace = st.trace := rfl

@[simp] theorem setUsedRegs_scopes (st : CgState) (r : Int) :
    (st.setUsedRegs r).fi.scopes = st.fi.scopes := rfl
@[simp] theorem setUsedRegs_insts (st : CgState) (r : Int) :
    (st.setUsedRegs r).fi.insts = st.fi.insts := rfl
@[simp] theorem setUsedRegs_localVars (st : CgState) (r : Int) :
    (st.setUsedRegs r).fi.localVars = st.fi.localVars := rfl
@[simp] theorem setUsedRegs_usedRegs (st : CgState) (r : Int) :
    (st.setUsedRegs r).fi.usedRegs = r := rfl
@[simp] theorem setUsedRegs_maxRegs (st : CgState) (r : Int) :
    (st.setUsedRegs r).fi.maxRegs = st.fi.maxRegs := rfl
@[simp] theorem setUsedRegs_trace (st : CgState) (r : Int) :
    (st.setUsedRegs r).trace = st.trace := rfl
@[simp] theorem setUsedRegs_pc (st : CgState) (r : Int) :
    (st.setUsedRegs r).fi.pc = st.fi.pc := rfl

@[simp] theorem enterScope_scopes (st : CgState) (b : Bool) :
    (st.enterScope b).fi.scopes = ⟨[], b, []⟩ :: st.fi.scopes := rfl
@[simp] theorem enterScope_insts (st : CgState) (b : Bool) :
    (st.enterScope b).fi.insts = st.fi.insts := rfl
@[simp] theorem enterScope_localVars (st : CgState) (b : Bool) :
    (st.enterScope b).fi.localVars = st.fi.localVars := rfl
@[simp] theorem enterScope_usedRegs (st : CgState) (b : Bool) :
    (st.enterScope b).fi.usedRegs = st.fi.usedRegs := rfl
@[simp] theorem enterScope_maxRegs (st : CgState) (b : Bool) :
    (st.enterScope b).fi.maxRegs = st.fi.maxRegs := rfl
@[simp] theorem enterScope_trace (st : CgState) (b : Bool) :
    (st.enterScope b).trace = st.trace := rfl
@[simp] theorem enterScope_pc (st : CgState) (b : Bool) :
    (st.enterScope b).fi.pc = st.fi.pc := rfl

@[simp] theorem st_fixSbx_scopes (st : CgState) (pc s : Int) :
    (st.fixSbx pc s).fi.scopes = st.fi.scopes := by simp [fixSbx]
@[simp] theorem st_fixSbx_localVars (st : CgState) (pc s : Int) :
    (st.fixSbx pc s).fi.localVars = st.fi.localVars := by simp [fixSbx]
@[simp] theorem st_fixSbx_usedRegs (st : CgState) (pc s : Int) :
    (st.fixSbx pc s).fi.usedRegs = st.fi.usedRegs := by simp [fixSbx]
@[simp] theorem st_fixSbx_maxRegs (st : CgState) (pc s : Int) :
    (st.fixSbx pc s).fi.maxRegs = st.fi.maxRegs := by simp [fixSbx]
@[simp] theorem fixSbx_trace (st : CgState) (pc s : Int) :
    (st.fixSbx pc s).trace = st.trace := rfl
@[simp] theorem st_fixSbx_insts_length (st : CgState) (pc s : Int) :
    (st.fixSbx pc s).fi.insts.length = st.fi.insts.length := by simp [fixSbx]
@[simp] theorem st_fixSbx_pc (st : CgState) (pc s : Int) :
    (st.fixSbx pc s).fi.pc = st.fi.pc := by simp [fixSbx]

@[simp] theorem exitScope_trace (st : CgState) (e : Int) :
    (st.exitScope e).trace = st.trace := rfl
@[simp] theorem st_exitScope_insts_length (st : CgState) (e : Int) :
    (st.exitScope e).fi.insts.length = st.fi.insts.length := by simp [exitScope]
@[simp] theorem st_exitScope_pc (st : CgState) (e : Int) :
    (st.exitScope e).fi.pc = st.fi.pc := by simp [exitScope]
@[simp] theorem st_exitScope_maxRegs (st : CgState) (e : Int) :
    (st.exitScope e).fi.maxRegs = st.fi.maxRegs := by simp [exitScope]
@[simp] theorem st_exitScope_scopes (st : CgState) (e : Int) :
    (st.exitScope e).fi.scopes = st.fi.scopes.tail := by simp [exitScope, FuncInfo.exitScope_scopes]

@[simp] theorem fixEndPC_trace (st : CgState) (name : String) (d : Int) :
    (st.fixEndPC name d).trace = st.trace := rfl
@[simp] theorem st_fixEndPC_insts (st : CgState) (name : String) (d : Int) :
    (st.fixEndPC name d).fi.insts = st.fi.insts := by simp [fixEndPC]
@[simp] theorem st_fixEndPC_scopes (st : CgState) (name : String) (d : Int) :
    (st.fixEndPC name d).fi.scopes = st.fi.scopes := by simp [fixEndPC]
@[simp] theorem st_fixEndPC_usedRegs (st : CgState) (name : String) (d : Int) :
    (st.fixEndPC name d).fi.usedRegs = st.fi.usedRegs := by simp [fixEndPC]
@[simp] theorem st_fixEndPC_maxRegs (st : CgState) (name : String) (d : Int) :
    (st.fixEndPC name d).fi.maxRegs = st.fi.maxRegs := by simp [fixEndPC]

@[simp] theorem addLocalVariable_trace (st : CgState) (name : String) (p : Int) :
    (st.addLocalVariable name p).1.trace = st.trace := rfl
@[simp] theorem addLocalVariable_insts (st : CgState) (name : String) (p : Int) :
    (st.addLocalVariable name p).1.fi.insts = st.fi.insts := rfl
@[simp] theorem addLocalVariable_pc (st : CgState) (name : String) (p : Int) :
    (st.addLocalVariable name p).1.fi.pc = st.fi.pc := rfl
@[simp] theorem addLocalVariable_usedRegs (st : CgState) (name : String) (p : Int) :
    (st.addLocalVariable name p).1.fi.usedRegs = st.fi.usedRegs + 1 := rfl
@[simp] theorem addLocalVariable_snd (st : CgState) (name : String) (p : Int) :
    (st.addLocalVariable name p).2 = st.fi.usedRegs := rfl
@[simp] theorem addLocalVariable_localVars (st : CgState) (name : String) (p : Int) :
    (st.addLocalVariable name p).1.fi.localVars =
      st.fi.localVars ++ [{ name := name, slot := st.fi.usedRegs, startPC := p, endPC := 0 }] :=
  rfl
theorem addLocalVariable_scopes_cons (st : CgState) (name : String) (p : Int) (f : Scope)
    (rest : List Scope) (h : st.fi.scopes = f :: rest) :
    (st.addLocalVariable name p).1.fi.scopes =
      { f with locals := st.fi.localVars.length :: f.locals } :: rest := by
  simp [addLocalVariable, FuncInfo.addLocalVariable, h]
theorem addLocalVariable_scopes_nil (st : CgState) (name : String) (p : Int)
    (h : st.fi.scopes = []) : (st.addLocalVariable name p).1.fi.scopes = [] := by
  simp [addLocalVariable, FuncInfo.addLocalVariable, h]
@[simp] theorem addLocalVariable_scopes_length (st : CgState) (name : String) (p : Int) :
    (st.addLocalVariable name p).1.fi.scopes.length = st.fi.scopes.length := by
  cases h : st.fi.scopes with
  | nil => simp [addLocalVariable_scopes_nil _ _ _ h]
  | cons f rest => simp [addLocalVariable_scopes_cons _ _ _ f rest h]

@[simp] theorem cgExp_fi (E : Collaborators) (st : CgState) (e : Expression) (a n : Int) :
    (st.cgExp E e a n).fi = E.cgExp st.fi e a n := rfl
@[simp] theorem cgExp_trace (E : Collaborators) (st : CgState) (e : Expression) (a n : Int) :
    (st.cgExp E e a n).trace = st.trace ++ [⟨st.fi, .cgExp e a n⟩] := rfl
@[simp] theorem cgFuncCallExp_fi (E : Collaborators) (st : CgState) (c : Nat) (a n : Int) :
    (st.cgFuncCallExp E c a n).fi = E.cgFuncCallExp st.fi c a n := rfl
@[simp] theorem cgFuncCallExp_trace (E : Collaborators) (st : CgState) (c : Nat) (a n : Int) :
    (st.cgFuncCallExp E c a n).trace = st.trace ++ [⟨st.fi, .cgFuncCallExp c a n⟩] := rfl
@[simp] theorem cgFuncDefExp_fi (E : Collaborators) (st : CgState) (c : Nat) (a : Int) :
    (st.cgFuncDefExp E c a).fi = E.cgFuncDefExp st.fi c a := rfl
@[simp] theorem cgFuncDefExp_trace (E : Collaborators) (st : CgState) (c : Nat) (a : Int) :
    (st.cgFuncDefExp E c a).trace = st.trace ++ [⟨st.fi, .cgFuncDefExp c a⟩] := rfl
@[simp] theorem expToOpArg_fi (E : Collaborators) (st : CgState) (e : Expression) (k : Int) :
    (st.expToOpArg E e k).1.fi = (E.expToOpArg st.fi e k).1 := rfl
@[simp] theorem expToOpArg_trace (E : Collaborators) (st : CgState) (e : Expression) (k : Int) :
    (st.expToOpArg E e k).1.trace = st.trace ++ [⟨st.fi, .expToOpArg e k⟩] := rfl

end CgState

namespace Collaborators.Lawful

variable {E : Collaborators} (hE : E.Lawful)
include hE

theorem cgExp_scopes (fi : FuncInfo) (e : Expression) (a n : Int) :
    (E.cgExp fi e a n).scopes = fi.scopes := (hE.cgExp fi e a n).1.1
theorem cgExp_localVars (fi : FuncInfo) (e : Expression) (a n : Int) :
    (E.cgExp fi e a n).localVars = fi.localVars := (hE.cgExp fi e a n).1.2.1
theorem cgExp_usedRegs (fi : FuncInfo) (e : Expression) (a n : Int) :
    (E.cgExp fi e a n).usedRegs = fi.usedRegs := (hE.cgExp fi e a n).2
theorem cgFuncCallExp_scopes (fi : FuncInfo) (c : Nat) (a n : Int) :
    (E.cgFuncCallExp fi c a n).scopes = fi.scopes := (hE.cgFuncCallExp fi c a n).1.1
theorem cgFuncCallExp_localVars (fi : FuncInfo) (c : Nat) (a n : Int) :
    (E.cgFuncCallExp fi c a n).localVars = fi.localVars := (hE.cgFuncCallExp fi c a n).1.2.1
theorem cgFuncCallExp_usedRegs (fi : FuncInfo) (c : Nat) (a n : Int) :
    (E.cgFuncCallExp fi c a n).usedRegs = fi.usedRegs := (hE.cgFuncCallExp fi c a n).2
theorem cgFuncDefExp_scopes (fi : FuncInfo) (c : Nat) (a : Int) :
    (E.cgFuncDefExp fi c a).scopes = fi.scopes := (hE.cgFuncDefExp fi c a).1.1
theorem cgFuncDefExp_localVars (fi : FuncInfo) (c : Nat) (a : Int) :
    (E.cgFuncDefExp fi c a).localVars = fi.localVars := (hE.cgFuncDefExp fi c a).1.2.1
theorem cgFuncDefExp_usedRegs (fi : FuncInfo) (c : Nat) (a : Int) :
    (E.cgFuncDefExp fi c a).usedRegs = fi.usedRegs := (hE.cgFuncDefExp fi c a).2
theorem expToOpArg_scopes (fi : FuncInfo) (e : Expression) (k : Int) :
    (E.expToOpArg fi e k).1.scopes = fi.scopes := (hE.expToOpArg fi e k).1
theorem expToOpArg_localVars (fi : FuncInfo) (e : Expression) (k : Int) :
    (E.expToOpArg fi e k).1.localVars = fi.localVars := (hE.expToOpArg fi e k).2.1

end Collaborators.Lawful

/-! ### Frames -/

theorem LowerFrames.cons_iff {brk : Nat → List Int} {f f' : Scope} {rest rest' : List Scope} :
    LowerFrames brk (f :: rest) (f' :: rest') ↔
      (f'.breakable = f.breakable ∧ f'.locals = f.locals ∧
        f'.breaks = f.breaks ++ brk rest.length ∧ LowerFrames brk rest rest') := Iff.rfl

theorem LowerFrames.length_eq {brk : Nat → List Int} :
    ∀ {sc sc' : List Scope}, LowerFrames brk sc sc' → sc'.length = sc.length
  | [], [], _ => rfl
  | [], _ :: _, h => by simp [LowerFrames] at h
  | _ :: _, [], h => by simp [LowerFrames] at h
  | _ :: rest, _ :: rest', h => by
    simp only [LowerFrames] at h
    simp [LowerFrames.length_eq h.2.2.2]

theorem LowerFrames.congr {brk brk' : Nat → List Int} :
    ∀ {sc sc' : List Scope}, (∀ h, h < sc.length → brk h = brk' h) →
      LowerFrames brk sc sc' → LowerFrames brk' sc sc'
  | [], [], _, _ => by simp [LowerFrames]
  | [], _ :: _, _, h => by simp [LowerFrames] at h
  | _ :: _, [], _, h => by simp [LowerFrames] at h
  | f :: rest, f' :: rest', hb, h => by
    simp only [LowerFrames] at h ⊢
    refine ⟨h.1, h.2.1, ?_, LowerFrames.congr (fun k hk => hb k (by simp; omega)) h.2.2.2⟩
    rw [← hb rest.length (by simp)]
    exact h.2.2.1

theorem LowerFrames.lrefl {brk : Nat → List Int} :
    ∀ (sc : List Scope), (∀ h, h < sc.length → brk h = []) → LowerFrames brk sc sc
  | [], _ => by simp [LowerFrames]
  | f :: rest, hb => by
    rw [LowerFrames.cons_iff]
    refine ⟨rfl, rfl, ?_, LowerFrames.lrefl rest (fun k hk => hb k (by simp; omega))⟩
    rw [hb rest.length (by simp)]
    simp

theorem LowerFrames.ltrans {b1 b2 : Nat → List Int} :
    ∀ {sc sc1 sc2 : List Scope}, LowerFrames b1 sc sc1 → LowerFrames b2 sc1 sc2 →
      LowerFrames (fun h => b1 h ++ b2 h) sc sc2
  | [], [], [], _, _ => by simp [LowerFrames]
  | [], [], _ :: _, _, h => by simp [LowerFrames] at h
  | [], _ :: _, _, h, _ => by simp [LowerFrames] at h
  | _ :: _, [], _, h, _ => by simp [LowerFrames] at h
  | _ :: _, _ :: _, [], _, h => by simp [LowerFrames] at h
  | f :: rest, f1 :: rest1, f2 :: rest2, h1, h2 => by
    simp only [LowerFrames] at h1 h2 ⊢
    have hl := LowerFrames.length_eq h1.2.2.2
    refine ⟨by rw [h2.1, h1.1], by rw [h2.2.1, h1.2.1], ?_, LowerFrames.ltrans h1.2.2.2 h2.2.2.2⟩
    rw [h2.2.2.1, h1.2.2.1, hl, List.append_assoc]

theorem breakLevel_lt : ∀ {sc : List Scope} {h : Nat}, breakLevel sc = some h → h < sc.length
  | [], _, hb => by simp [breakLevel] at hb
  | f :: rest, h, hb => by
    simp only [breakLevel] at hb
    split at hb
    · simp at hb
      simp
      omega
    · have := breakLevel_lt hb
      simp
      omega

theorem addBreak_lower (pc : Int) :
    ∀ (sc : List Scope),
      LowerFrames (fun h => if breakLevel sc = some h then [pc] else []) sc
        (FuncInfo.addBreak pc sc)
  | [] => by simp [FuncInfo.addBreak, LowerFrames]
  | f :: rest => by
    by_cases hf : f.breakable = true
    · rw [FuncInfo.addBreak, if_pos hf, LowerFrames.cons_iff]
      refine ⟨rfl, rfl, by simp [breakLevel, hf], LowerFrames.lrefl rest ?_⟩
      intro h hh
      have : rest.length ≠ h := by omega
      simp [breakLevel, hf, this]
    · rw [FuncInfo.addBreak, if_neg hf, LowerFrames.cons_iff]
      have hne : breakLevel rest ≠ some rest.length := by
        intro hc
        have := breakLevel_lt hc
        omega
      refine ⟨rfl, rfl, by simp [breakLevel, hf, hne], ?_⟩
      have := addBreak_lower pc rest
      simpa [breakLevel, hf] using this

theorem lowered_iff (st st' : CgState) : Lowered st st' ↔ LoweredAt st.fi.scopes.length st st' :=
  Iff.rfl

theorem Frames.of_lower {new : List Event} {st st' : CgState}
    (h : LowerFrames (fun h => evBreaks h new) st.fi.scopes st'.fi.scopes)
    (hr : st'.fi.usedRegs = st.fi.usedRegs) : Frames new [] st st' := by
  cases hs : st.fi.scopes with
  | nil =>
    cases hs' : st'.fi.scopes with
    | nil => exact Or.inl ⟨hs, hs'⟩
    | cons f' rest' => rw [hs, hs'] at h; simp [LowerFrames] at h
  | cons f rest =>
    cases hs' : st'.fi.scopes with
    | nil => rw [hs, hs'] at h; simp [LowerFrames] at h
    | cons f' rest' =>
      rw [hs, hs', LowerFrames.cons_iff] at h
      exact Or.inr ⟨f, rest, f', rest', hs, hs', h.1, h.2.2.1, by simp [h.2.1], by simp [hr],
        by simp, h.2.2.2⟩

theorem Frames.fdepth {new : List Event} {added : List Nat} {st st' : CgState}
    (h : Frames new added st st') : st'.fi.scopes.length = st.fi.scopes.length := by
  rcases h with ⟨h1, h2⟩ | ⟨f, rest, f', rest', h1, h2, _, _, _, _, _, h3⟩
  · simp [h1, h2]
  · simp [h1, h2, LowerFrames.length_eq h3]

theorem Frames.ftrans {n1 n2 : List Event} {a1 a2 : List Nat} {st st1 st2 : CgState}
    (h1 : Frames n1 a1 st st1) (h2 : Frames n2 a2 st1 st2)
    (hv : ∃ ext, st2.fi.localVars.map LocVarInfo.key = st1.fi.localVars.map LocVarInfo.key ++ ext) :
    Frames (n1 ++ n2) (a2 ++ a1) st st2 := by
  rcases h1 with ⟨e1, e2⟩ | ⟨f, rest, f1, rest1, hs, hs1, hb, hbr, hl, hu, hsl, hlow⟩
  · rcases h2 with ⟨_, e4⟩ | ⟨f, rest, _, _, e3, _⟩
    · exact Or.inl ⟨e1, e4⟩
    · rw [e2] at e3
      cases e3
  · rcases h2 with ⟨e3, _⟩ | ⟨g, rest1', f2, rest2, hs1', hs2, hb2, hbr2, hl2, hu2, hsl2, hlow2⟩
    · rw [hs1] at e3
      cases e3
    · rw [hs1] at hs1'
      cases hs1'
      have hlen := LowerFrames.length_eq hlow
      refine Or.inr ⟨f, rest, f2, rest2, hs, hs2, by rw [hb2, hb], ?_, by simp [hl2, hl], ?_, ?_, ?_⟩
      · rw [hbr2, hbr, hlen, evBreaks_append, List.append_assoc]
      · simp [hu2, hu]
        omega
      · intro i hi
        rcases List.mem_append.1 hi with hi | hi
        · obtain ⟨v, hv1, hv2⟩ := hsl2 i hi
          exact ⟨v, hv1, by omega⟩
        · obtain ⟨v, hv1, hv2⟩ := hsl i hi
          obtain ⟨ext, hext⟩ := hv
          have hk : (st1.fi.localVars[i]?).map LocVarInfo.key = some v.key := by simp [hv1]
          have := grow_getElem?_some hext hk
          cases hv' : st2.fi.localVars[i]? with
          | none => simp [hv'] at this
          | some v' =>
            simp only [hv', Option.map_some', Option.some.injEq] at this
            refine ⟨v', rfl, ?_⟩
            have : v'.slot = v.slot := congrArg Prod.snd this
            omega
      · exact (LowerFrames.ltrans hlow hlow2).congr (fun h _ => (evBreaks_append h n1 n2).symm)

theorem LoweredAt.refl (d : Nat) (st : CgState) : LoweredAt d st st :=
  ⟨[], [], Step.srefl d st, Frames.of_lower (LowerFrames.lrefl _ (by simp)) rfl⟩

theorem LoweredAt.trans {d : Nat} {st st1 st2 : CgState} (h1 : LoweredAt d st st1)
    (h2 : LoweredAt d st1 st2) : LoweredAt d st st2 := by
  obtain ⟨n1, a1, s1, f1⟩ := h1
  obtain ⟨n2, a2, s2, f2⟩ := h2
  exact ⟨n1 ++ n2, a2 ++ a1, s1.strans s2, f1.ftrans f2 s2.vars⟩

theorem LoweredAt.weaken {d d' : Nat} {st st' : CgState} (h : LoweredAt d st st') (hd : d' ≤ d) :
    LoweredAt d' st st' := by
  obtain ⟨n, a, s, f⟩ := h
  exact ⟨n, a, s.sweaken hd, f⟩

theorem LoweredAt.depth {d : Nat} {st st' : CgState} (h : LoweredAt d st st') :
    st'.fi.scopes.length = st.fi.scopes.length := by
  obtain ⟨n, a, _, f⟩ := h
  exact f.fdepth

theorem Lowered.seq {st st1 st2 : CgState} (h1 : Lowered st st1) (h2 : Lowered st1 st2) :
    Lowered st st2 := by
  have hd := LoweredAt.depth h1
  unfold Lowered at h2
  rw [hd] at h2
  exact LoweredAt.trans h1 h2

theorem Quiet.qrefl (d : Nat) (st : CgState) : Quiet d st st :=
  ⟨[], Step.srefl d st, fun _ => rfl, rfl⟩

theorem Quiet.qtrans {d : Nat} {st st1 st2 : CgState} (h1 : Quiet d st st1) (h2 : Quiet d st1 st2) :
    Quiet d st st2 := by
  obtain ⟨n1, s1, b1, c1⟩ := h1
  obtain ⟨n2, s2, b2, c2⟩ := h2
  exact ⟨n1 ++ n2, s1.strans s2, fun h => by simp [evBreaks_append, b1, b2], by rw [c2, c1]⟩

theorem Quiet.loweredAt {d : Nat} {st st' : CgState} (h : Quiet d st st')
    (hr : st'.fi.usedRegs = st.fi.usedRegs) : LoweredAt d st st' := by
  obtain ⟨n, s, b, c⟩ := h
  refine ⟨n, [], s, Frames.of_lower ?_ hr⟩
  rw [c]
  exact LowerFrames.lrefl _ (fun h _ => b h)

theorem Quiet.emit {d : Nat} (st : CgState) (ins : Instruction)
    (hd : d ≤ st.fi.scopes.length) (hl : ins.isLoopOp = true → d < st.fi.scopes.length) :
    Quiet d st (st.emit ins).1 :=
  ⟨_, Step.semit st ins hd hl, fun _ => rfl, rfl⟩

theorem Quiet.onFi (d : Nat) (st : CgState) (f : FuncInfo → FuncInfo)
    (hi : (f st.fi).insts.map Instruction.erase = st.fi.insts.map Instruction.erase)
    (hv : ∃ ext, (f st.fi).localVars.map LocVarInfo.key
      = st.fi.localVars.map LocVarInfo.key ++ ext)
    (hs : (f st.fi).scopes = st.fi.scopes) : Quiet d st (st.onFi f) :=
  ⟨[], Step.sOnFi d st f hi hv, fun _ => rfl, hs⟩

theorem Quiet.allocReg (d : Nat) (st : CgState) : Quiet d st st.allocReg.1 :=
  Quiet.onFi d st (fun fi => fi.allocReg.1) rfl ⟨[], by simp [FuncInfo.allocReg]⟩ rfl

theorem Quiet.allocRegs (d : Nat) (st : CgState) (n : Int) : Quiet d st (st.allocRegs n).1 :=
  Quiet.onFi d st (fun fi => (fi.allocRegs n).1) rfl ⟨[], by simp [FuncInfo.allocRegs]⟩ rfl

theorem Quiet.freeReg (d : Nat) (st : CgState) : Quiet d st st.freeReg :=
  Quiet.onFi d st FuncInfo.freeReg rfl ⟨[], by simp [FuncInfo.freeReg]⟩ rfl

theorem Quiet.setUsedRegs (d : Nat) (st : CgState) (r : Int) : Quiet d st (st.setUsedRegs r) :=
  Quiet.onFi d st (fun fi => { fi with usedRegs := r }) rfl ⟨[], by simp⟩ rfl

theorem Quiet.fixSbx (d : Nat) (st : CgState) (pc s : Int) : Quiet d st (st.fixSbx pc s) :=
  Quiet.onFi d st (fun fi => fi.fixSbx pc s) (FuncInfo.fixSbx_insts_erase _ _ _) ⟨[], by simp⟩
    (by simp)

theorem Quiet.fixEndPC (d : Nat) (st : CgState) (name : String) (delta : Int) :
    Quiet d st (st.fixEndPC name delta) :=
  Quiet.onFi d st (fun fi => fi.fixEndPC name delta) (by simp)
    ⟨[], by simp [FuncInfo.fixEndPC_key]⟩ (by simp)

theorem Quiet.cgExp {E : Collaborators} (hE : E.Lawful) {d : Nat} (st : CgState)
    (e : Expression) (a n : Int) (hd : d ≤ st.fi.scopes.length) :
    Quiet d st (st.cgExp E e a n) :=
  ⟨_, Step.call st _ _ rfl (hE.cgExp _ _ _ _).1 hd (by simp) (by simp), fun _ => rfl,
    hE.cgExp_scopes _ _ _ _⟩

theorem Quiet.cgFuncCallExp {E : Collaborators} (hE : E.Lawful) {d : Nat} (st : CgState)
    (c : Nat) (a n : Int) (hd : d ≤ st.fi.scopes.length) :
    Quiet d st (st.cgFuncCallExp E c a n) :=
  ⟨_, Step.call st _ _ rfl (hE.cgFuncCallExp _ _ _ _).1 hd (by simp) (by simp), fun _ => rfl,
    hE.cgFuncCallExp_scopes _ _ _ _⟩

theorem Quiet.cgFuncDefExp {E : Collaborators} (hE : E.Lawful) {d : Nat} (st : CgState)
    (c : Nat) (a : Int) (hd : d ≤ st.fi.scopes.length) :
    Quiet d st (st.cgFuncDefExp E c a) :=
  ⟨_, Step.call st _ _ rfl (hE.cgFuncDefExp _ _ _).1 hd (by simp) (by simp), fun _ => rfl,
    hE.cgFuncDefExp_scopes _ _ _⟩

theorem Quiet.expToOpArg {E : Collaborators} (hE : E.Lawful) {d : Nat} (st : CgState)
    (e : Expression) (k : Int) (hd : d ≤ st.fi.scopes.length) :
    Quiet d st (st.expToOpArg E e k).1 :=
  ⟨_, Step.call st _ _ rfl (hE.expToOpArg _ _ _) hd (by simp) (by simp), fun _ => rfl,
    hE.expToOpArg_scopes _ _ _⟩

theorem Quiet.closeOpenUpvals {d : Nat} (E : Collaborators) (st : CgState) (line : Int)
    (hd : d ≤ st.fi.scopes.length) : Quiet d st (st.closeOpenUpvals E line) := by
  unfold CgState.closeOpenUpvals
  split
  · exact Quiet.emit st _ hd (by simp [Instruction.isLoopOp])
  · exact Quiet.qrefl d st

theorem Quiet.scopes {d : Nat} {st st' : CgState} (h : Quiet d st st') :
    st'.fi.scopes = st.fi.scopes := by
  obtain ⟨_, _, _, h3⟩ := h
  exact h3

theorem NeutralAt.toLoweredAt {d : Nat} {st st' : CgState} (h : NeutralAt d st st') :
    LoweredAt d st st' := by
  obtain ⟨⟨new, h1, h2⟩, _⟩ := h
  exact ⟨new, [], h1, h2⟩

theorem Neutral.lowered {st st' : CgState} (h : Neutral st st') : Lowered st st' :=
  NeutralAt.toLoweredAt h

theorem NeutralAt.ndepth {d : Nat} {st st' : CgState} (h : NeutralAt d st st') :
    st'.fi.scopes.length = st.fi.scopes.length := h.toLoweredAt.depth

theorem NeutralAt.ntrans {d : Nat} {st st1 st2 : CgState} (h1 : NeutralAt d st st1)
    (h2 : NeutralAt d st1 st2) : NeutralAt d st st2 := by
  obtain ⟨⟨n1, s1, f1⟩, r1⟩ := h1
  obtain ⟨⟨n2, s2, f2⟩, r2⟩ := h2
  exact ⟨⟨n1 ++ n2, s1.strans s2, f1.ftrans f2 s2.vars⟩, by rw [r2, r1]⟩

theorem NeutralAt.nweaken {d d' : Nat} {st st' : CgState} (h : NeutralAt d st st') (hd : d' ≤ d) :
    NeutralAt d' st st' := by
  obtain ⟨⟨n, s, f⟩, r⟩ := h
  exact ⟨⟨n, s.sweaken hd, f⟩, r⟩

theorem Quiet.neutralAt {d : Nat} {st st' : CgState} (h : Quiet d st st')
    (hr : st'.fi.usedRegs = st.fi.usedRegs) : NeutralAt d st st' := by
  obtain ⟨n, s, b, c⟩ := h
  refine ⟨⟨n, s, Frames.of_lower ?_ hr⟩, hr⟩
  rw [c]
  exact LowerFrames.lrefl _ (fun h _ => b h)

theorem Quiet.depth_le {d : Nat} {st st' : CgState} (h : Quiet d st st')
    (hd : d ≤ st.fi.scopes.length) : d ≤ st'.fi.scopes.length := by
  rw [h.scopes]
  exact hd

/-- Entering a scope, lowering inside it and leaving it is neutral: the
locals declared inside give their registers back. -/
theorem bracket {d : Nat} (st sx : CgState) (b : Bool) (e : Int)
    (h : LoweredAt d (st.enterScope b) sx) : NeutralAt d st (sx.exitScope e) := by
  obtain ⟨new, added, hS, hF⟩ := h
  have s1 : Step d [] st (st.enterScope b) :=
    Step.sOnFi d st (fun fi => fi.enterScope b) rfl ⟨[], by simp [FuncInfo.enterScope]⟩
  have s3 : Step d [] sx (sx.exitScope e) :=
    Step.sOnFi d sx (fun fi => fi.exitScope e) (FuncInfo.exitScope_insts_erase _ _)
      ⟨[], by simp [FuncInfo.exitScope_key]⟩
  have hS' : Step d new st (sx.exitScope e) := by
    have := (s1.strans hS).strans s3
    simpa using this
  rcases hF with ⟨h1, _⟩ | ⟨f, rest, f', rest', h1, h2, _, _, hl, hu, _, hlow⟩
  · simp at h1
  · simp only [CgState.enterScope_scopes, List.cons.injEq] at h1
    obtain ⟨hf, hrest⟩ := h1
    subst hrest
    have hsc : (sx.exitScope e).fi.scopes = rest' := by simp [h2]
    have hur : (sx.exitScope e).fi.usedRegs = st.fi.usedRegs := by
      have := FuncInfo.exitScope_usedRegs sx.fi e f' rest' h2
      simp only [CgState.exitScope, CgState.onFi_fi, this, hu, hl, ← hf]
      simp
    refine ⟨⟨new, hS', Frames.of_lower ?_ hur⟩, hur⟩
    rw [hsc]
    exact hlow

/-! ### The statements without a block -/

theorem cgFuncCallStat_neutral {E : Collaborators} (hE : E.Lawful) (st : CgState) (call : Nat) :
    Neutral st (cgFuncCallStat E st call) := by
  have q1 := Quiet.allocReg st.fi.scopes.length st
  have q2 := Quiet.cgFuncCallExp hE st.allocReg.1 call st.allocReg.2 0
    (d := st.fi.scopes.length) (by simp)
  have q3 := Quiet.freeReg st.fi.scopes.length (st.allocReg.1.cgFuncCallExp E call st.allocReg.2 0)
  refine ((q1.qtrans q2).qtrans q3).neutralAt ?_
  simp [cgFuncCallStat, hE.cgFuncCallExp_usedRegs]

theorem cgBreakStat_neutral (st : CgState) (line : Int) : Neutral st (cgBreakStat st line) := by
  have s : Step st.fi.scopes.length
      [⟨st.fi, .emit (.jmp line 0 0)⟩,
       ⟨(st.emit (.jmp line 0 0)).1.fi, .breakJmp st.fi.insts.length⟩]
      st (cgBreakStat st line) := by
    refine ⟨by simp [cgBreakStat, CgState.addBreakJmp],
      ⟨[Instruction.erase (.jmp line 0 0)],
        by simp [cgBreakStat, CgState.addBreakJmp, FuncInfo.addBreakJmp]⟩,
      ⟨[], by simp [cgBreakStat, CgState.addBreakJmp, FuncInfo.addBreakJmp]⟩, ?_⟩
    intro ev hev
    simp only [List.mem_cons, List.mem_singleton, List.not_mem_nil, or_false] at hev
    rcases hev with hev | hev
    · subst hev
      refine ⟨le_refl _, le_refl _,
        by simp [cgBreakStat, CgState.addBreakJmp, FuncInfo.addBreakJmp], ?_, by simp⟩
      intro ins hi
      simp only [Action.emit.injEq] at hi
      subst hi
      exact ⟨by simp [cgBreakStat, CgState.addBreakJmp, FuncInfo.addBreakJmp],
        by simp [Instruction.isLoopOp]⟩
    · subst hev
      refine ⟨by simp, by simp, by simp [cgBreakStat, CgState.addBreakJmp, FuncInfo.addBreakJmp],
        by simp, ?_⟩
      intro pc hp
      simp only [Action.breakJmp.injEq] at hp
      subst hp
      exact ⟨st.fi.insts.length, rfl, le_refl _, line,
        by simp [cgBreakStat, CgState.addBreakJmp, FuncInfo.addBreakJmp, Instruction.erase,
          Instruction.setSBx]⟩
  refine ⟨⟨_, s, Frames.of_lower ?_ rfl⟩, rfl⟩
  have := addBreak_lower (st.fi.insts.length : Int) st.fi.scopes
  refine this.congr ?_
  intro h _
  by_cases hb : breakLevel st.fi.scopes = some h <;>
    simp [evBreaks, Event.breakAt, List.filterMap_cons, hb]

theorem addLocalVariable_loweredAt (d : Nat) (st : CgState) (name : String) (p : Int) :
    LoweredAt d st (st.addLocalVariable name p).1 := by
  refine ⟨[], [st.fi.localVars.length],
    Step.sOnFi d st (fun fi => (fi.addLocalVariable name p).1) rfl
      ⟨[(name, st.fi.usedRegs)], by simp [FuncInfo.addLocalVariable, LocVarInfo.key]⟩, ?_⟩
  cases hs : st.fi.scopes with
  | nil => exact Or.inl ⟨hs, CgState.addLocalVariable_scopes_nil _ _ _ hs⟩
  | cons f rest =>
    refine Or.inr ⟨f, rest, _, rest, hs, CgState.addLocalVariable_scopes_cons _ _ _ f rest hs,
      rfl, by simp, by simp, by simp, ?_, LowerFrames.lrefl _ (by simp)⟩
    intro i hi
    simp only [List.mem_singleton] at hi
    subst hi
    exact ⟨{ name := name, slot := st.fi.usedRegs, startPC := p, endPC := 0 }, by simp,
      le_refl _⟩

theorem cgLocalFuncDefStat_lowered {E : Collaborators} (hE : E.Lawful) (st : CgState)
    (name : String) (expression : Nat) : Lowered st (cgLocalFuncDefStat E st name expression) := by
  have l1 := addLocalVariable_loweredAt st.fi.scopes.length st name (st.fi.pc + 2)
  have q2 := Quiet.cgFuncDefExp hE (st.addLocalVariable name (st.fi.pc + 2)).1 expression
    (st.addLocalVariable name (st.fi.pc + 2)).2 (d := st.fi.scopes.length) (by simp)
  exact l1.trans (q2.loweredAt (by simp [hE.cgFuncDefExp_usedRegs]))

theorem quiet_cgExpsEqual {E : Collaborators} (hE : E.Lawful) {d : Nat} :
    ∀ (exps : List Expression) (st : CgState), d ≤ st.fi.scopes.length →
      Quiet d st (cgExpsEqual E st exps)
  | [], st, _ => Quiet.qrefl d st
  | exp :: rest, st, hd => by
    have q1 := Quiet.allocReg d st
    have q2 := Quiet.cgExp hE st.allocReg.1 exp st.allocReg.2 1 (d := d) (by simpa using hd)
    have q3 := quiet_cgExpsEqual hE rest (st.allocReg.1.cgExp E exp st.allocReg.2 1)
      ((q1.qtrans q2).depth_le hd)
    exact (q1.qtrans q2).qtrans q3

theorem quiet_cgExpsMore {E : Collaborators} (hE : E.Lawful) {d : Nat} (nExps : Int) :
    ∀ (exps : List Expression) (st : CgState) (i : Nat), d ≤ st.fi.scopes.length →
      Quiet d st (cgExpsMore E nExps st i exps)
  | [], st, _, _ => Quiet.qrefl d st
  | exp :: rest, st, i, hd => by
    have q1 := Quiet.allocReg d st
    rw [cgExpsMore]
    split
    · have q2 := Quiet.cgExp hE st.allocReg.1 exp st.allocReg.2 0 (d := d) (by simpa using hd)
      exact (q1.qtrans q2).qtrans (quiet_cgExpsMore hE nExps rest _ _ ((q1.qtrans q2).depth_le hd))
    · have q2 := Quiet.cgExp hE st.allocReg.1 exp st.allocReg.2 1 (d := d) (by simpa using hd)
      exact (q1.qtrans q2).qtrans (quiet_cgExpsMore hE nExps rest _ _ ((q1.qtrans q2).depth_le hd))

theorem quiet_cgExpsFewer {E : Collaborators} (hE : E.Lawful) {d : Nat} (nNames nExps : Int) :
    ∀ (exps : List Expression) (st : CgState) (m : Bool) (i : Nat), d ≤ st.fi.scopes.length →
      Quiet d st (cgExpsFewer E nNames nExps st m i exps).1
  | [], st, _, _, _ => Quiet.qrefl d st
  | exp :: rest, st, m, i, hd => by
    have q1 := Quiet.allocReg d st
    rw [cgExpsFewer]
    split
    · have q2 := Quiet.cgExp hE st.allocReg.1 exp st.allocReg.2 (nNames - nExps + 1) (d := d)
        (by simpa using hd)
      have q3 := Quiet.allocRegs d (st.allocReg.1.cgExp E exp st.allocReg.2 (nNames - nExps + 1))
        (nNames - nExps + 1 - 1)
      exact ((q1.qtrans q2).qtrans q3).qtrans
        (quiet_cgExpsFewer hE nNames nExps rest _ _ _ (((q1.qtrans q2).qtrans q3).depth_le hd))
    · have q2 := Quiet.cgExp hE st.allocReg.1 exp st.allocReg.2 1 (d := d) (by simpa using hd)
      exact (q1.qtrans q2).qtrans
        (quiet_cgExpsFewer hE nNames nExps rest _ _ _ ((q1.qtrans q2).depth_le hd))

theorem quiet_cgExpsFill {E : Collaborators} (hE : E.Lawful) {d : Nat} (st : CgState)
    (lastLine nNames nExps : Int) (exps : List Expression) (hd : d ≤ st.fi.scopes.length) :
    Quiet d st (cgExpsFill E st lastLine nNames nExps exps) := by
  have q1 := quiet_cgExpsFewer hE nNames nExps exps st false 0 hd
  simp only [cgExpsFill]
  split
  · have q2 := Quiet.allocRegs d (cgExpsFewer E nNames nExps st false 0 exps).1 (nNames - nExps)
    have q3 := Quiet.emit (d := d)
      ((cgExpsFewer E nNames nExps st false 0 exps).1.allocRegs (nNames - nExps)).1
      (.loadNil lastLine
        ((cgExpsFewer E nNames nExps st false 0 exps).1.allocRegs (nNames - nExps)).2
        (nNames - nExps))
      ((q1.qtrans q2).depth_le hd) (by simp [Instruction.isLoopOp])
    exact (q1.qtrans q2).qtrans q3
  · exact q1

theorem addLocalVariables_loweredAt (d : Nat) :
    ∀ (names : List String) (st : CgState) (p : Int),
      LoweredAt d st (addLocalVariables st p names)
  | [], st, _ => LoweredAt.refl d st
  | name :: rest, st, p =>
    (addLocalVariable_loweredAt d st name p).trans (addLocalVariables_loweredAt d rest _ p)

theorem cgLocalVarDeclStat_loweredAt {E : Collaborators} (hE : E.Lawful) {d : Nat} (st : CgState)
    (lastLine : Int) (nameList : List String) (expressionList : List Expression)
    (hd : d ≤ st.fi.scopes.length) :
    LoweredAt d st (cgLocalVarDeclStat E st lastLine nameList expressionList) := by
  unfold cgLocalVarDeclStat
  have q : Quiet d st
      (if ((removeTailNils expressionList).length : Int) = (nameList.length : Int) then
        cgExpsEqual E st (removeTailNils expressionList)
      else if ((removeTailNils expressionList).length : Int) > (nameList.length : Int) then
        cgExpsMore E (removeTailNils expressionList).length st 0 (removeTailNils expressionList)
      else cgExpsFill E st lastLine nameList.length (removeTailNils expressionList).length
        (removeTailNils expressionList)) := by
    split
    · exact quiet_cgExpsEqual hE _ _ hd
    · split
      · exact quiet_cgExpsMore hE _ _ _ _ hd
      · exact quiet_cgExpsFill hE _ _ _ _ _ hd
  have q2 := q.qtrans (Quiet.setUsedRegs d _ st.fi.usedRegs)
  exact (q2.loweredAt (by simp)).trans (addLocalVariables_loweredAt d _ _ _)

theorem quiet_cgAssignTargets {E : Collaborators} (hE : E.Lawful) {d : Nat} :
    ∀ (vars : List Expression) (st : CgState) (t k : List Int) (st' : CgState),
      d ≤ st.fi.scopes.length → (cgAssignTargets E st t k vars).1 = .done st' → Quiet d st st'
  | [], st, t, k, st', _, h => by
    simp only [cgAssignTargets, Outcome.done.injEq] at h
    subst h
    exact Quiet.qrefl d st
  | .TableAccessExpression l pe ke :: rest, st, t, k, st', hd, h => by
    rw [cgAssignTargets] at h
    have q1 := Quiet.allocReg d st
    have q2 := Quiet.cgExp hE st.allocReg.1 pe st.allocReg.2 1 (d := d) (by simpa using hd)
    have q3 := Quiet.allocReg d (st.allocReg.1.cgExp E pe st.allocReg.2 1)
    have q4 := Quiet.cgExp hE (st.allocReg.1.cgExp E pe st.allocReg.2 1).allocReg.1 ke
      (st.allocReg.1.cgExp E pe st.allocReg.2 1).allocReg.2 1 (d := d)
      (((q1.qtrans q2).qtrans q3).depth_le hd)
    have q := ((q1.qtrans q2).qtrans q3).qtrans q4
    exact q.qtrans (quiet_cgAssignTargets hE rest _ _ _ st' (q.depth_le hd) h)
  | .NameExpression l name :: rest, st, t, k, st', hd, h => by
    rw [cgAssignTargets] at h
    split at h
    · split at h
      · have q1 := Quiet.allocReg d st
        exact q1.qtrans (quiet_cgAssignTargets hE rest _ _ _ st' (q1.depth_le hd) h)
      · exact quiet_cgAssignTargets hE rest _ _ _ st' hd h
    · exact quiet_cgAssignTargets hE rest _ _ _ st' hd h
  | .NilExpression _ :: rest, st, t, k, st', hd, h => by simp [cgAssignTargets] at h
  | .VarargExpression _ :: rest, st, t, k, st', hd, h => by simp [cgAssignTargets] at h
  | .FunctionCallExpression _ :: rest, st, t, k, st', hd, h => by simp [cgAssignTargets] at h
  | .OtherExpression _ :: rest, st, t, k, st', hd, h => by simp [cgAssignTargets] at h

theorem quiet_cgAssignExps {E : Collaborators} (hE : E.Lawful) {d : Nat} (nVars nExps : Int) :
    ∀ (exps : List Expression) (st : CgState) (i : Nat), d ≤ st.fi.scopes.length →
      Quiet d st (cgAssignExps E nVars nExps st i exps)
  | [], st, _, _ => Quiet.qrefl d st
  | exp :: rest, st, i, hd => by
    have q1 := Quiet.allocReg d st
    rw [cgAssignExps]
    split
    · have q2 := Quiet.cgExp hE st.allocReg.1 exp st.allocReg.2 0 (d := d) (by simpa using hd)
      exact (q1.qtrans q2).qtrans (quiet_cgAssignExps hE nVars nExps rest _ _ ((q1.qtrans q2).depth_le hd))
    · have q2 := Quiet.cgExp hE st.allocReg.1 exp st.allocReg.2 1 (d := d) (by simpa using hd)
      exact (q1.qtrans q2).qtrans (quiet_cgAssignExps hE nVars nExps rest _ _ ((q1.qtrans q2).depth_le hd))

/-- One round of the store loop emits one instruction, which is not a loop
instruction. -/
theorem cgAssignStores_cons (E : Collaborators) (lastLine : Int) (tRegs kRegs vRegs : List Int)
    (exp : Expression) (rest : List Expression) (st : CgState) (i : Nat) :
    ∃ ins : Instruction,
      cgAssignStores E lastLine tRegs kRegs vRegs st i (exp :: rest) =
        cgAssignStores E lastLine tRegs kRegs vRegs (st.emit ins).1 (i + 1) rest ∧
      ins.isLoopOp = false := by
  cases exp <;>
    simp only [cgAssignStores, CgState.emitMove, CgState.emitSetUpval, CgState.emitSetTable,
      CgState.emitSetTabUp]
  case NameExpression l name =>
    split
    · exact ⟨_, rfl, rfl⟩
    · split
      · exact ⟨_, rfl, rfl⟩
      · split
        · split
          · exact ⟨_, rfl, rfl⟩
          · exact ⟨_, rfl, rfl⟩
        · split
          · exact ⟨_, rfl, rfl⟩
          · exact ⟨_, rfl, rfl⟩
  all_goals exact ⟨_, rfl, rfl⟩

theorem quiet_cgAssignStores {d : Nat} (E : Collaborators) (lastLine : Int)
    (tRegs kRegs vRegs : List Int) :
    ∀ (vars : List Expression) (st : CgState) (i : Nat), d ≤ st.fi.scopes.length →
      Quiet d st (cgAssignStores E lastLine tRegs kRegs vRegs st i vars)
  | [], st, _, _ => Quiet.qrefl d st
  | exp :: rest, st, i, hd => by
    obtain ⟨ins, he, hi⟩ := cgAssignStores_cons E lastLine tRegs kRegs vRegs exp rest st i
    rw [he]
    have q1 := Quiet.emit (d := d) st ins hd (by simp [hi])
    exact q1.qtrans (quiet_cgAssignStores E lastLine tRegs kRegs vRegs rest _ _ (q1.depth_le hd))

theorem Outcome.andThen_done {o : Outcome} {k : CgState → Outcome} {st' : CgState}
    (h : o.andThen k = .done st') : ∃ s1, o = .done s1 ∧ k s1 = .done st' := by
  cases o with
  | done s1 => exact ⟨s1, rfl, h⟩
  | panicked e s => simp [Outcome.andThen] at h

theorem cgAssignStat_neutral {E : Collaborators} (hE : E.Lawful) (st st' : CgState)
    (lastLine : Int) (variableList expressionList : List Expression)
    (h : cgAssignStat E st lastLine variableList expressionList = .done st') : Neutral st st' := by
  unfold cgAssignStat at h
  obtain ⟨s1, ht, h⟩ := Outcome.andThen_done h
  simp only [Outcome.done.injEq] at h
  subst h
  have q1 := quiet_cgAssignTargets hE variableList st [] [] s1 (le_refl _) ht
  have d1 := q1.depth_le (le_refl _)
  have q2 : Quiet st.fi.scopes.length s1
      (if ((removeTailNils expressionList).length : Int) ≥ (variableList.length : Int) then
        cgAssignExps E variableList.length (removeTailNils expressionList).length s1 0
          (removeTailNils expressionList)
      else cgExpsFill E s1 lastLine variableList.length (removeTailNils expressionList).length
        (removeTailNils expressionList)) := by
    split
    · exact quiet_cgAssignExps hE _ _ _ _ _ d1
    · exact quiet_cgExpsFill hE _ _ _ _ _ d1
  exact (((q1.qtrans q2).qtrans (quiet_cgAssignStores E _ _ _ _ _ _ _
    ((q1.qtrans q2).depth_le (le_refl _)))).qtrans (Quiet.setUsedRegs _ _ _)).neutralAt rfl

/-! ### The statements with blocks -/

namespace CgState

@[simp] theorem closeOpenUpvals_scopes (E : Collaborators) (st : CgState) (line : Int) :
    (st.closeOpenUpvals E line).fi.scopes = st.fi.scopes := by
  unfold closeOpenUpvals
  split <;> rfl

@[simp] theorem closeOpenUpvals_usedRegs (E : Collaborators) (st : CgState) (line : Int) :
    (st.closeOpenUpvals E line).fi.usedRegs = st.fi.usedRegs := by
  unfold closeOpenUpvals
  split <;> rfl

@[simp] theorem closeOpenUpvals_localVars (E : Collaborators) (st : CgState) (line : Int) :
    (st.closeOpenUpvals E line).fi.localVars = st.fi.localVars := by
  unfold closeOpenUpvals
  split <;> rfl

end CgState

theorem LoweredAt.quiet {d : Nat} {st s1 s2 : CgState} (h : LoweredAt d st s1)
    (q : Quiet d s1 s2) (hr : s2.fi.usedRegs = s1.fi.usedRegs) : LoweredAt d st s2 :=
  h.trans (q.loweredAt hr)

theorem LoweredAt.body {d : Nat} {st s1 s2 : CgState} (h : LoweredAt d st s1)
    (hd : d ≤ s1.fi.scopes.length) (hb : Lowered s1 s2) : LoweredAt d st s2 :=
  h.trans (LoweredAt.weaken hb hd)

theorem NeutralAt.nquiet {d : Nat} {st s1 s2 : CgState} (h : NeutralAt d st s1)
    (q : Quiet d s1 s2) (hr : s2.fi.usedRegs = s1.fi.usedRegs) : NeutralAt d st s2 :=
  h.ntrans (q.neutralAt hr)

theorem cgDoStat_neutral (E : Collaborators) (st st' : CgState) (block : LoweredBlock)
    (hb : block.Ok) (h : cgDoStat E st block = .done st') : Neutral st st' := by
  simp only [cgDoStat] at h
  cases hr : block.run (st.enterScope false) with
  | panicked e s => simp [hr, Outcome.andThen] at h
  | done s1 =>
    simp only [hr, Outcome.andThen, Outcome.done.injEq] at h
    subst h
    have l0 := LoweredAt.refl st.fi.scopes.length (st.enterScope false)
    have l1 := l0.body (by simp) (hb _ _ hr)
    have d1 : s1.fi.scopes.length = st.fi.scopes.length + 1 := by rw [l1.depth]; simp
    have l2 := l1.quiet (Quiet.closeOpenUpvals E s1 block.LastLine (by omega)) (by simp)
    exact bracket st _ false _ l2

theorem NeutralAt.nrefl (d : Nat) (st : CgState) : NeutralAt d st st :=
  (Quiet.qrefl d st).neutralAt rfl

theorem quiet_condTest {E : Collaborators} (hE : E.Lawful) {d : Nat} (st : CgState)
    (e : Expression) (k r l a c : Int) (hd : d ≤ st.fi.scopes.length) :
    Quiet d st (((st.expToOpArg E e k).1.setUsedRegs r).emit (.test l a c)).1 := by
  have q1 := Quiet.expToOpArg hE st e k hd
  have q2 := q1.qtrans (Quiet.setUsedRegs _ _ r)
  exact q2.qtrans (Quiet.emit _ _ (q2.depth_le hd) (by simp [Instruction.isLoopOp]))

/-! ### Loops: the break jumps of the loop's frame -/

theorem mem_evBreaks {h : Nat} {pc : Int} {evs : List Event} (hm : pc ∈ evBreaks h evs) :
    ∃ ev ∈ evs, ev.act = .breakJmp pc ∧ breakLevel ev.pre.scopes = some h := by
  simp only [evBreaks, List.mem_filterMap] at hm
  obtain ⟨ev, hev, hb⟩ := hm
  refine ⟨ev, hev, ?_⟩
  unfold Event.breakAt at hb
  split at hb
  · next p hp =>
    split at hb
    · next hl =>
      simp only [Option.some.injEq] at hb
      subst hb
      exact ⟨hp, hl⟩
    · simp at hb
  · simp at hb

theorem evBreaks_mem {h : Nat} {pc : Int} {evs : List Event} {ev : Event} (hev : ev ∈ evs)
    (ha : ev.act = .breakJmp pc) (hl : breakLevel ev.pre.scopes = some h) :
    pc ∈ evBreaks h evs := by
  simp only [evBreaks, List.mem_filterMap]
  exact ⟨ev, hev, by simp [Event.breakAt, ha, hl]⟩

/-- The frame a lowering routine opened, when it is about to leave it: its
flag is the one it was opened with, and the break jumps it has collected
are those logged for its height, each a jump emitted since. -/
theorem inner_frame {d : Nat} {new : List Event} {added : List Nat} {st sx : CgState} {b : Bool}
    (hS : Step d new (st.enterScope b) sx) (hF : Frames new added (st.enterScope b) sx) :
    ∃ f rest, sx.fi.scopes = f :: rest ∧ f.breakable = b ∧
      f.breaks = evBreaks st.fi.scopes.length new ∧
      ∀ pc ∈ f.breaks, ∃ k : Nat, pc = (k : Int) ∧ st.fi.insts.length ≤ k ∧
        ∃ l, (sx.fi.insts[k]?).map Instruction.erase = some (.jmp l 0 0) := by
  rcases hF with ⟨h1, _⟩ | ⟨f, rest, f', rest', h1, h2, hb, hbr, _, _, _, _⟩
  · simp at h1
  · simp only [CgState.enterScope_scopes, List.cons.injEq] at h1
    obtain ⟨hf, hrest⟩ := h1
    subst hrest
    subst hf
    simp only [List.nil_append] at hbr
    refine ⟨f', rest', h2, hb, hbr, ?_⟩
    intro pc hpc
    rw [hbr] at hpc
    obtain ⟨ev, hev, ha, _⟩ := mem_evBreaks hpc
    obtain ⟨_, _, _, _, h5⟩ := hS.events ev hev
    obtain ⟨k, hk, hn, l, hl⟩ := h5 pc ha
    exact ⟨k, hk, by simpa using hn, l, hl⟩

theorem loopShape_of {st sp sx st' : CgState} (post : CgState → CgState) (e : Int)
    (q : Quiet st.fi.scopes.length st sp) (hr : sp.fi.usedRegs = st.fi.usedRegs)
    (l : LoweredAt st.fi.scopes.length (sp.enterScope true) sx)
    (hst : st' = post (sx.exitScope e))
    (h1 : ∀ sy, (post sy).trace = sy.trace) (h2 : ∀ sy, (post sy).fi.scopes = sy.fi.scopes)
    (h3 : ∀ sy, (post sy).fi.usedRegs = sy.fi.usedRegs)
    (h4 : ∀ sy, (post sy).fi.localVars.map LocVarInfo.key = sy.fi.localVars.map LocVarInfo.key)
    (h5 : ∀ sy, (post sy).fi.insts.map Instruction.erase = sy.fi.insts.map Instruction.erase)
    (h6 : ∀ sy k, sp.fi.insts.length ≤ k → (post sy).fi.insts[k]? = sy.fi.insts[k]?) :
    LoopShape st st' := by
  obtain ⟨npre, s1, b1, c1⟩ := q
  obtain ⟨nin, added, s2, f2⟩ := l
  subst hst
  refine ⟨sp, sx, npre, nin, added, s1, b1, c1, hr, s2, f2, ?_, ?_, ?_, ?_, ?_, ?_⟩
  · rw [h1]
    rfl
  · rw [h2]
    simp
  · rw [h3]
    simp [CgState.exitScope, FuncInfo.exitScope_usedRegs_eq]
  · rw [h4]
    simp [CgState.exitScope, FuncInfo.exitScope_key]
  · rw [h5]
    simp [CgState.exitScope, FuncInfo.exitScope_insts_erase]
  · intro k hk
    rw [h6 _ k hk]
    simp [CgState.exitScope, FuncInfo.exitScope_insts_eq]

theorem LoopShape.neutral {st st' : CgState} (h : LoopShape st st') : Neutral st st' := by
  obtain ⟨sp, sx, npre, nin, added, s1, b1, c1, hr, s2, f2, h1, h2, h3, h4, h5, _⟩ := h
  have n1 : NeutralAt st.fi.scopes.length st sp := Quiet.neutralAt ⟨npre, s1, b1, c1⟩ hr
  have n2 := bracket sp sx true 0 ⟨nin, added, s2, f2⟩
  have q3 : Quiet st.fi.scopes.length (sx.exitScope 0) st' :=
    ⟨[], ⟨by simp [h1], ⟨[], by simp [h5, CgState.exitScope, FuncInfo.exitScope_insts_erase]⟩,
      ⟨[], by simp [h4, CgState.exitScope, FuncInfo.exitScope_key]⟩, by simp⟩, fun _ => rfl,
      by simp [h2]⟩
  exact (n1.ntrans n2).nquiet q3 h3

/-- For a loop of the shape above: every break jump recorded for the frame
of the loop lands right after the last instruction. -/
theorem LoopShape.breaks {st st' : CgState} (h : LoopShape st st') :
    ∃ new, st'.trace = st.trace ++ new ∧
      BreaksLand (evBreaks st.fi.scopes.length new) st'.fi.insts := by
  obtain ⟨sp, sx, npre, nin, added, s1, b1, c1, hr, s2, f2, h1, h2, h3, h4, h5, h6⟩ := h
  refine ⟨npre ++ nin, ?_, ?_⟩
  · rw [h1, s2.trace]
    simp [s1.trace]
  · obtain ⟨f, rest, hsc, hb, hbr, hj⟩ := inner_frame s2 f2
    rw [c1] at hbr
    intro pc hpc
    rw [evBreaks_append, b1, List.nil_append, ← hbr] at hpc
    obtain ⟨k, hk, hn, l, hl⟩ := hj pc hpc
    refine ⟨k, hk, ?_⟩
    have hlen : st'.fi.insts.length = sx.fi.insts.length := by
      have := congrArg List.length h5
      simpa using this
    rw [h6 k hn, hlen]
    have hx : sx.fi.exitInsts[k]? =
        (sx.fi.insts[k]?).map (Instruction.setSBx (sx.fi.pc - k)) := by
      have := FuncInfo.exitScope_getElem? sx.fi 0 f rest hsc k
      rw [hk] at hpc
      simpa [FuncInfo.exitInsts, hb, hpc] using this
    rw [hx]
    cases hi : sx.fi.insts[k]? with
    | none => simp [hi] at hl
    | some i =>
      simp only [hi, Option.map_some', Option.some.injEq] at hl
      refine ⟨l, 0, sx.fi.pc - k, ?_, ?_⟩
      · simp [Instruction.setSBx_of_erase_jmp hl]
      · simp only [FuncInfo.pc]
        omega

theorem cgWhileStat_shape {E : Collaborators} (hE : E.Lawful) (st st' : CgState)
    (expression : Expression) (block : LoweredBlock) (hb : block.Ok)
    (h : cgWhileStat E st expression block = .done st') : LoopShape st st' := by
  unfold cgWhileStat at h
  obtain ⟨s1, hr, h⟩ := Outcome.andThen_done h
  simp only [Outcome.done.injEq] at h
  subst h
  have q3 := quiet_condTest hE st expression E.ARG_REG st.fi.usedRegs (E.lastLineOf expression)
    (st.expToOpArg E expression E.ARG_REG).2 0 (le_refl _)
  have q4 := q3.qtrans (Quiet.emit _ (.jmp (E.lastLineOf expression) 0 0)
    (q3.depth_le (le_refl _)) (by simp [Instruction.isLoopOp]))
  have l1 := (LoweredAt.refl st.fi.scopes.length _).body (by simp [hE.expToOpArg_scopes])
    (hb _ _ hr)
  have d1 : s1.fi.scopes.length = st.fi.scopes.length + 1 := by
    rw [l1.depth]
    simp [hE.expToOpArg_scopes]
  have l2 := l1.quiet (Quiet.closeOpenUpvals E s1 block.LastLine (by omega)) (by simp)
  have l3 := l2.quiet (Quiet.emit _
    (.jmp block.LastLine 0 (st.fi.pc - (s1.closeOpenUpvals E block.LastLine).fi.pc - 1))
    (by simp; omega) (by simp [Instruction.isLoopOp])) (by simp)
  refine loopShape_of (fun s => s.fixSbx _ (s.fi.pc - _)) _ q4 (by simp) l3 rfl (by simp)
    (by simp) (by simp) (by simp) (by simp [CgState.fixSbx, FuncInfo.fixSbx_insts_erase]) ?_
  intro sy k hk
  simp only [CgState.fixSbx, CgState.onFi_fi, FuncInfo.fixSbx_getElem?]
  rw [if_neg]
  simp at hk ⊢
  omega

theorem cgWhileStat_neutral {E : Collaborators} (hE : E.Lawful) (st st' : CgState)
    (expression : Expression) (block : LoweredBlock) (hb : block.Ok)
    (h : cgWhileStat E st expression block = .done st') : Neutral st st' :=
  (cgWhileStat_shape hE st st' expression block hb h).neutral

theorem cgRepeatStat_shape {E : Collaborators} (hE : E.Lawful) (st st' : CgState)
    (block : LoweredBlock) (expression : Expression) (hb : block.Ok)
    (h : cgRepeatStat E st block expression = .done st') : LoopShape st st' := by
  unfold cgRepeatStat at h
  obtain ⟨s1, hr, h⟩ := Outcome.andThen_done h
  simp only [Outcome.done.injEq] at h
  subst h
  have l1 := (LoweredAt.refl st.fi.scopes.length _).body (by simp) (hb _ _ hr)
  have d1 : s1.fi.scopes.length = st.fi.scopes.length + 1 := by
    rw [l1.depth]
    simp
  have q3 := quiet_condTest hE s1 expression E.ARG_REG s1.fi.usedRegs (E.lastLineOf expression)
    (s1.expToOpArg E expression E.ARG_REG).2 0 (d := st.fi.scopes.length) (by omega)
  have l2 := l1.quiet q3 (by simp)
  have l3 := l2.quiet (Quiet.emit _ (.jmp (E.lastLineOf expression)
      (E.getJmpArgA (((s1.expToOpArg E expression E.ARG_REG).1.setUsedRegs
        s1.fi.usedRegs).emitTest (E.lastLineOf expression)
        (s1.expToOpArg E expression E.ARG_REG).2 0).1.fi)
      ((st.enterScope true).fi.pc - (((s1.expToOpArg E expression E.ARG_REG).1.setUsedRegs
        s1.fi.usedRegs).emitTest (E.lastLineOf expression)
        (s1.expToOpArg E expression E.ARG_REG).2 0).1.fi.pc - 1))
    (q3.depth_le (by omega)) (by simp [Instruction.isLoopOp])) (by simp)
  have l4 := l3.quiet (Quiet.closeOpenUpvals E _ (E.lastLineOf expression)
    (by simp [hE.expToOpArg_scopes]; omega)) (by simp)
  exact loopShape_of (fun s => s) _ (Quiet.qrefl _ st) rfl l4 rfl (fun _ => rfl) (fun _ => rfl)
    (fun _ => rfl) (fun _ => rfl) (fun _ => rfl) (fun _ _ _ => rfl)

theorem cgRepeatStat_neutral {E : Collaborators} (hE : E.Lawful) (st st' : CgState)
    (block : LoweredBlock) (expression : Expression) (hb : block.Ok)
    (h : cgRepeatStat E st block expression = .done st') : Neutral st st' :=
  (cgRepeatStat_shape hE st st' block expression hb h).neutral

theorem quiet_fixJmpToEnds (d : Nat) :
    ∀ (ends : List Int) (st : CgState), Quiet d st (fixJmpToEnds st ends)
  | [], st => Quiet.qrefl d st
  | pc :: rest, st => (Quiet.fixSbx d st pc _).qtrans (quiet_fixJmpToEnds d rest _)

@[simp] theorem fixJmpToEnds_usedRegs :
    ∀ (ends : List Int) (st : CgState), (fixJmpToEnds st ends).fi.usedRegs = st.fi.usedRegs
  | [], _ => rfl
  | pc :: rest, st => by simp [fixJmpToEnds, fixJmpToEnds_usedRegs rest]

theorem cgIfLoop_neutral {E : Collaborators} (hE : E.Lawful) (n : Int)
    (blocks : List LoweredBlock) (hbs : ∀ b ∈ blocks, b.Ok) :
    ∀ (exps : List Expression) (st : CgState) (pj : Int) (ends : List Int) (i : Nat)
      (st' : CgState), (cgIfLoop E n blocks st pj ends i exps).1 = .done st' →
      NeutralAt st.fi.scopes.length st st'
  | [], st, pj, ends, i, st', h => by
    simp only [cgIfLoop, Outcome.done.injEq] at h
    subst h
    exact NeutralAt.nrefl _ _
  | exp :: rest, st, pj, ends, i, st', h => by
    rw [cgIfLoop] at h
    dsimp only at h
    simp only [CgState.emitJmp, CgState.emitTest] at h
    split at h
    · simp at h
    · next block hblk =>
      have hbk : block.Ok := hbs block (List.getElem?_mem hblk)
      split at h
      · simp at h
      · next s3 hr =>
        have q0 : Quiet st.fi.scopes.length st
            (if pj ≥ 0 then st.fixSbx pj (st.fi.pc - pj) else st) := by
          split
          · exact Quiet.fixSbx _ _ _ _
          · exact Quiet.qrefl _ _
        have u0 : (if pj ≥ 0 then st.fixSbx pj (st.fi.pc - pj) else st).fi.usedRegs
            = st.fi.usedRegs := by
          split <;> simp
        have q3 := q0.qtrans (quiet_condTest hE _ exp E.ARG_REG
          (if pj ≥ 0 then st.fixSbx pj (st.fi.pc - pj) else st).fi.usedRegs (E.lastLineOf exp)
          ((if pj ≥ 0 then st.fixSbx pj (st.fi.pc - pj) else st).expToOpArg E exp E.ARG_REG).2 0
          (q0.depth_le (le_refl _)))
        have q4 := q3.qtrans (Quiet.emit _ (.jmp (E.lastLineOf exp) 0 0)
          (q3.depth_le (le_refl _)) (by simp [Instruction.isLoopOp]))
        have n1 := q4.neutralAt (by simp [u0])
        have l1 := (LoweredAt.refl st.fi.scopes.length _).body
          (by simp only [CgState.enterScope_scopes, List.length_cons]; rw [q4.scopes]; omega)
          (hbk _ _ hr)
        have d1 : s3.fi.scopes.length = st.fi.scopes.length + 1 := by
          rw [l1.depth]
          simp only [CgState.enterScope_scopes, List.length_cons]
          rw [q4.scopes]
        have l2 := l1.quiet (Quiet.closeOpenUpvals E s3 block.LastLine (by omega)) (by simp)
        have n2 := n1.ntrans (bracket _ _ false ((s3.closeOpenUpvals E block.LastLine).fi.pc + 1) l2)
        split at h
        · have n3 := n2.nquiet (Quiet.emit _ (.jmp block.LastLine 0 0)
            (by rw [n2.ndepth]) (by simp [Instruction.isLoopOp])) (by simp)
          have ih := cgIfLoop_neutral hE n blocks hbs rest _ _ _ _ st' h
          exact n3.ntrans (ih.nweaken (by rw [n3.ndepth]))
        · have ih := cgIfLoop_neutral hE n blocks hbs rest _ _ _ _ st' h
          exact n2.ntrans (ih.nweaken (by rw [n2.ndepth]))

theorem cgIfStat_neutral {E : Collaborators} (hE : E.Lawful) (st st' : CgState)
    (expressions : List Expression) (blocks : List LoweredBlock) (hbs : ∀ b ∈ blocks, b.Ok)
    (h : cgIfStat E st expressions blocks = .done st') : Neutral st st' := by
  unfold cgIfStat at h
  obtain ⟨s1, hr, h⟩ := Outcome.andThen_done h
  simp only [Outcome.done.injEq] at h
  subst h
  have n1 := cgIfLoop_neutral hE _ blocks hbs expressions st (-1) [] 0 s1 hr
  exact n1.nquiet (quiet_fixJmpToEnds _ _ _) (by simp)

theorem addLoopVariables_loweredAt (d : Nat) :
    ∀ (names : List String) (st : CgState), LoweredAt d st (addLoopVariables st names)
  | [], st => LoweredAt.refl d st
  | name :: rest, st =>
    (addLocalVariable_loweredAt d st name _).trans (addLoopVariables_loweredAt d rest _)

theorem cgForNumStat_shape {E : Collaborators} (hE : E.Lawful) (st st' : CgState)
    (lineOfFor lineOfDo : Int) (varName : String) (e1 e2 e3 : Expression) (block : LoweredBlock)
    (hb : block.Ok)
    (h : cgForNumStat E st lineOfFor lineOfDo varName e1 e2 e3 block = .done st') :
    LoopShape st st' := by
  unfold cgForNumStat at h
  obtain ⟨s4, hr, h⟩ := Outcome.andThen_done h
  simp only [Outcome.done.injEq] at h
  subst h
  have l1 := (LoweredAt.refl st.fi.scopes.length (st.enterScope true)).trans
    (cgLocalVarDeclStat_loweredAt hE (st.enterScope true) 0
      ["(for index)", "(for limit)", "(for step)"] [e1, e2, e3] (by simp))
  have l2 := l1.trans (addLocalVariable_loweredAt st.fi.scopes.length _ varName
    ((cgLocalVarDeclStat E (st.enterScope true) 0 ["(for index)", "(for limit)", "(for step)"]
      [e1, e2, e3]).fi.pc + 2))
  have d2 := l2.depth
  simp only [CgState.enterScope_scopes, List.length_cons] at d2
  have l3 := l2.quiet (Quiet.emit _ (.forPrep lineOfDo
    (((cgLocalVarDeclStat E (st.enterScope true) 0 ["(for index)", "(for limit)", "(for step)"]
      [e1, e2, e3]).addLocalVariable varName
        ((cgLocalVarDeclStat E (st.enterScope true) 0
          ["(for index)", "(for limit)", "(for step)"] [e1, e2, e3]).fi.pc + 2)).1.fi.usedRegs - 4)
    0) (by omega) (fun _ => by omega)) (by simp)
  have l4 := l3.body (by simp only [CgState.emit_scopes]; omega) (hb _ _ hr)
  have d4 := l4.depth
  simp only [CgState.enterScope_scopes, List.length_cons] at d4
  have l5 := l4.quiet (Quiet.closeOpenUpvals E s4 block.LastLine (by omega)) (by simp)
  have l6 := l5.quiet (Quiet.emit _ (.forLoop lineOfFor
    (((cgLocalVarDeclStat E (st.enterScope true) 0 ["(for index)", "(for limit)", "(for step)"]
      [e1, e2, e3]).addLocalVariable varName
        ((cgLocalVarDeclStat E (st.enterScope true) 0
          ["(for index)", "(for limit)", "(for step)"] [e1, e2, e3]).fi.pc + 2)).1.fi.usedRegs - 4)
    0) (by simp; omega) (fun _ => by simp; omega)) (by simp)
  exact loopShape_of (fun s => ((s.fixEndPC _ 1).fixEndPC _ 1).fixEndPC _ 1) _
    (Quiet.qrefl _ st) rfl
    ((l6.quiet (Quiet.fixSbx _ _ _ _) (by simp)).quiet (Quiet.fixSbx _ _ _ _) (by simp)) rfl
    (fun _ => by simp) (fun _ => by simp) (fun _ => by simp)
    (fun _ => by simp [CgState.fixEndPC, FuncInfo.fixEndPC_key]) (fun _ => by simp)
    (fun _ _ _ => by simp)

theorem cgForNumStat_neutral {E : Collaborators} (hE : E.Lawful) (st st' : CgState)
    (lineOfFor lineOfDo : Int) (varName : String) (e1 e2 e3 : Expression) (block : LoweredBlock)
    (hb : block.Ok)
    (h : cgForNumStat E st lineOfFor lineOfDo varName e1 e2 e3 block = .done st') :
    Neutral st st' :=
  (cgForNumStat_shape hE st st' lineOfFor lineOfDo varName e1 e2 e3 block hb h).neutral

theorem cgForInStat_shape {E : Collaborators} (hE : E.Lawful) (st st' : CgState)
    (lineOfDo : Int) (nameList : List String) (expressionList : List Expression)
    (block : LoweredBlock) (hb : block.Ok)
    (h : cgForInStat E st lineOfDo nameList expressionList block = .done st') :
    LoopShape st st' := by
  unfold cgForInStat at h
  obtain ⟨s4, hr, h⟩ := Outcome.andThen_done h
  cases expressionList with
  | nil => simp at h
  | cons exp0 exps =>
    simp only [Outcome.done.injEq] at h
    subst h
    have l1 := (LoweredAt.refl st.fi.scopes.length (st.enterScope true)).trans
      (cgLocalVarDeclStat_loweredAt hE (st.enterScope true) 0
        ["(for generator)", "(for state)", "(for control)"] (exp0 :: exps) (by simp))
    have l2 := l1.trans (addLoopVariables_loweredAt st.fi.scopes.length nameList _)
    have d2 := l2.depth
    simp only [CgState.enterScope_scopes, List.length_cons] at d2
    have l3 := l2.quiet (Quiet.emit _ (.jmp lineOfDo 0 0) (by omega)
      (by simp [Instruction.isLoopOp])) (by simp)
    have l4 := l3.body (by simp only [CgState.emit_scopes]; omega) (hb _ _ hr)
    have d4 := l4.depth
    simp only [CgState.enterScope_scopes, List.length_cons] at d4
    have l5 := l4.quiet (Quiet.closeOpenUpvals E s4 block.LastLine (by omega)) (by simp)
    exact loopShape_of (fun s => ((s.fixEndPC _ 2).fixEndPC _ 2).fixEndPC _ 2) _
      (Quiet.qrefl _ st) rfl
      (((l5.quiet (Quiet.fixSbx _ _ _ _) (by simp)).quiet
        (Quiet.emit _ (.tForCall (E.lineOf exp0) _ _) (by simp; omega) (fun _ => by simp; omega))
        (by simp)).quiet
        (Quiet.emit _ (.tForLoop (E.lineOf exp0) _ _) (by simp; omega)
          (fun _ => by simp; omega)) (by simp)) rfl
      (fun _ => by simp) (fun _ => by simp) (fun _ => by simp)
      (fun _ => by simp [CgState.fixEndPC, FuncInfo.fixEndPC_key]) (fun _ => by simp)
      (fun _ _ _ => by simp)

theorem cgForInStat_neutral {E : Collaborators} (hE : E.Lawful) (st st' : CgState)
    (lineOfDo : Int) (nameList : List String) (expressionList : List Expression)
    (block : LoweredBlock) (hb : block.Ok)
    (h : cgForInStat E st lineOfDo nameList expressionList block = .done st') :
    Neutral st st' :=
  (cgForInStat_shape hE st st' lineOfDo nameList expressionList block hb h).neutral

/-! ### The induction over statements -/

mutual
theorem cgStat_lowered {E : Collaborators} (hE : E.Lawful) :
    ∀ (s : Statement) (st st' : CgState), cgStat E st s = .done st' →
      Lowered st st' ∧ (s.declares = false → Neutral st st')
  | .FunctionCallStatement call, st, st', h => by
    simp only [cgStat, Outcome.done.injEq] at h
    subst h
    exact ⟨(cgFuncCallStat_neutral hE st call).lowered, fun _ => cgFuncCallStat_neutral hE st call⟩
  | .BreakStatement line, st, st', h => by
    simp only [cgStat, Outcome.done.injEq] at h
    subst h
    exact ⟨(cgBreakStat_neutral st line).lowered, fun _ => cgBreakStat_neutral st line⟩
  | .DoStatement block, st, st', h => by
    simp only [cgStat] at h
    have := cgDoStat_neutral E st st' ⟨block.LastLine, fun s => cgBlock E s block⟩
      (fun s s' hs => cgBlock_lowered hE block s s' hs) h
    exact ⟨this.lowered, fun _ => this⟩
  | .WhileStatement expression block, st, st', h => by
    simp only [cgStat] at h
    have := cgWhileStat_neutral hE st st' expression ⟨block.LastLine, fun s => cgBlock E s block⟩
      (fun s s' hs => cgBlock_lowered hE block s s' hs) h
    exact ⟨this.lowered, fun _ => this⟩
  | .RepeatStatement block expression, st, st', h => by
    simp only [cgStat] at h
    have := cgRepeatStat_neutral hE st st' ⟨block.LastLine, fun s => cgBlock E s block⟩ expression
      (fun s s' hs => cgBlock_lowered hE block s s' hs) h
    exact ⟨this.lowered, fun _ => this⟩
  | .IfStatement expressions blocks, st, st', h => by
    simp only [cgStat] at h
    have := cgIfStat_neutral hE st st' expressions (lowerBlocks E blocks)
      (lowerBlocks_ok hE blocks) h
    exact ⟨this.lowered, fun _ => this⟩
  | .ForNumStatement lineOfFor lineOfDo varName e1 e2 e3 block, st, st', h => by
    simp only [cgStat] at h
    have := cgForNumStat_neutral hE st st' lineOfFor lineOfDo varName e1 e2 e3
      ⟨block.LastLine, fun s => cgBlock E s block⟩
      (fun s s' hs => cgBlock_lowered hE block s s' hs) h
    exact ⟨this.lowered, fun _ => this⟩
  | .ForInStatement lineOfDo nameList expressionList block, st, st', h => by
    simp only [cgStat] at h
    have := cgForInStat_neutral hE st st' lineOfDo nameList expressionList
      ⟨block.LastLine, fun s => cgBlock E s block⟩
      (fun s s' hs => cgBlock_lowered hE block s s' hs) h
    exact ⟨this.lowered, fun _ => this⟩
  | .AssignStatement lastLine variableList expressionList, st, st', h => by
    simp only [cgStat] at h
    have := cgAssignStat_neutral hE st st' lastLine variableList expressionList h
    exact ⟨this.lowered, fun _ => this⟩
  | .LocalVariableDeclareStatement lastLine nameList expressionList, st, st', h => by
    simp only [cgStat, Outcome.done.injEq] at h
    subst h
    exact ⟨cgLocalVarDeclStat_loweredAt hE st lastLine nameList expressionList (le_refl _),
      fun hd => by simp [Statement.declares] at hd⟩
  | .LocalFunctionDefineStatement name expression, st, st', h => by
    simp only [cgStat, Outcome.done.injEq] at h
    subst h
    exact ⟨cgLocalFuncDefStat_lowered hE st name expression,
      fun hd => by simp [Statement.declares] at hd⟩
  | .LabelStatement _, st, st', h => by simp [cgStat] at h
  | .GotoStatement _, st, st', h => by simp [cgStat] at h
theorem cgBlock_lowered {E : Collaborators} (hE : E.Lawful) :
    ∀ (b : Block) (st st' : CgState), cgBlock E st b = .done st' → Lowered st st'
  | .mk stats _, st, st', h => by
    simp only [cgBlock] at h
    exact cgStats_lowered hE stats st st' h
theorem cgStats_lowered {E : Collaborators} (hE : E.Lawful) :
    ∀ (ss : List Statement) (st st' : CgState), cgStats E st ss = .done st' → Lowered st st'
  | [], st, st', h => by
    simp only [cgStats, Outcome.done.injEq] at h
    subst h
    exact LoweredAt.refl _ _
  | s :: rest, st, st', h => by
    simp only [cgStats] at h
    cases h1 : cgStat E st s with
    | panicked e s1 => simp [h1] at h
    | done s1 =>
      simp only [h1] at h
      exact (cgStat_lowered hE s st s1 h1).1.seq (cgStats_lowered hE rest s1 st' h)
theorem lowerBlocks_ok {E : Collaborators} (hE : E.Lawful) :
    ∀ (bs : List Block), ∀ b ∈ lowerBlocks E bs, b.Ok
  | [], b, hb => by simp [lowerBlocks] at hb
  | blk :: rest, b, hb => by
    simp only [lowerBlocks, List.mem_cons] at hb
    rcases hb with hb | hb
    · subst hb
      exact fun s s' hs => cgBlock_lowered hE blk s s' hs
    · exact lowerBlocks_ok hE rest b hb
end

/-! ## The sample emitter fulfils the contract -/

theorem appends_emit (fi : FuncInfo) (ins : Instruction) : Appends fi (fi.emit ins).1 :=
  ⟨rfl, rfl, [ins], rfl⟩

theorem sampleEmitter_lawful : sampleEmitter.Lawful where
  cgExp fi e a n := by
    cases e <;> simp only [sampleEmitter]
    case NameExpression l name =>
      split
      · exact ⟨appends_emit _ _, rfl⟩
      · exact ⟨appends_emit _ _, rfl⟩
    all_goals exact ⟨appends_emit _ _, rfl⟩
  cgFuncCallExp fi c a n := ⟨appends_emit _ _, rfl⟩
  cgFuncDefExp fi f a := ⟨appends_emit _ _, rfl⟩
  expToOpArg fi e k := by
    cases e <;> simp only [sampleEmitter]
    case NameExpression l name =>
      split
      · exact ⟨rfl, rfl, [], by simp⟩
      · exact ⟨rfl, rfl, [_], rfl⟩
    all_goals exact ⟨rfl, rfl, [_], rfl⟩

/-! ## The claims -/

/-- C1: on a labeled statement and on a goto statement `cgStat` panics with
the unsupported-construct error at once: the compile state it leaves is the
one it was called in, so that no instruction was emitted, nothing was
logged, and no register or scope changed. -/
theorem cgStat_label_goto_unsupported (E : Collaborators) (st : CgState) (name : String) :
    cgStat E st (.LabelStatement name) = .panicked .unsupportedConstruct st ∧
    cgStat E st (.GotoStatement name) = .panicked .unsupportedConstruct st :=
  ⟨rfl, rfl⟩

/-- Register use across a statement, for the `exitScope` of this file: for
every statement that is neither a local variable declaration nor a local
function definition, `usedRegs` after `cgStat` returns is `usedRegs` before
the call.  For a statement that holds a block this rests on `exitScope`
giving back the registers of the locals of the frame it pops, which is a
reading of the spec (see `FuncInfo.exitScope`): `cg_stat.go` never lowers
`usedRegs` after `cgBlock`, so that with an `exitScope` that keeps the
registers `do local a = e end` would return with one register more.  The
expression emitter is under its contract `Lawful`. -/
theorem register_neutrality (E : Collaborators) (hE : E.Lawful) (st st' : CgState)
    (s : Statement) (hs : s.declares = false) (h : cgStat E st s = .done st') :
    st'.fi.usedRegs = st.fi.usedRegs :=
  ((cgStat_lowered hE s st st' h).2 hs).2

/-- Register use across `while e do local a = e1; break end` from the
initial state. -/
theorem register_neutrality_witness :
    cgStat sampleEmitter initialState sampleWhile
      = .done (cgStat sampleEmitter initialState sampleWhile).state ∧
    (cgStat sampleEmitter initialState sampleWhile).state.fi.usedRegs = 0 :=
  ⟨rfl, register_neutrality sampleEmitter sampleEmitter_lawful initialState _ sampleWhile rfl rfl⟩

theorem cgStat_loopShape {E : Collaborators} (hE : E.Lawful) (st st' : CgState) (s : Statement)
    (hs : s.isLoop = true) (h : cgStat E st s = .done st') : LoopShape st st' := by
  cases s <;> simp only [Statement.isLoop] at hs <;> simp only [cgStat] at h
  case WhileStatement expression block =>
    exact cgWhileStat_shape hE st st' expression _ (fun s s' hs => cgBlock_lowered hE block s s' hs) h
  case RepeatStatement block expression =>
    exact cgRepeatStat_shape hE st st' _ expression (fun s s' hs => cgBlock_lowered hE block s s' hs) h
  case ForNumStatement lineOfFor lineOfDo varName e1 e2 e3 block =>
    exact cgForNumStat_shape hE st st' lineOfFor lineOfDo varName e1 e2 e3 _
      (fun s s' hs => cgBlock_lowered hE block s s' hs) h
  case ForInStatement lineOfDo nameList expressionList block =>
    exact cgForInStat_shape hE st st' lineOfDo nameList expressionList _
      (fun s s' hs => cgBlock_lowered hE block s s' hs) h
  all_goals simp at hs

/-! ### Local declarations: what the expression emitter is asked -/

@[simp] theorem addLocalVariables_trace :
    ∀ (names : List String) (st : CgState) (p : Int),
      (addLocalVariables st p names).trace = st.trace
  | [], _, _ => rfl
  | name :: rest, st, p => by simp [addLocalVariables, addLocalVariables_trace rest]

/-- The loop for fewer expressions than names, when the last expression is
a call or a vararg: every expression but the last is lowered for one
value, the last one for `nNames - nExps + 1`, and `multRet` is set. -/
theorem cgExpsFewer_multi (E : Collaborators) (nNames nExps : Int) :
    ∀ (exps : List Expression) (st : CgState) (m : Bool) (i : Nat) (last : Expression),
      (i : Int) + exps.length = nExps → exps.getLast? = some last →
      isVarargOrFuncCall last = true →
      ∃ new, (cgExpsFewer E nNames nExps st m i exps).1.trace = st.trace ++ new ∧
        new.map (fun ev => ev.act.lowering?) =
          exps.dropLast.map (fun e => some (e, 1)) ++ [some (last, nNames - nExps + 1)] ∧
        (cgExpsFewer E nNames nExps st m i exps).2 = true
  | [], _, _, _, _, _, hl, _ => by simp at hl
  | [e], st, m, i, last, hi, hl, hv => by
    simp only [List.getLast?_singleton, Option.some.injEq] at hl
    subst hl
    simp only [List.length_singleton, Nat.cast_one] at hi
    have hc : (i : Int) = nExps - 1 ∧ isVarargOrFuncCall e = true := ⟨by omega, hv⟩
    simp only [cgExpsFewer, hc, and_self, if_true]
    exact ⟨[⟨st.allocReg.1.fi, .cgExp e st.allocReg.2 (nNames - nExps + 1)⟩], by simp,
      by simp [Action.lowering?], trivial⟩
  | e :: e2 :: rest, st, m, i, last, hi, hl, hv => by
    simp only [List.length_cons, Nat.cast_add, Nat.cast_one] at hi
    have hc : ¬ ((i : Int) = nExps - 1 ∧ isVarargOrFuncCall e = true) := by
      intro hc
      omega
    rw [cgExpsFewer]
    simp only [hc, if_false]
    have hl2 : (e2 :: rest).getLast? = some last := by simpa [List.getLast?_cons_cons] using hl
    obtain ⟨new, h1, h2, h3⟩ := cgExpsFewer_multi E nNames nExps (e2 :: rest)
      (st.allocReg.1.cgExp E e st.allocReg.2 1) m (i + 1) last
      (by simp only [List.length_cons, Nat.cast_add, Nat.cast_one]; omega) hl2 hv
    refine ⟨⟨st.allocReg.1.fi, .cgExp e st.allocReg.2 1⟩ :: new, ?_, ?_, h3⟩
    · rw [h1]
      simp
    · rw [List.map_cons, h2]
      rfl

/-- C7: in a local declaration with fewer initializers (after trailing-nil
removal) than names whose last initializer is a function call or a vararg
reference, `cgLocalVarDeclStat` calls the expression emitter once per
initializer and does nothing else that is logged: the last initializer is
lowered with wanted result count `N - M + 1`, every earlier one with wanted
count 1, and no instruction (so no load-nil) is emitted by the routine
itself. -/
theorem local_decl_expands_last_call (E : Collaborators) (st : CgState) (lastLine : Int)
    (nameList : List String) (expressionList : List Expression) (last : Expression)
    (hlt : (removeTailNils expressionList).length < nameList.length)
    (hlast : (removeTailNils expressionList).getLast? = some last)
    (hcall : isVarargOrFuncCall last = true) :
    ∃ new, (cgLocalVarDeclStat E st lastLine nameList expressionList).trace = st.trace ++ new ∧
      new.map (fun ev => ev.act.lowering?) =
        (removeTailNils expressionList).dropLast.map (fun e => some (e, 1)) ++
          [some (last, (nameList.length : Int) - ((removeTailNils expressionList).length : Int)
            + 1)] := by
  obtain ⟨new, h1, h2, h3⟩ := cgExpsFewer_multi E nameList.length
    (removeTailNils expressionList).length (removeTailNils expressionList) st false 0 last
    (by simp) hlast hcall
  refine ⟨new, ?_, h2⟩
  have hne : ¬ (((removeTailNils expressionList).length : Int) = (nameList.length : Int)) := by
    omega
  have hng : ¬ (((removeTailNils expressionList).length : Int) > (nameList.length : Int)) := by
    omega
  simp only [cgLocalVarDeclStat, hne, hng, if_false, addLocalVariables_trace,
    CgState.setUsedRegs_trace, cgExpsFill, h3, Bool.not_true, Bool.false_eq_true]
  exact h1

/-- C7 at `local x, y = f()`: the call is lowered once, for 2 results. -/
theorem local_decl_expands_last_call_witness :
    ∃ new, (cgLocalVarDeclStat sampleEmitter initialState 1 ["x", "y"]
        [.FunctionCallExpression 7]).trace = initialState.trace ++ new ∧
      new.map (fun ev => ev.act.lowering?) = [some (.FunctionCallExpression 7, 2)] :=
  local_decl_expands_last_call sampleEmitter initialState 1 ["x", "y"]
    [.FunctionCallExpression 7] (.FunctionCallExpression 7) (by decide) (by decide) rfl

theorem lowerActs_length : ∀ (exps : List Expression) (b : Int), (lowerActs b exps).length = exps.length
  | [], _ => rfl
  | _ :: rest, b => by simp [lowerActs, lowerActs_length rest]

theorem lowerActs_getElem? :
    ∀ (exps : List Expression) (b : Int) (i : Nat),
      (lowerActs b exps)[i]? = (exps[i]?).map (fun e => Action.cgExp e (b + i) 1)
  | [], _, _ => by simp [lowerActs]
  | e :: rest, b, 0 => by simp [lowerActs]
  | e :: rest, b, i + 1 => by
    simp only [lowerActs, List.getElem?_cons_succ, lowerActs_getElem? rest (b + 1) i]
    cases rest[i]? with
    | none => rfl
    | some x =>
      simp only [Option.map_some', Option.some.injEq, Action.cgExp.injEq, true_and, and_true]
      push_cast
      omega

/-- The loop for fewer expressions than names, when the last expression is
neither a call nor a vararg (or there is none), under a register-neutral
`cgExp`: expression `j` is lowered for one value into register
`usedRegs + j`, and `multRet` stays as it is. -/
theorem cgExpsFewer_plain (E : Collaborators)
    (hReg : ∀ fi e a n, (E.cgExp fi e a n).usedRegs = fi.usedRegs) (nNames nExps : Int) :
    ∀ (exps : List Expression) (st : CgState) (m : Bool) (i : Nat),
      (i : Int) + exps.length = nExps →
      (∀ e, exps.getLast? = some e → isVarargOrFuncCall e = false) →
      ∃ new, (cgExpsFewer E nNames nExps st m i exps).1.trace = st.trace ++ new ∧
        new.map (fun ev => ev.act) = lowerActs st.fi.usedRegs exps ∧
        (cgExpsFewer E nNames nExps st m i exps).1.fi.usedRegs = st.fi.usedRegs + exps.length ∧
        (cgExpsFewer E nNames nExps st m i exps).2 = m
  | [], st, m, i, _, _ => ⟨[], by simp [cgExpsFewer], rfl, by simp [cgExpsFewer], rfl⟩
  | e :: rest, st, m, i, hi, hl => by
    have hc : ¬ ((i : Int) = nExps - 1 ∧ isVarargOrFuncCall e = true) := by
      rintro ⟨h1, h2⟩
      cases rest with
      | nil =>
        have := hl e (by simp)
        rw [this] at h2
        cases h2
      | cons e2 rest2 =>
        simp only [List.length_cons, Nat.cast_add, Nat.cast_one] at hi
        omega
    rw [cgExpsFewer]
    simp only [hc, if_false]
    have hl2 : ∀ x, rest.getLast? = some x → isVarargOrFuncCall x = false := by
      intro x hx
      cases rest with
      | nil => simp at hx
      | cons e2 rest2 => exact hl x (by simpa [List.getLast?_cons_cons] using hx)
    obtain ⟨new, h1, h2, h3, h4⟩ := cgExpsFewer_plain E hReg nNames nExps rest
      (st.allocReg.1.cgExp E e st.allocReg.2 1) m (i + 1)
      (by simp only [List.length_cons, Nat.cast_add, Nat.cast_one] at hi ⊢; omega) hl2
    have hu : (st.allocReg.1.cgExp E e st.allocReg.2 1).fi.usedRegs = st.fi.usedRegs + 1 := by
      simp [hReg]
    refine ⟨⟨st.allocReg.1.fi, .cgExp e st.allocReg.2 1⟩ :: new, ?_, ?_, ?_, h4⟩
    · rw [h1]
      simp
    · rw [List.map_cons, h2, hu]
      rfl
    · rw [h3, hu]
      simp only [List.length_cons, Nat.cast_add, Nat.cast_one]
      omega

/-- C8: in a local declaration with `N` names and `M < N` initializers
(after trailing-nil removal) whose last initializer is neither a call nor a
vararg reference (`M = 0` included), with `b` the value of `usedRegs` on
entry, `cgLocalVarDeclStat` logs exactly `M + 1` actions: for each `i < M`
initializer `i` is lowered into register `b + i` with wanted count 1, and
then one load-nil is emitted, with first register `b + M` and count
`N - M`.  The expression emitter is taken register-neutral, as its contract
says. -/
theorem local_decl_nil_fill (E : Collaborators)
    (hReg : ∀ fi e a n, (E.cgExp fi e a n).usedRegs = fi.usedRegs) (st : CgState)
    (lastLine : Int) (nameList : List String) (expressionList : List Expression)
    (hlt : (removeTailNils expressionList).length < nameList.length)
    (hlast : ∀ e, (removeTailNils expressionList).getLast? = some e →
      isVarargOrFuncCall e = false) :
    ∃ new, (cgLocalVarDeclStat E st lastLine nameList expressionList).trace = st.trace ++ new ∧
      new.length = (removeTailNils expressionList).length + 1 ∧
      (∀ i, i < (removeTailNils expressionList).length →
        (new[i]?).map (fun ev => ev.act) =
          ((removeTailNils expressionList)[i]?).map
            (fun e => Action.cgExp e (st.fi.usedRegs + i) 1)) ∧
      (new[(removeTailNils expressionList).length]?).map (fun ev => ev.act) =
        some (.emit (.loadNil lastLine
          (st.fi.usedRegs + ((removeTailNils expressionList).length : Int))
          ((nameList.length : Int) - ((removeTailNils expressionList).length : Int)))) := by
  obtain ⟨new, h1, h2, h3, h4⟩ := cgExpsFewer_plain E hReg nameList.length
    (removeTailNils expressionList).length (removeTailNils expressionList) st false 0
    (by simp) hlast
  have hlen : new.length = (removeTailNils expressionList).length := by
    have := congrArg List.length h2
    simpa [lowerActs_length] using this
  have hne : ¬ (((removeTailNils expressionList).length : Int) = (nameList.length : Int)) := by
    omega
  have hng : ¬ (((removeTailNils expressionList).length : Int) > (nameList.length : Int)) := by
    omega
  refine ⟨new ++ [⟨((cgExpsFewer E nameList.length (removeTailNils expressionList).length st false
      0 (removeTailNils expressionList)).1.allocRegs
      ((nameList.length : Int) - ((removeTailNils expressionList).length : Int))).1.fi,
    .emit (.loadNil lastLine
    (st.fi.usedRegs + ((removeTailNils expressionList).length : Int))
    ((nameList.length : Int) - ((removeTailNils expressionList).length : Int)))⟩], ?_, ?_, ?_, ?_⟩
  · simp only [cgLocalVarDeclStat, hne, hng, if_false, addLocalVariables_trace,
      CgState.setUsedRegs_trace, cgExpsFill, h4, Bool.not_false, if_true, CgState.emitLoadNil,
      CgState.emit_trace, CgState.allocRegs_trace, CgState.allocRegs_snd, h1, h3,
      List.append_assoc]
  · simp [hlen]
  · intro i hi
    rw [List.getElem?_append_left (by omega)]
    have := lowerActs_getElem? (removeTailNils expressionList) st.fi.usedRegs i
    rw [← h2] at this
    simpa using this
  · rw [List.getElem?_append_right (by omega)]
    simp [hlen]

/-- C8 at `local x, y, z = e1`: one lowering into register 0, then one
load-nil for the registers 1 and 2. -/
theorem local_decl_nil_fill_witness :
    (cgLocalVarDeclStat sampleEmitter initialState 1 ["x", "y", "z"]
        [.OtherExpression 1]).trace.map (fun ev => ev.act) =
      [.cgExp (.OtherExpression 1) 0 1, .emit (.loadNil 1 1 2)] ∧
    ∃ new, (cgLocalVarDeclStat sampleEmitter initialState 1 ["x", "y", "z"]
        [.OtherExpression 1]).trace = initialState.trace ++ new ∧
      new.length = (removeTailNils [Expression.OtherExpression 1]).length + 1 ∧
      (∀ i, i < (removeTailNils [Expression.OtherExpression 1]).length →
        (new[i]?).map (fun ev => ev.act) =
          ((removeTailNils [Expression.OtherExpression 1])[i]?).map
            (fun e => Action.cgExp e (initialState.fi.usedRegs + i) 1)) ∧
      (new[(removeTailNils [Expression.OtherExpression 1]).length]?).map (fun ev => ev.act) =
        some (.emit (.loadNil 1
          (initialState.fi.usedRegs + ((removeTailNils [Expression.OtherExpression 1]).length : Int))
          ((["x", "y", "z"].length : Int)
            - ((removeTailNils [Expression.OtherExpression 1]).length : Int)))) :=
  ⟨by decide,
    local_decl_nil_fill sampleEmitter (fun fi e a n => (sampleEmitter_lawful.cgExp fi e a n).2)
      initialState 1 ["x", "y", "z"] [.OtherExpression 1] (by decide) (by decide)⟩

/-- The loop for more expressions than names, when the last expression is a
call or a vararg: every expression but the last is lowered for one value,
the last one for none. -/
theorem cgExpsMore_last (E : Collaborators) (nExps : Int) :
    ∀ (exps : List Expression) (st : CgState) (i : Nat) (last : Expression),
      (i : Int) + exps.length = nExps → exps.getLast? = some last →
      isVarargOrFuncCall last = true →
      ∃ new, (cgExpsMore E nExps st i exps).trace = st.trace ++ new ∧
        new.map (fun ev => ev.act.lowering?) =
          exps.dropLast.map (fun e => some (e, 1)) ++ [some (last, 0)]
  | [], _, _, _, _, hl, _ => by simp at hl
  | [e], st, i, last, hi, hl, hv => by
    simp only [List.getLast?_singleton, Option.some.injEq] at hl
    subst hl
    simp only [List.length_singleton, Nat.cast_one] at hi
    have hc : (i : Int) = nExps - 1 ∧ isVarargOrFuncCall e = true := ⟨by omega, hv⟩
    simp only [cgExpsMore, hc, and_self, if_true]
    exact ⟨[⟨st.allocReg.1.fi, .cgExp e st.allocReg.2 0⟩], by simp, by simp [Action.lowering?]⟩
  | e :: e2 :: rest, st, i, last, hi, hl, hv => by
    simp only [List.length_cons, Nat.cast_add, Nat.cast_one] at hi
    have hc : ¬ ((i : Int) = nExps - 1 ∧ isVarargOrFuncCall e = true) := by
      intro hc
      omega
    rw [cgExpsMore]
    simp only [hc, if_false]
    have hl2 : (e2 :: rest).getLast? = some last := by simpa [List.getLast?_cons_cons] using hl
    obtain ⟨new, h1, h2⟩ := cgExpsMore_last E nExps (e2 :: rest)
      (st.allocReg.1.cgExp E e st.allocReg.2 1) (i + 1) last
      (by simp only [List.length_cons, Nat.cast_add, Nat.cast_one]; omega) hl2 hv
    refine ⟨⟨st.allocReg.1.fi, .cgExp e st.allocReg.2 1⟩ :: new, ?_, ?_⟩
    · rw [h1]
      simp
    · rw [List.map_cons, h2]
      rfl

/-- C9, the claim as stated, fails: in `local x = e1, f()` (one name, two
initializers, the last one a call) the call is lowered with wanted result
count 0, not 1. -/
theorem local_decl_excess_call_counterexample :
    (removeTailNils [Expression.OtherExpression 1, Expression.FunctionCallExpression 2]).length
      > ["x"].length ∧
    isVarargOrFuncCall (.FunctionCallExpression 2) = true ∧
    (cgLocalVarDeclStat sampleEmitter initialState 1 ["x"]
        [.OtherExpression 1, .FunctionCallExpression 2]).trace.map (fun ev => ev.act.lowering?) =
      [some (.OtherExpression 1, 1), some (.FunctionCallExpression 2, 0)] ∧
    ¬ ((cgLocalVarDeclStat sampleEmitter initialState 1 ["x"]
        [.OtherExpression 1, .FunctionCallExpression 2]).trace.map (fun ev => ev.act.lowering?) =
      [some (.OtherExpression 1, 1), some (.FunctionCallExpression 2, 1)]) := by
  decide

/-- C9, amended: in a local declaration with more initializers than names
whose last initializer is a function call or a vararg reference,
`cgLocalVarDeclStat` lowers that last initializer with a wanted result
count of zero (its results are dropped), and every other initializer with
wanted count one. -/
theorem local_decl_excess_call (E : Collaborators) (st : CgState) (lastLine : Int)
    (nameList : List String) (expressionList : List Expression) (last : Expression)
    (hgt : (removeTailNils expressionList).length > nameList.length)
    (hlast : (removeTailNils expressionList).getLast? = some last)
    (hcall : isVarargOrFuncCall last = true) :
    ∃ new, (cgLocalVarDeclStat E st lastLine nameList expressionList).trace = st.trace ++ new ∧
      new.map (fun ev => ev.act.lowering?) =
        (removeTailNils expressionList).dropLast.map (fun e => some (e, 1)) ++
          [some (last, 0)] := by
  obtain ⟨new, h1, h2⟩ := cgExpsMore_last E (removeTailNils expressionList).length
    (removeTailNils expressionList) st 0 last (by simp) hlast hcall
  refine ⟨new, ?_, h2⟩
  have hne : ¬ (((removeTailNils expressionList).length : Int) = (nameList.length : Int)) := by
    omega
  have hng : ((removeTailNils expressionList).length : Int) > (nameList.length : Int) := by
    omega
  simp only [cgLocalVarDeclStat, hne, hng, if_false, if_true, addLocalVariables_trace,
    CgState.setUsedRegs_trace]
  exact h1

/-- C9 amended, at `local x = e1, f()`. -/
theorem local_decl_excess_call_witness :
    ∃ new, (cgLocalVarDeclStat sampleEmitter initialState 1 ["x"]
        [.OtherExpression 1, .FunctionCallExpression 2]).trace = initialState.trace ++ new ∧
      new.map (fun ev => ev.act.lowering?) =
        [some (.OtherExpression 1, 1), some (.FunctionCallExpression 2, 0)] :=
  local_decl_excess_call sampleEmitter initialState 1 ["x"]
    [.OtherExpression 1, .FunctionCallExpression 2] (.FunctionCallExpression 2) (by decide)
    (by decide) rfl

/-! ### Assignment: the swap `a, b = b, a` -/

theorem FuncInfo.allocReg_slotOf (fi : FuncInfo) (name : String) :
    fi.allocReg.1.slotOfLocalVariable name = fi.slotOfLocalVariable name := rfl

theorem FuncInfo.emit_slotOf (fi : FuncInfo) (ins : Instruction) (name : String) :
    (fi.emit ins).1.slotOfLocalVariable name = fi.slotOfLocalVariable name := rfl

/-- The instructions `cgAssignStat` emits for `a, b = b, a` when both names
are locals and a local name is lowered as a move from its slot. -/
theorem cgAssignStat_swap (E : Collaborators)
    (hMove : ∀ (fi : FuncInfo) (line : Int) (name : String) (r n : Int),
      0 ≤ fi.slotOfLocalVariable name →
      E.cgExp fi (.NameExpression line name) r n
        = (fi.emit (.move line r (fi.slotOfLocalVariable name))).1)
    (st : CgState) (lastLine la lb la2 lb2 : Int) (a b : String)
    (ha : 0 ≤ st.fi.slotOfLocalVariable a) (hb : 0 ≤ st.fi.slotOfLocalVariable b) :
    ∃ st', cgAssignStat E st lastLine [.NameExpression la a, .NameExpression lb b]
        [.NameExpression lb2 b, .NameExpression la2 a] = .done st' ∧
      st'.fi.insts = st.fi.insts ++
        [.move lb2 st.fi.usedRegs (st.fi.slotOfLocalVariable b),
         .move la2 (st.fi.usedRegs + 1) (st.fi.slotOfLocalVariable a),
         .move lastLine (st.fi.slotOfLocalVariable a) st.fi.usedRegs,
         .move lastLine (st.fi.slotOfLocalVariable b) (st.fi.usedRegs + 1)] := by
  have hna : ¬ st.fi.slotOfLocalVariable a < 0 := by omega
  have hnb : ¬ st.fi.slotOfLocalVariable b < 0 := by omega
  have hr : removeTailNils [Expression.NameExpression lb2 b, .NameExpression la2 a]
      = [.NameExpression lb2 b, .NameExpression la2 a] := rfl
  simp only [cgAssignStat, hr, cgAssignTargets, hna, hnb, cgAssignExps, cgAssignStores,
    Outcome.andThen, isVarargOrFuncCall, CgState.cgExp, CgState.allocReg, CgState.onFi,
    CgState.emitMove, CgState.emit, CgState.setUsedRegs, hMove, FuncInfo.allocReg_slotOf,
    FuncInfo.emit_slotOf, ha, hb, false_and, and_false, if_false, if_true, List.length_cons,
    List.length_nil, ge_iff_le, le_refl, Bool.false_eq_true]
  refine ⟨_, rfl, ?_⟩
  simp [FuncInfo.emit, FuncInfo.allocReg, List.range_succ]

/-- Claim C6: in a compile state where the names `a` and `b` are bound to
two distinct local slots, both below the first free register,
`cgAssignStat` on `a, b = b, a` returns, appends four instructions to the
buffer, and running these as register moves on any register file leaves the
slot of `a` with the old value of the slot of `b` and the slot of `b` with
the old value of the slot of `a`.  The expression emitter is any one that
lowers a local name as a move from the local's slot into the destination
register. -/
theorem assign_swap_exchanges {α : Type} (E : Collaborators)
    (hMove : ∀ (fi : FuncInfo) (line : Int) (name : String) (r n : Int),
      0 ≤ fi.slotOfLocalVariable name →
      E.cgExp fi (.NameExpression line name) r n
        = (fi.emit (.move line r (fi.slotOfLocalVariable name))).1)
    (st : CgState) (lastLine la lb la2 lb2 : Int) (a b : String)
    (ha : 0 ≤ st.fi.slotOfLocalVariable a) (hb : 0 ≤ st.fi.slotOfLocalVariable b)
    (hne : st.fi.slotOfLocalVariable a ≠ st.fi.slotOfLocalVariable b)
    (hua : st.fi.slotOfLocalVariable a < st.fi.usedRegs)
    (hub : st.fi.slotOfLocalVariable b < st.fi.usedRegs) :
    ∃ st' emitted,
      cgAssignStat E st lastLine [.NameExpression la a, .NameExpression lb b]
        [.NameExpression lb2 b, .NameExpression la2 a] = .done st' ∧
      st'.fi.insts = st.fi.insts ++ emitted ∧
      emitted.length = 4 ∧
      ∀ R : Int → α,
        execMoves emitted R (st.fi.slotOfLocalVariable a) = R (st.fi.slotOfLocalVariable b) ∧
        execMoves emitted R (st.fi.slotOfLocalVariable b) = R (st.fi.slotOfLocalVariable a) := by
  obtain ⟨st', h1, h2⟩ := cgAssignStat_swap E hMove st lastLine la lb la2 lb2 a b ha hb
  refine ⟨st', _, h1, h2, rfl, fun R => ?_⟩
  have h3 : st.fi.usedRegs ≠ st.fi.slotOfLocalVariable a := by omega
  have h4 : st.fi.usedRegs ≠ st.fi.slotOfLocalVariable b := by omega
  have h5 : st.fi.usedRegs + 1 ≠ st.fi.slotOfLocalVariable a := by omega
  have h6 : st.fi.usedRegs + 1 ≠ st.fi.slotOfLocalVariable b := by omega
  have h7 : st.fi.usedRegs ≠ st.fi.usedRegs + 1 := by omega
  simp [execMoves, Function.update_apply, hne, hne.symm, h3, h4, h5, h6, h7, h3.symm, h4.symm,
    h5.symm, h6.symm, h7.symm]

/-- C6 at `a, b = b, a` after `local a = e0; local b = e1`, with the sample
emitter and a register file of naturals. -/
theorem assign_swap_exchanges_witness :
    swapState.fi.slotOfLocalVariable "a" = 0 ∧ swapState.fi.slotOfLocalVariable "b" = 1 ∧
    swapState.fi.usedRegs = 2 ∧
    ∃ st' emitted,
      cgAssignStat sampleEmitter swapState 3 [.NameExpression 2 "a", .NameExpression 2 "b"]
        [.NameExpression 2 "b", .NameExpression 2 "a"] = .done st' ∧
      st'.fi.insts = swapState.fi.insts ++ emitted ∧
      emitted.length = 4 ∧
      ∀ R : Int → Nat,
        execMoves emitted R (swapState.fi.slotOfLocalVariable "a")
          = R (swapState.fi.slotOfLocalVariable "b") ∧
        execMoves emitted R (swapState.fi.slotOfLocalVariable "b")
          = R (swapState.fi.slotOfLocalVariable "a") :=
  ⟨by decide, by decide, by decide,
   assign_swap_exchanges sampleEmitter
    (fun fi line name r n h => by simp [sampleEmitter, h])
    swapState 3 2 2 2 2 "a" "b" (by decide) (by decide) (by decide) (by decide) (by decide)⟩

/-! ### Repeat: the condition is lowered inside the body's scope -/

theorem key_getElem? {vars vars2 : List LocVarInfo}
    (hv : ∃ ext, vars2.map LocVarInfo.key = vars.map LocVarInfo.key ++ ext) {i : Nat}
    {v : LocVarInfo} (h : vars[i]? = some v) :
    ∃ w, vars2[i]? = some w ∧ w.name = v.name ∧ w.slot = v.slot := by
  obtain ⟨ext, hv⟩ := hv
  have h1 : (vars2[i]?).map LocVarInfo.key = some v.key :=
    grow_getElem?_some hv (by rw [h]; rfl)
  cases h2 : vars2[i]? with
  | none => rw [h2] at h1; simp at h1
  | some w =>
    rw [h2] at h1
    simp only [Option.map_some', Option.some.injEq, LocVarInfo.key, Prod.mk.injEq] at h1
    exact ⟨w, rfl, h1.1, h1.2⟩

theorem InBody.bstep {d : Nat} {base : Int} {names : List String} {st st2 : CgState}
    (hl : LoweredAt d st st2) (h : InBody base names st.fi) : InBody base names st2.fi := by
  obtain ⟨new, added, hs, hf⟩ := hl
  obtain ⟨hb, f, rest, hsc, hloc, hnames⟩ := h
  rcases hf with ⟨h0, _⟩ | ⟨f0, rest0, f2, rest2, e1, e2, _, _, hl2, hu, hadd, _⟩
  · rw [hsc] at h0; cases h0
  · rw [hsc] at e1
    cases e1
    refine ⟨by omega, f2, rest2, e2, ?_, ?_⟩
    · intro i hi
      rw [hl2, List.mem_append] at hi
      rcases hi with hi | hi
      · obtain ⟨v, hv, hle⟩ := hadd i hi
        exact ⟨v, hv, by omega⟩
      · obtain ⟨v, hv, hle⟩ := hloc i hi
        obtain ⟨w, hw, _, hws⟩ := key_getElem? hs.vars hv
        exact ⟨w, hw, by omega⟩
    · intro name hn
      obtain ⟨i, hi, v, hv, hvn⟩ := hnames name hn
      obtain ⟨w, hw, hwn, _⟩ := key_getElem? hs.vars hv
      exact ⟨i, by rw [hl2]; exact List.mem_append_right _ hi, w, hw, by rw [hwn, hvn]⟩

theorem InBody.more {base : Int} {names extra : List String} {fi : FuncInfo}
    (h : InBody base names fi)
    (he : ∀ f rest, fi.scopes = f :: rest →
      ∀ name ∈ extra, ∃ i ∈ f.locals, ∃ v, fi.localVars[i]? = some v ∧ v.name = name) :
    InBody base (names ++ extra) fi := by
  obtain ⟨hb, f, rest, hsc, hloc, hnames⟩ := h
  refine ⟨hb, f, rest, hsc, hloc, fun name hn => ?_⟩
  rcases List.mem_append.1 hn with hn | hn
  · exact hnames name hn
  · exact he f rest hsc name hn

theorem DeclaredIn.dstep {d : Nat} {name : String} {st st2 : CgState}
    (hl : LoweredAt d st st2) (h : DeclaredIn st.fi name) : DeclaredIn st2.fi name := by
  obtain ⟨new, added, hs, hf⟩ := hl
  intro f2 rest2 hsc2
  rcases hf with ⟨_, h0⟩ | ⟨f0, rest0, f3, rest3, e1, e2, _, _, hl2, _, _, _⟩
  · rw [hsc2] at h0; cases h0
  · rw [hsc2] at e2
    cases e2
    obtain ⟨i, hi, v, hv, hvn⟩ := h f0 rest0 e1
    obtain ⟨w, hw, hwn, _⟩ := key_getElem? hs.vars hv
    exact ⟨i, by rw [hl2]; exact List.mem_append_right _ hi, w, hw, by rw [hwn, hvn]⟩

theorem addLocalVariable_declared (st : CgState) (name : String) (p : Int) :
    DeclaredIn (st.addLocalVariable name p).1.fi name := by
  intro f rest hsc
  cases hs : st.fi.scopes with
  | nil =>
    rw [CgState.addLocalVariable_scopes_nil _ _ _ hs] at hsc
    cases hsc
  | cons f0 rest0 =>
    rw [CgState.addLocalVariable_scopes_cons _ _ _ f0 rest0 hs] at hsc
    cases hsc
    exact ⟨st.fi.localVars.length, by simp,
      { name := name, slot := st.fi.usedRegs, startPC := p, endPC := 0 },
      by simp [CgState.addLocalVariable, CgState.onFi, FuncInfo.addLocalVariable], rfl⟩

theorem addLocalVariables_declared :
    ∀ (names : List String) (st : CgState) (p : Int), ∀ name ∈ names,
      DeclaredIn (addLocalVariables st p names).fi name
  | [], _, _, _, h => by cases h
  | n :: rest, st, p, name, h => by
    simp only [addLocalVariables]
    rcases List.mem_cons.1 h with h | h
    · subst h
      exact DeclaredIn.dstep (addLocalVariables_loweredAt 0 rest _ p)
        (addLocalVariable_declared st name p)
    · exact addLocalVariables_declared rest _ p name h

theorem cgLocalVarDeclStat_declared (E : Collaborators) (st : CgState) (lastLine : Int)
    (nameList : List String) (expressionList : List Expression) :
    ∀ name ∈ nameList,
      DeclaredIn (cgLocalVarDeclStat E st lastLine nameList expressionList).fi name := by
  intro name hn
  unfold cgLocalVarDeclStat
  exact addLocalVariables_declared nameList _ _ name hn

theorem cgLocalFuncDefStat_declared {E : Collaborators} (hE : E.Lawful) (st : CgState)
    (name : String) (expression : Nat) :
    DeclaredIn (cgLocalFuncDefStat E st name expression).fi name := by
  have q2 := Quiet.cgFuncDefExp hE (st.addLocalVariable name (st.fi.pc + 2)).1 expression
    (st.addLocalVariable name (st.fi.pc + 2)).2 (d := 0) (Nat.zero_le _)
  exact DeclaredIn.dstep (q2.loweredAt (by simp [hE.cgFuncDefExp_usedRegs]))
    (addLocalVariable_declared st name (st.fi.pc + 2))

theorem cgStat_inBody {E : Collaborators} (hE : E.Lawful) {base : Int} {names : List String}
    (s : Statement) (st st2 : CgState) (h : cgStat E st s = .done st2)
    (hin : InBody base names st.fi) : InBody base (names ++ s.declaredNames) st2.fi := by
  have h1 := InBody.bstep (cgStat_lowered hE s st st2 h).1 hin
  refine h1.more fun f rest hsc name hn => ?_
  cases s <;> simp only [Statement.declaredNames, List.not_mem_nil, List.mem_singleton] at hn
  case LocalVariableDeclareStatement lastLine nameList expressionList =>
    simp only [cgStat, Outcome.done.injEq] at h
    subst h
    exact cgLocalVarDeclStat_declared E st lastLine nameList expressionList name hn f rest hsc
  case LocalFunctionDefineStatement n expression =>
    simp only [cgStat, Outcome.done.injEq] at h
    subst h
    subst hn
    exact cgLocalFuncDefStat_declared hE st _ expression f rest hsc

theorem cgStats_inBody {E : Collaborators} (hE : E.Lawful) {base : Int} :
    ∀ (ss : List Statement) (names : List String) (st st2 : CgState),
      cgStats E st ss = .done st2 → InBody base names st.fi →
      InBody base (names ++ ss.flatMap Statement.declaredNames) st2.fi
  | [], names, st, st2, h, hin => by
    simp only [cgStats, Outcome.done.injEq] at h
    subst h
    simpa using hin
  | s :: rest, names, st, st2, h, hin => by
    simp only [cgStats] at h
    cases h1 : cgStat E st s with
    | panicked e s1 => rw [h1] at h; cases h
    | done s1 =>
      rw [h1] at h
      have := cgStats_inBody hE rest _ s1 st2 h (cgStat_inBody hE s st s1 h1 hin)
      simpa [List.flatMap_cons, List.append_assoc] using this

theorem findLocal_declared {base : Int} {vars : List LocVarInfo} {name : String} :
    ∀ (l : List Nat), (∀ i ∈ l, ∃ v, vars[i]? = some v ∧ base ≤ v.slot) →
      (∃ i ∈ l, ∃ v, vars[i]? = some v ∧ v.name = name) →
      ∃ v, FuncInfo.findLocal vars name l = some v ∧ v.name = name ∧ base ≤ v.slot
  | [], _, h => by
    obtain ⟨i, hi, _⟩ := h
    cases hi
  | j :: rest, hv, h => by
    obtain ⟨w, hw, hws⟩ := hv j (List.mem_cons_self _ _)
    simp only [FuncInfo.findLocal, hw]
    by_cases hn : w.name = name
    · rw [if_pos hn]
      exact ⟨w, rfl, hn, hws⟩
    · rw [if_neg hn]
      refine findLocal_declared rest (fun i hi => hv i (List.mem_cons_of_mem _ hi)) ?_
      obtain ⟨i, hi, v, hiv, hvn⟩ := h
      rcases List.mem_cons.1 hi with hi | hi
      · subst hi
        rw [hw] at hiv
        cases hiv
        exact absurd hvn hn
      · exact ⟨i, hi, v, hiv, hvn⟩

/-- Claim C10: when `cgStat` returns on a repeat-until statement, the body
was lowered from the state `st.enterScope true` to some state `st2`, and the
condition was lowered next, by a call of `expToOpArg` made in the state
`st2`: the scope stack then has one frame more than on entry (the frame
opened for the body, which `exitScope` has not popped yet), and for every
name declared directly in the body the lookup of the name in that state
finds a local of that name, so `slotOfLocalVariable` returns the register
of that local, a register at or above the registers in use on entry, and
not the "not found" of a name without a declaration in scope.  After the
statement the stack is back at the depth on entry. -/
theorem repeat_condition_in_body_scope (E : Collaborators) (hE : E.Lawful) (st st' : CgState)
    (block : Block) (cond : Expression)
    (h : cgStat E st (.RepeatStatement block cond) = .done st') :
    ∃ st2, cgBlock E (st.enterScope true) block = .done st2 ∧
      st'.trace[st2.trace.length]? = some ⟨st2.fi, .expToOpArg cond E.ARG_REG⟩ ∧
      st2.fi.scopes.length = st.fi.scopes.length + 1 ∧
      st'.fi.scopes.length = st.fi.scopes.length ∧
      ∀ name ∈ block.declaredNames, ∃ v,
        FuncInfo.lookupLocal st2.fi.localVars name st2.fi.scopes = some v ∧ v.name = name ∧
        st2.fi.slotOfLocalVariable name = v.slot ∧ st.fi.usedRegs ≤ v.slot := by
  have hdepth := LoweredAt.depth (cgStat_lowered hE _ st st' h).1
  simp only [cgStat, cgRepeatStat, Block.LastLine] at h
  cases hb : cgBlock E (st.enterScope true) block with
  | panicked e s1 => rw [hb] at h; cases h
  | done st2 =>
    rw [hb] at h
    simp only [Outcome.andThen, Outcome.done.injEq] at h
    have hlow := cgBlock_lowered hE block _ _ hb
    have hin0 : InBody st.fi.usedRegs [] (st.enterScope true).fi :=
      ⟨le_refl _, _, _, rfl, by simp, by simp⟩
    have hin : InBody st.fi.usedRegs block.declaredNames st2.fi := by
      cases block with
      | mk stats lastLine =>
        simp only [cgBlock] at hb
        simpa [Block.declaredNames] using cgStats_inBody hE stats [] _ st2 hb hin0
    refine ⟨st2, rfl, ?_, ?_, ?_, ?_⟩
    · subst h
      simp only [CgState.exitScope, CgState.onFi, CgState.closeOpenUpvals, CgState.emitJmp,
        CgState.emitTest, CgState.emit, CgState.expToOpArg, CgState.setUsedRegs]
      have key : ∀ r : List Event,
          (st2.trace ++ ⟨st2.fi, .expToOpArg cond E.ARG_REG⟩ :: r)[st2.trace.length]?
            = some ⟨st2.fi, .expToOpArg cond E.ARG_REG⟩ := fun r => by
        rw [List.getElem?_append_right (le_refl _)]
        simp
      split <;>
        simp only [List.append_assoc, List.singleton_append, List.cons_append,
          List.nil_append] <;>
        exact key _
    · rw [LoweredAt.depth hlow]
      simp [CgState.enterScope, CgState.onFi, FuncInfo.enterScope]
    · exact hdepth
    · intro name hn
      obtain ⟨_, f, rest, hsc, hloc, hnames⟩ := hin
      obtain ⟨v, hv, hvn, hvs⟩ := findLocal_declared f.locals hloc (hnames name hn)
      refine ⟨v, ?_, hvn, ?_, hvs⟩
      · rw [hsc]
        simp only [FuncInfo.lookupLocal, hv]
      · simp only [FuncInfo.slotOfLocalVariable, hsc, FuncInfo.lookupLocal, hv]

/-- C10 at `repeat local a = e1 until a` from the initial state: the
condition `a` is lowered in a state where `a` is found, in register 0. -/
theorem repeat_condition_in_body_scope_witness :
    ∃ st2, cgBlock sampleEmitter (initialState.enterScope true)
        (.mk [.LocalVariableDeclareStatement 1 ["a"] [.OtherExpression 1]] 2) = .done st2 ∧
      (cgStat sampleEmitter initialState sampleRepeat).state.trace[st2.trace.length]?
        = some ⟨st2.fi, .expToOpArg (.NameExpression 2 "a") sampleEmitter.ARG_REG⟩ ∧
      st2.fi.scopes.length = initialState.fi.scopes.length + 1 ∧
      (cgStat sampleEmitter initialState sampleRepeat).state.fi.scopes.length
        = initialState.fi.scopes.length ∧
      ∀ name ∈ Block.declaredNames
          (.mk [.LocalVariableDeclareStatement 1 ["a"] [.OtherExpression 1]] 2), ∃ v,
        FuncInfo.lookupLocal st2.fi.localVars name st2.fi.scopes = some v ∧ v.name = name ∧
        st2.fi.slotOfLocalVariable name = v.slot ∧ initialState.fi.usedRegs ≤ v.slot :=
  repeat_condition_in_body_scope sampleEmitter sampleEmitter_lawful initialState
    (cgStat sampleEmitter initialState sampleRepeat).state
    (.mk [.LocalVariableDeclareStatement 1 ["a"] [.OtherExpression 1]] 2)
    (.NameExpression 2 "a") rfl

/-! ### Numeric for: the offsets of the prepare and loop instructions -/

theorem Step.noOwnLoopOp {d : Nat} {new : List Event} {st st2 : CgState}
    (h : Step d new st st2) : new.filter (Event.ownLoopOp d) = [] := by
  rw [List.filter_eq_nil_iff]
  intro ev hev
  obtain ⟨_, _, _, h4, _⟩ := h.events ev hev
  unfold Event.ownLoopOp
  cases ha : ev.act with
  | emit ins =>
    have := (h4 ins ha).2
    by_cases hl : ins.isLoopOp = true
    · have := this hl
      simp
      intro hd
      omega
    · simp [hl]
  | _ => simp

theorem Instruction.setSBx_of_erase_forPrep {i : Instruction} {l a z s : Int}
    (h : i.erase = .forPrep l a z) : i.setSBx s = .forPrep l a s := by
  cases i <;> simp_all [Instruction.erase, Instruction.setSBx]

theorem Instruction.setSBx_of_erase_forLoop {i : Instruction} {l a z s : Int}
    (h : i.erase = .forLoop l a z) : i.setSBx s = .forLoop l a s := by
  cases i <;> simp_all [Instruction.erase, Instruction.setSBx]

/-- An instruction that is no jump is not touched by `exitScope` when the
frame that is left has collected only jumps. -/
theorem exitScope_keeps {d : Nat} {new : List Event} {added : List Nat} {st sx : CgState}
    {b : Bool} (hS : Step d new (st.enterScope b) sx) (hF : Frames new added (st.enterScope b) sx)
    (e : Int) (k : Nat) (i : Instruction) (hi : sx.fi.insts[k]? = some i)
    (hj : ∀ l, i.erase ≠ .jmp l 0 0) : (sx.exitScope e).fi.insts[k]? = some i := by
  obtain ⟨f, rest, hsc, _, _, hbr⟩ := inner_frame hS hF
  simp only [CgState.exitScope, CgState.onFi_fi]
  rw [FuncInfo.exitScope_getElem? sx.fi e f rest hsc k, if_neg, hi]
  rintro ⟨_, hm⟩
  obtain ⟨k2, hk, _, l, hl⟩ := hbr _ hm
  have : k2 = k := by omega
  subst this
  rw [hi] at hl
  simp only [Option.map_some', Option.some.injEq] at hl
  exact hj l hl

/-- The tail of `cgForNumStat`, from the state `S3` in which the prepare
instruction is emitted. -/
theorem forNum_core {E : Collaborators} (st S3 s4 : CgState) (lineOfFor lineOfDo a line e : Int)
    (hA : LoweredAt (st.fi.scopes.length + 1) (st.enterScope true) S3)
    (hB : Lowered (S3.emit (.forPrep lineOfDo a 0)).1 s4) :
    ∃ (fiP fiL : FuncInfo),
      ((((((s4.closeOpenUpvals E line).emit (.forLoop lineOfFor a 0)).1.fixSbx
          (S3.fi.insts.length : Int)
          (((s4.closeOpenUpvals E line).fi.insts.length : Int) - S3.fi.insts.length - 1)).fixSbx
          ((s4.closeOpenUpvals E line).fi.insts.length : Int)
          ((S3.fi.insts.length : Int) - (s4.closeOpenUpvals E line).fi.insts.length)).exitScope
            e).trace.drop st.trace.length).filter (Event.ownLoopOp (st.fi.scopes.length + 1))
        = [⟨fiP, .emit (.forPrep lineOfDo a 0)⟩, ⟨fiL, .emit (.forLoop lineOfFor a 0)⟩] ∧
      fiP.insts.length < fiL.insts.length ∧
      (((((s4.closeOpenUpvals E line).emit (.forLoop lineOfFor a 0)).1.fixSbx
          (S3.fi.insts.length : Int)
          (((s4.closeOpenUpvals E line).fi.insts.length : Int) - S3.fi.insts.length - 1)).fixSbx
          ((s4.closeOpenUpvals E line).fi.insts.length : Int)
          ((S3.fi.insts.length : Int) - (s4.closeOpenUpvals E line).fi.insts.length)).exitScope
            e).fi.insts[fiP.insts.length]?
        = some (.forPrep lineOfDo a ((fiL.insts.length : Int) - fiP.insts.length - 1)) ∧
      (((((s4.closeOpenUpvals E line).emit (.forLoop lineOfFor a 0)).1.fixSbx
          (S3.fi.insts.length : Int)
          (((s4.closeOpenUpvals E line).fi.insts.length : Int) - S3.fi.insts.length - 1)).fixSbx
          ((s4.closeOpenUpvals E line).fi.insts.length : Int)
          ((S3.fi.insts.length : Int) - (s4.closeOpenUpvals E line).fi.insts.length)).exitScope
            e).fi.insts[fiL.insts.length]?
        = some (.forLoop lineOfFor a ((fiP.insts.length : Int) - fiL.insts.length)) := by
  have hd3 : S3.fi.scopes.length = st.fi.scopes.length + 1 := by
    have := hA.depth
    simpa using this
  have hd4 : s4.fi.scopes.length = st.fi.scopes.length + 1 := by
    have := LoweredAt.depth hB
    simpa [hd3] using this
  have qC := Quiet.closeOpenUpvals E s4 line (d := st.fi.scopes.length + 1) (by omega)
  have hd5 : (s4.closeOpenUpvals E line).fi.scopes.length = st.fi.scopes.length + 1 := by
    rw [qC.scopes, hd4]
  -- the whole stretch at the depth of the statement
  have l3 := (hA.weaken (Nat.le_succ _)).quiet
    (Quiet.emit S3 (.forPrep lineOfDo a 0) (by omega) (fun _ => by omega)) (by simp)
  have l4 := l3.body (by simp only [CgState.emit_scopes]; omega) hB
  have l5 := l4.quiet (Quiet.closeOpenUpvals E s4 line (by omega)) (by simp)
  have l6 := l5.quiet (Quiet.emit _ (.forLoop lineOfFor a 0) (by omega) (fun _ => by omega))
    (by simp)
  have l7 := (l6.quiet (Quiet.fixSbx _ _ (S3.fi.insts.length : Int)
      (((s4.closeOpenUpvals E line).fi.insts.length : Int) - S3.fi.insts.length - 1))
        (by simp)).quiet
    (Quiet.fixSbx _ _ ((s4.closeOpenUpvals E line).fi.insts.length : Int)
      ((S3.fi.insts.length : Int) - (s4.closeOpenUpvals E line).fi.insts.length)) (by simp)
  -- the pieces at the depth of the loop's scope
  obtain ⟨nA, _, sA, _⟩ := hA
  obtain ⟨nB, _, sB, _⟩ := hB
  obtain ⟨nC, sC, _, _⟩ := qC
  simp only [CgState.emit_scopes, hd3] at sB
  have sBC := sB.strans sC
  have hlen : S3.fi.insts.length < (s4.closeOpenUpvals E line).fi.insts.length := by
    obtain ⟨ext, hx⟩ := sBC.insts
    have := grow_length hx
    simp at this
    omega
  have hP5 : ((s4.closeOpenUpvals E line).fi.insts[S3.fi.insts.length]?).map Instruction.erase
      = some (.forPrep lineOfDo a 0) := by
    obtain ⟨ext, hx⟩ := sBC.insts
    exact grow_getElem?_some hx (by simp [CgState.emit, FuncInfo.emit, Instruction.erase,
      Instruction.setSBx])
  obtain ⟨n7, a7, s7, f7⟩ := l7
  clear l3 l4 l5 l6 sB sC
  generalize s4.closeOpenUpvals E line = S5 at *
  refine ⟨S3.fi, S5.fi, ?_, hlen, ?_, ?_⟩
  · have ht : ((((S5.emit (.forLoop lineOfFor a 0)).1.fixSbx (S3.fi.insts.length : Int)
          ((S5.fi.insts.length : Int) - S3.fi.insts.length - 1)).fixSbx
          (S5.fi.insts.length : Int)
          ((S3.fi.insts.length : Int) - S5.fi.insts.length)).exitScope e).trace
        = st.trace ++ (nA ++ ([⟨S3.fi, .emit (.forPrep lineOfDo a 0)⟩] ++
              ((nB ++ nC) ++ [⟨S5.fi, .emit (.forLoop lineOfFor a 0)⟩]))) := by
      have h1 := sBC.trace
      have h2 := sA.trace
      simp only [CgState.emit_trace, CgState.enterScope_trace] at h1 h2
      simp [h1, h2]
    have hBC : nB.filter (Event.ownLoopOp (st.fi.scopes.length + 1)) = [] ∧
        nC.filter (Event.ownLoopOp (st.fi.scopes.length + 1)) = [] := by
      simpa [List.filter_append] using sBC.noOwnLoopOp
    rw [ht, List.drop_left]
    simp [List.filter_append, sA.noOwnLoopOp, hBC.1, hBC.2, Event.ownLoopOp, hd3, hd5,
      Instruction.isLoopOp, List.filter_cons]
  · apply exitScope_keeps s7 f7
    · cases hi : S5.fi.insts[S3.fi.insts.length]? with
      | none => rw [hi] at hP5; simp at hP5
      | some i =>
        rw [hi] at hP5
        simp only [Option.map_some', Option.some.injEq] at hP5
        have hne : ¬ ((S5.fi.insts.length : Int) = (S3.fi.insts.length : Int)) := by omega
        simp only [CgState.fixSbx, CgState.onFi_fi, FuncInfo.fixSbx_getElem?, if_neg hne]
        simp [CgState.emit, FuncInfo.emit, List.getElem?_append_left hlen, hi,
          Instruction.setSBx_of_erase_forPrep hP5]
    · intro l
      simp [Instruction.erase, Instruction.setSBx]
  · apply exitScope_keeps s7 f7
    · have hne : ¬ ((S3.fi.insts.length : Int) = (S5.fi.insts.length : Int)) := by omega
      simp only [CgState.fixSbx, CgState.onFi_fi, FuncInfo.fixSbx_getElem?, if_neg hne]
      simp [CgState.emit, FuncInfo.emit, Instruction.setSBx]
    · intro l
      simp [Instruction.erase, Instruction.setSBx]

/-- The prepare and the loop instruction of a numeric for, after
`cgForNumStat` has returned: the routine emitted them itself, in this
order, as its only loop instructions; the prepare instruction at PC `P` has
the offset `L - P - 1` and the loop instruction at PC `L` the offset
`P - L`. -/
theorem cgForNumStat_offsets {E : Collaborators} (hE : E.Lawful) (st st' : CgState)
    (lineOfFor lineOfDo : Int) (varName : String) (e1 e2 e3 : Expression) (block : LoweredBlock)
    (hb : block.Ok)
    (h : cgForNumStat E st lineOfFor lineOfDo varName e1 e2 e3 block = .done st') :
    ∃ (fiP fiL : FuncInfo) (a : Int),
      (st'.trace.drop st.trace.length).filter (Event.ownLoopOp (st.fi.scopes.length + 1))
        = [⟨fiP, .emit (.forPrep lineOfDo a 0)⟩, ⟨fiL, .emit (.forLoop lineOfFor a 0)⟩] ∧
      fiP.insts.length < fiL.insts.length ∧
      st'.fi.insts[fiP.insts.length]?
        = some (.forPrep lineOfDo a ((fiL.insts.length : Int) - fiP.insts.length - 1)) ∧
      st'.fi.insts[fiL.insts.length]?
        = some (.forLoop lineOfFor a ((fiP.insts.length : Int) - fiL.insts.length)) := by
  unfold cgForNumStat at h
  obtain ⟨s4, hr, h2⟩ := Outcome.andThen_done h
  clear h
  simp only [Outcome.done.injEq] at h2
  subst h2
  have hA : LoweredAt (st.fi.scopes.length + 1) (st.enterScope true)
      ((cgLocalVarDeclStat E (st.enterScope true) 0 ["(for index)", "(for limit)", "(for step)"]
        [e1, e2, e3]).addLocalVariable varName
          ((cgLocalVarDeclStat E (st.enterScope true) 0
            ["(for index)", "(for limit)", "(for step)"] [e1, e2, e3]).fi.pc + 2)).1 :=
    (cgLocalVarDeclStat_loweredAt hE (st.enterScope true) 0
      ["(for index)", "(for limit)", "(for step)"] [e1, e2, e3] (by simp)).trans
      (addLocalVariable_loweredAt _ _ varName _)
  obtain ⟨fiP, fiL, h1, h2, h3, h4⟩ := forNum_core (E := E) st _ s4 lineOfFor lineOfDo _
    block.LastLine _ hA (hb _ _ hr)
  refine ⟨fiP, fiL, _, h1, h2, ?_, ?_⟩
  · simpa using h3
  · simpa using h4

/-- Claim C4: when `cgStat` returns on a numeric for statement, the
statement-level trace of the call has exactly two emissions of a loop
instruction at the depth of the loop's own scope (one frame above the
depth on entry): first the prepare instruction, emitted when the buffer had
`P` instructions, so at PC `P`, then the loop instruction at PC `L`, both
with the same base register.  In the final buffer the instruction at `P` is
that prepare instruction with an offset `offP` such that
`P + 1 + offP = L`, and the instruction at `L` is that loop instruction
with an offset `offL` such that `L + 1 + offL = P + 1`. -/
theorem for_num_offsets (E : Collaborators) (hE : E.Lawful) (st st' : CgState)
    (lineOfFor lineOfDo : Int) (varName : String) (e1 e2 e3 : Expression) (block : Block)
    (h : cgStat E st (.ForNumStatement lineOfFor lineOfDo varName e1 e2 e3 block) = .done st') :
    ∃ (fiP fiL : FuncInfo) (a offP offL : Int),
      (st'.trace.drop st.trace.length).filter (Event.ownLoopOp (st.fi.scopes.length + 1))
        = [⟨fiP, .emit (.forPrep lineOfDo a 0)⟩, ⟨fiL, .emit (.forLoop lineOfFor a 0)⟩] ∧
      st'.fi.insts[fiP.insts.length]? = some (.forPrep lineOfDo a offP) ∧
      st'.fi.insts[fiL.insts.length]? = some (.forLoop lineOfFor a offL) ∧
      (fiP.insts.length : Int) + 1 + offP = fiL.insts.length ∧
      (fiL.insts.length : Int) + 1 + offL = (fiP.insts.length : Int) + 1 := by
  simp only [cgStat] at h
  obtain ⟨fiP, fiL, a, h1, _, h3, h4⟩ := cgForNumStat_offsets hE st st' lineOfFor lineOfDo
    varName e1 e2 e3 ⟨block.LastLine, fun s => cgBlock E s block⟩
    (fun s s2 hs => cgBlock_lowered hE block s s2 hs) h
  exact ⟨fiP, fiL, a, _, _, h1, h3, h4, by omega, by omega⟩

/-- C4 at `for i = e1, e2, e3 do f() end` from the initial state: the
prepare instruction is at PC 3, the loop instruction at PC 5. -/
theorem for_num_offsets_witness :
    (cgStat sampleEmitter initialState sampleForNum).state.fi.insts
      = [.other 1 0 1 0, .other 1 1 1 0, .other 1 2 1 0, .forPrep 1 0 1, .other 2 4 0 0,
         .forLoop 1 0 (-2)] ∧
    ∃ (fiP fiL : FuncInfo) (a offP offL : Int),
      ((cgStat sampleEmitter initialState sampleForNum).state.trace.drop
          initialState.trace.length).filter
            (Event.ownLoopOp (initialState.fi.scopes.length + 1))
        = [⟨fiP, .emit (.forPrep 1 a 0)⟩, ⟨fiL, .emit (.forLoop 1 a 0)⟩] ∧
      (cgStat sampleEmitter initialState sampleForNum).state.fi.insts[fiP.insts.length]?
        = some (.forPrep 1 a offP) ∧
      (cgStat sampleEmitter initialState sampleForNum).state.fi.insts[fiL.insts.length]?
        = some (.forLoop 1 a offL) ∧
      (fiP.insts.length : Int) + 1 + offP = fiL.insts.length ∧
      (fiL.insts.length : Int) + 1 + offL = (fiP.insts.length : Int) + 1 :=
  ⟨by decide,
   for_num_offsets sampleEmitter sampleEmitter_lawful initialState
    (cgStat sampleEmitter initialState sampleForNum).state 1 1 "i" (.OtherExpression 1)
    (.OtherExpression 2) (.OtherExpression 3) (.mk [.FunctionCallStatement 0] 2) rfl⟩

/-! ### If: the test and jump pairs, and the jumps to the end -/

theorem ownEmits_append (d : Nat) (a b : List Event) :
    ownEmits d (a ++ b) = ownEmits d a ++ ownEmits d b := by
  simp [ownEmits, List.filterMap_append]

theorem Step.ownEmits_below {d d2 : Nat} {new : List Event} {st st2 : CgState}
    (h : Step d new st st2) (hd : d2 < d) : ownEmits d2 new = [] := by
  rw [ownEmits, List.filterMap_eq_nil_iff]
  intro ev hev
  obtain ⟨h1, _⟩ := h.events ev hev
  unfold Event.ownEmit
  split
  · rw [if_neg (by omega)]
  · rfl

theorem mem_ownEmits {d : Nat} {new : List Event} {pc : Nat} {ins : Instruction}
    (h : (pc, ins) ∈ ownEmits d new) :
    ∃ ev ∈ new, ev.act = .emit ins ∧ ev.pre.insts.length = pc := by
  simp only [ownEmits, List.mem_filterMap] at h
  obtain ⟨ev, hev, ho⟩ := h
  refine ⟨ev, hev, ?_⟩
  unfold Event.ownEmit at ho
  split at ho
  · next i hi =>
    split at ho
    · simp only [Option.some.injEq, Prod.mk.injEq] at ho
      exact ⟨by rw [hi, ho.2], ho.1⟩
    · cases ho
  · cases ho

theorem fixJmpToEnds_fi :
    ∀ (ends : List Int) (st : CgState), (fixJmpToEnds st ends).fi = st.fi.patchBreaks ends
  | [], _ => rfl
  | pc :: rest, st => by
    simp only [fixJmpToEnds, FuncInfo.patchBreaks]
    rw [fixJmpToEnds_fi rest]
    rfl

theorem fixJmpToEnds_trace :
    ∀ (ends : List Int) (st : CgState), (fixJmpToEnds st ends).trace = st.trace
  | [], _ => rfl
  | pc :: rest, st => by
    simp only [fixJmpToEnds]
    rw [fixJmpToEnds_trace rest]
    rfl

theorem chainEnds_length : ∀ bs : List Branch, (chainEnds bs).length = bs.length
  | [] => rfl
  | [_] => rfl
  | _ :: c :: rest => by simp [chainEnds, chainEnds_length (c :: rest)]

theorem chainEnds_jmp : ∀ (bs : List Branch) (pc : Nat), pc ∈ chainEnds bs →
    ∃ l, (pc, Instruction.jmp l 0 0) ∈ chainEmits bs
  | [], _, h => by cases h
  | [b], pc, h => by
    simp only [chainEnds, List.mem_singleton] at h
    subst h
    exact ⟨b.line, by simp [chainEmits]⟩
  | b :: c :: rest, pc, h => by
    simp only [chainEnds, List.mem_cons] at h
    rcases h with h | h
    · subst h
      exact ⟨b.blockLine, by simp [chainEmits]⟩
    · obtain ⟨l, hl⟩ := chainEnds_jmp (c :: rest) pc (by simpa [List.mem_cons] using h)
      exact ⟨l, by simp only [chainEmits]; exact List.mem_append_right _ hl⟩

theorem chainEmits_tests : ∀ bs : List Branch,
    ((chainEmits bs).filter fun e => e.2.isTest).length = bs.length
  | [] => rfl
  | [_] => by simp [chainEmits, Instruction.isTest]
  | b :: c :: rest => by
    have ih := chainEmits_tests (c :: rest)
    rw [chainEmits, List.filter_append, List.length_append, ih]
    simp [List.filter_cons, Instruction.isTest]
    omega

theorem cgIfLoop_chain {E : Collaborators} (hE : E.Lawful) (n : Int)
    (blocks : List LoweredBlock) (hbs : ∀ b ∈ blocks, b.Ok) :
    ∀ (exps : List Expression) (st : CgState) (pj : Int) (ends : List Int) (i : Nat)
      (st' : CgState) (ends' : List Int),
      cgIfLoop E n blocks st pj ends i exps = (.done st', ends') →
      (i : Int) + exps.length = n →
      ∃ new bs, st'.trace = st.trace ++ new ∧ bs.length = exps.length ∧
        ownEmits st.fi.scopes.length new = chainEmits bs ∧
        ends' = ends ++ (chainEnds bs).map (fun (k : Nat) => (k : Int)) ∧
        bs.map Branch.line = exps.map E.lastLineOf
  | [], st, pj, ends, i, st', ends', h, _ => by
    simp only [cgIfLoop, Prod.mk.injEq, Outcome.done.injEq] at h
    obtain ⟨h1, h2⟩ := h
    subst h1
    subst h2
    exact ⟨[], [], by simp, rfl, rfl, by simp [chainEnds], rfl⟩
  | exp :: rest, st, pj, ends, i, st', ends', h, hn => by
    rw [cgIfLoop] at h
    dsimp only at h
    simp only [CgState.emitJmp, CgState.emitTest] at h
    have q0 : Quiet st.fi.scopes.length st
        (if pj ≥ 0 then st.fixSbx pj (st.fi.pc - pj) else st) := by
      split
      · exact Quiet.fixSbx _ _ _ _
      · exact Quiet.qrefl _ _
    have u0 : (if pj ≥ 0 then st.fixSbx pj (st.fi.pc - pj) else st).fi.usedRegs
        = st.fi.usedRegs := by
      split <;> simp
    have t0 : (if pj ≥ 0 then st.fixSbx pj (st.fi.pc - pj) else st).trace = st.trace := by
      split <;> simp
    revert h q0 u0 t0
    generalize (if pj ≥ 0 then st.fixSbx pj (st.fi.pc - pj) else st) = st0
    intro h q0 u0 t0
    have c0 := q0.scopes
    split at h
    · simp at h
    · next block hblk =>
      have hbk : block.Ok := hbs block (List.getElem?_mem hblk)
      split at h
      · simp at h
      · next s3 hr =>
        have q3 := q0.qtrans (quiet_condTest hE st0 exp E.ARG_REG
          st0.fi.usedRegs (E.lastLineOf exp)
          (st0.expToOpArg E exp E.ARG_REG).2 0
          (q0.depth_le (le_refl _)))
        have q4 := q3.qtrans (Quiet.emit _ (.jmp (E.lastLineOf exp) 0 0)
          (q3.depth_le (le_refl _)) (by simp [Instruction.isLoopOp]))
        have n1 := q4.neutralAt (by simp [u0])
        have l1 := (LoweredAt.refl st.fi.scopes.length _).body
          (by simp only [CgState.enterScope_scopes, List.length_cons]; rw [q4.scopes]; omega)
          (hbk _ _ hr)
        have d1 : s3.fi.scopes.length = st.fi.scopes.length + 1 := by
          rw [l1.depth]
          simp only [CgState.enterScope_scopes, List.length_cons]
          rw [q4.scopes]
        have l2 := l1.quiet (Quiet.closeOpenUpvals E s3 block.LastLine (by omega)) (by simp)
        have n2 := n1.ntrans (bracket _ _ false
          ((s3.closeOpenUpvals E block.LastLine).fi.pc + 1) l2)
        -- the events of the block and of the closing of its upvalues
        obtain ⟨nB, _, sB, _⟩ := hbk _ _ hr
        obtain ⟨nC, sC, _, _⟩ := Quiet.closeOpenUpvals E s3 block.LastLine
          (d := st.fi.scopes.length + 1) (by omega)
        simp only [CgState.enterScope_scopes, List.length_cons, q4.scopes] at sB
        have sBC := sB.strans sC
        have oBC := sBC.ownEmits_below (Nat.lt_succ_self _)
        have tBC := sBC.trace
        simp only [CgState.enterScope_trace, CgState.emit_trace, CgState.setUsedRegs_trace,
          CgState.expToOpArg_trace, t0] at tBC
        have d5 := n2.ndepth
        have hds : ((st0.expToOpArg E exp E.ARG_REG).1.setUsedRegs st0.fi.usedRegs).fi.scopes.length
            = st.fi.scopes.length := by
          simp [hE.expToOpArg_scopes, c0]
        clear q3 q4 n1 l1 l2 n2 sB sC sBC hr
        revert h hds tBC d5
        generalize ((st0.expToOpArg E exp E.ARG_REG).1.setUsedRegs st0.fi.usedRegs) = sT
        generalize (st0.expToOpArg E exp E.ARG_REG).2 = a
        generalize (s3.closeOpenUpvals E block.LastLine) = s4
        intro h tBC d5 hds
        have o3 : ownEmits st.fi.scopes.length
            [⟨sT.fi, .emit (.test (E.lastLineOf exp) a 0)⟩,
             ⟨(sT.emit (.test (E.lastLineOf exp) a 0)).1.fi,
               .emit (.jmp (E.lastLineOf exp) 0 0)⟩]
            = [(sT.fi.insts.length, .test (E.lastLineOf exp) a 0),
               (sT.fi.insts.length + 1, .jmp (E.lastLineOf exp) 0 0)] := by
          simp [ownEmits, Event.ownEmit, hds]
        have oa : ownEmits st.fi.scopes.length
            [⟨st0.fi, .expToOpArg exp E.ARG_REG⟩] = [] := by
          simp [ownEmits, Event.ownEmit]
        have oBC2 : ownEmits st.fi.scopes.length nB = [] ∧
            ownEmits st.fi.scopes.length nC = [] := by
          simpa [ownEmits_append] using oBC
        split at h
        · next hlt =>
          obtain ⟨new2, bs2, ht2, hl2, ho2, he2, hm2⟩ :=
            cgIfLoop_chain hE n blocks hbs rest _ _ _ _ st' ends' h
              (by simp only [List.length_cons] at hn; push_cast at hn ⊢; omega)
          simp only [CgState.emit_scopes, CgState.emit_trace, CgState.exitScope_trace,
            CgState.emit_snd] at ht2 ho2 he2
          rw [d5] at ho2
          have hne : bs2 ≠ [] := by
            intro hc
            rw [hc] at hl2
            simp only [List.length_cons, List.length_nil] at hn hl2
            rw [← hl2] at hn
            push_cast at hn
            omega
          obtain ⟨c, r, hcr⟩ := List.exists_cons_of_ne_nil hne
          subst hcr
          refine ⟨[⟨st0.fi, .expToOpArg exp E.ARG_REG⟩] ++
              ([⟨sT.fi, .emit (.test (E.lastLineOf exp) a 0)⟩,
               ⟨(sT.emit (.test (E.lastLineOf exp) a 0)).1.fi,
                 .emit (.jmp (E.lastLineOf exp) 0 0)⟩] ++
              ((nB ++ nC) ++
              ([⟨(s4.exitScope (s4.fi.pc + 1)).fi, .emit (.jmp block.LastLine 0 0)⟩] ++ new2))),
            ⟨sT.fi.insts.length, E.lastLineOf exp, a,
              (s4.exitScope (s4.fi.pc + 1)).fi.insts.length, block.LastLine⟩ :: c :: r,
            ?_, ?_, ?_, ?_, ?_⟩
          · rw [ht2, tBC]
            simp
          · simp [hl2]
          · have o5 : ownEmits st.fi.scopes.length
                [⟨(s4.exitScope (s4.fi.pc + 1)).fi, .emit (.jmp block.LastLine 0 0)⟩]
                = [((s4.exitScope (s4.fi.pc + 1)).fi.insts.length, .jmp block.LastLine 0 0)] := by
              simp only [ownEmits, List.filterMap_cons, Event.ownEmit, d5, if_true,
                List.filterMap_nil]
            simp only [ownEmits_append, oa, o3, oBC2.1, oBC2.2, ho2, o5]
            simp [chainEmits]
          · rw [he2]
            simp [chainEnds]
          · simp only [List.map_cons] at hm2 ⊢
            rw [hm2]
        · next hge =>
          have hr0 : rest = [] := by
            cases rest with
            | nil => rfl
            | cons e r =>
              simp only [List.length_cons] at hn
              push_cast at hn
              omega
          subst hr0
          simp only [cgIfLoop, Prod.mk.injEq, Outcome.done.injEq, CgState.emit_snd] at h
          obtain ⟨h1, h2⟩ := h
          subst h1
          subst h2
          refine ⟨[⟨st0.fi, .expToOpArg exp E.ARG_REG⟩] ++
              ([⟨sT.fi, .emit (.test (E.lastLineOf exp) a 0)⟩,
               ⟨(sT.emit (.test (E.lastLineOf exp) a 0)).1.fi,
                 .emit (.jmp (E.lastLineOf exp) 0 0)⟩] ++ (nB ++ nC)),
            [⟨sT.fi.insts.length, E.lastLineOf exp, a, 0, 0⟩], ?_, rfl, ?_, ?_, rfl⟩
          · rw [CgState.exitScope_trace, tBC]
            simp
          · simp only [ownEmits_append, oa, o3, oBC2.1, oBC2.2]
            simp [chainEmits]
          · simp [chainEnds]

/-- The if statement after `cgIfStat` has returned: what the routine
emitted itself is the chain of its branches, and every PC recorded in
`pcJmpToEnds` holds a jump whose target is the end of the buffer. -/
theorem cgIfStat_chain {E : Collaborators} (hE : E.Lawful) (st st' : CgState)
    (expressions : List Expression) (blocks : List LoweredBlock) (hbs : ∀ b ∈ blocks, b.Ok)
    (h : cgIfStat E st expressions blocks = .done st') :
    ∃ new bs, st'.trace = st.trace ++ new ∧ bs.length = expressions.length ∧
      bs.map Branch.line = expressions.map E.lastLineOf ∧
      ownEmits st.fi.scopes.length new = chainEmits bs ∧
      (∀ e ∈ chainEmits bs, (st'.fi.insts[e.1]?).map Instruction.erase = some e.2.erase) ∧
      ∀ pc ∈ chainEnds bs, ∃ l off, st'.fi.insts[pc]? = some (.jmp l 0 off) ∧
        (pc : Int) + 1 + off = st'.fi.insts.length := by
  unfold cgIfStat at h
  obtain ⟨s1, hr, h2⟩ := Outcome.andThen_done h
  clear h
  simp only [Outcome.done.injEq] at h2
  subst h2
  obtain ⟨new, bs, ht, hl, ho, he, hm⟩ := cgIfLoop_chain hE _ blocks hbs expressions st (-1) []
    0 s1 _ (Prod.ext hr rfl) (by simp)
  obtain ⟨⟨new2, sS, _⟩, _⟩ := cgIfLoop_neutral hE _ blocks hbs expressions st (-1) [] 0 s1 hr
  have hnew : new2 = new := by
    have := sS.trace
    rw [ht] at this
    exact (List.append_cancel_left this).symm
  subst hnew
  refine ⟨new2, bs, by rw [fixJmpToEnds_trace, ht], hl, hm, ho, ?_, ?_⟩
  · rintro ⟨pc, ins⟩ hmem
    rw [← ho] at hmem
    obtain ⟨ev, hev, hact, hpcEq⟩ := mem_ownEmits hmem
    obtain ⟨_, _, _, h4, _⟩ := sS.events ev hev
    have hi := (h4 _ hact).1
    rw [hpcEq] at hi
    rw [← List.getElem?_map, fixJmpToEnds_fi, FuncInfo.patchBreaks_insts_erase,
      List.getElem?_map]
    exact hi
  intro pc hpc
  obtain ⟨l, hmem⟩ := chainEnds_jmp bs pc hpc
  rw [← ho] at hmem
  obtain ⟨ev, hev, hact, hpcEq⟩ := mem_ownEmits hmem
  obtain ⟨_, _, _, h4, _⟩ := sS.events ev hev
  have hi := (h4 _ hact).1
  rw [hpcEq] at hi
  have hin : (pc : Int) ∈ ([] : List Int) ++ (chainEnds bs).map (fun (k : Nat) => (k : Int)) := by
    simp only [List.nil_append, List.mem_map]
    exact ⟨pc, hpc, rfl⟩
  rw [← he] at hin
  rw [fixJmpToEnds_fi, FuncInfo.patchBreaks_getElem?, if_pos hin]
  cases hk : s1.fi.insts[pc]? with
  | none => rw [hk] at hi; simp at hi
  | some i =>
    rw [hk] at hi
    simp only [Option.map_some', Option.some.injEq] at hi
    have hlt : pc < s1.fi.insts.length := by
      by_contra hc
      rw [List.getElem?_eq_none (by omega)] at hk
      cases hk
    refine ⟨l, s1.fi.pc - pc, ?_, ?_⟩
    · simp only [Option.map_some', Option.some.injEq]
      exact Instruction.setSBx_of_erase_jmp hi
    · simp only [FuncInfo.patchBreaks_insts_length, FuncInfo.pc]
      omega

/-- Claim C5: when `cgStat` returns on an if statement with `K` condition
expressions, there are `K` branch records, one per condition in source
order (each on the line of its condition), such that the instructions the
routine emitted itself, at the scope depth it was entered at, are exactly
the chain of these records: per branch a test at some PC `p` and a jump at
`p + 1`, and after each branch but the last one more jump.  So exactly `K`
of them are tests, and the final buffer holds each of them at its PC, up to
the offset.  The `K` PCs recorded as jumps to the end (the extra jump of
each branch but the last, the jump at `p + 1` of the last) all hold a jump
whose target, its PC + 1 + its offset, is the length of the final buffer:
the PC of the first instruction after the chain. -/
theorem if_chain_pairs_and_ends (E : Collaborators) (hE : E.Lawful) (st st' : CgState)
    (expressions : List Expression) (blocks : List Block)
    (h : cgStat E st (.IfStatement expressions blocks) = .done st') :
    ∃ bs : List Branch, bs.length = expressions.length ∧
      bs.map Branch.line = expressions.map E.lastLineOf ∧
      ownEmits st.fi.scopes.length (st'.trace.drop st.trace.length) = chainEmits bs ∧
      ((ownEmits st.fi.scopes.length (st'.trace.drop st.trace.length)).filter
        fun e => e.2.isTest).length = expressions.length ∧
      (∀ e ∈ chainEmits bs, (st'.fi.insts[e.1]?).map Instruction.erase = some e.2.erase) ∧
      (chainEnds bs).length = expressions.length ∧
      ∀ pc ∈ chainEnds bs, ∃ l off, st'.fi.insts[pc]? = some (.jmp l 0 off) ∧
        (pc : Int) + 1 + off = st'.fi.insts.length := by
  simp only [cgStat] at h
  obtain ⟨new, bs, ht, hl, hm, ho, hb, he⟩ := cgIfStat_chain hE st st' expressions
    (lowerBlocks E blocks) (lowerBlocks_ok hE blocks) h
  have hd : st'.trace.drop st.trace.length = new := by rw [ht, List.drop_left]
  rw [hd]
  exact ⟨bs, hl, hm, ho, by rw [ho, chainEmits_tests, hl], hb,
    by rw [chainEnds_length, hl], he⟩

/-- C5 at `if e1 then f() elseif e2 then g() end` from the initial state. -/
theorem if_chain_pairs_and_ends_witness :
    (cgStat sampleEmitter initialState sampleIf).state.fi.insts
      = [.other 5 0 0 0, .test 0 0 0, .jmp 0 0 2, .other 2 0 0 0, .jmp 1 0 4, .other 5 0 0 0,
         .test 0 0 0, .jmp 0 0 1, .other 2 0 0 0] ∧
    ∃ bs : List Branch, bs.length = 2 ∧
      bs.map Branch.line
        = [Expression.OtherExpression 1, .OtherExpression 2].map sampleEmitter.lastLineOf ∧
      ownEmits initialState.fi.scopes.length
        ((cgStat sampleEmitter initialState sampleIf).state.trace.drop
          initialState.trace.length) = chainEmits bs ∧
      ((ownEmits initialState.fi.scopes.length
        ((cgStat sampleEmitter initialState sampleIf).state.trace.drop
          initialState.trace.length)).filter fun e => e.2.isTest).length = 2 ∧
      (∀ e ∈ chainEmits bs,
        ((cgStat sampleEmitter initialState sampleIf).state.fi.insts[e.1]?).map
          Instruction.erase = some e.2.erase) ∧
      (chainEnds bs).length = 2 ∧
      ∀ pc ∈ chainEnds bs, ∃ l off,
        (cgStat sampleEmitter initialState sampleIf).state.fi.insts[pc]? = some (.jmp l 0 off) ∧
        (pc : Int) + 1 + off = (cgStat sampleEmitter initialState sampleIf).state.fi.insts.length :=
  ⟨by decide,
   if_chain_pairs_and_ends sampleEmitter sampleEmitter_lawful initialState
    (cgStat sampleEmitter initialState sampleIf).state
    [.OtherExpression 1, .OtherExpression 2]
    [.mk [.FunctionCallStatement 0] 1, .mk [.FunctionCallStatement 1] 2] rfl⟩

/-! ### While: the back-jump and the false-jump -/

/-- A break jump logged during a stretch of lowering is the PC of an
instruction emitted during the stretch. -/
theorem Step.breaks_range {d h : Nat} {new : List Event} {st st2 : CgState} {pc : Int}
    (hS : Step d new st st2) (hm : pc ∈ evBreaks h new) :
    ∃ k : Nat, pc = (k : Int) ∧ st.fi.insts.length ≤ k ∧ k < st2.fi.insts.length := by
  obtain ⟨ev, hev, ha, _⟩ := mem_evBreaks hm
  obtain ⟨_, _, _, _, h5⟩ := hS.events ev hev
  obtain ⟨k, hk, hn, l, hl⟩ := h5 pc ha
  refine ⟨k, hk, hn, ?_⟩
  by_contra hc
  rw [List.getElem?_eq_none (by omega)] at hl
  simp at hl

/-- An instruction outside the range of the PCs that the innermost frame
has collected is not touched by `exitScope`. -/
theorem exitScope_outside {sx : CgState} {f : Scope} {rest : List Scope} {l u : Nat}
    (hsc : sx.fi.scopes = f :: rest)
    (hb : ∀ pc ∈ f.breaks, ∃ k : Nat, pc = (k : Int) ∧ l ≤ k ∧ k < u)
    (e : Int) (k : Nat) (hk : k < l ∨ u ≤ k) :
    (sx.exitScope e).fi.insts[k]? = sx.fi.insts[k]? := by
  simp only [CgState.exitScope, CgState.onFi_fi]
  rw [FuncInfo.exitScope_getElem? sx.fi e f rest hsc k, if_neg]
  rintro ⟨_, hm⟩
  obtain ⟨k2, hk2, h1, h2⟩ := hb _ hm
  omega

/-- The frame opened for a scope, when the lowering inside it has reached
`sx`: the PCs it has collected are PCs of instructions emitted inside. -/
theorem inner_breaks {d : Nat} {st sx : CgState} {b : Bool}
    (h : LoweredAt d (st.enterScope b) sx) :
    ∃ f rest, sx.fi.scopes = f :: rest ∧
      ∀ pc ∈ f.breaks, ∃ k : Nat, pc = (k : Int) ∧ st.fi.insts.length ≤ k ∧
        k < sx.fi.insts.length := by
  obtain ⟨new, added, hS, hF⟩ := h
  obtain ⟨f, rest, hsc, _, hbr, _⟩ := inner_frame hS hF
  refine ⟨f, rest, hsc, fun pc hpc => ?_⟩
  rw [hbr] at hpc
  obtain ⟨k, hk, h1, h2⟩ := hS.breaks_range hpc
  exact ⟨k, hk, by simpa using h1, h2⟩

theorem getElem?_last_append {α : Type} (l : List α) (a : α) :
    (l ++ [a])[(l ++ [a]).length - 1]? = some a := by
  simp

theorem getLast?_append_concat {α : Type} (x l : List α) (a : α) :
    (x ++ (l ++ [a])).getLast? = some a := by
  rw [← List.append_assoc, List.getLast?_append]
  simp

/-- The body part of `cgWhileStat`, from the state `sp` in which the scope
of the body is entered: `F` is the PC of the false-jump, the last
instruction of `sp`. -/
theorem while_core {E : Collaborators} (st sp s3 : CgState) (line bl offB e F off : Int)
    (hq : Quiet st.fi.scopes.length st sp)
    (hF : sp.fi.insts[sp.fi.insts.length - 1]? = some (.jmp line 0 0))
    (hpos : 0 < sp.fi.insts.length) (hFv : F = (sp.fi.insts.length : Int) - 1)
    (hB : Lowered (sp.enterScope true) s3) :
    ∃ nB : List Event,
      ((((s3.closeOpenUpvals E bl).emit (.jmp bl 0 offB)).1.exitScope e).fixSbx F off).trace
        = sp.trace ++ (nB ++ [⟨(s3.closeOpenUpvals E bl).fi,
            .emit (.jmp bl 0 offB)⟩]) ∧
      ownEmits st.fi.scopes.length nB = [] ∧
      (s3.closeOpenUpvals E bl).fi.scopes.length = st.fi.scopes.length + 1 ∧
      sp.fi.insts.length ≤ (s3.closeOpenUpvals E bl).fi.insts.length ∧
      ((((s3.closeOpenUpvals E bl).emit (.jmp bl 0 offB)).1.exitScope e).fixSbx F off).fi.insts.length
        = (s3.closeOpenUpvals E bl).fi.insts.length + 1 ∧
      ((((s3.closeOpenUpvals E bl).emit (.jmp bl 0 offB)).1.exitScope e).fixSbx F off).fi.insts[
            (s3.closeOpenUpvals E bl).fi.insts.length]?
        = some (.jmp bl 0 offB) ∧
      ((((s3.closeOpenUpvals E bl).emit (.jmp bl 0 offB)).1.exitScope e).fixSbx F off).fi.insts[
            sp.fi.insts.length - 1]?
        = some (.jmp line 0 off) := by
  have hsc := hq.scopes
  have hd3 : s3.fi.scopes.length = st.fi.scopes.length + 1 := by
    have := LoweredAt.depth hB
    simpa [hsc] using this
  have qC := Quiet.closeOpenUpvals E s3 bl (d := st.fi.scopes.length + 1) (by omega)
  have l1 := (LoweredAt.refl st.fi.scopes.length (sp.enterScope true)).body
    (by simp only [CgState.enterScope_scopes, List.length_cons, hsc]; omega) hB
  have l2 := l1.quiet (Quiet.closeOpenUpvals E s3 bl (by omega)) (by simp)
  obtain ⟨f, rest, hsc4, hbr⟩ := inner_breaks l2
  obtain ⟨nB, _, sB, _⟩ := hB
  obtain ⟨nC, sC, _, _⟩ := qC
  simp only [CgState.enterScope_scopes, List.length_cons, hsc] at sB
  have sBC := sB.strans sC
  have hlen : sp.fi.insts.length ≤ (s3.closeOpenUpvals E bl).fi.insts.length := by
    obtain ⟨ext, hx⟩ := sBC.insts
    have := grow_length hx
    simpa using this
  have hF4 : ((s3.closeOpenUpvals E bl).fi.insts[sp.fi.insts.length - 1]?).map Instruction.erase
      = some (.jmp line 0 0) := by
    obtain ⟨ext, hx⟩ := sBC.insts
    exact grow_getElem?_some hx (by simp [hF, Instruction.erase, Instruction.setSBx])
  have hd5 : (s3.closeOpenUpvals E bl).fi.scopes.length = st.fi.scopes.length + 1 := by
    simp [hd3]
  have tBC := sBC.trace
  simp only [CgState.enterScope_trace] at tBC
  have oBC := sBC.ownEmits_below (Nat.lt_succ_self _)
  clear sB sC l1 l2 sBC
  generalize s3.closeOpenUpvals E bl = s4 at *
  refine ⟨nB ++ nC, ?_, oBC, hd5, hlen, ?_, ?_, ?_⟩
  · simp [tBC]
  · simp
  · have hne : ¬ (F = (s4.fi.insts.length : Int)) := by omega
    simp only [CgState.fixSbx, CgState.onFi_fi, FuncInfo.fixSbx_getElem?, if_neg hne]
    rw [exitScope_outside (l := sp.fi.insts.length) (u := s4.fi.insts.length)
      (by simpa using hsc4) hbr _ _ (Or.inr (le_refl _))]
    simp [CgState.emit, FuncInfo.emit]
  · have he : (F = ((sp.fi.insts.length - 1 : Nat) : Int)) := by
      omega
    simp only [CgState.fixSbx, CgState.onFi_fi, FuncInfo.fixSbx_getElem?, if_pos he]
    rw [exitScope_outside (l := sp.fi.insts.length) (u := s4.fi.insts.length)
      (by simpa using hsc4) hbr _ _ (Or.inl (by omega))]
    cases hi : s4.fi.insts[sp.fi.insts.length - 1]? with
    | none => rw [hi] at hF4; simp at hF4
    | some i =>
      rw [hi] at hF4
      simp only [Option.map_some', Option.some.injEq] at hF4
      have h4 : (s4.emit (.jmp bl 0 offB)).1.fi.insts[
          sp.fi.insts.length - 1]? = some i := by
        simp only [CgState.emit, FuncInfo.emit]
        rw [List.getElem?_append_left (by omega)]
        exact hi
      rw [h4]
      simp [Instruction.setSBx_of_erase_jmp hF4]

/-- Claim C11: when `cgStat` returns on a while statement, the lowering of
the condition starts in the entry state, so the first instruction emitted
for the condition has the PC `st.fi.insts.length`; at the depth of entry the
routine emits the test at some PC `p` and the false-jump at `p + 1`; the
last event of the call is the emission of the back-jump, at PC `J`, the last
instruction of the final buffer.  In the final buffer the back-jump has an
offset `offB` with `J + 1 + offB` the PC of the first instruction of the
condition, and the false-jump has an offset `offF` with
`(p + 1) + 1 + offF = J + 1`, the PC right after the back-jump. -/
theorem while_jump_targets (E : Collaborators) (hE : E.Lawful) (st st' : CgState)
    (cond : Expression) (block : Block)
    (h : cgStat E st (.WhileStatement cond block) = .done st') :
    ∃ (p : Nat) (a : Int) (fiJ : FuncInfo) (offB offF : Int),
      (st'.trace.drop st.trace.length).head? = some ⟨st.fi, .expToOpArg cond E.ARG_REG⟩ ∧
      ownEmits st.fi.scopes.length (st'.trace.drop st.trace.length)
        = [(p, .test (E.lastLineOf cond) a 0), (p + 1, .jmp (E.lastLineOf cond) 0 0)] ∧
      (st'.trace.drop st.trace.length).getLast?
        = some ⟨fiJ, .emit (.jmp block.LastLine 0 offB)⟩ ∧
      st'.fi.insts.length = fiJ.insts.length + 1 ∧
      st'.fi.insts[fiJ.insts.length]? = some (.jmp block.LastLine 0 offB) ∧
      (fiJ.insts.length : Int) + 1 + offB = st.fi.insts.length ∧
      st'.fi.insts[p + 1]? = some (.jmp (E.lastLineOf cond) 0 offF) ∧
      ((p + 1 : Nat) : Int) + 1 + offF = (fiJ.insts.length : Int) + 1 := by
  simp only [cgStat, cgWhileStat] at h
  obtain ⟨s3, hr, h2⟩ := Outcome.andThen_done h
  clear h
  simp only [Outcome.done.injEq, CgState.emitJmp, CgState.emitTest, CgState.emit_snd,
    CgState.st_exitScope_pc, CgState.emit_pc] at h2 hr
  subst h2
  have q3 := quiet_condTest hE st cond E.ARG_REG st.fi.usedRegs (E.lastLineOf cond)
    (st.expToOpArg E cond E.ARG_REG).2 0 (le_refl _)
  have q4 := q3.qtrans (Quiet.emit _ (.jmp (E.lastLineOf cond) 0 0)
    (q3.depth_le (le_refl _)) (by simp [Instruction.isLoopOp]))
  have hds : ((st.expToOpArg E cond E.ARG_REG).1.setUsedRegs st.fi.usedRegs).fi.scopes.length
      = st.fi.scopes.length := by
    simp [hE.expToOpArg_scopes]
  have tT : ((st.expToOpArg E cond E.ARG_REG).1.setUsedRegs st.fi.usedRegs).trace
      = st.trace ++ [⟨st.fi, .expToOpArg cond E.ARG_REG⟩] := by simp
  have hB := cgBlock_lowered hE block _ _ hr
  clear q3 hr
  revert q4 hds tT hB
  generalize ((st.expToOpArg E cond E.ARG_REG).1.setUsedRegs st.fi.usedRegs) = sT
  generalize (st.expToOpArg E cond E.ARG_REG).2 = a
  intro q4 hds tT hB
  obtain ⟨nB, ht, ho, hd5, hlen, hl, hJ, hFj⟩ := while_core (E := E) st
    ((sT.emit (.test (E.lastLineOf cond) a 0)).1.emit (.jmp (E.lastLineOf cond) 0 0)).1 s3
    (E.lastLineOf cond) block.LastLine
    (st.fi.pc - (s3.closeOpenUpvals E block.LastLine).fi.pc - 1)
    ((s3.closeOpenUpvals E block.LastLine).fi.pc + 1)
    ((sT.emit (.test (E.lastLineOf cond) a 0)).1.fi.insts.length)
    ((s3.closeOpenUpvals E block.LastLine).fi.pc + 1
      - ((sT.emit (.test (E.lastLineOf cond) a 0)).1.fi.insts.length : Int))
    q4 (by rw [CgState.emit_insts]; exact getElem?_last_append _ _) (by simp)
    (by simp; omega) hB
  have hdrop : ∀ x, (st.trace ++ x).drop st.trace.length = x := fun x => List.drop_left _ _
  simp only [CgState.emit_trace, tT, List.append_assoc] at ht
  refine ⟨sT.fi.insts.length, a, (s3.closeOpenUpvals E block.LastLine).fi,
    st.fi.pc - (s3.closeOpenUpvals E block.LastLine).fi.pc - 1,
    (s3.closeOpenUpvals E block.LastLine).fi.pc + 1
      - ((sT.emit (.test (E.lastLineOf cond) a 0)).1.fi.insts.length : Int),
    ?_, ?_, ?_, hl, hJ, ?_, ?_, ?_⟩
  · rw [ht, hdrop]
    rfl
  · rw [ht, hdrop]
    simp only [ownEmits_append, ho]
    have hd3 : s3.fi.scopes.length = st.fi.scopes.length + 1 := by simpa using hd5
    simp [ownEmits, Event.ownEmit, hds, hd3]
  · rw [ht, hdrop]
    exact getLast?_append_concat [_, _, _] nB _
  · simp only [FuncInfo.pc]
    omega
  · simpa using hFj
  · simp only [FuncInfo.pc, CgState.emit_insts, List.length_append, List.length_singleton]
    push_cast
    omega

/-- C11 at `while e do local a = e1; break end` from the initial state: the
test is at PC 1, the false-jump at PC 2 has offset 3, and the back-jump at
PC 5 has offset -6. -/
theorem while_jump_targets_witness :
    (cgStat sampleEmitter initialState sampleWhile).state.fi.insts =
      [.other 5 0 0 0, .test 0 0 0, .jmp 0 0 3, .other 1 0 1 0, .jmp 2 0 1, .jmp 3 0 (-6)] ∧
    ∃ (p : Nat) (a : Int) (fiJ : FuncInfo) (offB offF : Int),
      ((cgStat sampleEmitter initialState sampleWhile).state.trace.drop
          initialState.trace.length).head?
        = some ⟨initialState.fi, .expToOpArg (.OtherExpression 0) sampleEmitter.ARG_REG⟩ ∧
      ownEmits initialState.fi.scopes.length
          ((cgStat sampleEmitter initialState sampleWhile).state.trace.drop
            initialState.trace.length)
        = [(p, .test (sampleEmitter.lastLineOf (.OtherExpression 0)) a 0),
           (p + 1, .jmp (sampleEmitter.lastLineOf (.OtherExpression 0)) 0 0)] ∧
      ((cgStat sampleEmitter initialState sampleWhile).state.trace.drop
          initialState.trace.length).getLast?
        = some ⟨fiJ, .emit (.jmp 3 0 offB)⟩ ∧
      (cgStat sampleEmitter initialState sampleWhile).state.fi.insts.length
        = fiJ.insts.length + 1 ∧
      (cgStat sampleEmitter initialState sampleWhile).state.fi.insts[fiJ.insts.length]?
        = some (.jmp 3 0 offB) ∧
      (fiJ.insts.length : Int) + 1 + offB = initialState.fi.insts.length ∧
      (cgStat sampleEmitter initialState sampleWhile).state.fi.insts[p + 1]?
        = some (.jmp (sampleEmitter.lastLineOf (.OtherExpression 0)) 0 offF) ∧
      ((p + 1 : Nat) : Int) + 1 + offF = (fiJ.insts.length : Int) + 1 :=
  ⟨by decide,
   while_jump_targets sampleEmitter sampleEmitter_lawful initialState
    (cgStat sampleEmitter initialState sampleWhile).state (.OtherExpression 0)
    (.mk [.LocalVariableDeclareStatement 1 ["a"] [.OtherExpression 1], .BreakStatement 2] 3)
    rfl⟩

/-! ### Generic for: the initial jump, the iterate and the loop-back instruction -/

theorem exitScope_not_break {sx : CgState} {f : Scope} {rest : List Scope}
    (hsc : sx.fi.scopes = f :: rest) (e : Int) (k : Nat) (hk : (k : Int) ∉ f.breaks) :
    (sx.exitScope e).fi.insts[k]? = sx.fi.insts[k]? := by
  simp only [CgState.exitScope, CgState.onFi_fi]
  rw [FuncInfo.exitScope_getElem? sx.fi e f rest hsc k, if_neg]
  rintro ⟨_, hm⟩
  exact hk hm

/-- The tail of `cgForInStat`, from the state `S3` in which the initial
jump is emitted, up to `exitScope`: `J`, the PC of the initial jump, is the
length of the buffer of `S3`, and `T`, the PC of the iterate instruction,
the length of the buffer after the body and the closing of its upvalues. -/
theorem forIn_core {E : Collaborators} (st S3 s4 s5 s6 s7 s8 sx : CgState)
    (lineOfDo line bl e n r off : Int)
    (hA : LoweredAt (st.fi.scopes.length + 1) (st.enterScope true) S3)
    (hB : Lowered (S3.emit (.jmp lineOfDo 0 0)).1 s4)
    (h5 : s5 = s4.closeOpenUpvals E bl)
    (h6 : s6 = s5.fixSbx (S3.fi.insts.length : Int) (s5.fi.pc - (S3.fi.insts.length : Int)))
    (h7 : s7 = (s6.emit (.tForCall line r n)).1)
    (h8 : s8 = (s7.emit (.tForLoop line (r + 2) off)).1)
    (hx : sx = s8.exitScope e) :
    ∃ nA nB : List Event,
      S3.trace = st.trace ++ nA ∧
      sx.trace = st.trace ++ (nA ++ ([⟨S3.fi, .emit (.jmp lineOfDo 0 0)⟩] ++
        (nB ++ [⟨s6.fi, .emit (.tForCall line r n)⟩,
                ⟨s7.fi, .emit (.tForLoop line (r + 2) off)⟩]))) ∧
      nA.filter (Event.ownLoopOp (st.fi.scopes.length + 1)) = [] ∧
      nB.filter (Event.ownLoopOp (st.fi.scopes.length + 1)) = [] ∧
      S3.fi.scopes.length = st.fi.scopes.length + 1 ∧
      s6.fi.scopes.length = st.fi.scopes.length + 1 ∧
      s7.fi.scopes.length = st.fi.scopes.length + 1 ∧
      S3.fi.insts.length < s5.fi.insts.length ∧
      s6.fi.insts.length = s5.fi.insts.length ∧
      s7.fi.insts.length = s5.fi.insts.length + 1 ∧
      sx.fi.insts.length = s5.fi.insts.length + 2 ∧
      sx.fi.insts[S3.fi.insts.length]?
        = some (.jmp lineOfDo 0 (s5.fi.pc - (S3.fi.insts.length : Int))) ∧
      sx.fi.insts[s5.fi.insts.length]? = some (.tForCall line r n) ∧
      sx.fi.insts[s5.fi.insts.length + 1]? = some (.tForLoop line (r + 2) off) := by
  have hd3 : S3.fi.scopes.length = st.fi.scopes.length + 1 := by
    have := hA.depth
    simpa using this
  have hd4 : s4.fi.scopes.length = st.fi.scopes.length + 1 := by
    have := LoweredAt.depth hB
    simpa [hd3] using this
  have qC := Quiet.closeOpenUpvals E s4 bl (d := st.fi.scopes.length + 1) (by omega)
  rw [← h5] at qC
  have hd5 : s5.fi.scopes.length = st.fi.scopes.length + 1 := by rw [qC.scopes, hd4]
  have l3 := (hA.weaken (Nat.le_succ _)).quiet
    (Quiet.emit S3 (.jmp lineOfDo 0 0) (by omega) (by simp [Instruction.isLoopOp])) (by simp)
  have l4 := l3.body (by simp only [CgState.emit_scopes]; omega) hB
  have l5 := l4.quiet (Quiet.closeOpenUpvals E s4 bl (by omega)) (by simp)
  rw [← h5] at l5
  obtain ⟨nA, _, sA, _⟩ := hA
  obtain ⟨nB, _, sB, _⟩ := hB
  obtain ⟨nC, sC, _, _⟩ := qC
  simp only [CgState.emit_scopes, hd3] at sB
  have sBC := sB.strans sC
  have sJ : Step (st.fi.scopes.length + 1) [⟨S3.fi, .emit (.jmp lineOfDo 0 0)⟩] S3
      (S3.emit (.jmp lineOfDo 0 0)).1 :=
    Step.semit S3 _ (by omega) (by simp [Instruction.isLoopOp])
  have sAll := (sA.strans sJ).strans sBC
  obtain ⟨n5, a5, s5S, f5⟩ := l5
  have hn5 : n5 = nA ++ [⟨S3.fi, .emit (.jmp lineOfDo 0 0)⟩] ++ (nB ++ nC) := by
    have h1 := s5S.trace
    rw [sAll.trace] at h1
    exact (List.append_cancel_left h1).symm
  subst hn5
  obtain ⟨f, rest, hsc5, _, hbr, _⟩ := inner_frame s5S f5
  have hlen : S3.fi.insts.length < s5.fi.insts.length := by
    obtain ⟨ext, hx⟩ := sBC.insts
    have := grow_length hx
    simp at this
    omega
  have hJ5 : (s5.fi.insts[S3.fi.insts.length]?).map Instruction.erase
      = some (.jmp lineOfDo 0 0) := by
    obtain ⟨ext, hx⟩ := sBC.insts
    exact grow_getElem?_some hx (by simp [CgState.emit, FuncInfo.emit, Instruction.erase,
      Instruction.setSBx])
  have hnb : ∀ k : Nat, k = S3.fi.insts.length ∨ s5.fi.insts.length ≤ k →
      (k : Int) ∉ f.breaks := by
    intro k hk hm
    rw [hbr, evBreaks_append, evBreaks_append] at hm
    rcases List.mem_append.1 hm with hm | hm
    · rcases List.mem_append.1 hm with hm | hm
      · obtain ⟨k2, h1, h2, h3⟩ := sA.breaks_range hm
        omega
      · simp [evBreaks, Event.breakAt] at hm
    · obtain ⟨k2, h1, h2, h3⟩ := sBC.breaks_range hm
      simp at h2
      omega
  have hBC : nB.filter (Event.ownLoopOp (st.fi.scopes.length + 1)) = [] ∧
      nC.filter (Event.ownLoopOp (st.fi.scopes.length + 1)) = [] := by
    simpa [List.filter_append] using sBC.noOwnLoopOp
  have hsc8 : s8.fi.scopes = f :: rest := by
    rw [h8, h7, h6]
    simpa using hsc5
  have tBC := sBC.trace
  have tA := sA.trace
  simp only [CgState.emit_trace, CgState.enterScope_trace] at tBC tA
  refine ⟨nA, nB ++ nC, tA, ?_, sA.noOwnLoopOp, by simp [List.filter_append, hBC.1, hBC.2], hd3, ?_,
    ?_, hlen, ?_, ?_, ?_, ?_, ?_, ?_⟩
  · rw [hx, h8, h7, h6]
    simp [tBC, tA]
  · rw [h6]
    simpa using hd5
  · rw [h7, h6]
    simpa using hd5
  · rw [h6]
    simp
  · rw [h7, h6]
    simp
  · rw [hx, h8, h7, h6]
    simp
  · rw [hx, exitScope_not_break hsc8 e _ (hnb _ (Or.inl rfl)), h8, h7, h6]
    cases hi : s5.fi.insts[S3.fi.insts.length]? with
    | none => rw [hi] at hJ5; simp at hJ5
    | some i =>
      rw [hi] at hJ5
      simp only [Option.map_some', Option.some.injEq] at hJ5
      simp only [CgState.emit_insts, List.append_assoc]
      rw [List.getElem?_append_left (by simpa using hlen)]
      simp only [CgState.fixSbx, CgState.onFi_fi, FuncInfo.fixSbx_getElem?, if_true, hi,
        Option.map_some', Instruction.setSBx_of_erase_jmp hJ5]
  · rw [hx, exitScope_not_break hsc8 e _ (hnb _ (Or.inr (le_refl _))), h8, h7, h6]
    simp only [CgState.emit_insts, List.append_assoc, List.singleton_append]
    rw [List.getElem?_append_right (by simp)]
    simp
  · rw [hx, exitScope_not_break hsc8 e _ (hnb _ (Or.inr (Nat.le_succ _))), h8, h7, h6]
    simp only [CgState.emit_insts, List.append_assoc, List.singleton_append]
    rw [List.getElem?_append_right (by simp)]
    simp

@[simp] theorem addLoopVariables_trace :
    ∀ (names : List String) (st : CgState), (addLoopVariables st names).trace = st.trace
  | [], _ => rfl
  | name :: rest, st => by simp [addLoopVariables, addLoopVariables_trace rest]

/-- What `cgForInStat` does on a non-empty expression list, when it
returns: the events of the declaration of the hidden locals, the initial
jump, the events of the body, the iterate and the loop-back instruction;
and where these three instructions are in the final buffer. -/
theorem cgForInStat_anatomy {E : Collaborators} (hE : E.Lawful) (st st' : CgState)
    (lineOfDo : Int) (nameList : List String) (exp0 : Expression) (exps : List Expression)
    (block : LoweredBlock) (hb : block.Ok)
    (h : cgForInStat E st lineOfDo nameList (exp0 :: exps) block = .done st') :
    ∃ (nA nB : List Event) (s4 : CgState) (fiT fiL : FuncInfo) (r : Int),
      block.run ((addLoopVariables (cgLocalVarDeclStat E (st.enterScope true) 0
        ["(for generator)", "(for state)", "(for control)"] (exp0 :: exps)) nameList).emit
          (.jmp lineOfDo 0 0)).1 = .done s4 ∧
      fiT.scopes = s4.fi.scopes ∧ fiT.localVars = s4.fi.localVars ∧
      r = fiT.slotOfLocalVariable "(for generator)" ∧
      (cgLocalVarDeclStat E (st.enterScope true) 0
        ["(for generator)", "(for state)", "(for control)"] (exp0 :: exps)).trace
          = st.trace ++ nA ∧
      st'.trace = st.trace ++ (nA ++ ([⟨(addLoopVariables (cgLocalVarDeclStat E
          (st.enterScope true) 0 ["(for generator)", "(for state)", "(for control)"]
          (exp0 :: exps)) nameList).fi, .emit (.jmp lineOfDo 0 0)⟩] ++
        (nB ++ [⟨fiT, .emit (.tForCall (E.lineOf exp0) r nameList.length)⟩,
                ⟨fiL, .emit (.tForLoop (E.lineOf exp0) (r + 2)
                  (((addLoopVariables (cgLocalVarDeclStat E (st.enterScope true) 0
                    ["(for generator)", "(for state)", "(for control)"] (exp0 :: exps))
                    nameList).fi.insts.length : Int) - fiT.insts.length - 1))⟩]))) ∧
      nA.filter (Event.ownLoopOp (st.fi.scopes.length + 1)) = [] ∧
      nB.filter (Event.ownLoopOp (st.fi.scopes.length + 1)) = [] ∧
      fiT.scopes.length = st.fi.scopes.length + 1 ∧
      fiL.scopes.length = st.fi.scopes.length + 1 ∧
      (addLoopVariables (cgLocalVarDeclStat E (st.enterScope true) 0
        ["(for generator)", "(for state)", "(for control)"] (exp0 :: exps))
        nameList).fi.insts.length < fiT.insts.length ∧
      fiL.insts.length = fiT.insts.length + 1 ∧
      st'.fi.insts.length = fiT.insts.length + 2 ∧
      st'.fi.insts[(addLoopVariables (cgLocalVarDeclStat E (st.enterScope true) 0
        ["(for generator)", "(for state)", "(for control)"] (exp0 :: exps))
        nameList).fi.insts.length]?
        = some (.jmp lineOfDo 0 ((fiT.insts.length : Int) - 1
            - (addLoopVariables (cgLocalVarDeclStat E (st.enterScope true) 0
              ["(for generator)", "(for state)", "(for control)"] (exp0 :: exps))
              nameList).fi.insts.length)) ∧
      st'.fi.insts[fiT.insts.length]?
        = some (.tForCall (E.lineOf exp0) r nameList.length) ∧
      st'.fi.insts[fiT.insts.length + 1]?
        = some (.tForLoop (E.lineOf exp0) (r + 2)
            (((addLoopVariables (cgLocalVarDeclStat E (st.enterScope true) 0
              ["(for generator)", "(for state)", "(for control)"] (exp0 :: exps))
              nameList).fi.insts.length : Int) - fiT.insts.length - 1)) := by
  unfold cgForInStat at h
  obtain ⟨s4, hr, h2⟩ := Outcome.andThen_done h
  clear h
  simp only [Outcome.done.injEq] at h2
  have hA : LoweredAt (st.fi.scopes.length + 1) (st.enterScope true)
      (addLoopVariables (cgLocalVarDeclStat E (st.enterScope true) 0
        ["(for generator)", "(for state)", "(for control)"] (exp0 :: exps)) nameList) :=
    (cgLocalVarDeclStat_loweredAt hE (st.enterScope true) 0
      ["(for generator)", "(for state)", "(for control)"] (exp0 :: exps) (by simp)).trans
      (addLoopVariables_loweredAt _ nameList _)
  have hdecl : ∃ nD, (cgLocalVarDeclStat E (st.enterScope true) 0
      ["(for generator)", "(for state)", "(for control)"] (exp0 :: exps)).trace
        = st.trace ++ nD ∧ (addLoopVariables (cgLocalVarDeclStat E (st.enterScope true) 0
        ["(for generator)", "(for state)", "(for control)"] (exp0 :: exps)) nameList).trace
        = st.trace ++ nD := by
    obtain ⟨nD, _, sD, _⟩ := hA
    have := sD.trace
    simp only [addLoopVariables_trace, CgState.enterScope_trace] at this
    exact ⟨nD, this, by simpa using this⟩
  obtain ⟨nD, hD1, hD2⟩ := hdecl
  rw [hD1]
  simp only [CgState.emitJmp, CgState.emitTForCall, CgState.emitTForLoop, CgState.emit_snd]
    at hr h2
  revert hr hA h2 hD2
  generalize addLoopVariables (cgLocalVarDeclStat E (st.enterScope true) 0
        ["(for generator)", "(for state)", "(for control)"] (exp0 :: exps)) nameList = S3
  intro hr h2 hA hD2
  obtain ⟨s5, h5⟩ : ∃ s5, s5 = s4.closeOpenUpvals E block.LastLine := ⟨_, rfl⟩
  obtain ⟨s6, h6⟩ : ∃ s6, s6 = s5.fixSbx (S3.fi.insts.length : Int)
    (s5.fi.pc - (S3.fi.insts.length : Int)) := ⟨_, rfl⟩
  obtain ⟨r, hrr⟩ : ∃ r, r = s6.fi.slotOfLocalVariable "(for generator)" := ⟨_, rfl⟩
  obtain ⟨s7, h7⟩ : ∃ s7, s7 = (s6.emit (.tForCall (E.lineOf exp0) r nameList.length)).1 :=
    ⟨_, rfl⟩
  obtain ⟨off, hoff⟩ : ∃ off, off = (S3.fi.insts.length : Int) - s7.fi.pc - 1 := ⟨_, rfl⟩
  obtain ⟨s8, h8⟩ : ∃ s8, s8 = (s7.emit (.tForLoop (E.lineOf exp0) (r + 2) off)).1 := ⟨_, rfl⟩
  obtain ⟨sx, hx⟩ : ∃ sx, sx = s8.exitScope (s8.fi.pc - 1) := ⟨_, rfl⟩
  have hst : st' = ((sx.fixEndPC "(for generator)" 2).fixEndPC "(for state)" 2).fixEndPC
      "(for control)" 2 := by
    rw [← h2, hx, h8, hoff, h7, hrr, h6, h5]
  obtain ⟨nA, nB, htA, ht, hoA, hoB, hd3, hd6, hd7, hlen, hl6, hl7, hlx, hJ, hT, hL⟩ :=
    forIn_core (E := E) st S3 s4 s5 s6 s7 s8 sx lineOfDo (E.lineOf exp0) block.LastLine _
      nameList.length r off hA (hb _ _ hr) h5 h6 h7 h8 hx
  have hpc5 : s5.fi.pc = (s6.fi.insts.length : Int) - 1 := by
    rw [hl6]
    rfl
  have hpc7 : s7.fi.pc = (s6.fi.insts.length : Int) := by
    simp only [FuncInfo.pc, hl7, hl6]
    push_cast
    omega
  have hnA : nA = nD := by
    rw [hD2] at htA
    exact (List.append_cancel_left htA).symm
  subst hnA
  refine ⟨nA, nB, s4, s6.fi, s7.fi, r, hr, ?_, ?_, hrr, rfl, ?_, hoA, hoB, hd6, hd7, ?_, ?_, ?_,
    ?_, ?_, ?_⟩
  · rw [h6, h5]
    simp
  · rw [h6, h5]
    simp
  · rw [hst]
    simp only [CgState.fixEndPC_trace, ht, hoff, hpc7]
  · rw [hl6]
    exact hlen
  · rw [hl7, hl6]
  · rw [hst]
    simp only [CgState.st_fixEndPC_insts, hlx, hl6]
  · rw [hst]
    simp only [CgState.st_fixEndPC_insts, hJ, hpc5]
  · rw [hst]
    simp only [CgState.st_fixEndPC_insts, hl6, hT]
  · rw [hst]
    simp only [CgState.st_fixEndPC_insts, hl6, hL, hoff, hpc7]

/-- Claim C12: when `cgStat` returns on a generic for statement with a
non-empty expression list, the events of the call are: those of the
declaration of the three hidden locals (the lowering of the iterator
expressions), then the emission of the initial jump at PC `J`, then the
events of the body, which emit no loop instruction at the depth of the
loop's scope, then the emission of the iterate instruction at PC `T` and of
the loop-back instruction.  In the final buffer the instruction at `J` is
the initial jump with an offset `off` such that `J + 1 + off = T`, and the
instruction at `T` is the iterate instruction. -/
theorem for_in_initial_jump (E : Collaborators) (hE : E.Lawful) (st st' : CgState)
    (lineOfDo : Int) (nameList : List String) (exp0 : Expression) (exps : List Expression)
    (block : Block)
    (h : cgStat E st (.ForInStatement lineOfDo nameList (exp0 :: exps) block) = .done st') :
    ∃ (nA nB : List Event) (fiJ fiT fiL : FuncInfo) (r off offL : Int),
      (cgLocalVarDeclStat E (st.enterScope true) 0
        ["(for generator)", "(for state)", "(for control)"] (exp0 :: exps)).trace
          = st.trace ++ nA ∧
      st'.trace = st.trace ++ (nA ++ ([⟨fiJ, .emit (.jmp lineOfDo 0 0)⟩] ++
        (nB ++ [⟨fiT, .emit (.tForCall (E.lineOf exp0) r nameList.length)⟩,
                ⟨fiL, .emit (.tForLoop (E.lineOf exp0) (r + 2) offL)⟩]))) ∧
      (nA ++ nB).filter (Event.ownLoopOp (st.fi.scopes.length + 1)) = [] ∧
      fiT.scopes.length = st.fi.scopes.length + 1 ∧
      st'.fi.insts[fiJ.insts.length]? = some (.jmp lineOfDo 0 off) ∧
      st'.fi.insts[fiT.insts.length]?
        = some (.tForCall (E.lineOf exp0) r nameList.length) ∧
      (fiJ.insts.length : Int) + 1 + off = fiT.insts.length := by
  simp only [cgStat] at h
  obtain ⟨nA, nB, s4, fiT, fiL, r, _, _, _, _, hD, ht, hoA, hoB, hdT, _, _, _, _, hJ, hT, _⟩ :=
    cgForInStat_anatomy hE st st' lineOfDo nameList exp0 exps
      ⟨block.LastLine, fun s => cgBlock E s block⟩
      (fun s s2 hs => cgBlock_lowered hE block s s2 hs) h
  exact ⟨nA, nB, _, fiT, fiL, r, _, _, hD, ht, by rw [List.filter_append, hoA, hoB]; rfl, hdT,
    hJ, hT, by omega⟩


/-- C12 at `for k, v in e1, e2, e3 do f() end` from the initial state: the
initial jump at PC 3 has offset 1, and the iterate instruction is at PC 5. -/
theorem for_in_initial_jump_witness :
    (cgStat sampleEmitter initialState sampleForIn).state.fi.insts
      = [.other 1 0 1 0, .other 1 1 1 0, .other 1 2 1 0, .jmp 1 0 1, .other 2 5 0 0,
         .tForCall 0 0 2, .tForLoop 0 2 (-3)] ∧
    ∃ (nA nB : List Event) (fiJ fiT fiL : FuncInfo) (r off offL : Int),
      (cgLocalVarDeclStat sampleEmitter (initialState.enterScope true) 0
        ["(for generator)", "(for state)", "(for control)"]
        [.OtherExpression 1, .OtherExpression 2, .OtherExpression 3]).trace
          = initialState.trace ++ nA ∧
      (cgStat sampleEmitter initialState sampleForIn).state.trace
        = initialState.trace ++ (nA ++ ([⟨fiJ, .emit (.jmp 1 0 0)⟩] ++
        (nB ++ [⟨fiT, .emit (.tForCall (sampleEmitter.lineOf (.OtherExpression 1)) r
                  (["k", "v"] : List String).length)⟩,
                ⟨fiL, .emit (.tForLoop (sampleEmitter.lineOf (.OtherExpression 1)) (r + 2)
                  offL)⟩]))) ∧
      (nA ++ nB).filter (Event.ownLoopOp (initialState.fi.scopes.length + 1)) = [] ∧
      fiT.scopes.length = initialState.fi.scopes.length + 1 ∧
      (cgStat sampleEmitter initialState sampleForIn).state.fi.insts[fiJ.insts.length]?
        = some (.jmp 1 0 off) ∧
      (cgStat sampleEmitter initialState sampleForIn).state.fi.insts[fiT.insts.length]?
        = some (.tForCall (sampleEmitter.lineOf (.OtherExpression 1)) r
            (["k", "v"] : List String).length) ∧
      (fiJ.insts.length : Int) + 1 + off = fiT.insts.length :=
  ⟨by decide,
   for_in_initial_jump sampleEmitter sampleEmitter_lawful initialState
    (cgStat sampleEmitter initialState sampleForIn).state 1 ["k", "v"] (.OtherExpression 1)
    [.OtherExpression 2, .OtherExpression 3] (.mk [.FunctionCallStatement 0] 2) rfl⟩

/-! ### Local declarations: the registers and the start-PC of the names -/

theorem loopActs_length (f : Nat → Expression → Int) :
    ∀ (exps : List Expression) (b : Int) (i : Nat), (loopActs f b i exps).length = exps.length
  | [], _, _ => rfl
  | _ :: rest, b, i => by simp [loopActs, loopActs_length f rest]

theorem loopActs_getElem? (f : Nat → Expression → Int) :
    ∀ (exps : List Expression) (b : Int) (i j : Nat),
      (loopActs f b i exps)[j]? = (exps[j]?).map (fun e => Action.cgExp e (b + j) (f (i + j) e))
  | [], _, _, _ => by simp [loopActs]
  | e :: rest, b, i, 0 => by simp [loopActs]
  | e :: rest, b, i, j + 1 => by
    simp only [loopActs, List.getElem?_cons_succ, loopActs_getElem? f rest (b + 1) (i + 1) j]
    cases rest[j]? with
    | none => rfl
    | some x =>
      simp only [Option.map_some', Option.some.injEq, Action.cgExp.injEq, true_and]
      constructor
      · push_cast
        omega
      · congr 1
        omega

theorem endsInCall_cons_cons (e e2 : Expression) (rest : List Expression) :
    endsInCall (e :: e2 :: rest) = endsInCall (e2 :: rest) := by
  simp [endsInCall, List.getLast?_cons_cons]

/-- The loop for as many expressions as names. -/
theorem cgExpsEqual_acts (E : Collaborators)
    (hReg : ∀ fi e a n, (E.cgExp fi e a n).usedRegs = fi.usedRegs) (f : Nat → Expression → Int)
    (hf : ∀ i e, f i e = 1) :
    ∀ (exps : List Expression) (st : CgState) (i : Nat),
      ∃ new, (cgExpsEqual E st exps).trace = st.trace ++ new ∧
        new.map (fun ev => ev.act) = loopActs f st.fi.usedRegs i exps ∧
        (cgExpsEqual E st exps).fi.usedRegs = st.fi.usedRegs + exps.length
  | [], st, i => ⟨[], by simp [cgExpsEqual], rfl, by simp [cgExpsEqual]⟩
  | e :: rest, st, i => by
    obtain ⟨new, h1, h2, h3⟩ := cgExpsEqual_acts E hReg f hf rest
      (st.allocReg.1.cgExp E e st.allocReg.2 1) (i + 1)
    have hu : (st.allocReg.1.cgExp E e st.allocReg.2 1).fi.usedRegs = st.fi.usedRegs + 1 := by
      simp [hReg]
    rw [cgExpsEqual]
    refine ⟨⟨st.allocReg.1.fi, .cgExp e st.allocReg.2 1⟩ :: new, ?_, ?_, ?_⟩
    · rw [h1]
      simp
    · rw [List.map_cons, h2, hu]
      simp [loopActs, hf]
    · rw [h3, hu]
      simp only [List.length_cons, Nat.cast_add, Nat.cast_one]
      omega

/-- The loop for more expressions than names. -/
theorem cgExpsMore_acts (E : Collaborators)
    (hReg : ∀ fi e a n, (E.cgExp fi e a n).usedRegs = fi.usedRegs) (N M : Nat) (hM : N < M) :
    ∀ (exps : List Expression) (st : CgState) (i : Nat), i + exps.length = M →
      ∃ new, (cgExpsMore E (M : Int) st i exps).trace = st.trace ++ new ∧
        new.map (fun ev => ev.act) = loopActs (wantedCount N M) st.fi.usedRegs i exps
  | [], st, i, _ => ⟨[], by simp [cgExpsMore], rfl⟩
  | e :: rest, st, i, hi => by
    simp only [List.length_cons] at hi
    rw [cgExpsMore]
    by_cases hc : (i : Int) = (M : Int) - 1 ∧ isVarargOrFuncCall e = true
    · have hw : wantedCount N M i e = 0 := by
        have h1 : i + 1 = M := by omega
        simp [wantedCount, h1, hc.2, hM]
      obtain ⟨new, h1, h2⟩ := cgExpsMore_acts E hReg N M hM rest
        (st.allocReg.1.cgExp E e st.allocReg.2 0) (i + 1) (by omega)
      have hu : (st.allocReg.1.cgExp E e st.allocReg.2 0).fi.usedRegs = st.fi.usedRegs + 1 := by
        simp [hReg]
      simp only [hc, and_self, if_true]
      refine ⟨⟨st.allocReg.1.fi, .cgExp e st.allocReg.2 0⟩ :: new, ?_, ?_⟩
      · rw [h1]
        simp
      · rw [List.map_cons, h2, hu]
        simp [loopActs, hw]
    · have hw : wantedCount N M i e = 1 := by
        have h1 : ¬ (i + 1 = M ∧ isVarargOrFuncCall e = true) := by
          rintro ⟨h1, h2⟩
          exact hc ⟨by omega, h2⟩
        simp only [wantedCount, h1, if_false]
      obtain ⟨new, h1, h2⟩ := cgExpsMore_acts E hReg N M hM rest
        (st.allocReg.1.cgExp E e st.allocReg.2 1) (i + 1) (by omega)
      have hu : (st.allocReg.1.cgExp E e st.allocReg.2 1).fi.usedRegs = st.fi.usedRegs + 1 := by
        simp [hReg]
      simp only [hc, if_false]
      refine ⟨⟨st.allocReg.1.fi, .cgExp e st.allocReg.2 1⟩ :: new, ?_, ?_⟩
      · rw [h1]
        simp
      · rw [List.map_cons, h2, hu]
        simp [loopActs, hw]

/-- The loop for fewer expressions than names: what it logs, whether the
last expression was expanded, and the register count when it was not. -/
theorem cgExpsFewer_acts (E : Collaborators)
    (hReg : ∀ fi e a n, (E.cgExp fi e a n).usedRegs = fi.usedRegs) (N M : Nat) (hM : M < N) :
    ∀ (exps : List Expression) (st : CgState) (m : Bool) (i : Nat), i + exps.length = M →
      ∃ new, (cgExpsFewer E (N : Int) (M : Int) st m i exps).1.trace = st.trace ++ new ∧
        new.map (fun ev => ev.act) = loopActs (wantedCount N M) st.fi.usedRegs i exps ∧
        (cgExpsFewer E (N : Int) (M : Int) st m i exps).2 = (m || endsInCall exps) ∧
        (endsInCall exps = false →
          (cgExpsFewer E (N : Int) (M : Int) st m i exps).1.fi.usedRegs
            = st.fi.usedRegs + exps.length)
  | [], st, m, i, _ => ⟨[], by simp [cgExpsFewer], rfl, by simp [cgExpsFewer, endsInCall],
      fun _ => by simp [cgExpsFewer]⟩
  | e :: rest, st, m, i, hi => by
    simp only [List.length_cons] at hi
    rw [cgExpsFewer]
    by_cases hc : (i : Int) = (M : Int) - 1 ∧ isVarargOrFuncCall e = true
    · have hr : rest = [] := by
        cases rest with
        | nil => rfl
        | cons e2 r2 =>
          simp only [List.length_cons] at hi
          omega
      subst hr
      have hw : wantedCount N M i e = (N : Int) - (M : Int) + 1 := by
        have h1 : i + 1 = M := by omega
        have h2 : ¬ M > N := by omega
        simp [wantedCount, h1, hc.2, hM, h2]
      simp only [hc, and_self, if_true, cgExpsFewer]
      refine ⟨[⟨st.allocReg.1.fi, .cgExp e st.allocReg.2 ((N : Int) - (M : Int) + 1)⟩], ?_, ?_,
        ?_, ?_⟩
      · simp
      · simp [loopActs, hw]
      · simp [endsInCall, hc.2]
      · intro hf
        simp [endsInCall, hc.2] at hf
    · have hw : wantedCount N M i e = 1 := by
        have h1 : ¬ (i + 1 = M ∧ isVarargOrFuncCall e = true) := by
          rintro ⟨h1, h2⟩
          exact hc ⟨by omega, h2⟩
        simp only [wantedCount, h1, if_false]
      obtain ⟨new, h1, h2, h3, h4⟩ := cgExpsFewer_acts E hReg N M hM rest
        (st.allocReg.1.cgExp E e st.allocReg.2 1) m (i + 1) (by omega)
      have hu : (st.allocReg.1.cgExp E e st.allocReg.2 1).fi.usedRegs = st.fi.usedRegs + 1 := by
        simp [hReg]
      have hec : endsInCall (e :: rest) = endsInCall rest := by
        cases rest with
        | nil =>
          have : isVarargOrFuncCall e = false := by
            cases hv : isVarargOrFuncCall e with
            | false => rfl
            | true =>
              simp only [List.length_nil] at hi
              exact absurd ⟨by omega, hv⟩ hc
          simp [endsInCall, this]
        | cons e2 r2 => exact endsInCall_cons_cons e e2 r2
      simp only [hc, if_false]
      refine ⟨⟨st.allocReg.1.fi, .cgExp e st.allocReg.2 1⟩ :: new, ?_, ?_, ?_, ?_⟩
      · rw [h1]
        simp
      · rw [List.map_cons, h2, hu]
        simp [loopActs, hw]
      · rw [h3, hec]
      · intro hf
        rw [hec] at hf
        rw [h4 hf, hu]
        simp only [List.length_cons, Nat.cast_add, Nat.cast_one]
        omega

/-- The loop of the assignment for at least as many expressions as
targets. -/
theorem cgAssignExps_acts (E : Collaborators)
    (hReg : ∀ fi e a n, (E.cgExp fi e a n).usedRegs = fi.usedRegs) (N M : Nat) (hM : N ≤ M) :
    ∀ (exps : List Expression) (st : CgState) (i : Nat), i + exps.length = M →
      ∃ new, (cgAssignExps E (N : Int) (M : Int) st i exps).trace = st.trace ++ new ∧
        new.map (fun ev => ev.act) = loopActs (wantedCount N M) st.fi.usedRegs i exps ∧
        (cgAssignExps E (N : Int) (M : Int) st i exps).fi.usedRegs
          = st.fi.usedRegs + exps.length
  | [], st, i, _ => ⟨[], by simp [cgAssignExps], rfl, by simp [cgAssignExps]⟩
  | e :: rest, st, i, hi => by
    simp only [List.length_cons] at hi
    rw [cgAssignExps]
    by_cases hc : (i : Int) ≥ (N : Int) ∧ (i : Int) = (M : Int) - 1 ∧ isVarargOrFuncCall e = true
    · have hw : wantedCount N M i e = 0 := by
        have h1 : i + 1 = M := by omega
        have h2 : M > N := by omega
        simp [wantedCount, h1, hc.2.2, h2]
      obtain ⟨new, h1, h2, h3⟩ := cgAssignExps_acts E hReg N M hM rest
        (st.allocReg.1.cgExp E e st.allocReg.2 0) (i + 1) (by omega)
      have hu : (st.allocReg.1.cgExp E e st.allocReg.2 0).fi.usedRegs = st.fi.usedRegs + 1 := by
        simp [hReg]
      rw [if_pos hc]
      refine ⟨⟨st.allocReg.1.fi, .cgExp e st.allocReg.2 0⟩ :: new, ?_, ?_, ?_⟩
      · rw [h1]
        simp
      · rw [List.map_cons, h2, hu]
        simp [loopActs, hw]
      · rw [h3, hu]
        simp only [List.length_cons, Nat.cast_add, Nat.cast_one]
        omega
    · have hw : wantedCount N M i e = 1 := by
        unfold wantedCount
        by_cases h1 : i + 1 = M ∧ isVarargOrFuncCall e = true
        · have h2 : ¬ M > N := by
            intro h2
            exact hc ⟨by omega, by omega, h1.2⟩
          have h3 : ¬ M < N := by omega
          simp only [h1, and_self, if_true, h2, h3, if_false]
        · simp only [h1, if_false]
      obtain ⟨new, h1, h2, h3⟩ := cgAssignExps_acts E hReg N M hM rest
        (st.allocReg.1.cgExp E e st.allocReg.2 1) (i + 1) (by omega)
      have hu : (st.allocReg.1.cgExp E e st.allocReg.2 1).fi.usedRegs = st.fi.usedRegs + 1 := by
        simp [hReg]
      rw [if_neg hc]
      refine ⟨⟨st.allocReg.1.fi, .cgExp e st.allocReg.2 1⟩ :: new, ?_, ?_, ?_⟩
      · rw [h1]
        simp
      · rw [List.map_cons, h2, hu]
        simp [loopActs, hw]
      · rw [h3, hu]
        simp only [List.length_cons, Nat.cast_add, Nat.cast_one]
        omega

/-- The branch for fewer expressions than names: the calls of the loop and,
when the list does not end in a call or vararg, one load-nil for the
rest. -/
theorem cgExpsFill_acts (E : Collaborators)
    (hReg : ∀ fi e a n, (E.cgExp fi e a n).usedRegs = fi.usedRegs) (N : Nat)
    (exps : List Expression) (hM : exps.length < N) (st : CgState) (lastLine : Int) :
    ∃ new, (cgExpsFill E st lastLine (N : Int) (exps.length : Int) exps).trace = st.trace ++ new ∧
      new.map (fun ev => ev.act) = valueActs st.fi.usedRegs N lastLine exps := by
  obtain ⟨new, h1, h2, h3, h4⟩ :=
    cgExpsFewer_acts E hReg N exps.length hM exps st false 0 (by simp)
  unfold cgExpsFill valueActs
  simp only [h3, Bool.false_or]
  cases hc : endsInCall exps with
  | true =>
    refine ⟨new, ?_, ?_⟩
    · simpa using h1
    · simp [h2]
  | false =>
    refine ⟨new ++ [⟨((cgExpsFewer E (N : Int) (exps.length : Int) st false 0 exps).1.allocRegs
        ((N : Int) - (exps.length : Int))).1.fi,
      .emit (.loadNil lastLine (st.fi.usedRegs + (exps.length : Int))
        ((N : Int) - (exps.length : Int)))⟩], ?_, ?_⟩
    · simp only [Bool.not_false, if_true, CgState.emitLoadNil, CgState.emit_trace,
        CgState.allocRegs_trace, h1, List.append_assoc, CgState.allocRegs_snd, h4 hc]
    · simp [h2, hM]

/-- What the value part of a local declaration logs. -/
theorem decl_value_acts (E : Collaborators)
    (hReg : ∀ fi e a n, (E.cgExp fi e a n).usedRegs = fi.usedRegs) (st : CgState)
    (lastLine : Int) (nameList : List String) (expressionList : List Expression) :
    ∃ new, (cgLocalVarDeclStat E st lastLine nameList expressionList).trace = st.trace ++ new ∧
      new.map (fun ev => ev.act)
        = valueActs st.fi.usedRegs nameList.length lastLine (removeTailNils expressionList) := by
  unfold cgLocalVarDeclStat
  generalize removeTailNils expressionList = exps
  simp only [addLocalVariables_trace, CgState.setUsedRegs_trace]
  by_cases h1 : (exps.length : Int) = (nameList.length : Int)
  · rw [if_pos h1]
    have h1n : exps.length = nameList.length := by exact_mod_cast h1
    obtain ⟨new, h2, h3, _⟩ := cgExpsEqual_acts E hReg
      (wantedCount nameList.length exps.length) (fun i e => by simp [wantedCount, h1n]) exps st 0
    refine ⟨new, h2, ?_⟩
    simp [valueActs, h3, h1n]
  · rw [if_neg h1]
    by_cases h2 : (exps.length : Int) > (nameList.length : Int)
    · rw [if_pos h2]
      have h2n : nameList.length < exps.length := by exact_mod_cast h2
      obtain ⟨new, h3, h4⟩ :=
        cgExpsMore_acts E hReg nameList.length exps.length h2n exps st 0 (by simp)
      refine ⟨new, h3, ?_⟩
      have : ¬ exps.length < nameList.length := by omega
      simp [valueActs, h4, this]
    · rw [if_neg h2]
      have h2n : exps.length < nameList.length := by
        have : ¬ (nameList.length < exps.length) := fun h => h2 (by exact_mod_cast h)
        have : exps.length ≠ nameList.length := fun h => h1 (by exact_mod_cast h)
        omega
      exact cgExpsFill_acts E hReg nameList.length exps h2n st lastLine

theorem newLocals_length (p : Int) : ∀ (names : List String) (b : Int),
    (newLocals p b names).length = names.length
  | [], _ => rfl
  | _ :: rest, b => by simp [newLocals, newLocals_length p rest]

theorem newLocals_getElem? (p : Int) : ∀ (names : List String) (b : Int) (i : Nat),
    (newLocals p b names)[i]?
      = (names[i]?).map fun name => { name := name, slot := b + i, startPC := p, endPC := 0 }
  | [], _, _ => by simp [newLocals]
  | _ :: _, _, 0 => by simp [newLocals]
  | _ :: rest, b, i + 1 => by
    simp only [newLocals, List.getElem?_cons_succ, newLocals_getElem? p rest (b + 1) i]
    cases rest[i]? with
    | none => rfl
    | some name =>
      simp only [Option.map_some', Option.some.injEq, LocVarInfo.mk.injEq, true_and, and_true]
      push_cast
      omega

/-- What the loop that declares the names does to the compile state. -/
theorem addLocalVariables_fi : ∀ (names : List String) (st : CgState) (p : Int),
    (addLocalVariables st p names).fi.insts = st.fi.insts ∧
    (addLocalVariables st p names).fi.usedRegs = st.fi.usedRegs + names.length ∧
    (addLocalVariables st p names).fi.localVars
      = st.fi.localVars ++ newLocals p st.fi.usedRegs names
  | [], st, p => by simp [addLocalVariables, newLocals]
  | name :: rest, st, p => by
    obtain ⟨h1, h2, h3⟩ := addLocalVariables_fi rest (st.addLocalVariable name p).1 p
    simp only [addLocalVariables]
    refine ⟨by simpa using h1, ?_, ?_⟩
    · rw [h2]
      simp only [CgState.addLocalVariable_usedRegs, List.length_cons, Nat.cast_add, Nat.cast_one]
      omega
    · rw [h3]
      simp [newLocals]

/-- Looking up a name among table positions does not see an entry of
another name that is appended to the table. -/
theorem findLocal_append_other (vars : List LocVarInfo) (w : LocVarInfo) (name : String)
    (hw : w.name ≠ name) : ∀ l : List Nat,
      FuncInfo.findLocal (vars ++ [w]) name l = FuncInfo.findLocal vars name l
  | [] => rfl
  | i :: rest => by
    simp only [FuncInfo.findLocal]
    rw [findLocal_append_other vars w name hw rest]
    rcases Nat.lt_trichotomy i vars.length with hi | hi | hi
    · rw [List.getElem?_append_left hi]
    · subst hi
      simp [hw]
    · rw [List.getElem?_eq_none (by simp; omega), List.getElem?_eq_none (by omega)]

theorem lookupLocal_append_other (vars : List LocVarInfo) (w : LocVarInfo) (name : String)
    (hw : w.name ≠ name) : ∀ sc : List Scope,
      FuncInfo.lookupLocal (vars ++ [w]) name sc = FuncInfo.lookupLocal vars name sc
  | [] => rfl
  | s :: rest => by
    simp only [FuncInfo.lookupLocal, findLocal_append_other vars w name hw,
      lookupLocal_append_other vars w name hw rest]

/-- Declaring a local of another name does not change what a name is bound
to. -/
theorem addLocalVariable_slotOf_other (st : CgState) (n name : String) (p : Int) (hn : n ≠ name) :
    (st.addLocalVariable n p).1.fi.slotOfLocalVariable name = st.fi.slotOfLocalVariable name := by
  cases hs : st.fi.scopes with
  | nil =>
    simp [FuncInfo.slotOfLocalVariable, CgState.addLocalVariable_scopes_nil _ _ _ hs, hs,
      FuncInfo.lookupLocal]
  | cons f rest =>
    simp only [FuncInfo.slotOfLocalVariable, CgState.addLocalVariable_scopes_cons _ _ _ f rest hs,
      hs, CgState.addLocalVariable_localVars]
    rw [lookupLocal_append_other _ _ _ hn]
    simp only [FuncInfo.lookupLocal, FuncInfo.findLocal]
    rw [List.getElem?_eq_none (le_refl _)]

/-- A local just declared in an open scope is what its name is bound to. -/
theorem addLocalVariable_slotOf_self (st : CgState) (name : String) (p : Int)
    (hs : st.fi.scopes ≠ []) :
    (st.addLocalVariable name p).1.fi.slotOfLocalVariable name = st.fi.usedRegs := by
  cases hsc : st.fi.scopes with
  | nil => exact absurd hsc hs
  | cons f rest =>
    simp [FuncInfo.slotOfLocalVariable, CgState.addLocalVariable_scopes_cons _ _ _ f rest hsc,
      FuncInfo.lookupLocal, FuncInfo.findLocal]

theorem addLocalVariables_scopes_ne : ∀ (names : List String) (st : CgState) (p : Int),
    st.fi.scopes ≠ [] → (addLocalVariables st p names).fi.scopes ≠ []
  | [], _, _, h => h
  | name :: rest, st, p, h => by
    simp only [addLocalVariables]
    refine addLocalVariables_scopes_ne rest _ p ?_
    intro h0
    have := CgState.addLocalVariable_scopes_length st name p
    rw [h0] at this
    exact h (List.length_eq_zero.1 this.symm)

theorem addLocalVariables_slotOf_other (name : String) :
    ∀ (names : List String) (st : CgState) (p : Int), name ∉ names →
      (addLocalVariables st p names).fi.slotOfLocalVariable name = st.fi.slotOfLocalVariable name
  | [], _, _, _ => rfl
  | n :: rest, st, p, h => by
    simp only [List.mem_cons, not_or] at h
    simp only [addLocalVariables]
    rw [addLocalVariables_slotOf_other name rest _ p h.2,
      addLocalVariable_slotOf_other st n name p (fun e => h.1 e.symm)]

/-- After the loop that declares the names in an open scope, the name at
position `i`, if it is not declared again at a later position, is bound to
the register `usedRegs + i` of the state in which the loop started. -/
theorem addLocalVariables_slotOf : ∀ (names : List String) (st : CgState) (p : Int) (i : Nat)
    (name : String), st.fi.scopes ≠ [] → names[i]? = some name →
      (∀ j, i < j → names[j]? ≠ some name) →
      (addLocalVariables st p names).fi.slotOfLocalVariable name = st.fi.usedRegs + i
  | [], _, _, _, _, _, h, _ => by simp at h
  | n :: rest, st, p, 0, name, hs, h, hlast => by
    simp only [List.getElem?_cons_zero, Option.some.injEq] at h
    subst h
    simp only [addLocalVariables]
    have hnot : n ∉ rest := by
      intro hm
      obtain ⟨j, hj⟩ := List.mem_iff_getElem?.1 hm
      exact hlast (j + 1) (Nat.succ_pos _) (by simpa using hj)
    rw [addLocalVariables_slotOf_other n rest _ p hnot, addLocalVariable_slotOf_self st n p hs]
    simp
  | n :: rest, st, p, i + 1, name, hs, h, hlast => by
    simp only [List.getElem?_cons_succ] at h
    simp only [addLocalVariables]
    have hs1 : (st.addLocalVariable n p).1.fi.scopes ≠ [] := by
      intro h0
      have := CgState.addLocalVariable_scopes_length st n p
      rw [h0] at this
      exact hs (List.length_eq_zero.1 this.symm)
    rw [addLocalVariables_slotOf rest _ p i name hs1 h
      (fun j hj => by simpa using hlast (j + 1) (by omega))]
    simp only [CgState.addLocalVariable_usedRegs, Nat.cast_add, Nat.cast_one]
    omega

/-- Every one of the `N` registers from `b` on is written by the value part:
by the call for the expression of that position, by the call for a last
expression that is expanded, or by the load-nil. -/
theorem valueActs_covers (b : Int) (N : Nat) (lastLine : Int) (exps : List Expression) (i : Nat)
    (hi : i < N) : ∃ a ∈ valueActs b N lastLine exps, a.produces (b + i) = true := by
  by_cases hM : i < exps.length
  · have he : exps[i]? = some exps[i] := List.getElem?_eq_getElem hM
    have hg := loopActs_getElem? (wantedCount N exps.length) exps b 0 i
    rw [he] at hg
    simp only [Option.map_some', Nat.zero_add] at hg
    refine ⟨Action.cgExp exps[i] (b + i) (wantedCount N exps.length i exps[i]), ?_, ?_⟩
    · exact List.mem_append_left _ (List.mem_iff_getElem?.2 ⟨i, hg⟩)
    · have hw : 1 ≤ wantedCount N exps.length i exps[i] := by
        unfold wantedCount
        split_ifs <;> omega
      simp only [Action.produces, decide_eq_true_eq]
      omega
  · have hlt : exps.length < N := by omega
    cases hc : endsInCall exps with
    | true =>
      have hpos : 0 < exps.length := by
        cases exps with
        | nil => simp [endsInCall] at hc
        | cons _ _ => simp
      have hj : exps.length - 1 < exps.length := by omega
      have he : exps[exps.length - 1]? = some exps[exps.length - 1] := List.getElem?_eq_getElem hj
      have hcall : isVarargOrFuncCall exps[exps.length - 1] = true := by
        simp only [endsInCall, List.getLast?_eq_getElem?, he] at hc
        exact hc
      have hg := loopActs_getElem? (wantedCount N exps.length) exps b 0 (exps.length - 1)
      rw [he] at hg
      simp only [Option.map_some', Nat.zero_add] at hg
      refine ⟨_, List.mem_append_left _ (List.mem_iff_getElem?.2 ⟨_, hg⟩), ?_⟩
      have h1 : exps.length - 1 + 1 = exps.length := by omega
      have h2 : ¬ exps.length > N := by omega
      simp only [Action.produces, wantedCount, h1, hcall, and_self, if_true, h2, if_false, hlt,
        decide_eq_true_eq]
      omega
    | false =>
      refine ⟨.emit (.loadNil lastLine (b + (exps.length : Int))
        ((N : Int) - (exps.length : Int))), ?_, ?_⟩
      · simp [valueActs, hlt, hc]
      · simp only [Action.produces, decide_eq_true_eq]
        omega

theorem Appends.arefl (fi : FuncInfo) : Appends fi fi := ⟨rfl, rfl, [], by simp⟩

theorem Appends.atrans {a b c : FuncInfo} (h1 : Appends a b) (h2 : Appends b c) : Appends a c := by
  obtain ⟨s1, l1, e1, i1⟩ := h1
  obtain ⟨s2, l2, e2, i2⟩ := h2
  exact ⟨s2.trans s1, l2.trans l1, e1 ++ e2, by rw [i2, i1, List.append_assoc]⟩

theorem appends_cgExpsEqual {E : Collaborators} (hE : E.Lawful) :
    ∀ (exps : List Expression) (st : CgState), Appends st.fi (cgExpsEqual E st exps).fi
  | [], st => Appends.arefl _
  | e :: rest, st => by
    rw [cgExpsEqual]
    refine Appends.atrans ?_ (appends_cgExpsEqual hE rest _)
    exact Appends.atrans ⟨rfl, rfl, [], by simp⟩ (hE.cgExp st.allocReg.1.fi e st.allocReg.2 1).1

theorem appends_cgExpsMore {E : Collaborators} (hE : E.Lawful) (nExps : Int) :
    ∀ (exps : List Expression) (st : CgState) (i : Nat),
      Appends st.fi (cgExpsMore E nExps st i exps).fi
  | [], st, _ => Appends.arefl _
  | e :: rest, st, i => by
    rw [cgExpsMore]
    refine Appends.atrans ?_ (appends_cgExpsMore hE nExps rest _ _)
    split
    · exact Appends.atrans ⟨rfl, rfl, [], by simp⟩ (hE.cgExp st.allocReg.1.fi e st.allocReg.2 0).1
    · exact Appends.atrans ⟨rfl, rfl, [], by simp⟩ (hE.cgExp st.allocReg.1.fi e st.allocReg.2 1).1

theorem appends_cgExpsFewer {E : Collaborators} (hE : E.Lawful) (nNames nExps : Int) :
    ∀ (exps : List Expression) (st : CgState) (m : Bool) (i : Nat),
      Appends st.fi (cgExpsFewer E nNames nExps st m i exps).1.fi
  | [], st, _, _ => Appends.arefl _
  | e :: rest, st, m, i => by
    rw [cgExpsFewer]
    split
    · refine Appends.atrans ?_ (appends_cgExpsFewer hE nNames nExps rest _ _ _)
      exact Appends.atrans (Appends.atrans ⟨rfl, rfl, [], by simp⟩
        (hE.cgExp st.allocReg.1.fi e st.allocReg.2 (nNames - nExps + 1)).1) ⟨rfl, rfl, [], by simp⟩
    · refine Appends.atrans ?_ (appends_cgExpsFewer hE nNames nExps rest _ _ _)
      exact Appends.atrans ⟨rfl, rfl, [], by simp⟩ (hE.cgExp st.allocReg.1.fi e st.allocReg.2 1).1

theorem appends_cgExpsFill {E : Collaborators} (hE : E.Lawful) (st : CgState)
    (lastLine nNames nExps : Int) (exps : List Expression) :
    Appends st.fi (cgExpsFill E st lastLine nNames nExps exps).fi := by
  have q1 := appends_cgExpsFewer hE nNames nExps exps st false 0
  simp only [cgExpsFill]
  split
  · exact Appends.atrans q1 ⟨rfl, rfl, [_], rfl⟩
  · exact q1

/-- A local declaration is its value part, which only appends instructions,
then the reset of `usedRegs`, then the loop that declares the names. -/
theorem cgLocalVarDeclStat_parts {E : Collaborators} (hE : E.Lawful) (st : CgState)
    (lastLine : Int) (nameList : List String) (expressionList : List Expression) :
    ∃ s1 : CgState, Appends st.fi s1.fi ∧
      cgLocalVarDeclStat E st lastLine nameList expressionList
        = addLocalVariables (s1.setUsedRegs st.fi.usedRegs) (s1.fi.pc + 1) nameList := by
  unfold cgLocalVarDeclStat
  refine ⟨_, ?_, rfl⟩
  split
  · exact appends_cgExpsEqual hE _ _
  · split
    · exact appends_cgExpsMore hE _ _ _ _
    · exact appends_cgExpsFill hE _ _ _ _ _

/-- C17, the claim as stated, fails: in `local x, y = f(), nil` (two names,
two initializers) the second initial value, the literal `nil`, is never
produced.  The trailing `nil` is removed before the expressions are
counted, the call is then the last of one expression for two names and is
lowered for two results from register 0 on, and nothing else is logged: the
register 1 to which `y` is bound is written by the call, not by the second
initializer. -/
theorem local_decl_binds_registers_counterexample :
    [Expression.FunctionCallExpression 2, Expression.NilExpression 1].length
      = ["x", "y"].length ∧
    (cgLocalVarDeclStat sampleEmitter initialState 1 ["x", "y"]
        [.FunctionCallExpression 2, .NilExpression 1]).trace.map (fun ev => ev.act)
      = [.cgExp (.FunctionCallExpression 2) 0 2] ∧
    (cgLocalVarDeclStat sampleEmitter initialState 1 ["x", "y"]
        [.FunctionCallExpression 2, .NilExpression 1]).fi.slotOfLocalVariable "y" = 1 ∧
    ¬ ∃ a ∈ (cgLocalVarDeclStat sampleEmitter initialState 1 ["x", "y"]
        [.FunctionCallExpression 2, .NilExpression 1]).trace.map (fun ev => ev.act),
      (a.lowering?).map Prod.fst = some (Expression.NilExpression 1) := by
  decide

/-- Claim C17, amended: after `cgLocalVarDeclStat` on a declaration of
`N ≥ 1` names, entered with `b` registers in use: the value part logged
exactly the calls and the load-nil of `valueActs b N` for the initializers
that `removeTailNils` leaves (line 214: the `nil` literals at the end of the
list are not lowered), among which every register `b + i`, `i < N`, has one
that writes it (the call for initializer `i`, the call for a last
initializer that is expanded, or the load-nil); `usedRegs` is `b + N`; the buffer only
grew; the locals table has got one entry per name, in order, the `i`-th with
the name, the register `b + i` and, as start-PC, the length of the buffer
after the declaration, which is the PC right after the last instruction
emitted for it; and in a state with an open scope the `i`-th name, if no
later position of the list has the same name, is bound to register
`b + i`. -/
theorem local_decl_binds_registers (E : Collaborators) (hE : E.Lawful) (st : CgState)
    (lastLine : Int) (nameList : List String) (expressionList : List Expression)
    (hN : 1 ≤ nameList.length) :
    ∃ new,
      (cgLocalVarDeclStat E st lastLine nameList expressionList).trace = st.trace ++ new ∧
      new.map (fun ev => ev.act)
        = valueActs st.fi.usedRegs nameList.length lastLine (removeTailNils expressionList) ∧
      (∀ i : Nat, i < nameList.length →
        ∃ a ∈ new.map (fun ev => ev.act), a.produces (st.fi.usedRegs + i) = true) ∧
      (cgLocalVarDeclStat E st lastLine nameList expressionList).fi.usedRegs
        = st.fi.usedRegs + nameList.length ∧
      (∃ ext, (cgLocalVarDeclStat E st lastLine nameList expressionList).fi.insts
        = st.fi.insts ++ ext) ∧
      (cgLocalVarDeclStat E st lastLine nameList expressionList).fi.localVars
        = st.fi.localVars ++ newLocals
            (cgLocalVarDeclStat E st lastLine nameList expressionList).fi.insts.length
            st.fi.usedRegs nameList ∧
      (∀ (i : Nat) (name : String), nameList[i]? = some name →
        (cgLocalVarDeclStat E st lastLine nameList expressionList).fi.localVars[
            st.fi.localVars.length + i]?
          = some { name := name, slot := st.fi.usedRegs + i,
                   startPC := (cgLocalVarDeclStat E st lastLine nameList
                     expressionList).fi.insts.length,
                   endPC := 0 }) ∧
      (st.fi.scopes ≠ [] → ∀ (i : Nat) (name : String), nameList[i]? = some name →
        (∀ j : Nat, i < j → nameList[j]? ≠ some name) →
        (cgLocalVarDeclStat E st lastLine nameList expressionList).fi.slotOfLocalVariable name
          = st.fi.usedRegs + i) := by
  have _ := hN
  obtain ⟨new, h1, h2⟩ := decl_value_acts E (fun fi e a n => (hE.cgExp fi e a n).2) st lastLine
    nameList expressionList
  obtain ⟨s1, ⟨hsc, hlv, ext, hin⟩, heq⟩ :=
    cgLocalVarDeclStat_parts hE st lastLine nameList expressionList
  have hF := addLocalVariables_fi nameList (s1.setUsedRegs st.fi.usedRegs) (s1.fi.pc + 1)
  rw [← heq] at hF
  simp only [CgState.setUsedRegs_usedRegs, CgState.setUsedRegs_localVars,
    CgState.setUsedRegs_insts] at hF
  obtain ⟨hF1, hF2, hF3⟩ := hF
  have hp : s1.fi.pc + 1
      = (cgLocalVarDeclStat E st lastLine nameList expressionList).fi.insts.length := by
    rw [hF1]
    simp [FuncInfo.pc]
  rw [hp, hlv] at hF3
  refine ⟨new, h1, h2, ?_, hF2, ⟨ext, by rw [hF1, hin]⟩, hF3, ?_, ?_⟩
  · intro i hi
    rw [h2]
    exact valueActs_covers _ _ _ _ i hi
  · intro i name hi
    rw [hF3, List.getElem?_append_right (Nat.le_add_right _ _), Nat.add_sub_cancel_left,
      newLocals_getElem?, hi]
    rfl
  · intro hs i name hi hlast
    rw [heq, addLocalVariables_slotOf nameList _ _ i name (by simpa [hsc] using hs) hi hlast]
    simp

/-- C17 at `local x, y, z = e1, f()` from the initial state: the call is
asked for two values from register 1 on, three registers are in use, and
`z` is bound to register 2. -/
theorem local_decl_binds_registers_witness :
    1 ≤ ["x", "y", "z"].length ∧
    ∃ new,
      (cgLocalVarDeclStat sampleEmitter initialState 1 ["x", "y", "z"]
        [.OtherExpression 1, .FunctionCallExpression 0]).trace = initialState.trace ++ new ∧
      new.map (fun ev => ev.act)
        = valueActs initialState.fi.usedRegs ["x", "y", "z"].length 1
            (removeTailNils [.OtherExpression 1, .FunctionCallExpression 0]) ∧
      (∀ i : Nat, i < ["x", "y", "z"].length →
        ∃ a ∈ new.map (fun ev => ev.act), a.produces (initialState.fi.usedRegs + i) = true) ∧
      (cgLocalVarDeclStat sampleEmitter initialState 1 ["x", "y", "z"]
        [.OtherExpression 1, .FunctionCallExpression 0]).fi.usedRegs
        = initialState.fi.usedRegs + ["x", "y", "z"].length ∧
      (∃ ext, (cgLocalVarDeclStat sampleEmitter initialState 1 ["x", "y", "z"]
        [.OtherExpression 1, .FunctionCallExpression 0]).fi.insts
        = initialState.fi.insts ++ ext) ∧
      (cgLocalVarDeclStat sampleEmitter initialState 1 ["x", "y", "z"]
        [.OtherExpression 1, .FunctionCallExpression 0]).fi.localVars
        = initialState.fi.localVars ++ newLocals
            (cgLocalVarDeclStat sampleEmitter initialState 1 ["x", "y", "z"]
              [.OtherExpression 1, .FunctionCallExpression 0]).fi.insts.length
            initialState.fi.usedRegs ["x", "y", "z"] ∧
      (∀ (i : Nat) (name : String), ["x", "y", "z"][i]? = some name →
        (cgLocalVarDeclStat sampleEmitter initialState 1 ["x", "y", "z"]
          [.OtherExpression 1, .FunctionCallExpression 0]).fi.localVars[
            initialState.fi.localVars.length + i]?
          = some { name := name, slot := initialState.fi.usedRegs + i,
                   startPC := (cgLocalVarDeclStat sampleEmitter initialState 1 ["x", "y", "z"]
                     [.OtherExpression 1, .FunctionCallExpression 0]).fi.insts.length,
                   endPC := 0 }) ∧
      (initialState.fi.scopes ≠ [] → ∀ (i : Nat) (name : String),
        ["x", "y", "z"][i]? = some name →
        (∀ j : Nat, i < j → ["x", "y", "z"][j]? ≠ some name) →
        (cgLocalVarDeclStat sampleEmitter initialState 1 ["x", "y", "z"]
          [.OtherExpression 1, .FunctionCallExpression 0]).fi.slotOfLocalVariable name
          = initialState.fi.usedRegs + i) :=
  ⟨by decide, local_decl_binds_registers sampleEmitter sampleEmitter_lawful initialState 1
    ["x", "y", "z"] [.OtherExpression 1, .FunctionCallExpression 0] (by decide)⟩

/-! ### Generic for: the loop-back instruction and the hidden control local -/

theorem findLocal_skip (vars : List LocVarInfo) (name : String) :
    ∀ (l1 l2 : List Nat), (∀ k ∈ l1, ∃ u, vars[k]? = some u ∧ u.name ≠ name) →
      FuncInfo.findLocal vars name (l1 ++ l2) = FuncInfo.findLocal vars name l2
  | [], _, _ => rfl
  | k :: rest, l2, h => by
    obtain ⟨u, hu, hn⟩ := h k (List.mem_cons_self _ _)
    simp only [List.cons_append, FuncInfo.findLocal, hu, if_neg hn]
    exact findLocal_skip vars name rest l2 fun j hj => h j (List.mem_cons_of_mem _ hj)

/-- What is bound in the innermost frame is what the lookup returns. -/
theorem BoundOnTop.slotOf {name : String} {slot : Int} {fi : FuncInfo}
    (h : BoundOnTop name slot fi) : fi.slotOfLocalVariable name = slot := by
  obtain ⟨f, rest, l1, i, l2, w, hsc, hl, hw, hn, hs, hk⟩ := h
  simp only [FuncInfo.slotOfLocalVariable, hsc, FuncInfo.lookupLocal, hl,
    findLocal_skip _ name l1 (i :: l2) hk, FuncInfo.findLocal, hw, hn, if_true, hs]

/-- The binding survives what leaves the innermost frame's list alone and
keeps name and register of every entry of the table. -/
theorem BoundOnTop.unchanged {name : String} {slot : Int} {fi fi2 : FuncInfo}
    (h : BoundOnTop name slot fi)
    (hsc : ∀ f rest, fi.scopes = f :: rest → ∃ f2 rest2, fi2.scopes = f2 :: rest2 ∧
      f2.locals = f.locals)
    (hv : ∃ ext, fi2.localVars.map LocVarInfo.key = fi.localVars.map LocVarInfo.key ++ ext) :
    BoundOnTop name slot fi2 := by
  obtain ⟨f, rest, l1, i, l2, w, hs, hl, hw, hn, hsl, hk⟩ := h
  obtain ⟨f2, rest2, hs2, hl2⟩ := hsc f rest hs
  obtain ⟨w2, hw2, hn2, hsl2⟩ := key_getElem? hv hw
  refine ⟨f2, rest2, l1, i, l2, w2, hs2, by rw [hl2, hl], hw2, by rw [hn2, hn],
    by rw [hsl2, hsl], fun k hk1 => ?_⟩
  obtain ⟨u, hu, hun⟩ := hk k hk1
  obtain ⟨u2, hu2, hun2, _⟩ := key_getElem? hv hu
  exact ⟨u2, hu2, by rw [hun2]; exact hun⟩

theorem BoundOnTop.appends {name : String} {slot : Int} {fi fi2 : FuncInfo}
    (h : BoundOnTop name slot fi) (ha : Appends fi fi2) : BoundOnTop name slot fi2 := by
  obtain ⟨hs, hl, _⟩ := ha
  exact h.unchanged (fun f rest e => ⟨f, rest, by rw [hs, e], rfl⟩) ⟨[], by rw [hl]; simp⟩

theorem BoundOnTop.resetRegs {name : String} {slot : Int} {st : CgState}
    (h : BoundOnTop name slot st.fi) (r : Int) : BoundOnTop name slot (st.setUsedRegs r).fi :=
  h.unchanged (fun f rest e => ⟨f, rest, e, rfl⟩) ⟨[], by simp⟩

/-- Declaring a local of another name keeps the binding. -/
theorem BoundOnTop.addOther {name : String} {slot : Int} {st : CgState}
    (h : BoundOnTop name slot st.fi) (n : String) (p : Int) (hn : n ≠ name) :
    BoundOnTop name slot (st.addLocalVariable n p).1.fi := by
  obtain ⟨f, rest, l1, i, l2, w, hs, hl, hw, hwn, hsl, hk⟩ := h
  have hlt : ∀ {k : Nat} {u : LocVarInfo}, st.fi.localVars[k]? = some u →
      (st.addLocalVariable n p).1.fi.localVars[k]? = some u := by
    intro k u hu
    have hk : k < st.fi.localVars.length := by
      by_contra hc
      rw [List.getElem?_eq_none (by omega)] at hu
      cases hu
    rw [CgState.addLocalVariable_localVars, List.getElem?_append_left hk]
    exact hu
  refine ⟨_, rest, st.fi.localVars.length :: l1, i, l2, w,
    CgState.addLocalVariable_scopes_cons st n p f rest hs, by simp [hl], hlt hw, hwn, hsl, ?_⟩
  intro k hk1
  rcases List.mem_cons.1 hk1 with hk1 | hk1
  · subst hk1
    exact ⟨{ name := n, slot := st.fi.usedRegs, startPC := p, endPC := 0 }, by simp, hn⟩
  · obtain ⟨u, hu, hun⟩ := hk k hk1
    exact ⟨u, hlt hu, hun⟩

/-- A local declared in an open scope is bound in the innermost frame. -/
theorem BoundOnTop.addSelf (st : CgState) (name : String) (p : Int) (f : Scope)
    (rest : List Scope) (hs : st.fi.scopes = f :: rest) :
    BoundOnTop name st.fi.usedRegs (st.addLocalVariable name p).1.fi :=
  ⟨_, rest, [], st.fi.localVars.length, f.locals,
    { name := name, slot := st.fi.usedRegs, startPC := p, endPC := 0 },
    CgState.addLocalVariable_scopes_cons st name p f rest hs, rfl, by simp, rfl, rfl,
    fun k hk => by cases hk⟩

theorem BoundOnTop.addLocalVariables {name : String} {slot : Int} :
    ∀ (names : List String) (st : CgState) (p : Int), BoundOnTop name slot st.fi →
      name ∉ names → BoundOnTop name slot (addLocalVariables st p names).fi
  | [], _, _, h, _ => h
  | n :: rest, st, p, h, hn => by
    simp only [List.mem_cons, not_or] at hn
    simp only [Codegen.addLocalVariables]
    exact BoundOnTop.addLocalVariables rest _ p (h.addOther n p fun e => hn.1 e.symm) hn.2

theorem BoundOnTop.addLoopVariables {name : String} {slot : Int} :
    ∀ (names : List String) (st : CgState), BoundOnTop name slot st.fi →
      name ∉ names → BoundOnTop name slot (addLoopVariables st names).fi
  | [], _, h, _ => h
  | n :: rest, st, h, hn => by
    simp only [List.mem_cons, not_or] at hn
    simp only [Codegen.addLoopVariables]
    exact BoundOnTop.addLoopVariables rest _ (h.addOther n _ fun e => hn.1 e.symm) hn.2

/-- A statement that does not declare the name keeps the binding. -/
theorem cgStat_boundOnTop {E : Collaborators} (hE : E.Lawful) {name : String} {slot : Int}
    (s : Statement) (st st2 : CgState) (h : cgStat E st s = .done st2)
    (hn : name ∉ s.declaredNames) (hb : BoundOnTop name slot st.fi) :
    BoundOnTop name slot st2.fi := by
  cases hd : s.declares with
  | false =>
    obtain ⟨⟨new, hstep, hf⟩, _⟩ := (cgStat_lowered hE s st st2 h).2 hd
    refine hb.unchanged (fun f rest e => ?_) hstep.vars
    rcases hf with ⟨h0, _⟩ | ⟨f0, rest0, f2, rest2, e1, e2, _, _, hl2, _⟩
    · rw [e] at h0
      cases h0
    · rw [e] at e1
      cases e1
      exact ⟨f2, rest2, e2, by simpa using hl2⟩
  | true =>
    cases s <;> try (simp [Statement.declares] at hd)
    case LocalVariableDeclareStatement lastLine nameList expressionList =>
      simp only [cgStat, Outcome.done.injEq] at h
      subst h
      obtain ⟨s1, ha, heq⟩ := cgLocalVarDeclStat_parts hE st lastLine nameList expressionList
      rw [heq]
      exact BoundOnTop.addLocalVariables nameList _ _ ((hb.appends ha).resetRegs _)
        (by simpa [Statement.declaredNames] using hn)
    case LocalFunctionDefineStatement n expression =>
      simp only [cgStat, Outcome.done.injEq] at h
      subst h
      simp only [Statement.declaredNames, List.mem_singleton] at hn
      exact (hb.addOther n _ fun e => hn e.symm).appends (hE.cgFuncDefExp _ _ _).1

theorem cgStats_boundOnTop {E : Collaborators} (hE : E.Lawful) {name : String} {slot : Int} :
    ∀ (ss : List Statement) (st st2 : CgState), cgStats E st ss = .done st2 →
      name ∉ ss.flatMap Statement.declaredNames → BoundOnTop name slot st.fi →
      BoundOnTop name slot st2.fi
  | [], st, st2, h, _, hb => by
    simp only [cgStats, Outcome.done.injEq] at h
    subst h
    exact hb
  | s :: rest, st, st2, h, hn, hb => by
    simp only [cgStats] at h
    simp only [List.flatMap_cons, List.mem_append, not_or] at hn
    cases h1 : cgStat E st s with
    | panicked e s1 => rw [h1] at h; cases h
    | done s1 =>
      rw [h1] at h
      exact cgStats_boundOnTop hE rest s1 st2 h hn.2 (cgStat_boundOnTop hE s st s1 h1 hn.1 hb)

/-- After the declaration of the three hidden locals and of the loop
variables of a generic for, entered with `b` registers in use, the generator
is bound to register `b` and the control local to register `b + 2`, when no
loop variable has their names. -/
theorem forIn_hidden_bound {E : Collaborators} (hE : E.Lawful) (st : CgState)
    (nameList : List String) (expressionList : List Expression)
    (hg : "(for generator)" ∉ nameList) (hc : "(for control)" ∉ nameList) :
    BoundOnTop "(for generator)" st.fi.usedRegs
      (addLoopVariables (cgLocalVarDeclStat E (st.enterScope true) 0
        ["(for generator)", "(for state)", "(for control)"] expressionList) nameList).fi ∧
    BoundOnTop "(for control)" (st.fi.usedRegs + 2)
      (addLoopVariables (cgLocalVarDeclStat E (st.enterScope true) 0
        ["(for generator)", "(for state)", "(for control)"] expressionList) nameList).fi := by
  obtain ⟨s1, ⟨hsc, hlv, _⟩, heq⟩ := cgLocalVarDeclStat_parts hE (st.enterScope true) 0
    ["(for generator)", "(for state)", "(for control)"] expressionList
  rw [heq]
  simp only [addLocalVariables, CgState.enterScope_usedRegs]
  have h0 : (s1.setUsedRegs st.fi.usedRegs).fi.scopes = ⟨[], true, []⟩ :: st.fi.scopes := by
    simpa using hsc
  have hG := BoundOnTop.addSelf (s1.setUsedRegs st.fi.usedRegs) "(for generator)" (s1.fi.pc + 1)
    _ _ h0
  have h1 := CgState.addLocalVariable_scopes_cons _ "(for generator)" (s1.fi.pc + 1) _ _ h0
  have h2 := CgState.addLocalVariable_scopes_cons _ "(for state)" (s1.fi.pc + 1) _ _ h1
  have hC := BoundOnTop.addSelf _ "(for control)" (s1.fi.pc + 1) _ _ h2
  constructor
  · refine BoundOnTop.addLoopVariables nameList _ ?_ hg
    have := (hG.addOther "(for state)" (s1.fi.pc + 1) (by decide)).addOther "(for control)"
      (s1.fi.pc + 1) (by decide)
    simpa using this
  · refine BoundOnTop.addLoopVariables nameList _ ?_ hc
    have h3 : ((((s1.setUsedRegs st.fi.usedRegs).addLocalVariable "(for generator)"
        (s1.fi.pc + 1)).1.addLocalVariable "(for state)" (s1.fi.pc + 1)).1).fi.usedRegs
          = st.fi.usedRegs + 2 := by
      simp only [CgState.addLocalVariable_usedRegs, CgState.setUsedRegs_usedRegs]
      omega
    rw [h3] at hC
    simpa using hC

/-- Claim C20: when `cgStat` returns on a generic for statement with a
non-empty expression list, the last two events of the call are the emission
of the iterate instruction at PC `T` and, directly after it at PC `T + 1`,
of the loop-back instruction, whose register operand is `r + 2` for the
operand `r` of the iterate instruction, the result of
`slotOfLocalVariable("(for generator)")` at that moment.  In the final
buffer the instruction at `T + 1` is the loop-back instruction with an
offset `offL` such that `T + 1 + 1 + offL = J + 1`, the PC immediately after
the initial jump, which is at `J`.  When no loop variable and no local
declared directly in the body has the name of the hidden generator or
control local (names that no identifier of the language can be), `r` is the
register count on entry and `r + 2` is the slot of the hidden control
local. -/
theorem for_in_loop_back (E : Collaborators) (hE : E.Lawful) (st st' : CgState)
    (lineOfDo : Int) (nameList : List String) (exp0 : Expression) (exps : List Expression)
    (block : Block)
    (h : cgStat E st (.ForInStatement lineOfDo nameList (exp0 :: exps) block) = .done st') :
    ∃ (nA nB : List Event) (fiJ fiT fiL : FuncInfo) (r off offL : Int),
      st'.trace = st.trace ++ (nA ++ ([⟨fiJ, .emit (.jmp lineOfDo 0 0)⟩] ++
        (nB ++ [⟨fiT, .emit (.tForCall (E.lineOf exp0) r nameList.length)⟩,
                ⟨fiL, .emit (.tForLoop (E.lineOf exp0) (r + 2) offL)⟩]))) ∧
      fiL.insts.length = fiT.insts.length + 1 ∧
      st'.fi.insts.length = fiT.insts.length + 2 ∧
      st'.fi.insts[fiJ.insts.length]? = some (.jmp lineOfDo 0 off) ∧
      st'.fi.insts[fiT.insts.length]?
        = some (.tForCall (E.lineOf exp0) r nameList.length) ∧
      st'.fi.insts[fiT.insts.length + 1]?
        = some (.tForLoop (E.lineOf exp0) (r + 2) offL) ∧
      ((fiT.insts.length + 1 : Nat) : Int) + 1 + offL = (fiJ.insts.length : Int) + 1 ∧
      r = fiT.slotOfLocalVariable "(for generator)" ∧
      ("(for generator)" ∉ nameList ++ block.declaredNames →
        "(for control)" ∉ nameList ++ block.declaredNames →
        r = st.fi.usedRegs ∧ fiT.slotOfLocalVariable "(for control)" = r + 2) := by
  simp only [cgStat] at h
  obtain ⟨nA, nB, s4, fiT, fiL, r, hrun, hTs, hTl, hr, _, ht, _, _, _, _, _, hL1, hL2, hJ, hT,
    hLb⟩ := cgForInStat_anatomy hE st st' lineOfDo nameList exp0 exps
      ⟨block.LastLine, fun s => cgBlock E s block⟩
      (fun s s2 hs => cgBlock_lowered hE block s s2 hs) h
  refine ⟨nA, nB, _, fiT, fiL, r, _, _, ht, hL1, hL2, hJ, hT, hLb, by push_cast; omega, hr, ?_⟩
  intro hg hc
  simp only [List.mem_append, not_or] at hg hc
  obtain ⟨bG, bC⟩ := forIn_hidden_bound hE st nameList (exp0 :: exps) hg.1 hc.1
  have key : ∀ (name : String) (slot : Int), name ∉ block.declaredNames →
      BoundOnTop name slot (addLoopVariables (cgLocalVarDeclStat E (st.enterScope true) 0
        ["(for generator)", "(for state)", "(for control)"] (exp0 :: exps)) nameList).fi →
      fiT.slotOfLocalVariable name = slot := by
    intro name slot hn hb
    have hb1 := hb.appends (appends_emit _ (.jmp lineOfDo 0 0))
    have hb2 : BoundOnTop name slot s4.fi := by
      cases block with
      | mk stats lastLine =>
        simp only [cgBlock] at hrun
        exact cgStats_boundOnTop hE stats _ s4 hrun (by simpa [Block.declaredNames] using hn) hb1
    have hb3 : BoundOnTop name slot fiT :=
      hb2.unchanged (fun f rest e => ⟨f, rest, by rw [hTs, e], rfl⟩) ⟨[], by rw [hTl]; simp⟩
    exact hb3.slotOf
  have hG := key _ _ hg.2 bG
  have hC := key _ _ hc.2 bC
  rw [← hr] at hG
  exact ⟨hG, by rw [hC, hG]⟩

/-- C20 at `for k, v in e1, e2, e3 do f() end` from the initial state: the
loop-back instruction at PC 6 has offset -3, so it lands on PC 4, right
after the initial jump at PC 3, and its register operand is 2. -/
theorem for_in_loop_back_witness :
    (cgStat sampleEmitter initialState sampleForIn).state.fi.insts
      = [.other 1 0 1 0, .other 1 1 1 0, .other 1 2 1 0, .jmp 1 0 1, .other 2 5 0 0,
         .tForCall 0 0 2, .tForLoop 0 2 (-3)] ∧
    ∃ (nA nB : List Event) (fiJ fiT fiL : FuncInfo) (r off offL : Int),
      (cgStat sampleEmitter initialState sampleForIn).state.trace
        = initialState.trace ++ (nA ++ ([⟨fiJ, .emit (.jmp 1 0 0)⟩] ++
        (nB ++ [⟨fiT, .emit (.tForCall (sampleEmitter.lineOf (.OtherExpression 1)) r
                  (["k", "v"] : List String).length)⟩,
                ⟨fiL, .emit (.tForLoop (sampleEmitter.lineOf (.OtherExpression 1)) (r + 2)
                  offL)⟩]))) ∧
      fiL.insts.length = fiT.insts.length + 1 ∧
      (cgStat sampleEmitter initialState sampleForIn).state.fi.insts.length
        = fiT.insts.length + 2 ∧
      (cgStat sampleEmitter initialState sampleForIn).state.fi.insts[fiJ.insts.length]?
        = some (.jmp 1 0 off) ∧
      (cgStat sampleEmitter initialState sampleForIn).state.fi.insts[fiT.insts.length]?
        = some (.tForCall (sampleEmitter.lineOf (.OtherExpression 1)) r
            (["k", "v"] : List String).length) ∧
      (cgStat sampleEmitter initialState sampleForIn).state.fi.insts[fiT.insts.length + 1]?
        = some (.tForLoop (sampleEmitter.lineOf (.OtherExpression 1)) (r + 2) offL) ∧
      ((fiT.insts.length + 1 : Nat) : Int) + 1 + offL = (fiJ.insts.length : Int) + 1 ∧
      r = fiT.slotOfLocalVariable "(for generator)" ∧
      ("(for generator)" ∉ ["k", "v"] ++ Block.declaredNames (.mk [.FunctionCallStatement 0] 2) →
        "(for control)" ∉ ["k", "v"] ++ Block.declaredNames (.mk [.FunctionCallStatement 0] 2) →
        r = initialState.fi.usedRegs ∧ fiT.slotOfLocalVariable "(for control)" = r + 2) :=
  ⟨by decide,
   for_in_loop_back sampleEmitter sampleEmitter_lawful initialState
    (cgStat sampleEmitter initialState sampleForIn).state 1 ["k", "v"] (.OtherExpression 1)
    [.OtherExpression 2, .OtherExpression 3] (.mk [.FunctionCallStatement 0] 2) rfl⟩

/-! ### Assignment: targets, then values, then stores -/

/-- The loop over the targets returns when every target is a name or a table
access, and logs calls of `cgExp` only. -/
theorem cgAssignTargets_acts (E : Collaborators) :
    ∀ (vars : List Expression) (st : CgState) (t k : List Int),
      (∀ e ∈ vars, e.isTarget = true) →
      ∃ s1 nT, (cgAssignTargets E st t k vars).1 = .done s1 ∧ s1.trace = st.trace ++ nT ∧
        ∀ ev ∈ nT, ev.act.isCgExp = true
  | [], st, t, k, _ => ⟨st, [], rfl, by simp, by simp⟩
  | .TableAccessExpression l pe ke :: rest, st, t, k, h => by
    rw [cgAssignTargets]
    obtain ⟨s1, nT, h1, h2, h3⟩ := cgAssignTargets_acts E rest
      ((st.allocReg.1.cgExp E pe st.allocReg.2 1).allocReg.1.cgExp E ke
        (st.allocReg.1.cgExp E pe st.allocReg.2 1).allocReg.2 1) (t ++ [st.allocReg.2])
      (k ++ [(st.allocReg.1.cgExp E pe st.allocReg.2 1).allocReg.2])
      (fun e he => h e (List.mem_cons_of_mem _ he))
    refine ⟨s1, ⟨st.allocReg.1.fi, .cgExp pe st.allocReg.2 1⟩ ::
      ⟨(st.allocReg.1.cgExp E pe st.allocReg.2 1).allocReg.1.fi,
        .cgExp ke (st.allocReg.1.cgExp E pe st.allocReg.2 1).allocReg.2 1⟩ :: nT, h1, ?_, ?_⟩
    · rw [h2]
      simp only [CgState.cgExp_trace, CgState.allocReg_trace, List.append_assoc,
        List.singleton_append]
      rfl
    · intro ev hev
      simp only [List.mem_cons] at hev
      rcases hev with hev | hev | hev
      · subst hev
        rfl
      · subst hev
        rfl
      · exact h3 ev hev
  | .NameExpression l name :: rest, st, t, k, h => by
    rw [cgAssignTargets]
    have hr : ∀ e ∈ rest, e.isTarget = true := fun e he => h e (List.mem_cons_of_mem _ he)
    split
    · split
      · obtain ⟨s1, nT, h1, h2, h3⟩ := cgAssignTargets_acts E rest st.allocReg.1 (t ++ [0])
          (k ++ [st.allocReg.2]) hr
        exact ⟨s1, nT, h1, by simpa using h2, h3⟩
      · exact cgAssignTargets_acts E rest st _ _ hr
    · exact cgAssignTargets_acts E rest st _ _ hr
  | .NilExpression _ :: rest, st, t, k, h => by
    have := h _ (List.mem_cons_self _ _)
    simp [Expression.isTarget] at this
  | .VarargExpression _ :: rest, st, t, k, h => by
    have := h _ (List.mem_cons_self _ _)
    simp [Expression.isTarget] at this
  | .FunctionCallExpression _ :: rest, st, t, k, h => by
    have := h _ (List.mem_cons_self _ _)
    simp [Expression.isTarget] at this
  | .OtherExpression _ :: rest, st, t, k, h => by
    have := h _ (List.mem_cons_self _ _)
    simp [Expression.isTarget] at this

/-- One round of the store loop emits one instruction, which takes the
value from the register `vRegs[i]`. -/
theorem cgAssignStores_cons_src (E : Collaborators) (lastLine : Int)
    (tRegs kRegs vRegs : List Int) (exp : Expression) (rest : List Expression) (st : CgState)
    (i : Nat) :
    ∃ ins : Instruction,
      cgAssignStores E lastLine tRegs kRegs vRegs st i (exp :: rest) =
        cgAssignStores E lastLine tRegs kRegs vRegs (st.emit ins).1 (i + 1) rest ∧
      ins.storeSrc? = some (vRegs.getD i 0) := by
  cases exp <;>
    simp only [cgAssignStores, CgState.emitMove, CgState.emitSetUpval, CgState.emitSetTable,
      CgState.emitSetTabUp]
  case NameExpression l name =>
    split
    · exact ⟨_, rfl, rfl⟩
    · split
      · exact ⟨_, rfl, rfl⟩
      · split
        · split
          · exact ⟨_, rfl, rfl⟩
          · exact ⟨_, rfl, rfl⟩
        · split
          · exact ⟨_, rfl, rfl⟩
          · exact ⟨_, rfl, rfl⟩
  all_goals exact ⟨_, rfl, rfl⟩

/-- The store loop emits one store per target, in order, and nothing
else. -/
theorem cgAssignStores_acts (E : Collaborators) (lastLine : Int) (tRegs kRegs vRegs : List Int) :
    ∀ (vars : List Expression) (st : CgState) (i : Nat),
      ∃ (stores : List Instruction) (nS : List Event),
        (cgAssignStores E lastLine tRegs kRegs vRegs st i vars).trace = st.trace ++ nS ∧
        nS.map (fun ev => ev.act) = stores.map Action.emit ∧
        (cgAssignStores E lastLine tRegs kRegs vRegs st i vars).fi.insts
          = st.fi.insts ++ stores ∧
        stores.length = vars.length ∧
        (∀ j ev, nS[j]? = some ev → ev.pre.insts.length = st.fi.insts.length + j) ∧
        ∀ j, j < vars.length →
          ∃ ins, stores[j]? = some ins ∧ ins.storeSrc? = some (vRegs.getD (i + j) 0)
  | [], st, i => ⟨[], [], by simp [cgAssignStores], rfl, by simp [cgAssignStores], rfl,
      by simp, by simp⟩
  | exp :: rest, st, i => by
    obtain ⟨ins, he, hsrc⟩ := cgAssignStores_cons_src E lastLine tRegs kRegs vRegs exp rest st i
    obtain ⟨stores, nS, h1, h2, h3, h4, h5, h6⟩ :=
      cgAssignStores_acts E lastLine tRegs kRegs vRegs rest (st.emit ins).1 (i + 1)
    rw [he]
    refine ⟨ins :: stores, ⟨st.fi, .emit ins⟩ :: nS, ?_, ?_, ?_, ?_, ?_, ?_⟩
    · rw [h1]
      simp
    · simp [h2]
    · rw [h3]
      simp
    · simp [h4]
    · intro j ev hj
      cases j with
      | zero =>
        simp only [List.getElem?_cons_zero, Option.some.injEq] at hj
        subst hj
        simp
      | succ j =>
        simp only [List.getElem?_cons_succ] at hj
        rw [h5 j ev hj]
        simp
        omega
    · intro j hj
      cases j with
      | zero => exact ⟨ins, by simp, by simpa using hsrc⟩
      | succ j =>
        simp only [List.length_cons] at hj
        obtain ⟨ins2, hi1, hi2⟩ := h6 j (by omega)
        refine ⟨ins2, by simpa using hi1, ?_⟩
        rw [hi2]
        congr 2
        omega

/-- What the value part of an assignment logs. -/
theorem assign_value_acts (E : Collaborators)
    (hReg : ∀ fi e a n, (E.cgExp fi e a n).usedRegs = fi.usedRegs) (s1 : CgState)
    (lastLine : Int) (N : Nat) (exps : List Expression) :
    ∃ nV, (if (exps.length : Int) ≥ (N : Int) then
          cgAssignExps E (N : Int) (exps.length : Int) s1 0 exps
        else cgExpsFill E s1 lastLine (N : Int) (exps.length : Int) exps).trace = s1.trace ++ nV ∧
      nV.map (fun ev => ev.act) = valueActs s1.fi.usedRegs N lastLine exps := by
  by_cases h1 : (exps.length : Int) ≥ (N : Int)
  · rw [if_pos h1]
    have h1n : N ≤ exps.length := by exact_mod_cast h1
    obtain ⟨nV, h2, h3, _⟩ := cgAssignExps_acts E hReg N exps.length h1n exps s1 0 (by simp)
    refine ⟨nV, h2, ?_⟩
    have : ¬ exps.length < N := by omega
    simp [valueActs, h3, this]
  · rw [if_neg h1]
    have h1n : exps.length < N := by
      by_contra hc
      exact h1 (by exact_mod_cast (Nat.le_of_not_lt hc))
    exact cgExpsFill_acts E hReg N exps h1n s1 lastLine

/-- C13, the claim as stated, fails: in `a, b = f(), nil` (two targets, two
value expressions) the second value, the literal `nil`, is never produced.
The trailing `nil` is removed before the expressions are counted, the call
is then the last of one expression for two targets and is lowered for two
results from register 0 on, and the store to `b` takes register 1, which
the call has written. -/
theorem assign_targets_values_stores_counterexample :
    [Expression.FunctionCallExpression 2, Expression.NilExpression 1].length
      = [Expression.NameExpression 1 "a", Expression.NameExpression 1 "b"].length ∧
    (cgStat sampleEmitter initialState (.AssignStatement 1
        [.NameExpression 1 "a", .NameExpression 1 "b"]
        [.FunctionCallExpression 2, .NilExpression 1])).state.trace.map (fun ev => ev.act)
      = [.cgExp (.FunctionCallExpression 2) 0 2, .emit (.setTabUp 1 0 257 0),
         .emit (.setTabUp 1 0 257 1)] ∧
    ¬ ∃ a ∈ (cgStat sampleEmitter initialState (.AssignStatement 1
        [.NameExpression 1 "a", .NameExpression 1 "b"]
        [.FunctionCallExpression 2, .NilExpression 1])).state.trace.map (fun ev => ev.act),
      (a.lowering?).map Prod.fst = some (Expression.NilExpression 1) := by
  decide

/-- Claim C13, amended: on an assignment whose `N` targets are names or
table accesses, `cgAssignStat` returns, and what it logged is, in this
order: the events of the loop over the targets, which are calls of `cgExp`
(the table and key of each table-access target); the events of the value
part, which are the calls and the load-nil of `valueActs b N` for `b` the
value of `usedRegs` after the loop over the targets and for the value
expressions that `removeTailNils` leaves (line 261: the `nil` literals at
the end of the list are not lowered), and among which every register
`b + i`, `i < N`, has one that writes it (the call for expression `i`, the
call for a last expression that is expanded, or the load-nil); and `N`
emissions of store instructions, the `i`-th of which takes its value from
register `b + i`.  Every event of the first two groups starts within the
buffer `fiV` reached after the value part, and the stores are exactly the
instructions after it, the `j`-th at PC `|fiV| + j`. -/
theorem assign_targets_values_stores (E : Collaborators) (hE : E.Lawful) (st : CgState)
    (lastLine : Int) (variableList expressionList : List Expression)
    (htg : ∀ e ∈ variableList, e.isTarget = true) :
    ∃ (st' s1 : CgState) (fiV : FuncInfo) (nT nV nS : List Event) (stores : List Instruction),
      cgAssignStat E st lastLine variableList expressionList = .done st' ∧
      (cgAssignTargets E st [] [] variableList).1 = .done s1 ∧
      s1.trace = st.trace ++ nT ∧ (∀ ev ∈ nT, ev.act.isCgExp = true) ∧
      st'.trace = st.trace ++ (nT ++ (nV ++ nS)) ∧
      nV.map (fun ev => ev.act) = valueActs s1.fi.usedRegs variableList.length lastLine
        (removeTailNils expressionList) ∧
      (∀ i : Nat, i < variableList.length →
        ∃ a ∈ nV.map (fun ev => ev.act), a.produces (s1.fi.usedRegs + i) = true) ∧
      nS.map (fun ev => ev.act) = stores.map Action.emit ∧
      stores.length = variableList.length ∧
      (∀ i : Nat, i < variableList.length →
        ∃ ins, stores[i]? = some ins ∧ ins.storeSrc? = some (s1.fi.usedRegs + i)) ∧
      (∀ ev ∈ nT ++ nV, ev.pre.insts.length ≤ fiV.insts.length) ∧
      (∀ (j : Nat) (ev : Event), nS[j]? = some ev → ev.pre.insts.length = fiV.insts.length + j) ∧
      st'.fi.insts = fiV.insts ++ stores := by
  obtain ⟨s1, nT, ht, htr, hcg⟩ := cgAssignTargets_acts E variableList st [] [] htg
  obtain ⟨nV, hv1, hv2⟩ := assign_value_acts E (fun fi e a n => (hE.cgExp fi e a n).2) s1
    lastLine variableList.length (removeTailNils expressionList)
  have q1 := quiet_cgAssignTargets hE variableList st [] [] s1 (Nat.zero_le _) ht
  have q2 : Quiet 0 s1
      (if ((removeTailNils expressionList).length : Int) ≥ (variableList.length : Int) then
        cgAssignExps E variableList.length (removeTailNils expressionList).length s1 0
          (removeTailNils expressionList)
      else cgExpsFill E s1 lastLine variableList.length (removeTailNils expressionList).length
        (removeTailNils expressionList)) := by
    split
    · exact quiet_cgAssignExps hE _ _ _ _ _ (Nat.zero_le _)
    · exact quiet_cgExpsFill hE _ _ _ _ _ (Nat.zero_le _)
  have hst : cgAssignStat E st lastLine variableList expressionList
      = .done ((cgAssignStores E lastLine (cgAssignTargets E st [] [] variableList).2.1
          (cgAssignTargets E st [] [] variableList).2.2
          ((List.range variableList.length).map fun (i : Nat) => s1.fi.usedRegs + (i : Int))
          (if ((removeTailNils expressionList).length : Int) ≥ (variableList.length : Int) then
            cgAssignExps E variableList.length (removeTailNils expressionList).length s1 0
              (removeTailNils expressionList)
          else cgExpsFill E s1 lastLine variableList.length
            (removeTailNils expressionList).length (removeTailNils expressionList))
          0 variableList).setUsedRegs st.fi.usedRegs) := by
    unfold cgAssignStat
    simp only [ht, Outcome.andThen]
  revert hv1 q2 hst
  generalize (if ((removeTailNils expressionList).length : Int) ≥ (variableList.length : Int) then
        cgAssignExps E variableList.length (removeTailNils expressionList).length s1 0
          (removeTailNils expressionList)
      else cgExpsFill E s1 lastLine variableList.length (removeTailNils expressionList).length
        (removeTailNils expressionList)) = s2
  intro hv1 q2 hst
  obtain ⟨stores, nS, hs1, hs2, hs3, hs4, hs5, hs6⟩ := cgAssignStores_acts E lastLine
    (cgAssignTargets E st [] [] variableList).2.1 (cgAssignTargets E st [] [] variableList).2.2
    ((List.range variableList.length).map fun (i : Nat) => s1.fi.usedRegs + (i : Int)) variableList
    s2 0
  refine ⟨_, s1, s2.fi, nT, nV, nS, stores, hst, ht, htr, hcg, ?_, hv2, ?_, hs2, hs4, ?_, ?_,
    hs5, ?_⟩
  · simp only [CgState.setUsedRegs_trace, hs1, hv1, htr, List.append_assoc]
  · intro i hi
    rw [hv2]
    exact valueActs_covers _ _ _ _ i hi
  · intro i hi
    obtain ⟨ins, h1, h2⟩ := hs6 i hi
    refine ⟨ins, h1, ?_⟩
    rw [h2]
    simp [List.getD, hi]
  · obtain ⟨new, hstep, _, _⟩ := q1.qtrans q2
    have hnew : new = nT ++ nV := by
      have := hstep.trace
      rw [hv1, htr, List.append_assoc] at this
      exact (List.append_cancel_left this).symm
    subst hnew
    intro ev hev
    exact (hstep.events ev hev).2.2.1
  · simp only [CgState.setUsedRegs_insts, hs3]

/-- C13 at `t[e1], g = f()` from the initial state: table and key go to
registers 0 and 1, the call is asked for two values from register 2 on, and
the two stores take their values from registers 2 and 3. -/
theorem assign_targets_values_stores_witness :
    (cgStat sampleEmitter initialState sampleAssign).state.fi.insts
      = [.other 0 0 1 0, .other 1 1 1 0, .other 1 2 2 0, .setTable 1 0 1 2,
         .setTabUp 1 0 257 3] ∧
    (∀ e ∈ [Expression.TableAccessExpression 1 (.NameExpression 1 "t") (.OtherExpression 1),
        .NameExpression 1 "g"], e.isTarget = true) ∧
    ∃ (st' s1 : CgState) (fiV : FuncInfo) (nT nV nS : List Event) (stores : List Instruction),
      cgAssignStat sampleEmitter initialState 1
        [.TableAccessExpression 1 (.NameExpression 1 "t") (.OtherExpression 1),
          .NameExpression 1 "g"] [.FunctionCallExpression 0] = .done st' ∧
      (cgAssignTargets sampleEmitter initialState [] []
        [.TableAccessExpression 1 (.NameExpression 1 "t") (.OtherExpression 1),
          .NameExpression 1 "g"]).1 = .done s1 ∧
      s1.trace = initialState.trace ++ nT ∧ (∀ ev ∈ nT, ev.act.isCgExp = true) ∧
      st'.trace = initialState.trace ++ (nT ++ (nV ++ nS)) ∧
      nV.map (fun ev => ev.act) = valueActs s1.fi.usedRegs
        [Expression.TableAccessExpression 1 (.NameExpression 1 "t") (.OtherExpression 1),
          .NameExpression 1 "g"].length 1 (removeTailNils [.FunctionCallExpression 0]) ∧
      (∀ i : Nat, i < [Expression.TableAccessExpression 1 (.NameExpression 1 "t")
          (.OtherExpression 1), .NameExpression 1 "g"].length →
        ∃ a ∈ nV.map (fun ev => ev.act), a.produces (s1.fi.usedRegs + i) = true) ∧
      nS.map (fun ev => ev.act) = stores.map Action.emit ∧
      stores.length = [Expression.TableAccessExpression 1 (.NameExpression 1 "t")
          (.OtherExpression 1), .NameExpression 1 "g"].length ∧
      (∀ i : Nat, i < [Expression.TableAccessExpression 1 (.NameExpression 1 "t")
          (.OtherExpression 1), .NameExpression 1 "g"].length →
        ∃ ins, stores[i]? = some ins ∧ ins.storeSrc? = some (s1.fi.usedRegs + i)) ∧
      (∀ ev ∈ nT ++ nV, ev.pre.insts.length ≤ fiV.insts.length) ∧
      (∀ (j : Nat) (ev : Event), nS[j]? = some ev → ev.pre.insts.length = fiV.insts.length + j) ∧
      st'.fi.insts = fiV.insts ++ stores :=
  ⟨by decide, by decide,
   assign_targets_values_stores sampleEmitter sampleEmitter_lawful initialState 1
    [.TableAccessExpression 1 (.NameExpression 1 "t") (.OtherExpression 1),
      .NameExpression 1 "g"] [.FunctionCallExpression 0] (by decide)⟩

/-! ### Assignment to a global whose constant index does not fit -/

/-- Claim C15, at `g = e1` from the initial state when the constant `"g"` has
the index 300: `g` is neither a local nor an upvalue and the index exceeds
`0xFF`, so the loop over the targets takes register 0 for the key.  The
statement then logs one call of the expression emitter, which lowers `e1`
into register 1, and emits one instruction, the store `SETTABUP` whose key
operand is register 0.  Nothing else is logged or emitted: no instruction of
the statement writes register 0, and the name constant is never loaded. -/
theorem assign_global_key_never_loaded :
    initialState.fi.slotOfLocalVariable "g" < 0 ∧
    bigPoolEmitter.indexOfUpValue initialState.fi "g" < 0 ∧
    bigPoolEmitter.indexOfConstant initialState.fi "g" > 0xFF ∧
    (cgAssignTargets bigPoolEmitter initialState [] [] [.NameExpression 1 "g"]).2.2 = [0] ∧
    (cgStat bigPoolEmitter initialState sampleGlobalAssign).state.trace.map (fun ev => ev.act)
      = [.cgExp (.OtherExpression 1) 1 1, .emit (.setTabUp 1 0 0 1)] ∧
    (cgStat bigPoolEmitter initialState sampleGlobalAssign).state.fi.insts
      = [.other 1 1 1 0, .setTabUp 1 0 0 1] := by
  decide

/-! ### Totality on well-formed statements -/

theorem Outcome.andThen_total {o : Outcome} {k : CgState → Outcome}
    (h : ∃ s, o = .done s) (hk : ∀ s, ∃ s', k s = .done s') : ∃ s', o.andThen k = .done s' := by
  obtain ⟨s, rfl⟩ := h
  exact hk s

theorem cgDoStat_total (E : Collaborators) (st : CgState) (block : LoweredBlock)
    (hb : ∀ s, ∃ s', block.run s = .done s') : ∃ st', cgDoStat E st block = .done st' :=
  Outcome.andThen_total (hb _) fun _ => ⟨_, rfl⟩

theorem cgWhileStat_total (E : Collaborators) (st : CgState) (e : Expression)
    (block : LoweredBlock) (hb : ∀ s, ∃ s', block.run s = .done s') :
    ∃ st', cgWhileStat E st e block = .done st' :=
  Outcome.andThen_total (hb _) fun _ => ⟨_, rfl⟩

theorem cgRepeatStat_total (E : Collaborators) (st : CgState) (block : LoweredBlock)
    (e : Expression) (hb : ∀ s, ∃ s', block.run s = .done s') :
    ∃ st', cgRepeatStat E st block e = .done st' :=
  Outcome.andThen_total (hb _) fun _ => ⟨_, rfl⟩

theorem cgForNumStat_total (E : Collaborators) (st : CgState) (lineOfFor lineOfDo : Int)
    (varName : String) (e1 e2 e3 : Expression) (block : LoweredBlock)
    (hb : ∀ s, ∃ s', block.run s = .done s') :
    ∃ st', cgForNumStat E st lineOfFor lineOfDo varName e1 e2 e3 block = .done st' :=
  Outcome.andThen_total (hb _) fun _ => ⟨_, rfl⟩

theorem cgForInStat_total (E : Collaborators) (st : CgState) (lineOfDo : Int)
    (nameList : List String) (exp0 : Expression) (exps : List Expression) (block : LoweredBlock)
    (hb : ∀ s, ∃ s', block.run s = .done s') :
    ∃ st', cgForInStat E st lineOfDo nameList (exp0 :: exps) block = .done st' :=
  Outcome.andThen_total (hb _) fun _ => ⟨_, rfl⟩

theorem cgIfLoop_total (E : Collaborators) (n : Int) (blocks : List LoweredBlock)
    (hb : ∀ b ∈ blocks, ∀ s, ∃ s', b.run s = .done s') :
    ∀ (exps : List Expression) (st : CgState) (pj : Int) (ends : List Int) (i : Nat),
      i + exps.length ≤ blocks.length →
      ∃ st', (cgIfLoop E n blocks st pj ends i exps).1 = .done st'
  | [], st, _, _, _, _ => ⟨st, rfl⟩
  | e :: rest, st, pj, ends, i, hi => by
    simp only [List.length_cons] at hi
    rw [cgIfLoop]
    simp only []
    have hlt : i < blocks.length := by omega
    rw [List.getElem?_eq_getElem hlt]
    simp only []
    generalize (((if pj ≥ 0 then st.fixSbx pj (st.fi.pc - pj) else st).expToOpArg E e
      E.ARG_REG).1.setUsedRegs _) = sT
    generalize ((if pj ≥ 0 then st.fixSbx pj (st.fi.pc - pj) else st).expToOpArg E e
      E.ARG_REG).2 = a
    obtain ⟨s3, h3⟩ := hb blocks[i] (List.getElem_mem hlt)
      (((sT.emitTest (E.lastLineOf e) a 0).1.emitJmp (E.lastLineOf e) 0 0).1.enterScope false)
    rw [h3]
    simp only []
    split
    · exact cgIfLoop_total E n blocks hb rest _ _ _ (i + 1) (by omega)
    · exact cgIfLoop_total E n blocks hb rest _ _ _ (i + 1) (by omega)

theorem cgIfStat_total (E : Collaborators) (st : CgState) (exps : List Expression)
    (blocks : List LoweredBlock) (hb : ∀ b ∈ blocks, ∀ s, ∃ s', b.run s = .done s')
    (hl : exps.length ≤ blocks.length) : ∃ st', cgIfStat E st exps blocks = .done st' :=
  Outcome.andThen_total (cgIfLoop_total E exps.length blocks hb exps st (-1) [] 0 (by omega))
    fun _ => ⟨_, rfl⟩

theorem lowerBlocks_length (E : Collaborators) :
    ∀ bs : List Block, (lowerBlocks E bs).length = bs.length
  | [] => by simp [lowerBlocks]
  | b :: rest => by simp [lowerBlocks, lowerBlocks_length E rest]

mutual
theorem cgStat_total (E : Collaborators) :
    ∀ (s : Statement) (st : CgState), s.wellFormed = true → ∃ st', cgStat E st s = .done st'
  | .FunctionCallStatement _, st, _ => ⟨_, by simp only [cgStat]; rfl⟩
  | .BreakStatement _, st, _ => ⟨_, by simp only [cgStat]; rfl⟩
  | .DoStatement block, st, h => by
    simp only [Statement.wellFormed] at h
    simp only [cgStat]
    exact cgDoStat_total E st _ fun s => cgBlock_total E block s h
  | .WhileStatement e block, st, h => by
    simp only [Statement.wellFormed] at h
    simp only [cgStat]
    exact cgWhileStat_total E st e _ fun s => cgBlock_total E block s h
  | .RepeatStatement block e, st, h => by
    simp only [Statement.wellFormed] at h
    simp only [cgStat]
    exact cgRepeatStat_total E st _ e fun s => cgBlock_total E block s h
  | .IfStatement exps blocks, st, h => by
    simp only [Statement.wellFormed, Bool.and_eq_true, decide_eq_true_eq] at h
    simp only [cgStat]
    exact cgIfStat_total E st exps _ (lowerBlocks_total E blocks h.2)
      (by rw [lowerBlocks_length]; exact h.1)
  | .ForNumStatement lineOfFor lineOfDo varName e1 e2 e3 block, st, h => by
    simp only [Statement.wellFormed] at h
    simp only [cgStat]
    exact cgForNumStat_total E st lineOfFor lineOfDo varName e1 e2 e3 _ fun s =>
      cgBlock_total E block s h
  | .ForInStatement lineOfDo nameList exps block, st, h => by
    simp only [Statement.wellFormed, Bool.and_eq_true, Bool.not_eq_true'] at h
    simp only [cgStat]
    cases exps with
    | nil => simp at h
    | cons exp0 rest =>
      exact cgForInStat_total E st lineOfDo nameList exp0 rest _ fun s =>
        cgBlock_total E block s h.2
  | .AssignStatement lastLine vars exps, st, h => by
    simp only [Statement.wellFormed, List.all_eq_true] at h
    simp only [cgStat]
    obtain ⟨s1, _, h1, _⟩ := cgAssignTargets_acts E vars st [] [] h
    exact Outcome.andThen_total ⟨s1, h1⟩ fun _ => ⟨_, rfl⟩
  | .LocalVariableDeclareStatement _ _ _, st, _ => ⟨_, by simp only [cgStat]; rfl⟩
  | .LocalFunctionDefineStatement _ _, st, _ => ⟨_, by simp only [cgStat]; rfl⟩
  | .LabelStatement _, _, h => by simp [Statement.wellFormed] at h
  | .GotoStatement _, _, h => by simp [Statement.wellFormed] at h
theorem cgBlock_total (E : Collaborators) :
    ∀ (b : Block) (st : CgState), b.wellFormed = true → ∃ st', cgBlock E st b = .done st'
  | .mk stats _, st, h => by
    simp only [Block.wellFormed] at h
    simp only [cgBlock]
    exact cgStats_total E stats st h
theorem cgStats_total (E : Collaborators) :
    ∀ (ss : List Statement) (st : CgState), Statement.allWellFormed ss = true →
      ∃ st', cgStats E st ss = .done st'
  | [], st, _ => ⟨st, by simp only [cgStats]⟩
  | s :: rest, st, h => by
    simp only [Statement.allWellFormed, Bool.and_eq_true] at h
    obtain ⟨s1, h1⟩ := cgStat_total E s st h.1
    obtain ⟨s2, h2⟩ := cgStats_total E rest s1 h.2
    exact ⟨s2, by simp only [cgStats, h1, h2]⟩
theorem lowerBlocks_total (E : Collaborators) :
    ∀ (bs : List Block), Block.allWellFormed bs = true →
      ∀ b ∈ lowerBlocks E bs, ∀ s, ∃ s', b.run s = .done s'
  | [], _, b, hb => by simp [lowerBlocks] at hb
  | blk :: rest, h, b, hb => by
    simp only [Block.allWellFormed, Bool.and_eq_true] at h
    simp only [lowerBlocks, List.mem_cons] at hb
    rcases hb with hb | hb
    · subst hb
      exact fun s => cgBlock_total E blk s h.1
    · exact lowerBlocks_total E rest h.2 b hb
end

/-- Claim C14: on a well-formed statement (no label and no goto in any
nested block; as many blocks as conditions in an if statement; a non-empty
iterator list in a generic for; names or table accesses as targets of an
assignment) `cgStat` returns from every compile state, and the scope stack
then has the depth it had on entry. -/
theorem wellformed_lowering_returns (E : Collaborators) (hE : E.Lawful) (s : Statement)
    (st : CgState) (hwf : s.wellFormed = true) :
    ∃ st', cgStat E st s = .done st' ∧ st'.fi.scopes.length = st.fi.scopes.length := by
  obtain ⟨st', h⟩ := cgStat_total E s st hwf
  exact ⟨st', h, LoweredAt.depth (cgStat_lowered hE s st st' h).1⟩

/-- C14 at a while loop that holds an if with a break and a generic for
with an assignment, from the initial state. -/
theorem wellformed_lowering_returns_witness :
    sampleNested.wellFormed = true ∧
    ∃ st', cgStat sampleEmitter initialState sampleNested = .done st' ∧
      st'.fi.scopes.length = initialState.fi.scopes.length :=
  ⟨by decide, wellformed_lowering_returns sampleEmitter sampleEmitter_lawful sampleNested
    initialState (by decide)⟩

/-! ### Induction over statements for a relation closed under the routines -/

mutual
theorem cgStat_closed {E : Collaborators} (hE : E.Lawful) {R : CgState → CgState → Prop}
    (hR : E.Closed R) :
    ∀ (s : Statement) (st st' : CgState), cgStat E st s = .done st' → R st st'
  | .FunctionCallStatement call, st, st', h => by
    simp only [cgStat, Outcome.done.injEq] at h
    subst h
    exact hR.callStat st call
  | .BreakStatement line, st, st', h => by
    simp only [cgStat, Outcome.done.injEq] at h
    subst h
    exact hR.breakStat st line
  | .DoStatement block, st, st', h => by
    simp only [cgStat] at h
    exact hR.doStat st st' _
      (fun s s' hs => ⟨cgBlock_lowered hE block s s' hs, cgBlock_closed hE hR block s s' hs⟩) h
  | .WhileStatement expression block, st, st', h => by
    simp only [cgStat] at h
    exact hR.whileStat st st' expression _
      (fun s s' hs => ⟨cgBlock_lowered hE block s s' hs, cgBlock_closed hE hR block s s' hs⟩) h
  | .RepeatStatement block expression, st, st', h => by
    simp only [cgStat] at h
    exact hR.repeatStat st st' _ expression
      (fun s s' hs => ⟨cgBlock_lowered hE block s s' hs, cgBlock_closed hE hR block s s' hs⟩) h
  | .IfStatement expressions blocks, st, st', h => by
    simp only [cgStat] at h
    exact hR.ifStat st st' expressions _ (lowerBlocks_closed hE hR blocks) h
  | .ForNumStatement lineOfFor lineOfDo varName e1 e2 e3 block, st, st', h => by
    simp only [cgStat] at h
    exact hR.forNumStat st st' lineOfFor lineOfDo varName e1 e2 e3 _
      (fun s s' hs => ⟨cgBlock_lowered hE block s s' hs, cgBlock_closed hE hR block s s' hs⟩) h
  | .ForInStatement lineOfDo nameList expressionList block, st, st', h => by
    simp only [cgStat] at h
    exact hR.forInStat st st' lineOfDo nameList expressionList _
      (fun s s' hs => ⟨cgBlock_lowered hE block s s' hs, cgBlock_closed hE hR block s s' hs⟩) h
  | .AssignStatement lastLine variableList expressionList, st, st', h => by
    simp only [cgStat] at h
    exact hR.assignStat st st' lastLine variableList expressionList h
  | .LocalVariableDeclareStatement lastLine nameList expressionList, st, st', h => by
    simp only [cgStat, Outcome.done.injEq] at h
    subst h
    exact hR.localVarDecl st lastLine nameList expressionList
  | .LocalFunctionDefineStatement name expression, st, st', h => by
    simp only [cgStat, Outcome.done.injEq] at h
    subst h
    exact hR.localFuncDef st name expression
  | .LabelStatement _, st, st', h => by simp [cgStat] at h
  | .GotoStatement _, st, st', h => by simp [cgStat] at h
theorem cgBlock_closed {E : Collaborators} (hE : E.Lawful) {R : CgState → CgState → Prop}
    (hR : E.Closed R) :
    ∀ (b : Block) (st st' : CgState), cgBlock E st b = .done st' → R st st'
  | .mk stats _, st, st', h => by
    simp only [cgBlock] at h
    exact cgStats_closed hE hR stats st st' h
theorem cgStats_closed {E : Collaborators} (hE : E.Lawful) {R : CgState → CgState → Prop}
    (hR : E.Closed R) :
    ∀ (ss : List Statement) (st st' : CgState), cgStats E st ss = .done st' → R st st'
  | [], st, st', h => by
    simp only [cgStats, Outcome.done.injEq] at h
    subst h
    exact hR.rrefl st
  | s :: rest, st, st', h => by
    simp only [cgStats] at h
    cases h1 : cgStat E st s with
    | panicked e s1 => simp [h1] at h
    | done s1 =>
      simp only [h1] at h
      exact hR.rtrans st s1 st' (cgStat_lowered hE s st s1 h1).1
        (cgStats_lowered hE rest s1 st' h) (cgStat_closed hE hR s st s1 h1)
        (cgStats_closed hE hR rest s1 st' h)
theorem lowerBlocks_closed {E : Collaborators} (hE : E.Lawful) {R : CgState → CgState → Prop}
    (hR : E.Closed R) :
    ∀ (bs : List Block), ∀ b ∈ lowerBlocks E bs, ∀ s s', b.run s = .done s' →
      Lowered s s' ∧ R s s'
  | [], b, hb => by simp [lowerBlocks] at hb
  | blk :: rest, b, hb => by
    simp only [lowerBlocks, List.mem_cons] at hb
    rcases hb with hb | hb
    · subst hb
      exact fun s s' hs => ⟨cgBlock_lowered hE blk s s' hs, cgBlock_closed hE hR blk s s' hs⟩
    · exact lowerBlocks_closed hE hR rest b hb
end

/-! ### The register counts -/

namespace CgState

@[simp] theorem allocReg_maxRegs (st : CgState) :
    st.allocReg.1.fi.maxRegs = max st.fi.maxRegs (st.fi.usedRegs + 1) := rfl
@[simp] theorem allocRegs_maxRegs (st : CgState) (n : Int) :
    (st.allocRegs n).1.fi.maxRegs = max st.fi.maxRegs (st.fi.usedRegs + n) := rfl
@[simp] theorem freeReg_maxRegs (st : CgState) : st.freeReg.fi.maxRegs = st.fi.maxRegs := rfl
@[simp] theorem addLocalVariable_maxRegs (st : CgState) (name : String) (p : Int) :
    (st.addLocalVariable name p).1.fi.maxRegs = max st.fi.maxRegs (st.fi.usedRegs + 1) := rfl
@[simp] theorem addBreakJmp_maxRegs (st : CgState) (pc : Int) :
    (st.addBreakJmp pc).fi.maxRegs = st.fi.maxRegs := rfl
@[simp] theorem closeOpenUpvals_maxRegs (E : Collaborators) (st : CgState) (line : Int) :
    (st.closeOpenUpvals E line).fi.maxRegs = st.fi.maxRegs := by
  unfold closeOpenUpvals
  split <;> rfl

end CgState

theorem MaxKept.mtrans {a b c : CgState} (h1 : MaxKept a b) (h2 : MaxKept b c) : MaxKept a c :=
  le_trans h1 h2

theorem maxKept_cgExpsEqual {E : Collaborators} (hM : E.RegsOk) :
    ∀ (exps : List Expression) (st : CgState), MaxKept st (cgExpsEqual E st exps)
  | [], st => le_refl _
  | e :: rest, st => by
    rw [cgExpsEqual]
    refine MaxKept.mtrans ?_ (maxKept_cgExpsEqual hM rest _)
    have := hM.cgExp st.allocReg.1.fi e st.allocReg.2 1
    simp only [MaxKept, CgState.cgExp_fi, CgState.allocReg_maxRegs] at this ⊢
    omega

theorem maxKept_cgExpsMore {E : Collaborators} (hM : E.RegsOk) (nExps : Int) :
    ∀ (exps : List Expression) (st : CgState) (i : Nat), MaxKept st (cgExpsMore E nExps st i exps)
  | [], st, _ => le_refl _
  | e :: rest, st, i => by
    rw [cgExpsMore]
    refine MaxKept.mtrans ?_ (maxKept_cgExpsMore hM nExps rest _ _)
    have h0 := hM.cgExp st.allocReg.1.fi e st.allocReg.2 0
    have h1 := hM.cgExp st.allocReg.1.fi e st.allocReg.2 1
    simp only [CgState.allocReg_maxRegs] at h0 h1
    split <;> simp only [MaxKept, CgState.cgExp_fi] <;> omega

theorem maxKept_cgExpsFewer {E : Collaborators} (hM : E.RegsOk) (nNames nExps : Int) :
    ∀ (exps : List Expression) (st : CgState) (m : Bool) (i : Nat),
      MaxKept st (cgExpsFewer E nNames nExps st m i exps).1
  | [], st, _, _ => le_refl _
  | e :: rest, st, m, i => by
    rw [cgExpsFewer]
    have h0 := hM.cgExp st.allocReg.1.fi e st.allocReg.2 (nNames - nExps + 1)
    have h1 := hM.cgExp st.allocReg.1.fi e st.allocReg.2 1
    simp only [CgState.allocReg_maxRegs] at h0 h1
    split
    · refine MaxKept.mtrans ?_ (maxKept_cgExpsFewer hM nNames nExps rest _ _ _)
      simp only [MaxKept, CgState.allocRegs_maxRegs, CgState.cgExp_fi]
      omega
    · refine MaxKept.mtrans ?_ (maxKept_cgExpsFewer hM nNames nExps rest _ _ _)
      simp only [MaxKept, CgState.cgExp_fi]
      omega

theorem maxKept_cgExpsFill {E : Collaborators} (hM : E.RegsOk) (st : CgState)
    (lastLine nNames nExps : Int) (exps : List Expression) :
    MaxKept st (cgExpsFill E st lastLine nNames nExps exps) := by
  have q1 := maxKept_cgExpsFewer hM nNames nExps exps st false 0
  simp only [cgExpsFill]
  split
  · refine MaxKept.mtrans q1 ?_
    simp only [MaxKept, CgState.emitLoadNil, CgState.emit_maxRegs, CgState.allocRegs_maxRegs]
    omega
  · exact q1

theorem maxKept_declValues {E : Collaborators} (hM : E.RegsOk) (st : CgState) (lastLine : Int)
    (nameList : List String) (expressionList : List Expression) :
    MaxKept st (declValues E st lastLine nameList expressionList) := by
  unfold declValues
  simp only []
  split
  · exact maxKept_cgExpsEqual hM _ _
  · split
    · exact maxKept_cgExpsMore hM _ _ _ _
    · exact maxKept_cgExpsFill hM _ _ _ _ _

theorem cgLocalVarDeclStat_values (E : Collaborators) (st : CgState) (lastLine : Int)
    (nameList : List String) (expressionList : List Expression) :
    cgLocalVarDeclStat E st lastLine nameList expressionList
      = addLocalVariables ((declValues E st lastLine nameList expressionList).setUsedRegs
          st.fi.usedRegs) ((declValues E st lastLine nameList expressionList).fi.pc + 1)
          nameList := rfl

/-- The loop that declares names keeps `usedRegs ≤ maxRegs` and does not
lower `maxRegs`. -/
theorem addLocalVariables_regs : ∀ (names : List String) (st : CgState) (p : Int),
    MaxKept st (addLocalVariables st p names) ∧
    (st.fi.usedRegs ≤ st.fi.maxRegs →
      (addLocalVariables st p names).fi.usedRegs ≤ (addLocalVariables st p names).fi.maxRegs)
  | [], st, _ => ⟨le_refl _, fun h => h⟩
  | n :: rest, st, p => by
    obtain ⟨h1, h2⟩ := addLocalVariables_regs rest (st.addLocalVariable n p).1 p
    simp only [addLocalVariables]
    simp only [MaxKept, CgState.addLocalVariable_maxRegs, CgState.addLocalVariable_usedRegs]
      at h1 h2 ⊢
    exact ⟨by omega, fun _ => h2 (by omega)⟩

theorem addLoopVariables_regs : ∀ (names : List String) (st : CgState),
    MaxKept st (addLoopVariables st names) ∧
    (st.fi.usedRegs ≤ st.fi.maxRegs →
      (addLoopVariables st names).fi.usedRegs ≤ (addLoopVariables st names).fi.maxRegs)
  | [], st => ⟨le_refl _, fun h => h⟩
  | n :: rest, st => by
    obtain ⟨h1, h2⟩ := addLoopVariables_regs rest (st.addLocalVariable n (st.fi.pc + 2)).1
    simp only [addLoopVariables]
    simp only [MaxKept, CgState.addLocalVariable_maxRegs, CgState.addLocalVariable_usedRegs]
      at h1 h2 ⊢
    exact ⟨by omega, fun _ => h2 (by omega)⟩

theorem maxKept_cgLocalVarDeclStat {E : Collaborators} (hM : E.RegsOk) (st : CgState)
    (lastLine : Int) (nameList : List String) (expressionList : List Expression) :
    MaxKept st (cgLocalVarDeclStat E st lastLine nameList expressionList) := by
  rw [cgLocalVarDeclStat_values]
  exact (maxKept_declValues hM st lastLine nameList expressionList).mtrans
    (MaxKept.mtrans (le_refl _) (addLocalVariables_regs _ _ _).1)

theorem maxKept_cgAssignTargets {E : Collaborators} (hM : E.RegsOk) :
    ∀ (vars : List Expression) (st : CgState) (t k : List Int) (st' : CgState),
      (cgAssignTargets E st t k vars).1 = .done st' → MaxKept st st'
  | [], st, t, k, st', h => by
    simp only [cgAssignTargets, Outcome.done.injEq] at h
    subst h
    exact le_refl _
  | .TableAccessExpression l pe ke :: rest, st, t, k, st', h => by
    rw [cgAssignTargets] at h
    refine MaxKept.mtrans ?_ (maxKept_cgAssignTargets hM rest _ _ _ st' h)
    have h1 := hM.cgExp st.allocReg.1.fi pe st.allocReg.2 1
    have h2 := hM.cgExp (st.allocReg.1.cgExp E pe st.allocReg.2 1).allocReg.1.fi ke
      (st.allocReg.1.cgExp E pe st.allocReg.2 1).allocReg.2 1
    simp only [MaxKept, CgState.cgExp_fi, CgState.allocReg_maxRegs] at h1 h2 ⊢
    omega
  | .NameExpression l name :: rest, st, t, k, st', h => by
    rw [cgAssignTargets] at h
    split at h
    · split at h
      · refine MaxKept.mtrans ?_ (maxKept_cgAssignTargets hM rest _ _ _ st' h)
        simp only [MaxKept, CgState.allocReg_maxRegs]
        omega
      · exact maxKept_cgAssignTargets hM rest _ _ _ st' h
    · exact maxKept_cgAssignTargets hM rest _ _ _ st' h
  | .NilExpression _ :: rest, st, t, k, st', h => by simp [cgAssignTargets] at h
  | .VarargExpression _ :: rest, st, t, k, st', h => by simp [cgAssignTargets] at h
  | .FunctionCallExpression _ :: rest, st, t, k, st', h => by simp [cgAssignTargets] at h
  | .OtherExpression _ :: rest, st, t, k, st', h => by simp [cgAssignTargets] at h

theorem maxKept_cgAssignExps {E : Collaborators} (hM : E.RegsOk) (nVars nExps : Int) :
    ∀ (exps : List Expression) (st : CgState) (i : Nat),
      MaxKept st (cgAssignExps E nVars nExps st i exps)
  | [], st, _ => le_refl _
  | e :: rest, st, i => by
    rw [cgAssignExps]
    refine MaxKept.mtrans ?_ (maxKept_cgAssignExps hM nVars nExps rest _ _)
    have h0 := hM.cgExp st.allocReg.1.fi e st.allocReg.2 0
    have h1 := hM.cgExp st.allocReg.1.fi e st.allocReg.2 1
    simp only [CgState.allocReg_maxRegs] at h0 h1
    split <;> simp only [MaxKept, CgState.cgExp_fi] <;> omega

theorem maxKept_cgAssignStores (E : Collaborators) (lastLine : Int)
    (tRegs kRegs vRegs : List Int) :
    ∀ (vars : List Expression) (st : CgState) (i : Nat),
      (cgAssignStores E lastLine tRegs kRegs vRegs st i vars).fi.maxRegs = st.fi.maxRegs ∧
      (cgAssignStores E lastLine tRegs kRegs vRegs st i vars).fi.usedRegs = st.fi.usedRegs
  | [], st, _ => ⟨rfl, rfl⟩
  | exp :: rest, st, i => by
    obtain ⟨ins, he, _⟩ := cgAssignStores_cons E lastLine tRegs kRegs vRegs exp rest st i
    rw [he]
    obtain ⟨h1, h2⟩ := maxKept_cgAssignStores E lastLine tRegs kRegs vRegs rest (st.emit ins).1
      (i + 1)
    exact ⟨by rw [h1]; rfl, by rw [h2]; rfl⟩

theorem cgAssignStat_body (E : Collaborators) (st : CgState) (lastLine : Int)
    (variableList expressionList : List Expression) :
    cgAssignStat E st lastLine variableList expressionList
      = (assignBody E st lastLine variableList expressionList).andThen
          fun s => .done (s.setUsedRegs st.fi.usedRegs) := by
  unfold cgAssignStat assignBody
  simp only []
  generalize cgAssignTargets E st [] [] variableList = t
  rcases t with ⟨o, tr, kr⟩
  cases o <;> rfl

theorem maxKept_assignBody {E : Collaborators} (hM : E.RegsOk) (st s3 : CgState)
    (lastLine : Int) (variableList expressionList : List Expression)
    (h : assignBody E st lastLine variableList expressionList = .done s3) : MaxKept st s3 := by
  unfold assignBody at h
  obtain ⟨s1, ht, h⟩ := Outcome.andThen_done h
  simp only [Outcome.done.injEq] at h
  subst h
  refine (maxKept_cgAssignTargets hM variableList st [] [] s1 ht).mtrans ?_
  simp only [MaxKept, (maxKept_cgAssignStores E _ _ _ _ _ _ _).1]
  split
  · exact maxKept_cgAssignExps hM _ _ _ _ _
  · exact maxKept_cgExpsFill hM _ _ _ _ _

theorem maxKept_cgDoStat (E : Collaborators) (st st' : CgState) (block : LoweredBlock)
    (hb : ∀ s s', block.run s = .done s' → Lowered s s' ∧ MaxKept s s')
    (h : cgDoStat E st block = .done st') : MaxKept st st' := by
  unfold cgDoStat at h
  obtain ⟨s1, hr, h⟩ := Outcome.andThen_done h
  simp only [Outcome.done.injEq] at h
  subst h
  have := (hb _ _ hr).2
  simp only [MaxKept, CgState.st_exitScope_maxRegs, CgState.closeOpenUpvals_maxRegs,
    CgState.enterScope_maxRegs] at this ⊢
  exact this

theorem maxKept_cgWhileStat {E : Collaborators} (hM : E.RegsOk) (st st' : CgState)
    (e : Expression) (block : LoweredBlock)
    (hb : ∀ s s', block.run s = .done s' → Lowered s s' ∧ MaxKept s s')
    (h : cgWhileStat E st e block = .done st') : MaxKept st st' := by
  unfold cgWhileStat at h
  obtain ⟨s1, hr, h⟩ := Outcome.andThen_done h
  simp only [Outcome.done.injEq] at h
  subst h
  have := (hb _ _ hr).2
  have h1 := (hM.expToOpArg st.fi e E.ARG_REG).1
  simp only [MaxKept, CgState.st_exitScope_maxRegs, CgState.closeOpenUpvals_maxRegs,
    CgState.enterScope_maxRegs, CgState.st_fixSbx_maxRegs, CgState.emitJmp, CgState.emitTest,
    CgState.emit_maxRegs, CgState.setUsedRegs_maxRegs, CgState.expToOpArg_fi] at this ⊢
  omega

theorem maxKept_cgRepeatStat {E : Collaborators} (hM : E.RegsOk) (st st' : CgState)
    (block : LoweredBlock) (e : Expression)
    (hb : ∀ s s', block.run s = .done s' → Lowered s s' ∧ MaxKept s s')
    (h : cgRepeatStat E st block e = .done st') : MaxKept st st' := by
  unfold cgRepeatStat at h
  obtain ⟨s1, hr, h⟩ := Outcome.andThen_done h
  simp only [Outcome.done.injEq] at h
  subst h
  have := (hb _ _ hr).2
  have h1 := (hM.expToOpArg s1.fi e E.ARG_REG).1
  simp only [MaxKept, CgState.st_exitScope_maxRegs, CgState.closeOpenUpvals_maxRegs,
    CgState.enterScope_maxRegs, CgState.emitJmp, CgState.emitTest,
    CgState.emit_maxRegs, CgState.setUsedRegs_maxRegs, CgState.expToOpArg_fi] at this ⊢
  omega

theorem fixJmpToEnds_regs : ∀ (ends : List Int) (st : CgState),
    (fixJmpToEnds st ends).fi.maxRegs = st.fi.maxRegs ∧
    (fixJmpToEnds st ends).fi.usedRegs = st.fi.usedRegs
  | [], _ => ⟨rfl, rfl⟩
  | pc :: rest, st => by
    simp only [fixJmpToEnds]
    obtain ⟨h1, h2⟩ := fixJmpToEnds_regs rest (st.fixSbx pc (st.fi.pc - pc))
    exact ⟨by rw [h1]; simp, by rw [h2]; simp⟩

theorem maxKept_cgIfLoop {E : Collaborators} (hM : E.RegsOk) (n : Int)
    (blocks : List LoweredBlock)
    (hb : ∀ b ∈ blocks, ∀ s s', b.run s = .done s' → Lowered s s' ∧ MaxKept s s') :
    ∀ (exps : List Expression) (st : CgState) (pj : Int) (ends : List Int) (i : Nat)
      (st' : CgState), (cgIfLoop E n blocks st pj ends i exps).1 = .done st' → MaxKept st st'
  | [], st, _, _, _, st', h => by
    simp only [cgIfLoop, Outcome.done.injEq] at h
    subst h
    exact le_refl _
  | e :: rest, st, pj, ends, i, st', h => by
    rw [cgIfLoop] at h
    dsimp only at h
    have m0 : (if pj ≥ 0 then st.fixSbx pj (st.fi.pc - pj) else st).fi.maxRegs = st.fi.maxRegs := by
      split <;> simp
    revert h m0
    generalize (if pj ≥ 0 then st.fixSbx pj (st.fi.pc - pj) else st) = st0
    intro h m0
    have h1 := (hM.expToOpArg st0.fi e E.ARG_REG).1
    split at h
    · simp at h
    · next block hblk =>
      split at h
      · simp at h
      · next s3 hr =>
        have hB := (hb block (List.getElem?_mem hblk) _ _ hr).2
        simp only [MaxKept, CgState.enterScope_maxRegs, CgState.emitJmp, CgState.emitTest,
          CgState.emit_maxRegs, CgState.setUsedRegs_maxRegs, CgState.expToOpArg_fi] at hB
        split at h
        · have := maxKept_cgIfLoop hM n blocks hb rest _ _ _ _ st' h
          simp only [MaxKept, CgState.st_exitScope_maxRegs, CgState.closeOpenUpvals_maxRegs,
            CgState.emitJmp, CgState.emit_maxRegs] at this ⊢
          omega
        · have := maxKept_cgIfLoop hM n blocks hb rest _ _ _ _ st' h
          simp only [MaxKept, CgState.st_exitScope_maxRegs, CgState.closeOpenUpvals_maxRegs]
            at this ⊢
          omega

theorem maxKept_cgIfStat {E : Collaborators} (hM : E.RegsOk) (st st' : CgState)
    (exps : List Expression) (blocks : List LoweredBlock)
    (hb : ∀ b ∈ blocks, ∀ s s', b.run s = .done s' → Lowered s s' ∧ MaxKept s s')
    (h : cgIfStat E st exps blocks = .done st') : MaxKept st st' := by
  unfold cgIfStat at h
  obtain ⟨s1, hr, h⟩ := Outcome.andThen_done h
  simp only [Outcome.done.injEq] at h
  subst h
  have := maxKept_cgIfLoop hM _ blocks hb exps st (-1) [] 0 s1 hr
  simp only [MaxKept, (fixJmpToEnds_regs _ _).1] at this ⊢
  exact this

theorem maxKept_cgForNumStat {E : Collaborators} (hM : E.RegsOk) (st st' : CgState)
    (lineOfFor lineOfDo : Int) (varName : String) (e1 e2 e3 : Expression) (block : LoweredBlock)
    (hb : ∀ s s', block.run s = .done s' → Lowered s s' ∧ MaxKept s s')
    (h : cgForNumStat E st lineOfFor lineOfDo varName e1 e2 e3 block = .done st') :
    MaxKept st st' := by
  unfold cgForNumStat at h
  obtain ⟨s1, hr, h⟩ := Outcome.andThen_done h
  simp only [Outcome.done.injEq] at h
  subst h
  have := (hb _ _ hr).2
  have hD := maxKept_cgLocalVarDeclStat hM (st.enterScope true) 0
    ["(for index)", "(for limit)", "(for step)"] [e1, e2, e3]
  simp only [MaxKept, CgState.st_exitScope_maxRegs, CgState.closeOpenUpvals_maxRegs,
    CgState.enterScope_maxRegs, CgState.st_fixSbx_maxRegs, CgState.emitForPrep,
    CgState.emitForLoop, CgState.emit_maxRegs, CgState.st_fixEndPC_maxRegs,
    CgState.addLocalVariable_maxRegs] at this hD ⊢
  omega

theorem maxKept_cgForInStat {E : Collaborators} (hM : E.RegsOk) (st st' : CgState)
    (lineOfDo : Int) (nameList : List String) (exps : List Expression) (block : LoweredBlock)
    (hb : ∀ s s', block.run s = .done s' → Lowered s s' ∧ MaxKept s s')
    (h : cgForInStat E st lineOfDo nameList exps block = .done st') : MaxKept st st' := by
  unfold cgForInStat at h
  obtain ⟨s1, hr, h⟩ := Outcome.andThen_done h
  have := (hb _ _ hr).2
  have hD := maxKept_cgLocalVarDeclStat hM (st.enterScope true) 0
    ["(for generator)", "(for state)", "(for control)"] exps
  have hL := (addLoopVariables_regs nameList (cgLocalVarDeclStat E (st.enterScope true) 0
    ["(for generator)", "(for state)", "(for control)"] exps)).1
  cases exps with
  | nil => simp at h
  | cons exp0 rest =>
    simp only [Outcome.done.injEq] at h
    subst h
    simp only [MaxKept, CgState.st_exitScope_maxRegs, CgState.closeOpenUpvals_maxRegs,
      CgState.enterScope_maxRegs, CgState.st_fixSbx_maxRegs, CgState.emitJmp,
      CgState.emitTForCall, CgState.emitTForLoop, CgState.emit_maxRegs,
      CgState.st_fixEndPC_maxRegs] at this hD hL ⊢
    omega

theorem maxKept_closed {E : Collaborators} (hM : E.RegsOk) : E.Closed MaxKept where
  rrefl _ := le_refl _
  rtrans _ _ _ _ _ h1 h2 := h1.mtrans h2
  callStat st c := by
    have := hM.cgFuncCallExp st.allocReg.1.fi c st.allocReg.2 0
    simp only [MaxKept, cgFuncCallStat, CgState.freeReg_maxRegs, CgState.cgFuncCallExp_fi,
      CgState.allocReg_maxRegs] at this ⊢
    omega
  breakStat st line := by
    simp only [MaxKept, cgBreakStat, CgState.addBreakJmp_maxRegs, CgState.emitJmp,
      CgState.emit_maxRegs]
    exact le_refl _
  doStat st st' block hb h := maxKept_cgDoStat E st st' block hb h
  whileStat st st' e block hb h := maxKept_cgWhileStat hM st st' e block hb h
  repeatStat st st' block e hb h := maxKept_cgRepeatStat hM st st' block e hb h
  ifStat st st' exps blocks hb h := maxKept_cgIfStat hM st st' exps blocks hb h
  forNumStat st st' lineOfFor lineOfDo varName e1 e2 e3 block hb h :=
    maxKept_cgForNumStat hM st st' lineOfFor lineOfDo varName e1 e2 e3 block hb h
  forInStat st st' lineOfDo nameList exps block hb h :=
    maxKept_cgForInStat hM st st' lineOfDo nameList exps block hb h
  assignStat st st' lastLine vars exps h := by
    rw [cgAssignStat_body] at h
    obtain ⟨s3, hb, h⟩ := Outcome.andThen_done h
    simp only [Outcome.done.injEq] at h
    subst h
    exact maxKept_assignBody hM st s3 lastLine vars exps hb
  localVarDecl st lastLine names exps := maxKept_cgLocalVarDeclStat hM st lastLine names exps
  localFuncDef st name f := by
    have := hM.cgFuncDefExp (st.addLocalVariable name (st.fi.pc + 2)).1.fi f
      (st.addLocalVariable name (st.fi.pc + 2)).2
    simp only [MaxKept, cgLocalFuncDefStat, CgState.cgFuncDefExp_fi,
      CgState.addLocalVariable_maxRegs] at this ⊢
    omega

theorem usedRegs_le_cgExpsEqual (E : Collaborators)
    (hReg : ∀ fi e a n, (E.cgExp fi e a n).usedRegs = fi.usedRegs) :
    ∀ (exps : List Expression) (st : CgState),
      st.fi.usedRegs ≤ (cgExpsEqual E st exps).fi.usedRegs
  | [], st => le_refl _
  | e :: rest, st => by
    rw [cgExpsEqual]
    have := usedRegs_le_cgExpsEqual E hReg rest (st.allocReg.1.cgExp E e st.allocReg.2 1)
    simp only [CgState.cgExp_fi, hReg, CgState.allocReg_usedRegs] at this
    omega

theorem usedRegs_le_cgExpsMore (E : Collaborators)
    (hReg : ∀ fi e a n, (E.cgExp fi e a n).usedRegs = fi.usedRegs) (nExps : Int) :
    ∀ (exps : List Expression) (st : CgState) (i : Nat),
      st.fi.usedRegs ≤ (cgExpsMore E nExps st i exps).fi.usedRegs
  | [], st, _ => le_refl _
  | e :: rest, st, i => by
    rw [cgExpsMore]
    split
    · next hc =>
      have := usedRegs_le_cgExpsMore E hReg nExps rest
        (st.allocReg.1.cgExp E e st.allocReg.2 0) (i + 1)
      simp only [CgState.cgExp_fi, hReg, CgState.allocReg_usedRegs] at this
      omega
    · next hc =>
      have := usedRegs_le_cgExpsMore E hReg nExps rest
        (st.allocReg.1.cgExp E e st.allocReg.2 1) (i + 1)
      simp only [CgState.cgExp_fi, hReg, CgState.allocReg_usedRegs] at this
      omega

theorem usedRegs_le_cgExpsFewer (E : Collaborators)
    (hReg : ∀ fi e a n, (E.cgExp fi e a n).usedRegs = fi.usedRegs) (nNames nExps : Int)
    (hn : nExps ≤ nNames) :
    ∀ (exps : List Expression) (st : CgState) (m : Bool) (i : Nat),
      st.fi.usedRegs ≤ (cgExpsFewer E nNames nExps st m i exps).1.fi.usedRegs
  | [], st, _, _ => le_refl _
  | e :: rest, st, m, i => by
    rw [cgExpsFewer]
    split
    · have := usedRegs_le_cgExpsFewer E hReg nNames nExps hn rest
        ((st.allocReg.1.cgExp E e st.allocReg.2 (nNames - nExps + 1)).allocRegs
          (nNames - nExps + 1 - 1)).1 true (i + 1)
      simp only [CgState.allocRegs_usedRegs, CgState.cgExp_fi, hReg,
        CgState.allocReg_usedRegs] at this
      dsimp only
      omega
    · have := usedRegs_le_cgExpsFewer E hReg nNames nExps hn rest
        (st.allocReg.1.cgExp E e st.allocReg.2 1) m (i + 1)
      simp only [CgState.cgExp_fi, hReg, CgState.allocReg_usedRegs] at this
      omega

theorem usedRegs_le_cgExpsFill (E : Collaborators)
    (hReg : ∀ fi e a n, (E.cgExp fi e a n).usedRegs = fi.usedRegs) (st : CgState)
    (lastLine nNames nExps : Int) (hn : nExps ≤ nNames) (exps : List Expression) :
    st.fi.usedRegs ≤ (cgExpsFill E st lastLine nNames nExps exps).fi.usedRegs := by
  have q1 := usedRegs_le_cgExpsFewer E hReg nNames nExps hn exps st false 0
  simp only [cgExpsFill]
  split
  · simp only [CgState.emitLoadNil, CgState.emit_usedRegs, CgState.allocRegs_usedRegs]
    omega
  · exact q1

/-- The value part of a local declaration ends with at least the registers
in use with which it started: the reset of line 253 does not raise
`usedRegs`. -/
theorem usedRegs_le_declValues (E : Collaborators)
    (hReg : ∀ fi e a n, (E.cgExp fi e a n).usedRegs = fi.usedRegs) (st : CgState)
    (lastLine : Int) (nameList : List String) (expressionList : List Expression) :
    st.fi.usedRegs ≤ (declValues E st lastLine nameList expressionList).fi.usedRegs := by
  unfold declValues
  simp only []
  split
  · exact usedRegs_le_cgExpsEqual E hReg _ _
  · split
    · exact usedRegs_le_cgExpsMore E hReg _ _ _ _
    · next h1 h2 => exact usedRegs_le_cgExpsFill E hReg _ _ _ _ (by omega) _

theorem usedRegs_le_cgAssignTargets (E : Collaborators)
    (hReg : ∀ fi e a n, (E.cgExp fi e a n).usedRegs = fi.usedRegs) :
    ∀ (vars : List Expression) (st : CgState) (t k : List Int) (st' : CgState),
      (cgAssignTargets E st t k vars).1 = .done st' → st.fi.usedRegs ≤ st'.fi.usedRegs
  | [], st, t, k, st', h => by
    simp only [cgAssignTargets, Outcome.done.injEq] at h
    subst h
    exact le_refl _
  | .TableAccessExpression l pe ke :: rest, st, t, k, st', h => by
    rw [cgAssignTargets] at h
    have := usedRegs_le_cgAssignTargets E hReg rest _ _ _ st' h
    simp only [CgState.cgExp_fi, hReg, CgState.allocReg_usedRegs] at this
    omega
  | .NameExpression l name :: rest, st, t, k, st', h => by
    rw [cgAssignTargets] at h
    split at h
    · split at h
      · have := usedRegs_le_cgAssignTargets E hReg rest _ _ _ st' h
        simp only [CgState.allocReg_usedRegs] at this
        omega
      · exact usedRegs_le_cgAssignTargets E hReg rest _ _ _ st' h
    · exact usedRegs_le_cgAssignTargets E hReg rest _ _ _ st' h
  | .NilExpression _ :: rest, st, t, k, st', h => by simp [cgAssignTargets] at h
  | .VarargExpression _ :: rest, st, t, k, st', h => by simp [cgAssignTargets] at h
  | .FunctionCallExpression _ :: rest, st, t, k, st', h => by simp [cgAssignTargets] at h
  | .OtherExpression _ :: rest, st, t, k, st', h => by simp [cgAssignTargets] at h

theorem usedRegs_le_cgAssignExps (E : Collaborators)
    (hReg : ∀ fi e a n, (E.cgExp fi e a n).usedRegs = fi.usedRegs) (nVars nExps : Int) :
    ∀ (exps : List Expression) (st : CgState) (i : Nat),
      st.fi.usedRegs ≤ (cgAssignExps E nVars nExps st i exps).fi.usedRegs
  | [], st, _ => le_refl _
  | e :: rest, st, i => by
    rw [cgAssignExps]
    split
    · next hc =>
      have := usedRegs_le_cgAssignExps E hReg nVars nExps rest
        (st.allocReg.1.cgExp E e st.allocReg.2 0) (i + 1)
      simp only [CgState.cgExp_fi, hReg, CgState.allocReg_usedRegs] at this
      omega
    · next hc =>
      have := usedRegs_le_cgAssignExps E hReg nVars nExps rest
        (st.allocReg.1.cgExp E e st.allocReg.2 1) (i + 1)
      simp only [CgState.cgExp_fi, hReg, CgState.allocReg_usedRegs] at this
      omega

/-- The assignment reaches its reset of line 350 with at least the
registers in use with which it started. -/
theorem usedRegs_le_assignBody (E : Collaborators)
    (hReg : ∀ fi e a n, (E.cgExp fi e a n).usedRegs = fi.usedRegs) (st s3 : CgState)
    (lastLine : Int) (variableList expressionList : List Expression)
    (h : assignBody E st lastLine variableList expressionList = .done s3) :
    st.fi.usedRegs ≤ s3.fi.usedRegs := by
  unfold assignBody at h
  obtain ⟨s1, ht, h⟩ := Outcome.andThen_done h
  simp only [Outcome.done.injEq] at h
  subst h
  have h1 := usedRegs_le_cgAssignTargets E hReg variableList st [] [] s1 ht
  rw [(maxKept_cgAssignStores E _ _ _ _ _ _ _).2]
  refine le_trans h1 ?_
  split
  · exact usedRegs_le_cgAssignExps E hReg _ _ _ _ _
  · next hc => exact usedRegs_le_cgExpsFill E hReg _ _ _ _ (by omega) _

theorem sampleEmitter_regsOk : sampleEmitter.RegsOk where
  cgExp fi e a n := by
    cases e <;> simp only [sampleEmitter]
    case NameExpression line name => split <;> exact le_refl _
    all_goals exact le_refl _
  cgFuncCallExp _ _ _ _ := le_refl _
  cgFuncDefExp _ _ _ := le_refl _
  expToOpArg fi e k := by
    cases e <;> simp only [sampleEmitter]
    case NameExpression line name =>
      split
      · exact ⟨le_refl _, le_refl _⟩
      · simp only [FuncInfo.emit, FuncInfo.allocReg]
        constructor <;> omega
    all_goals
      simp only [FuncInfo.emit, FuncInfo.allocReg]
      constructor <;> omega

/-- Claim C19: when `cgStat` returns on a statement that it entered with
`usedRegs ≤ maxRegs`, then `usedRegs ≤ maxRegs` holds again and `maxRegs`
is at least its value on entry, for every emitter that fulfils the contract
and does not lower `maxRegs`.  And every reset `fi.usedRegs = oldRegs` of a
lowering routine assigns a value at most the current `usedRegs`:
`cgLocalVarDeclStat` is its value part `declValues`, then the reset, then
the declaration of the names, and the value part ends with at least the
registers it started with; `cgAssignStat` is `assignBody`, then the reset,
and `assignBody` ends with at least the registers it started with; and the
reset after a condition (`cgWhileStat`, `cgRepeatStat`, `cgIfStat`) follows
a call of `expToOpArg`, which does not lower `usedRegs`. -/
theorem regs_within_max (E : Collaborators) (hE : E.Lawful) (hM : E.RegsOk) (s : Statement)
    (st st' : CgState) (h : cgStat E st s = .done st') (hu : st.fi.usedRegs ≤ st.fi.maxRegs) :
    st'.fi.usedRegs ≤ st'.fi.maxRegs ∧ st.fi.maxRegs ≤ st'.fi.maxRegs ∧
    (∀ (s0 : CgState) (lastLine : Int) (nameList : List String)
        (expressionList : List Expression),
      cgLocalVarDeclStat E s0 lastLine nameList expressionList
        = addLocalVariables ((declValues E s0 lastLine nameList expressionList).setUsedRegs
            s0.fi.usedRegs) ((declValues E s0 lastLine nameList expressionList).fi.pc + 1)
            nameList ∧
      s0.fi.usedRegs ≤ (declValues E s0 lastLine nameList expressionList).fi.usedRegs) ∧
    (∀ (s0 : CgState) (lastLine : Int) (variableList expressionList : List Expression),
      cgAssignStat E s0 lastLine variableList expressionList
        = (assignBody E s0 lastLine variableList expressionList).andThen
            (fun s3 => .done (s3.setUsedRegs s0.fi.usedRegs)) ∧
      ∀ s3, assignBody E s0 lastLine variableList expressionList = .done s3 →
        s0.fi.usedRegs ≤ s3.fi.usedRegs) ∧
    (∀ (s0 : CgState) (e : Expression),
      s0.fi.usedRegs ≤ (s0.expToOpArg E e E.ARG_REG).1.fi.usedRegs) := by
  have hReg : ∀ fi e a n, (E.cgExp fi e a n).usedRegs = fi.usedRegs :=
    fun fi e a n => (hE.cgExp fi e a n).2
  have hmax : MaxKept st st' := cgStat_closed hE (maxKept_closed hM) s st st' h
  refine ⟨?_, hmax, fun s0 lastLine nameList expressionList =>
      ⟨cgLocalVarDeclStat_values E s0 lastLine nameList expressionList,
        usedRegs_le_declValues E hReg s0 lastLine nameList expressionList⟩,
    fun s0 lastLine variableList expressionList =>
      ⟨cgAssignStat_body E s0 lastLine variableList expressionList,
        fun s3 h3 => usedRegs_le_assignBody E hReg s0 s3 lastLine variableList expressionList h3⟩,
    fun s0 e => (hM.expToOpArg s0.fi e E.ARG_REG).2⟩
  cases hd : s.declares with
  | false =>
    have := ((cgStat_lowered hE s st st' h).2 hd).2
    unfold MaxKept at hmax
    omega
  | true =>
    cases s <;> try (simp [Statement.declares] at hd)
    case LocalVariableDeclareStatement lastLine nameList expressionList =>
      simp only [cgStat, Outcome.done.injEq] at h
      subst h
      rw [cgLocalVarDeclStat_values]
      refine (addLocalVariables_regs _ _ _).2 ?_
      have := maxKept_declValues hM st lastLine nameList expressionList
      simp only [MaxKept, CgState.setUsedRegs_usedRegs, CgState.setUsedRegs_maxRegs] at this ⊢
      omega
    case LocalFunctionDefineStatement name f =>
      simp only [cgStat, Outcome.done.injEq] at h
      subst h
      have := hM.cgFuncDefExp (st.addLocalVariable name (st.fi.pc + 2)).1.fi f
        (st.addLocalVariable name (st.fi.pc + 2)).2
      simp only [cgLocalFuncDefStat, CgState.cgFuncDefExp_fi, hE.cgFuncDefExp_usedRegs,
        CgState.addLocalVariable_usedRegs, CgState.addLocalVariable_maxRegs] at this ⊢
      omega

/-- C19 at the nested sample statement from the initial state. -/
theorem regs_within_max_witness :
    initialState.fi.usedRegs ≤ initialState.fi.maxRegs ∧
    (cgStat sampleEmitter initialState sampleNested).state.fi.usedRegs
      ≤ (cgStat sampleEmitter initialState sampleNested).state.fi.maxRegs ∧
    initialState.fi.maxRegs ≤ (cgStat sampleEmitter initialState sampleNested).state.fi.maxRegs ∧
    (∀ (s0 : CgState) (lastLine : Int) (nameList : List String)
        (expressionList : List Expression),
      cgLocalVarDeclStat sampleEmitter s0 lastLine nameList expressionList
        = addLocalVariables
            ((declValues sampleEmitter s0 lastLine nameList expressionList).setUsedRegs
              s0.fi.usedRegs)
            ((declValues sampleEmitter s0 lastLine nameList expressionList).fi.pc + 1)
            nameList ∧
      s0.fi.usedRegs
        ≤ (declValues sampleEmitter s0 lastLine nameList expressionList).fi.usedRegs) ∧
    (∀ (s0 : CgState) (lastLine : Int) (variableList expressionList : List Expression),
      cgAssignStat sampleEmitter s0 lastLine variableList expressionList
        = (assignBody sampleEmitter s0 lastLine variableList expressionList).andThen
            (fun s3 => .done (s3.setUsedRegs s0.fi.usedRegs)) ∧
      ∀ s3, assignBody sampleEmitter s0 lastLine variableList expressionList = .done s3 →
        s0.fi.usedRegs ≤ s3.fi.usedRegs) ∧
    (∀ (s0 : CgState) (e : Expression),
      s0.fi.usedRegs ≤ (s0.expToOpArg sampleEmitter e sampleEmitter.ARG_REG).1.fi.usedRegs) :=
  ⟨by decide, regs_within_max sampleEmitter sampleEmitter_lawful sampleEmitter_regsOk
    sampleNested initialState (cgStat sampleEmitter initialState sampleNested).state rfl
    (by decide)⟩

/-! ### The end-PC of a closed local is at or after its start-PC -/

theorem FuncInfo.frames_length (fi : FuncInfo) : fi.frames.length = fi.scopes.length := by
  simp [FuncInfo.frames]

theorem SameLocals.lsame (fi : FuncInfo) : SameLocals fi fi := ⟨rfl, rfl⟩

theorem SameLocals.lthen {a b c : FuncInfo} (h1 : SameLocals a b) (h2 : SameLocals b c) :
    SameLocals a c := ⟨h2.1.trans h1.1, h2.2.trans h1.2⟩

theorem Appends.sameLocals {fi fi' : FuncInfo} (h : Appends fi fi') : SameLocals fi fi' :=
  ⟨h.2.1, by simp only [FuncInfo.frames, h.1]⟩

theorem Appends.length_le {fi fi' : FuncInfo} (h : Appends fi fi') :
    fi.insts.length ≤ fi'.insts.length := by
  obtain ⟨_, _, ext, he⟩ := h
  rw [he]
  simp

/-- The invariant depends only on the locals table and the lists of the
frames, and the bound may go up. -/
theorem Ends.same {d0 : Nat} {b b' : Int} {fi fi' : FuncInfo} (h : Ends d0 b fi)
    (hs : SameLocals fi fi') (hb : b ≤ b') : Ends d0 b' fi' := by
  obtain ⟨hl, hf⟩ := hs
  refine ⟨fun i v hv hc => ?_, fun l hl2 i hi => ?_⟩
  · rw [hl] at hv
    rw [hf] at hc
    exact h.1 i v hv hc
  · rw [hf] at hl2
    obtain ⟨v, hv, hvb⟩ := h.2 l hl2 i hi
    exact ⟨v, by rw [hl]; exact hv, le_trans hvb hb⟩

theorem Ends.enter {d0 : Nat} {b : Int} {fi : FuncInfo} (h : Ends d0 b fi)
    (hd : d0 ≤ fi.scopes.length) (br : Bool) : Ends d0 b (fi.enterScope br) := by
  refine ⟨fun i v hv hc => ?_, fun l hl i hi => ?_⟩
  · refine h.1 i v hv fun l hl => hc l ?_
    simp only [FuncInfo.frames, FuncInfo.enterScope, List.map_cons, List.mem_cons]
    exact Or.inr hl
  · have hlen : (fi.enterScope br).frames.length - d0 = (fi.frames.length - d0) + 1 := by
      simp only [FuncInfo.frames, FuncInfo.enterScope, List.length_map, List.length_cons]
      omega
    rw [hlen] at hl
    simp only [FuncInfo.frames, FuncInfo.enterScope, List.map_cons, List.take_succ_cons,
      List.mem_cons] at hl
    rcases hl with hl | hl
    · subst hl
      cases hi
    · exact h.2 l hl i hi

/-- Declaring a local in the innermost frame: the new entry is open, and
its start-PC must be within the new bound. -/
theorem Ends.add {d0 : Nat} {b b' : Int} {fi : FuncInfo} (h : Ends d0 b fi)
    (hs : fi.scopes ≠ []) (name : String) (p : Int) (hp : p ≤ b') (hb : b ≤ b') :
    Ends d0 b' (fi.addLocalVariable name p).1 := by
  obtain ⟨f, rest, hsc⟩ := List.exists_cons_of_ne_nil hs
  have hfr : (fi.addLocalVariable name p).1.frames
      = (fi.localVars.length :: f.locals) :: rest.map Scope.locals := by
    simp [FuncInfo.frames, FuncInfo.addLocalVariable, hsc]
  have hfr0 : fi.frames = f.locals :: rest.map Scope.locals := by
    simp [FuncInfo.frames, hsc]
  have hlv : (fi.addLocalVariable name p).1.localVars
      = fi.localVars ++ [{ name := name, slot := fi.usedRegs, startPC := p, endPC := 0 }] := rfl
  have hold : ∀ {i : Nat} {v : LocVarInfo}, fi.localVars[i]? = some v →
      (fi.addLocalVariable name p).1.localVars[i]? = some v := by
    intro i v hv
    have hi : i < fi.localVars.length := by
      by_contra hc
      rw [List.getElem?_eq_none (by omega)] at hv
      cases hv
    rw [hlv, List.getElem?_append_left hi]
    exact hv
  refine ⟨fun i v hv hc => ?_, fun l hl i hi => ?_⟩
  · rw [hfr] at hc
    have htop := hc _ (List.mem_cons_self _ _)
    simp only [List.mem_cons, not_or] at htop
    have hlen1 : (fi.addLocalVariable name p).1.localVars.length = fi.localVars.length + 1 := by
      rw [hlv]
      simp
    have hi : i < fi.localVars.length := by
      by_contra hge
      have hlt : i < (fi.addLocalVariable name p).1.localVars.length := by
        by_contra hge2
        rw [List.getElem?_eq_none (by omega)] at hv
        cases hv
      exact htop.1 (by omega)
    rw [hlv, List.getElem?_append_left hi] at hv
    refine h.1 i v hv fun l hl => ?_
    rw [hfr0] at hl
    rcases List.mem_cons.1 hl with hl | hl
    · subst hl
      exact htop.2
    · exact hc l (List.mem_cons_of_mem _ hl)
  · rw [hfr] at hl
    have hlen : ((fi.localVars.length :: f.locals) :: rest.map Scope.locals).length
        = fi.frames.length := by
      rw [hfr0]
      rfl
    rw [hlen, hfr0] at hl
    cases hk : (f.locals :: rest.map Scope.locals).length - d0 with
    | zero =>
      rw [hk] at hl
      simp at hl
    | succ k =>
      rw [hk] at hl
      simp only [List.take_succ_cons, List.mem_cons] at hl
      have h2 := h.2
      unfold OpenUpTo at h2
      rw [hfr0, hk] at h2
      simp only [List.take_succ_cons, List.mem_cons] at h2
      rcases hl with hl | hl
      · subst hl
        rcases List.mem_cons.1 hi with hi | hi
        · subst hi
          exact ⟨{ name := name, slot := fi.usedRegs, startPC := p, endPC := 0 },
            by rw [hlv]; simp, hp⟩
        · obtain ⟨v, hv, hvb⟩ := h2 f.locals (Or.inl rfl) i hi
          exact ⟨v, hold hv, le_trans hvb hb⟩
      · obtain ⟨v, hv, hvb⟩ := h2 l (Or.inr hl) i hi
        exact ⟨v, hold hv, le_trans hvb hb⟩

/-- The entry at a position after the locals of a frame are closed. -/
theorem FuncInfo.closeLocals_getElem? (e : Int) :
    ∀ (is : List Nat) (vars : List LocVarInfo) (i : Nat),
      (FuncInfo.closeLocals e vars is)[i]?
        = if i ∈ is then (vars[i]?).map (fun v => { v with endPC := e }) else vars[i]?
  | [], vars, i => by simp [FuncInfo.closeLocals]
  | j :: rest, vars, i => by
    rw [FuncInfo.closeLocals, FuncInfo.closeLocals_getElem? e rest, List.getElem?_modify]
    by_cases hji : j = i
    · subst hji
      cases vars[j]? <;> simp
    · have hij : ¬ i = j := fun h => hji h.symm
      cases vars[i]? <;> simp [hji, hij]

theorem FuncInfo.exitScope_localVars (fi : FuncInfo) (e : Int) (f : Scope) (rest : List Scope)
    (h : fi.scopes = f :: rest) :
    (fi.exitScope e).localVars = FuncInfo.closeLocals e fi.localVars f.locals := by
  rw [FuncInfo.exitScope_cons fi e f rest h]
  split <;> simp

/-- Leaving the innermost frame, one of those counted from `d0`, with an
end-PC at or after the bound. -/
theorem Ends.exit {d0 : Nat} {b : Int} {fi : FuncInfo} (h : Ends d0 b fi)
    (hd : d0 < fi.scopes.length) (e : Int) (he : b ≤ e) : Ends d0 b (fi.exitScope e) := by
  cases hsc : fi.scopes with
  | nil => rw [hsc] at hd; simp at hd
  | cons f rest =>
    have hfr0 : fi.frames = f.locals :: rest.map Scope.locals := by
      simp [FuncInfo.frames, hsc]
    have hfr : (fi.exitScope e).frames = rest.map Scope.locals := by
      simp [FuncInfo.frames, FuncInfo.exitScope_scopes, hsc]
    have hlv := FuncInfo.exitScope_localVars fi e f rest hsc
    have hk : fi.frames.length - d0 = ((rest.map Scope.locals).length - d0) + 1 := by
      rw [hfr0]
      rw [hsc] at hd
      simp only [List.length_cons, List.length_map] at hd ⊢
      omega
    have h2 := h.2
    unfold OpenUpTo at h2
    rw [hk, hfr0] at h2
    simp only [List.take_succ_cons, List.mem_cons] at h2
    refine ⟨fun i v hv hc => ?_, fun l hl i hi => ?_⟩
    · rw [hlv, FuncInfo.closeLocals_getElem?] at hv
      by_cases hi : i ∈ f.locals
      · rw [if_pos hi] at hv
        obtain ⟨w, hw, hwb⟩ := h2 f.locals (Or.inl rfl) i hi
        rw [hw] at hv
        simp only [Option.map_some', Option.some.injEq] at hv
        subst hv
        exact le_trans hwb he
      · rw [if_neg hi] at hv
        refine h.1 i v hv fun l hl => ?_
        rw [hfr0] at hl
        rcases List.mem_cons.1 hl with hl | hl
        · subst hl
          exact hi
        · exact hc l (by rw [hfr]; exact hl)
    · obtain ⟨w, hw, hwb⟩ := h2 l (Or.inr (by rw [hfr] at hl; exact hl)) i hi
      rw [hlv, FuncInfo.closeLocals_getElem?, hw]
      by_cases hi2 : i ∈ f.locals
      · rw [if_pos hi2]
        exact ⟨_, rfl, hwb⟩
      · rw [if_neg hi2]
        exact ⟨w, rfl, hwb⟩

/-- Moving an end-PC forward keeps the invariant. -/
theorem Ends.fixEnd {d0 : Nat} {b : Int} {fi : FuncInfo} (h : Ends d0 b fi) (name : String)
    (delta : Int) (hdl : 0 ≤ delta) : Ends d0 b (fi.fixEndPC name delta) := by
  have hfr : (fi.fixEndPC name delta).frames = fi.frames := by
    simp [FuncInfo.frames]
  unfold FuncInfo.fixEndPC at hfr ⊢
  split
  · next k hk =>
    rw [hk] at hfr
    refine ⟨fun i v hv hc => ?_, fun l hl i hi => ?_⟩
    · simp only [List.getElem?_modify] at hv
      rw [hfr] at hc
      cases hw : fi.localVars[i]? with
      | none => rw [hw] at hv; simp at hv
      | some w =>
        rw [hw] at hv
        have hwb := h.1 i w hw hc
        simp only [Option.map_eq_map, Option.map_some', Option.some.injEq] at hv
        subst hv
        split
        · show w.startPC ≤ w.endPC + delta
          omega
        · exact hwb
    · rw [hfr] at hl
      obtain ⟨w, hw, hwb⟩ := h.2 l hl i hi
      simp only [List.getElem?_modify, hw, Option.map_eq_map, Option.map_some']
      refine ⟨_, rfl, ?_⟩
      split <;> exact hwb
  · exact h

theorem Grow.grefl (st : CgState) : Grow st st := ⟨SameLocals.lsame _, le_refl _⟩

theorem Grow.gtrans {a b c : CgState} (h1 : Grow a b) (h2 : Grow b c) : Grow a c :=
  ⟨h1.1.lthen h2.1, le_trans h1.2 h2.2⟩

theorem Grow.ofAppends {st st' : CgState} (h : Appends st.fi st'.fi) : Grow st st' :=
  ⟨h.sameLocals, h.length_le⟩

theorem Grow.ofEq {st st' : CgState} (hl : st'.fi.localVars = st.fi.localVars)
    (hs : st'.fi.scopes = st.fi.scopes) (hn : st.fi.insts.length ≤ st'.fi.insts.length) :
    Grow st st' :=
  ⟨⟨hl, by simp only [FuncInfo.frames, hs]⟩, hn⟩

/-- The bound stays. -/
theorem Ends.keep {d0 : Nat} {b : Int} {st st' : CgState} (h : Ends d0 b st.fi)
    (hg : Grow st st') : Ends d0 b st'.fi := h.same hg.1 (le_refl _)

/-- The bound follows the buffer. -/
theorem Ends.grow {d0 : Nat} {st st' : CgState} (h : Ends d0 st.fi.insts.length st.fi)
    (hg : Grow st st') : Ends d0 st'.fi.insts.length st'.fi :=
  h.same hg.1 (by exact_mod_cast hg.2)

theorem Ends.raise {d0 : Nat} {b c : Int} {fi : FuncInfo} (h : Ends d0 b fi) (hb : b ≤ c) :
    Ends d0 c fi := h.same (SameLocals.lsame _) hb

theorem grow_emit (st : CgState) (ins : Instruction) : Grow st (st.emit ins).1 :=
  Grow.ofEq rfl rfl (by simp)

theorem grow_setUsedRegs (st : CgState) (r : Int) : Grow st (st.setUsedRegs r) :=
  Grow.ofEq rfl rfl (le_refl _)

theorem grow_allocReg (st : CgState) : Grow st st.allocReg.1 := Grow.ofEq rfl rfl (le_refl _)

theorem grow_allocRegs (st : CgState) (n : Int) : Grow st (st.allocRegs n).1 :=
  Grow.ofEq rfl rfl (le_refl _)

theorem grow_freeReg (st : CgState) : Grow st st.freeReg := Grow.ofEq rfl rfl (le_refl _)

theorem grow_fixSbx (st : CgState) (pc s : Int) : Grow st (st.fixSbx pc s) :=
  Grow.ofEq (by simp) (by simp) (by simp)

theorem grow_cgExp {E : Collaborators} (hE : E.Lawful) (st : CgState) (e : Expression)
    (a n : Int) : Grow st (st.cgExp E e a n) := Grow.ofAppends (hE.cgExp st.fi e a n).1

theorem grow_expToOpArg {E : Collaborators} (hE : E.Lawful) (st : CgState) (e : Expression)
    (k : Int) : Grow st (st.expToOpArg E e k).1 := Grow.ofAppends (hE.expToOpArg st.fi e k)

theorem grow_closeOpenUpvals (E : Collaborators) (st : CgState) (line : Int) :
    Grow st (st.closeOpenUpvals E line) := by
  unfold CgState.closeOpenUpvals
  split
  · exact grow_emit _ _
  · exact Grow.grefl _

theorem addBreak_locals (pc : Int) : ∀ sc : List Scope,
    (FuncInfo.addBreak pc sc).map Scope.locals = sc.map Scope.locals
  | [] => rfl
  | s :: rest => by
    simp only [FuncInfo.addBreak]
    split
    · rfl
    · simp [addBreak_locals pc rest]

theorem grow_addBreakJmp (st : CgState) (pc : Int) : Grow st (st.addBreakJmp pc) :=
  ⟨⟨rfl, addBreak_locals pc st.fi.scopes⟩, le_refl _⟩

/-- The lowering of a condition: `expToOpArg`, the reset, the test and the
jump. -/
theorem grow_condJump {E : Collaborators} (hE : E.Lawful) (st : CgState) (e : Expression)
    (r line a c l2 a2 s2 : Int) :
    Grow st ((((st.expToOpArg E e E.ARG_REG).1.setUsedRegs r).emitTest line a c).1.emitJmp
      l2 a2 s2).1 :=
  (((grow_expToOpArg hE st e _).gtrans (grow_setUsedRegs _ _)).gtrans (grow_emit _ _)).gtrans
    (grow_emit _ _)

theorem grow_cgExpsEqual {E : Collaborators} (hE : E.Lawful) (exps : List Expression)
    (st : CgState) : Grow st (cgExpsEqual E st exps) := Grow.ofAppends (appends_cgExpsEqual hE _ _)

theorem appends_cgAssignTargets {E : Collaborators} (hE : E.Lawful) :
    ∀ (vars : List Expression) (st : CgState) (t k : List Int) (st' : CgState),
      (cgAssignTargets E st t k vars).1 = .done st' → Appends st.fi st'.fi
  | [], st, t, k, st', h => by
    simp only [cgAssignTargets, Outcome.done.injEq] at h
    subst h
    exact Appends.arefl _
  | .TableAccessExpression l pe ke :: rest, st, t, k, st', h => by
    rw [cgAssignTargets] at h
    refine Appends.atrans ?_ (appends_cgAssignTargets hE rest _ _ _ st' h)
    exact Appends.atrans (Appends.atrans ⟨rfl, rfl, [], by simp⟩
      (hE.cgExp st.allocReg.1.fi pe st.allocReg.2 1).1)
      (Appends.atrans ⟨rfl, rfl, [], by simp⟩ (hE.cgExp _ ke _ 1).1)
  | .NameExpression l name :: rest, st, t, k, st', h => by
    rw [cgAssignTargets] at h
    split at h
    · split at h
      · exact Appends.atrans (b := st.allocReg.1.fi) ⟨rfl, rfl, [], by simp⟩
          (appends_cgAssignTargets hE rest _ _ _ st' h)
      · exact appends_cgAssignTargets hE rest _ _ _ st' h
    · exact appends_cgAssignTargets hE rest _ _ _ st' h
  | .NilExpression _ :: rest, st, t, k, st', h => by simp [cgAssignTargets] at h
  | .VarargExpression _ :: rest, st, t, k, st', h => by simp [cgAssignTargets] at h
  | .FunctionCallExpression _ :: rest, st, t, k, st', h => by simp [cgAssignTargets] at h
  | .OtherExpression _ :: rest, st, t, k, st', h => by simp [cgAssignTargets] at h

theorem appends_cgAssignExps {E : Collaborators} (hE : E.Lawful) (nVars nExps : Int) :
    ∀ (exps : List Expression) (st : CgState) (i : Nat),
      Appends st.fi (cgAssignExps E nVars nExps st i exps).fi
  | [], st, _ => Appends.arefl _
  | e :: rest, st, i => by
    rw [cgAssignExps]
    refine Appends.atrans ?_ (appends_cgAssignExps hE nVars nExps rest _ _)
    split
    · exact Appends.atrans ⟨rfl, rfl, [], by simp⟩ (hE.cgExp st.allocReg.1.fi e st.allocReg.2 0).1
    · exact Appends.atrans ⟨rfl, rfl, [], by simp⟩ (hE.cgExp st.allocReg.1.fi e st.allocReg.2 1).1

theorem appends_cgAssignStores (E : Collaborators) (lastLine : Int)
    (tRegs kRegs vRegs : List Int) :
    ∀ (vars : List Expression) (st : CgState) (i : Nat),
      Appends st.fi (cgAssignStores E lastLine tRegs kRegs vRegs st i vars).fi
  | [], st, _ => Appends.arefl _
  | exp :: rest, st, i => by
    obtain ⟨ins, he, _⟩ := cgAssignStores_cons E lastLine tRegs kRegs vRegs exp rest st i
    rw [he]
    exact Appends.atrans (appends_emit st.fi ins)
      (appends_cgAssignStores E lastLine tRegs kRegs vRegs rest _ _)

/-- An assignment only appends instructions. -/
theorem appends_assignBody {E : Collaborators} (hE : E.Lawful) (st s3 : CgState)
    (lastLine : Int) (variableList expressionList : List Expression)
    (h : assignBody E st lastLine variableList expressionList = .done s3) :
    Appends st.fi s3.fi := by
  unfold assignBody at h
  obtain ⟨s1, ht, h⟩ := Outcome.andThen_done h
  simp only [Outcome.done.injEq] at h
  subst h
  refine (appends_cgAssignTargets hE variableList st [] [] s1 ht).atrans ?_
  refine Appends.atrans ?_ (appends_cgAssignStores E _ _ _ _ _ _ _)
  split
  · exact appends_cgAssignExps hE _ _ _ _ _
  · exact appends_cgExpsFill hE _ _ _ _ _

theorem ends_addLocalVariables {d0 : Nat} {b : Int} :
    ∀ (names : List String) (st : CgState) (p : Int), Ends d0 b st.fi → st.fi.scopes ≠ [] →
      p ≤ b → Ends d0 b (addLocalVariables st p names).fi
  | [], _, _, h, _, _ => h
  | n :: rest, st, p, h, hs, hp => by
    simp only [addLocalVariables]
    refine ends_addLocalVariables rest _ p (h.add hs n p hp (le_refl _)) ?_ hp
    intro h0
    have := CgState.addLocalVariable_scopes_length st n p
    rw [h0] at this
    exact hs (List.length_eq_zero.1 this.symm)

theorem ends_addLoopVariables {d0 : Nat} {b : Int} :
    ∀ (names : List String) (st : CgState), Ends d0 b st.fi → st.fi.scopes ≠ [] →
      st.fi.pc + 2 ≤ b → Ends d0 b (addLoopVariables st names).fi
  | [], _, h, _, _ => h
  | n :: rest, st, h, hs, hp => by
    simp only [addLoopVariables]
    refine ends_addLoopVariables rest _ (h.add hs n _ hp (le_refl _)) ?_ (by simpa using hp)
    intro h0
    have := CgState.addLocalVariable_scopes_length st n (st.fi.pc + 2)
    rw [h0] at this
    exact hs (List.length_eq_zero.1 this.symm)

/-- A local declaration from a state with the invariant and an open scope:
the new locals start at the end of the buffer. -/
theorem ends_cgLocalVarDeclStat {E : Collaborators} (hE : E.Lawful) {d0 : Nat} (st : CgState)
    (lastLine : Int) (nameList : List String) (expressionList : List Expression)
    (hs : st.fi.scopes ≠ []) (h : Ends d0 st.fi.insts.length st.fi) :
    Ends d0 (cgLocalVarDeclStat E st lastLine nameList expressionList).fi.insts.length
      (cgLocalVarDeclStat E st lastLine nameList expressionList).fi := by
  obtain ⟨s1, ha, heq⟩ := cgLocalVarDeclStat_parts hE st lastLine nameList expressionList
  rw [heq, (addLocalVariables_fi _ _ _).1]
  have h1 := (h.grow (Grow.ofAppends ha)).keep (grow_setUsedRegs s1 st.fi.usedRegs)
  refine ends_addLocalVariables nameList _ _ h1 (by simpa [ha.1] using hs) ?_
  simp [FuncInfo.pc]

theorem EndsKept.ofGrow {st st' : CgState} (hg : Grow st st') : EndsKept st st' :=
  fun _ _ _ h => h.grow hg

/-- The body of a routine, by the hypothesis on its block. -/
theorem ends_body (d0 : Nat) {block : LoweredBlock}
    (hb : ∀ s s', block.run s = .done s' → Lowered s s' ∧ EndsKept s s') {s s1 : CgState}
    (hr : block.run s = .done s1) (hs : s.fi.scopes ≠ []) (hd : d0 ≤ s.fi.scopes.length)
    (h : Ends d0 s.fi.insts.length s.fi) :
    Ends d0 s1.fi.insts.length s1.fi ∧ s1.fi.scopes.length = s.fi.scopes.length :=
  ⟨(hb s s1 hr).2 hs d0 hd h, LoweredAt.depth (hb s s1 hr).1⟩

theorem ends_enter {d0 : Nat} {b : Int} {st : CgState} (h : Ends d0 b st.fi)
    (hd : d0 ≤ st.fi.scopes.length) (br : Bool) : Ends d0 b (st.enterScope br).fi :=
  Ends.enter h hd br

theorem ends_exit {d0 : Nat} {b : Int} {st : CgState} (h : Ends d0 b st.fi)
    (hd : d0 < st.fi.scopes.length) (e : Int) (he : b ≤ e) : Ends d0 b (st.exitScope e).fi :=
  Ends.exit h hd e he

theorem ends_fixEndPC {d0 : Nat} {b : Int} {st : CgState} (h : Ends d0 b st.fi) (name : String)
    (delta : Int) (hdl : 0 ≤ delta) : Ends d0 b (st.fixEndPC name delta).fi :=
  Ends.fixEnd h name delta hdl

theorem ends_addLocalVariable {d0 : Nat} {b c : Int} {st : CgState} (h : Ends d0 b st.fi)
    (hs : st.fi.scopes ≠ []) (name : String) (p : Int) (hp : p ≤ c) (hb : b ≤ c) :
    Ends d0 c (st.addLocalVariable name p).1.fi :=
  Ends.add h hs name p hp hb

theorem endsKept_cgDoStat (E : Collaborators) (st st' : CgState) (block : LoweredBlock)
    (hb : ∀ s s', block.run s = .done s' → Lowered s s' ∧ EndsKept s s')
    (h : cgDoStat E st block = .done st') : EndsKept st st' := by
  unfold cgDoStat at h
  obtain ⟨s1, hr, h⟩ := Outcome.andThen_done h
  simp only [Outcome.done.injEq] at h
  subst h
  intro hs d0 hd h0
  obtain ⟨e1, hd1⟩ := ends_body d0 hb hr (by simp) (by simp; omega)
    (by simpa using ends_enter h0 hd false)
  simp only [CgState.enterScope_scopes, List.length_cons] at hd1
  have e2 := e1.grow (grow_closeOpenUpvals E s1 block.LastLine)
  have e3 := ends_exit e2 (by simp; omega) ((s1.closeOpenUpvals E block.LastLine).fi.pc + 1)
    (by simp [FuncInfo.pc])
  simpa using e3

theorem endsKept_cgWhileStat {E : Collaborators} (hE : E.Lawful) (st st' : CgState)
    (e : Expression) (block : LoweredBlock)
    (hb : ∀ s s', block.run s = .done s' → Lowered s s' ∧ EndsKept s s')
    (h : cgWhileStat E st e block = .done st') : EndsKept st st' := by
  unfold cgWhileStat at h
  obtain ⟨s3, hr, h⟩ := Outcome.andThen_done h
  simp only [Outcome.done.injEq] at h
  subst h
  intro hs d0 hd h0
  have g1 := grow_condJump hE st e st.fi.usedRegs (E.lastLineOf e)
    (st.expToOpArg E e E.ARG_REG).2 0 (E.lastLineOf e) 0 0
  revert hr
  generalize ((((st.expToOpArg E e E.ARG_REG).1.setUsedRegs st.fi.usedRegs).emitTest
    (E.lastLineOf e) (st.expToOpArg E e E.ARG_REG).2 0).1.emitJmp (E.lastLineOf e) 0 0) = j
    at g1 ⊢
  intro hr
  have hsj : j.1.fi.scopes.length = st.fi.scopes.length := by
    have := congrArg List.length g1.1.2
    simpa [FuncInfo.frames] using this
  obtain ⟨e1, hd1⟩ := ends_body d0 hb hr (by simp) (by simp; omega)
    (by simpa using ends_enter (h0.grow g1) (by omega) true)
  simp only [CgState.enterScope_scopes, List.length_cons] at hd1
  have e2 := e1.grow (grow_closeOpenUpvals E s3 block.LastLine)
  have e3 := e2.keep (grow_emit (s3.closeOpenUpvals E block.LastLine)
    (.jmp block.LastLine 0 (st.fi.pc - (s3.closeOpenUpvals E block.LastLine).fi.pc - 1)))
  have e4 := ends_exit e3 (by simp; omega)
    ((s3.closeOpenUpvals E block.LastLine).emit
      (.jmp block.LastLine 0 (st.fi.pc - (s3.closeOpenUpvals E block.LastLine).fi.pc - 1))).1.fi.pc
    (by simp [FuncInfo.pc])
  refine Ends.raise (Ends.keep e4 (grow_fixSbx _ _ _)) ?_
  simp

theorem EndsKept.etrans {a b c : CgState} (h1 : EndsKept a b) (h2 : EndsKept b c)
    (hd : b.fi.scopes.length = a.fi.scopes.length) : EndsKept a c := by
  intro hs d0 hd0 h0
  refine h2 ?_ d0 (by omega) (h1 hs d0 hd0 h0)
  intro hb
  rw [hb] at hd
  exact hs (List.length_eq_zero.1 hd.symm)

theorem endsKept_cgRepeatStat {E : Collaborators} (hE : E.Lawful) (st st' : CgState)
    (block : LoweredBlock) (e : Expression)
    (hb : ∀ s s', block.run s = .done s' → Lowered s s' ∧ EndsKept s s')
    (h : cgRepeatStat E st block e = .done st') : EndsKept st st' := by
  unfold cgRepeatStat at h
  obtain ⟨s2, hr, h⟩ := Outcome.andThen_done h
  simp only [Outcome.done.injEq] at h
  subst h
  intro hs d0 hd h0
  obtain ⟨e1, hd1⟩ := ends_body d0 hb hr (by simp) (by simp; omega)
    (by simpa using ends_enter h0 hd true)
  simp only [CgState.enterScope_scopes, List.length_cons] at hd1
  have g := (grow_condJump hE s2 e s2.fi.usedRegs (E.lastLineOf e)
    (s2.expToOpArg E e E.ARG_REG).2 0 (E.lastLineOf e)
    (E.getJmpArgA (((s2.expToOpArg E e E.ARG_REG).1.setUsedRegs s2.fi.usedRegs).emitTest
      (E.lastLineOf e) (s2.expToOpArg E e E.ARG_REG).2 0).1.fi)
    ((st.enterScope true).fi.pc - (((s2.expToOpArg E e E.ARG_REG).1.setUsedRegs
      s2.fi.usedRegs).emitTest (E.lastLineOf e) (s2.expToOpArg E e E.ARG_REG).2 0).1.fi.pc
      - 1)).gtrans (grow_closeOpenUpvals E _ (E.lastLineOf e))
  have hsc : ∀ x : CgState, Grow s2 x → x.fi.scopes.length = st.fi.scopes.length + 1 := by
    intro x hx
    have := congrArg List.length hx.1.2
    simp only [FuncInfo.frames, List.length_map] at this
    omega
  refine Ends.raise (ends_exit (e1.grow g) (by rw [hsc _ g]; omega) _ (by simp [FuncInfo.pc])) ?_
  simp

theorem endsKept_cgIfLoop {E : Collaborators} (hE : E.Lawful) (n : Int)
    (blocks : List LoweredBlock)
    (hb : ∀ b ∈ blocks, ∀ s s', b.run s = .done s' → Lowered s s' ∧ EndsKept s s') :
    ∀ (exps : List Expression) (st : CgState) (pj : Int) (ends : List Int) (i : Nat)
      (st' : CgState), (cgIfLoop E n blocks st pj ends i exps).1 = .done st' →
      EndsKept st st' ∧ st'.fi.scopes.length = st.fi.scopes.length
  | [], st, _, _, _, st', h => by
    simp only [cgIfLoop, Outcome.done.injEq] at h
    subst h
    exact ⟨EndsKept.ofGrow (Grow.grefl _), rfl⟩
  | e :: rest, st, pj, ends, i, st', h => by
    rw [cgIfLoop] at h
    dsimp only at h
    have g0 : Grow st (if pj ≥ 0 then st.fixSbx pj (st.fi.pc - pj) else st) := by
      split
      · exact grow_fixSbx _ _ _
      · exact Grow.grefl _
    revert h g0
    generalize (if pj ≥ 0 then st.fixSbx pj (st.fi.pc - pj) else st) = st0
    intro h g0
    have g1 := g0.gtrans (grow_condJump hE st0 e st0.fi.usedRegs (E.lastLineOf e)
      (st0.expToOpArg E e E.ARG_REG).2 0 (E.lastLineOf e) 0 0)
    revert h g1
    generalize ((((st0.expToOpArg E e E.ARG_REG).1.setUsedRegs st0.fi.usedRegs).emitTest
      (E.lastLineOf e) (st0.expToOpArg E e E.ARG_REG).2 0).1.emitJmp (E.lastLineOf e) 0 0) = j
    intro h g1
    have hsj : j.1.fi.scopes.length = st.fi.scopes.length := by
      have := congrArg List.length g1.1.2
      simpa [FuncInfo.frames] using this
    split at h
    · simp at h
    · next block hblk =>
      split at h
      · simp at h
      · next s3 hr =>
        have hbk := hb block (List.getElem?_mem hblk)
        have hd3 : s3.fi.scopes.length = st.fi.scopes.length + 1 := by
          rw [LoweredAt.depth (hbk _ _ hr).1]
          simp [hsj]
        have k5 : EndsKept st ((s3.closeOpenUpvals E block.LastLine).exitScope
            ((s3.closeOpenUpvals E block.LastLine).fi.pc + 1)) := by
          intro hs d0 hd h0
          obtain ⟨e1, _⟩ := ends_body d0 hbk hr (by simp) (by simp; omega)
            (by simpa using ends_enter (h0.grow g1) (by omega) false)
          refine Ends.raise (ends_exit (e1.grow (grow_closeOpenUpvals E s3 block.LastLine))
            (by simp; omega) _ (by simp [FuncInfo.pc])) ?_
          simp
        have d5 : ((s3.closeOpenUpvals E block.LastLine).exitScope
            ((s3.closeOpenUpvals E block.LastLine).fi.pc + 1)).fi.scopes.length
              = st.fi.scopes.length := by
          simp [hd3]
        split at h
        · obtain ⟨r1, r2⟩ := endsKept_cgIfLoop hE n blocks hb rest _ _ _ _ st' h
          simp only [CgState.emitJmp, CgState.emit_scopes] at r2
          refine ⟨(k5.etrans (EndsKept.ofGrow (grow_emit _ (.jmp block.LastLine 0 0)))
            (by simp [hd3])).etrans r1 (by simp [hd3]), by rw [r2, d5]⟩
        · obtain ⟨r1, r2⟩ := endsKept_cgIfLoop hE n blocks hb rest _ _ _ _ st' h
          exact ⟨k5.etrans r1 d5, by rw [r2, d5]⟩

theorem endsKept_cgIfStat {E : Collaborators} (hE : E.Lawful) (st st' : CgState)
    (exps : List Expression) (blocks : List LoweredBlock)
    (hb : ∀ b ∈ blocks, ∀ s s', b.run s = .done s' → Lowered s s' ∧ EndsKept s s')
    (h : cgIfStat E st exps blocks = .done st') : EndsKept st st' := by
  unfold cgIfStat at h
  obtain ⟨s1, hr, h⟩ := Outcome.andThen_done h
  simp only [Outcome.done.injEq] at h
  subst h
  obtain ⟨r1, r2⟩ := endsKept_cgIfLoop hE _ blocks hb exps st (-1) [] 0 s1 hr
  refine r1.etrans (EndsKept.ofGrow ?_) r2
  refine Grow.ofEq ?_ ?_ ?_
  · rw [fixJmpToEnds_fi]
    simp
  · rw [fixJmpToEnds_fi]
    simp
  · rw [fixJmpToEnds_fi]
    simp

theorem endsKept_cgForNumStat {E : Collaborators} (hE : E.Lawful) (st st' : CgState)
    (lineOfFor lineOfDo : Int) (varName : String) (e1 e2 e3 : Expression) (block : LoweredBlock)
    (hb : ∀ s s', block.run s = .done s' → Lowered s s' ∧ EndsKept s s')
    (h : cgForNumStat E st lineOfFor lineOfDo varName e1 e2 e3 block = .done st') :
    EndsKept st st' := by
  unfold cgForNumStat at h
  obtain ⟨s4, hr, h⟩ := Outcome.andThen_done h
  simp only [Outcome.done.injEq] at h
  subst h
  intro hs d0 hd h0
  have eS2 := ends_cgLocalVarDeclStat hE (st.enterScope true) 0
    ["(for index)", "(for limit)", "(for step)"] [e1, e2, e3] (by simp)
    (by simpa using ends_enter h0 hd true)
  have dS2 := LoweredAt.depth (cgLocalVarDeclStat_loweredAt hE (st.enterScope true) 0
    ["(for index)", "(for limit)", "(for step)"] [e1, e2, e3] (Nat.zero_le _))
  simp only [CgState.enterScope_scopes, List.length_cons] at dS2
  revert hr eS2 dS2
  generalize cgLocalVarDeclStat E (st.enterScope true) 0
    ["(for index)", "(for limit)", "(for step)"] [e1, e2, e3] = S2
  intro hr eS2 dS2
  have hs2 : S2.fi.scopes ≠ [] := by
    intro h0
    rw [h0] at dS2
    simp at dS2
  have eS3 := ends_addLocalVariable eS2 hs2 varName (S2.fi.pc + 2)
    (c := (S2.fi.insts.length : Int) + 1) (by simp only [FuncInfo.pc]; omega) (by omega)
  have eP := (eS3.keep (grow_emit (S2.addLocalVariable varName (S2.fi.pc + 2)).1
    (.forPrep lineOfDo ((S2.addLocalVariable varName (S2.fi.pc + 2)).1.fi.usedRegs - 4) 0))).raise
    (c := (((S2.addLocalVariable varName (S2.fi.pc + 2)).1.emit
      (.forPrep lineOfDo ((S2.addLocalVariable varName (S2.fi.pc + 2)).1.fi.usedRegs - 4)
        0)).1.fi.insts.length : Int)) (by simp)
  obtain ⟨e4, hd4⟩ := ends_body d0 hb hr
    (by
      intro h0
      have := CgState.addLocalVariable_scopes_length S2 varName (S2.fi.pc + 2)
      simp only [CgState.emitForPrep, CgState.emit_scopes] at h0
      rw [h0] at this
      simp at this
      omega)
    (by simp; omega) eP
  simp only [CgState.emitForPrep, CgState.emit_scopes, CgState.addLocalVariable_scopes_length]
    at hd4
  have e5 := e4.grow (grow_closeOpenUpvals E s4 block.LastLine)
  refine Ends.raise (ends_fixEndPC (ends_fixEndPC (ends_fixEndPC (ends_exit
    (Ends.keep (Ends.keep (Ends.keep e5 (grow_emit _ _)) (grow_fixSbx _ _ _)) (grow_fixSbx _ _ _))
    ?_ _ ?_) _ _ (by omega)) _ _ (by omega)) _ _ (by omega)) ?_
  · simp
    omega
  · simp [FuncInfo.pc]
  · simp

theorem addLoopVariables_insts : ∀ (names : List String) (st : CgState),
    (addLoopVariables st names).fi.insts = st.fi.insts
  | [], _ => rfl
  | n :: rest, st => by
    simp only [addLoopVariables]
    rw [addLoopVariables_insts rest]
    rfl

theorem endsKept_cgForInStat {E : Collaborators} (hE : E.Lawful) (st st' : CgState)
    (lineOfDo : Int) (nameList : List String) (exps : List Expression) (block : LoweredBlock)
    (hb : ∀ s s', block.run s = .done s' → Lowered s s' ∧ EndsKept s s')
    (h : cgForInStat E st lineOfDo nameList exps block = .done st') : EndsKept st st' := by
  unfold cgForInStat at h
  obtain ⟨s4, hr, h⟩ := Outcome.andThen_done h
  intro hs d0 hd h0
  have eS2 := ends_cgLocalVarDeclStat hE (st.enterScope true) 0
    ["(for generator)", "(for state)", "(for control)"] exps (by simp)
    (by simpa using ends_enter h0 hd true)
  have dS2 := LoweredAt.depth (cgLocalVarDeclStat_loweredAt hE (st.enterScope true) 0
    ["(for generator)", "(for state)", "(for control)"] exps (Nat.zero_le _))
  simp only [CgState.enterScope_scopes, List.length_cons] at dS2
  revert hr h eS2 dS2
  generalize cgLocalVarDeclStat E (st.enterScope true) 0
    ["(for generator)", "(for state)", "(for control)"] exps = S2
  intro hr h eS2 dS2
  have hs2 : S2.fi.scopes ≠ [] := by
    intro h0
    rw [h0] at dS2
    simp at dS2
  have eS3 := ends_addLoopVariables nameList S2 (eS2.raise
    (c := (S2.fi.insts.length : Int) + 1) (by omega)) hs2 (by simp only [FuncInfo.pc]; omega)
  have dS3 := LoweredAt.depth (addLoopVariables_loweredAt 0 nameList S2)
  have lS3 := congrArg List.length (addLoopVariables_insts nameList S2)
  revert hr h eS3 dS3 lS3
  generalize addLoopVariables S2 nameList = S3
  intro hr h eS3 dS3 lS3
  have eJ := (eS3.keep (grow_emit S3 (.jmp lineOfDo 0 0))).raise
    (c := ((S3.emit (.jmp lineOfDo 0 0)).1.fi.insts.length : Int)) (by simp; omega)
  obtain ⟨e4, hd4⟩ := ends_body d0 hb hr
    (by
      intro h0
      simp only [CgState.emitJmp, CgState.emit_scopes] at h0
      rw [h0] at dS3
      simp at dS3
      omega)
    (by simp; omega) eJ
  simp only [CgState.emitJmp, CgState.emit_scopes] at hd4
  have e5 := e4.grow (grow_closeOpenUpvals E s4 block.LastLine)
  cases exps with
  | nil => simp at h
  | cons exp0 rest =>
    simp only [Outcome.done.injEq] at h
    subst h
    refine Ends.raise (ends_fixEndPC (ends_fixEndPC (ends_fixEndPC (ends_exit
      (Ends.keep (Ends.keep (Ends.keep e5 (grow_fixSbx _ _ _)) (grow_emit _ _)) (grow_emit _ _))
      ?_ _ ?_) _ _ (by omega)) _ _ (by omega)) _ _ (by omega)) ?_
    · simp
      omega
    · simp [FuncInfo.pc]
      omega
    · simp

theorem endsKept_closed {E : Collaborators} (hE : E.Lawful)
    (hDef : ∀ fi f a, fi.insts.length + 1 ≤ (E.cgFuncDefExp fi f a).insts.length) :
    E.Closed EndsKept where
  rrefl _ := EndsKept.ofGrow (Grow.grefl _)
  rtrans _ _ _ hab _ h1 h2 := h1.etrans h2 (LoweredAt.depth hab)
  callStat st c := EndsKept.ofGrow (((grow_allocReg st).gtrans
    (Grow.ofAppends (hE.cgFuncCallExp _ c _ 0).1)).gtrans (grow_freeReg _))
  breakStat st line := EndsKept.ofGrow ((grow_emit st _).gtrans (grow_addBreakJmp _ _))
  doStat st st' block hb h := endsKept_cgDoStat E st st' block hb h
  whileStat st st' e block hb h := endsKept_cgWhileStat hE st st' e block hb h
  repeatStat st st' block e hb h := endsKept_cgRepeatStat hE st st' block e hb h
  ifStat st st' exps blocks hb h := endsKept_cgIfStat hE st st' exps blocks hb h
  forNumStat st st' lineOfFor lineOfDo varName e1 e2 e3 block hb h :=
    endsKept_cgForNumStat hE st st' lineOfFor lineOfDo varName e1 e2 e3 block hb h
  forInStat st st' lineOfDo nameList exps block hb h :=
    endsKept_cgForInStat hE st st' lineOfDo nameList exps block hb h
  assignStat st st' lastLine vars exps h := by
    rw [cgAssignStat_body] at h
    obtain ⟨s3, hb, h⟩ := Outcome.andThen_done h
    simp only [Outcome.done.injEq] at h
    subst h
    exact EndsKept.ofGrow ((Grow.ofAppends (appends_assignBody hE st s3 lastLine vars exps hb)).gtrans
      (grow_setUsedRegs _ _))
  localVarDecl st lastLine names exps := fun hs _ _ h0 =>
    ends_cgLocalVarDeclStat hE st lastLine names exps hs h0
  localFuncDef st name f := by
    intro hs d0 _ h0
    have e1 := ends_addLocalVariable h0 hs name (st.fi.pc + 2)
      (c := (st.fi.insts.length : Int) + 1) (by simp only [FuncInfo.pc]; omega) (by omega)
    have ha := (hE.cgFuncDefExp (st.addLocalVariable name (st.fi.pc + 2)).1.fi f
      (st.addLocalVariable name (st.fi.pc + 2)).2).1
    have hl := hDef (st.addLocalVariable name (st.fi.pc + 2)).1.fi f
      (st.addLocalVariable name (st.fi.pc + 2)).2
    refine Ends.same e1 ha.sameLocals ?_
    simp only [cgLocalFuncDefStat, CgState.cgFuncDefExp_fi]
    simp only [CgState.addLocalVariable_insts] at hl
    exact_mod_cast hl

/-- Claim C18: when `cgStat` returns on a statement that it entered with an
open scope and in a state in which every local whose scope is closed (every
entry of the locals table that no open frame lists) has its end-PC at or
after its start-PC, the same holds of the state on return, and so of every
local whose scope was closed during the call: the locals declared in the
bodies, the loop variables and the hidden locals of the for loops.  The
emitter fulfils the contract, and lowering a function definition emits at
least one instruction. -/
theorem closed_locals_end_after_start (E : Collaborators) (hE : E.Lawful)
    (hDef : ∀ fi f a, fi.insts.length + 1 ≤ (E.cgFuncDefExp fi f a).insts.length)
    (s : Statement) (st st' : CgState) (h : cgStat E st s = .done st')
    (hs : st.fi.scopes ≠ []) (hQ : ClosedOk st.fi) : ClosedOk st'.fi := by
  have hk : EndsKept st st' := cgStat_closed hE (endsKept_closed hE hDef) s st st' h
  refine (hk hs st.fi.scopes.length (le_refl _) ⟨hQ, fun l hl => ?_⟩).1
  rw [FuncInfo.frames_length, Nat.sub_self] at hl
  simp at hl

/-- C18 at `for i = e1, e2, e3 do local function f; local a = e4 end` from
the initial state: on return all six locals are closed; the three hidden
locals have start-PC 3 and end-PC 7, `i` has 4 and 6, `f` has 5 and 6, `a`
has 6 and 6. -/
theorem closed_locals_end_after_start_witness :
    (cgStat sampleEmitter initialState sampleForLocals).state.fi.localVars.map
        (fun v => (v.name, v.startPC, v.endPC))
      = [("(for index)", 3, 7), ("(for limit)", 3, 7), ("(for step)", 3, 7), ("i", 4, 6),
         ("f", 5, 6), ("a", 6, 6)] ∧
    (cgStat sampleEmitter initialState sampleForLocals).state.fi.frames = [[]] ∧
    (∀ fi f a, fi.insts.length + 1 ≤ (sampleEmitter.cgFuncDefExp fi f a).insts.length) ∧
    initialState.fi.scopes ≠ [] ∧ ClosedOk initialState.fi ∧
    ClosedOk (cgStat sampleEmitter initialState sampleForLocals).state.fi :=
  ⟨by decide, by decide, fun fi f a => by simp [sampleEmitter, FuncInfo.emit], by decide,
   fun i v hv _ => by simp [initialState] at hv,
   closed_locals_end_after_start sampleEmitter sampleEmitter_lawful
    (fun fi f a => by simp [sampleEmitter, FuncInfo.emit]) sampleForLocals initialState
    (cgStat sampleEmitter initialState sampleForLocals).state rfl (by decide)
    (fun i v hv _ => by simp [initialState] at hv)⟩

/-! ### Every statement leaves the instructions before it alone -/

theorem KeepsBelow.brefl (lo : Nat) (st : CgState) : KeepsBelow lo st st :=
  ⟨le_refl _, fun _ _ _ => rfl⟩

theorem KeepsBelow.btrans {lo : Nat} {a b c : CgState} (h1 : KeepsBelow lo a b)
    (h2 : KeepsBelow lo b c) : KeepsBelow lo a c :=
  ⟨le_trans h1.1 h2.1, fun k hk hka => by
    rw [h2.2 k hk (lt_of_lt_of_le hka h1.1), h1.2 k hk hka]⟩

theorem KeepsBelow.fromAppends (lo : Nat) {a b : CgState} (h : Appends a.fi b.fi) :
    KeepsBelow lo a b := by
  obtain ⟨_, _, ext, he⟩ := h
  refine ⟨by rw [he]; simp, fun k _ hka => ?_⟩
  rw [he, List.getElem?_append_left hka]

theorem KeepsBelow.fromEq (lo : Nat) {a b : CgState} (h : b.fi.insts = a.fi.insts) :
    KeepsBelow lo a b := ⟨by rw [h], fun k _ _ => by rw [h]⟩

theorem Kept.start {d0 lo : Nat} {st : CgState} (h : BreaksFrom d0 lo st.fi) : Kept d0 lo st st :=
  ⟨h, KeepsBelow.brefl lo st⟩

/-- A step that leaves the lists of break jumps alone and keeps the
instructions below `lo`. -/
theorem Kept.step {d0 lo : Nat} {st a b : CgState} (h : Kept d0 lo st a)
    (hs : b.fi.scopes.map Scope.breaks = a.fi.scopes.map Scope.breaks)
    (hk : KeepsBelow lo a b) : Kept d0 lo st b := by
  refine ⟨fun l hl pc hpc => ?_, h.2.btrans hk⟩
  have hlen : b.fi.scopes.length = a.fi.scopes.length := by
    have := congrArg List.length hs
    simpa using this
  rw [hs, hlen] at hl
  exact h.1 l hl pc hpc

theorem Kept.thenAppends {d0 lo : Nat} {st a b : CgState} (h : Kept d0 lo st a)
    (ha : Appends a.fi b.fi) : Kept d0 lo st b :=
  h.step (by rw [ha.1]) (KeepsBelow.fromAppends lo ha)

theorem Kept.thenEmit {d0 lo : Nat} {st a : CgState} (h : Kept d0 lo st a) (ins : Instruction) :
    Kept d0 lo st (a.emit ins).1 := h.thenAppends (appends_emit a.fi ins)

theorem Kept.thenSetUsedRegs {d0 lo : Nat} {st a : CgState} (h : Kept d0 lo st a) (r : Int) :
    Kept d0 lo st (a.setUsedRegs r) := h.step rfl (KeepsBelow.fromEq lo rfl)

theorem Kept.thenCloseOpenUpvals {d0 lo : Nat} {st a : CgState} (h : Kept d0 lo st a)
    (E : Collaborators) (line : Int) : Kept d0 lo st (a.closeOpenUpvals E line) := by
  unfold CgState.closeOpenUpvals
  split
  · exact h.thenEmit _
  · exact h

theorem Kept.thenFixEndPC {d0 lo : Nat} {st a : CgState} (h : Kept d0 lo st a) (name : String)
    (delta : Int) : Kept d0 lo st (a.fixEndPC name delta) :=
  h.step (by simp) (KeepsBelow.fromEq lo (by simp))

/-- Patching an instruction at or after `lo`. -/
theorem Kept.thenFixSbx {d0 lo : Nat} {st a : CgState} (h : Kept d0 lo st a) (pc s : Int)
    (hpc : (lo : Int) ≤ pc) : Kept d0 lo st (a.fixSbx pc s) := by
  refine h.step (by simp) ⟨by simp, fun k hk _ => ?_⟩
  simp only [CgState.fixSbx, CgState.onFi_fi, FuncInfo.fixSbx_getElem?]
  rw [if_neg]
  omega

theorem Kept.addLocalVariable {d0 lo : Nat} {st a : CgState} (h : Kept d0 lo st a)
    (name : String) (p : Int) : Kept d0 lo st (a.addLocalVariable name p).1 := by
  refine h.step ?_ (KeepsBelow.fromEq lo rfl)
  cases hs : a.fi.scopes with
  | nil => rw [CgState.addLocalVariable_scopes_nil _ _ _ hs]
  | cons f rest => rw [CgState.addLocalVariable_scopes_cons _ _ _ f rest hs]; rfl

theorem Kept.thenEnter {d0 lo : Nat} {st a : CgState} (h : Kept d0 lo st a)
    (hd : d0 ≤ a.fi.scopes.length) (br : Bool) : Kept d0 lo st (a.enterScope br) := by
  refine ⟨fun l hl pc hpc => ?_, h.2.btrans (KeepsBelow.fromEq lo rfl)⟩
  have hlen : (a.enterScope br).fi.scopes.length - d0 = (a.fi.scopes.length - d0) + 1 := by
    simp only [CgState.enterScope_scopes, List.length_cons]
    omega
  rw [hlen] at hl
  simp only [CgState.enterScope_scopes, List.map_cons, List.take_succ_cons, List.mem_cons] at hl
  rcases hl with hl | hl
  · subst hl
    cases hpc
  · exact h.1 l hl pc hpc

/-- Leaving the innermost frame, one of those counted from `d0`: only break
jumps it has collected are patched. -/
theorem Kept.thenExit {d0 lo : Nat} {st a : CgState} (h : Kept d0 lo st a)
    (hd : d0 < a.fi.scopes.length) (e : Int) : Kept d0 lo st (a.exitScope e) := by
  cases hsc : a.fi.scopes with
  | nil => rw [hsc] at hd; simp at hd
  | cons f rest =>
    have h1 := h.1
    unfold BreaksFrom at h1
    have hk : a.fi.scopes.length - d0 = (rest.length - d0) + 1 := by
      rw [hsc] at hd ⊢
      simp only [List.length_cons] at hd ⊢
      omega
    rw [hk, hsc] at h1
    simp only [List.map_cons, List.take_succ_cons, List.mem_cons] at h1
    refine ⟨fun l hl pc hpc => ?_, h.2.btrans ⟨by simp, fun k hk1 _ => ?_⟩⟩
    · simp only [CgState.st_exitScope_scopes, hsc, List.tail_cons] at hl
      exact h1 l (Or.inr hl) pc hpc
    · simp only [CgState.exitScope, CgState.onFi_fi]
      rw [FuncInfo.exitScope_getElem? a.fi e f rest hsc k, if_neg]
      rintro ⟨_, hm⟩
      have := h1 f.breaks (Or.inl rfl) _ hm
      omega

theorem addBreak_breaks (pc : Int) : ∀ (sc : List Scope) (n : Nat),
    ∀ l ∈ ((FuncInfo.addBreak pc sc).map Scope.breaks).take n, ∀ x ∈ l,
      x = pc ∨ ∃ l0 ∈ (sc.map Scope.breaks).take n, x ∈ l0
  | [], _, l, hl, _, _ => by simp [FuncInfo.addBreak] at hl
  | s :: rest, 0, l, hl, _, _ => by simp at hl
  | s :: rest, n + 1, l, hl, x, hx => by
    simp only [FuncInfo.addBreak] at hl
    split at hl
    · simp only [List.map_cons, List.take_succ_cons, List.mem_cons] at hl
      rcases hl with hl | hl
      · subst hl
        rcases List.mem_append.1 hx with hx | hx
        · exact Or.inr ⟨s.breaks, by simp, hx⟩
        · simp only [List.mem_singleton] at hx
          exact Or.inl hx
      · exact Or.inr ⟨l, by simp [hl], hx⟩
    · simp only [List.map_cons, List.take_succ_cons, List.mem_cons] at hl
      rcases hl with hl | hl
      · subst hl
        exact Or.inr ⟨s.breaks, by simp, hx⟩
      · rcases addBreak_breaks pc rest n l hl x hx with h | ⟨l0, h1, h2⟩
        · exact Or.inl h
        · exact Or.inr ⟨l0, by simp [h1], h2⟩

theorem addBreak_length (pc : Int) : ∀ sc : List Scope,
    (FuncInfo.addBreak pc sc).length = sc.length
  | [] => rfl
  | s :: rest => by
    simp only [FuncInfo.addBreak]
    split
    · rfl
    · simp [addBreak_length pc rest]

/-- Recording a break jump at or after `lo`. -/
theorem Kept.addBreakJmp {d0 lo : Nat} {st a : CgState} (h : Kept d0 lo st a) (pc : Int)
    (hpc : (lo : Int) ≤ pc) : Kept d0 lo st (a.addBreakJmp pc) := by
  refine ⟨fun l hl x hx => ?_, h.2.btrans (KeepsBelow.fromEq lo rfl)⟩
  simp only [CgState.addBreakJmp, FuncInfo.addBreakJmp, addBreak_length] at hl
  rcases addBreak_breaks pc a.fi.scopes _ l hl x hx with hx | ⟨l0, h1, h2⟩
  · rw [hx]
    exact hpc
  · exact h.1 l0 h1 x h2

theorem Kept.thenBody {d0 lo : Nat} {st a b : CgState} (h : Kept d0 lo st a) (hk : Keeps a b)
    (hd : d0 ≤ a.fi.scopes.length) (hlo : lo ≤ st.fi.insts.length) : Kept d0 lo st b := by
  have h2 := hk d0 lo hd (le_trans hlo h.2.1) h.1
  exact ⟨h2.1, h.2.btrans h2.2⟩

theorem Kept.thenAllocReg {d0 lo : Nat} {st a : CgState} (h : Kept d0 lo st a) :
    Kept d0 lo st a.allocReg.1 := h.step rfl (KeepsBelow.fromEq lo rfl)

/-- The lowering of a condition: `expToOpArg`, the reset, the test and the
jump. -/
theorem Kept.condJump {d0 lo : Nat} {st a : CgState} (h : Kept d0 lo st a) {E : Collaborators}
    (hE : E.Lawful) (e : Expression) (r line x c l2 a2 s2 : Int) :
    Kept d0 lo st ((((a.expToOpArg E e E.ARG_REG).1.setUsedRegs r).emitTest line x c).1.emitJmp
      l2 a2 s2).1 :=
  (((h.thenAppends (b := (a.expToOpArg E e E.ARG_REG).1) (hE.expToOpArg a.fi e _)).thenSetUsedRegs
    r).thenEmit _).thenEmit _

theorem kept_addLocalVariables {d0 lo : Nat} {st : CgState} :
    ∀ (names : List String) (a : CgState) (p : Int), Kept d0 lo st a →
      Kept d0 lo st (addLocalVariables a p names)
  | [], _, _, h => h
  | n :: rest, a, p, h => by
    simp only [addLocalVariables]
    exact kept_addLocalVariables rest _ p (h.addLocalVariable n p)

theorem kept_addLoopVariables {d0 lo : Nat} {st : CgState} :
    ∀ (names : List String) (a : CgState), Kept d0 lo st a →
      Kept d0 lo st (addLoopVariables a names)
  | [], _, h => h
  | n :: rest, a, h => by
    simp only [addLoopVariables]
    exact kept_addLoopVariables rest _ (h.addLocalVariable n _)

theorem Kept.localVarDecl {d0 lo : Nat} {st a : CgState} (h : Kept d0 lo st a)
    {E : Collaborators} (hE : E.Lawful) (lastLine : Int) (nameList : List String)
    (expressionList : List Expression) :
    Kept d0 lo st (cgLocalVarDeclStat E a lastLine nameList expressionList) := by
  obtain ⟨s1, ha, heq⟩ := cgLocalVarDeclStat_parts hE a lastLine nameList expressionList
  rw [heq]
  exact kept_addLocalVariables nameList _ _ ((h.thenAppends ha).thenSetUsedRegs _)

theorem kept_fixJmpToEnds {d0 lo : Nat} {st : CgState} :
    ∀ (ends : List Int) (a : CgState), Kept d0 lo st a → (∀ pc ∈ ends, (lo : Int) ≤ pc) →
      Kept d0 lo st (fixJmpToEnds a ends)
  | [], _, h, _ => h
  | pc :: rest, a, h, hp => by
    simp only [fixJmpToEnds]
    exact kept_fixJmpToEnds rest _ (h.thenFixSbx pc _ (hp pc (List.mem_cons_self _ _)))
      fun x hx => hp x (List.mem_cons_of_mem _ hx)

theorem keeps_cgDoStat (E : Collaborators) (st st' : CgState) (block : LoweredBlock)
    (hb : ∀ s s', block.run s = .done s' → Lowered s s' ∧ Keeps s s')
    (h : cgDoStat E st block = .done st') : Keeps st st' := by
  unfold cgDoStat at h
  obtain ⟨s1, hr, h⟩ := Outcome.andThen_done h
  simp only [Outcome.done.injEq] at h
  subst h
  intro d0 lo hd hlo hB
  have hd1 := LoweredAt.depth (hb _ _ hr).1
  simp only [CgState.enterScope_scopes, List.length_cons] at hd1
  exact ((((Kept.start hB).thenEnter hd false).thenBody (hb _ _ hr).2 (by simp; omega)
    hlo).thenCloseOpenUpvals E block.LastLine).thenExit (by simp; omega) _

theorem keeps_cgWhileStat {E : Collaborators} (hE : E.Lawful) (st st' : CgState)
    (e : Expression) (block : LoweredBlock)
    (hb : ∀ s s', block.run s = .done s' → Lowered s s' ∧ Keeps s s')
    (h : cgWhileStat E st e block = .done st') : Keeps st st' := by
  unfold cgWhileStat at h
  obtain ⟨s3, hr, h⟩ := Outcome.andThen_done h
  simp only [Outcome.done.injEq] at h
  subst h
  intro d0 lo hd hlo hB
  have k1 := ((Kept.start hB).thenAppends (b := (st.expToOpArg E e E.ARG_REG).1)
    (hE.expToOpArg st.fi e _)).thenSetUsedRegs st.fi.usedRegs
  have k2 := k1.thenEmit (.test (E.lastLineOf e) (st.expToOpArg E e E.ARG_REG).2 0)
  have l2 := k2.2.1
  have k3 := k2.thenEmit (.jmp (E.lastLineOf e) 0 0)
  have hd3 : ((((st.expToOpArg E e E.ARG_REG).1.setUsedRegs st.fi.usedRegs).emit
      (.test (E.lastLineOf e) (st.expToOpArg E e E.ARG_REG).2 0)).1.emit
      (.jmp (E.lastLineOf e) 0 0)).1.fi.scopes.length = st.fi.scopes.length := by
    simp [hE.expToOpArg_scopes]
  have hd1 := LoweredAt.depth (hb _ _ hr).1
  simp only [CgState.enterScope_scopes, List.length_cons, CgState.emitJmp, CgState.emitTest,
    hd3] at hd1
  have k4 := (k3.thenEnter (by omega) true).thenBody (hb _ _ hr).2
    (by simp [hE.expToOpArg_scopes]; omega)
    hlo
  exact ((((k4.thenCloseOpenUpvals E block.LastLine).thenEmit _).thenExit
    (by simp; omega) _).thenFixSbx _ _
    (by simp only [CgState.emitJmp, CgState.emitTest, CgState.emit_snd]; omega))

theorem keeps_cgRepeatStat {E : Collaborators} (hE : E.Lawful) (st st' : CgState)
    (block : LoweredBlock) (e : Expression)
    (hb : ∀ s s', block.run s = .done s' → Lowered s s' ∧ Keeps s s')
    (h : cgRepeatStat E st block e = .done st') : Keeps st st' := by
  unfold cgRepeatStat at h
  obtain ⟨s2, hr, h⟩ := Outcome.andThen_done h
  simp only [Outcome.done.injEq] at h
  subst h
  intro d0 lo hd hlo hB
  have hd1 := LoweredAt.depth (hb _ _ hr).1
  simp only [CgState.enterScope_scopes, List.length_cons] at hd1
  have k1 := ((Kept.start hB).thenEnter hd true).thenBody (hb _ _ hr).2 (by simp; omega) hlo
  exact ((k1.condJump hE e _ _ _ _ _ _ _).thenCloseOpenUpvals E _).thenExit
    (by simp [hE.expToOpArg_scopes]; omega) _

/-- The first loop of `cgIfStat` keeps the instructions below `lo` when the
pending false-jump, if any, lies at `lo` or above; the jump-to-end entries it
adds lie at `lo` or above as well. -/
theorem keeps_cgIfLoop {E : Collaborators} (hE : E.Lawful) (n : Int)
    (blocks : List LoweredBlock)
    (hb : ∀ b ∈ blocks, ∀ s s', b.run s = .done s' → Lowered s s' ∧ Keeps s s')
    (d0 lo : Nat) (st : CgState) (hlo : lo ≤ st.fi.insts.length) :
    ∀ (exps : List Expression) (a : CgState) (pj : Int) (ends : List Int) (i : Nat)
      (st' : CgState), Kept d0 lo st a → d0 ≤ a.fi.scopes.length → (0 ≤ pj → (lo : Int) ≤ pj) →
      (cgIfLoop E n blocks a pj ends i exps).1 = .done st' →
      Kept d0 lo st st' ∧ ((∀ pc ∈ ends, (lo : Int) ≤ pc) →
        ∀ pc ∈ (cgIfLoop E n blocks a pj ends i exps).2, (lo : Int) ≤ pc)
  | [], a, _, _, _, st', k, _, _, h => by
    simp only [cgIfLoop, Outcome.done.injEq] at h
    subst h
    exact ⟨k, fun he => he⟩
  | e :: rest, a, pj, ends, i, st', k, hd, hp, h => by
    rw [cgIfLoop] at h ⊢
    dsimp only at h ⊢
    have k0 : Kept d0 lo st (if pj ≥ 0 then a.fixSbx pj (a.fi.pc - pj) else a) := by
      split
      · next hc => exact k.thenFixSbx _ _ (hp hc)
      · exact k
    have d0a : (if pj ≥ 0 then a.fixSbx pj (a.fi.pc - pj) else a).fi.scopes.length
        = a.fi.scopes.length := by
      split <;> simp
    revert h k0 d0a
    generalize (if pj ≥ 0 then a.fixSbx pj (a.fi.pc - pj) else a) = st0
    intro h k0 d0a
    have k2 := ((k0.thenAppends (b := (st0.expToOpArg E e E.ARG_REG).1)
      (hE.expToOpArg st0.fi e _)).thenSetUsedRegs st0.fi.usedRegs).thenEmit
      (.test (E.lastLineOf e) (st0.expToOpArg E e E.ARG_REG).2 0)
    have l2 := k2.2.1
    have kj := k2.thenEmit (.jmp (E.lastLineOf e) 0 0)
    have hj2 : (lo : Int) ≤ ((((st0.expToOpArg E e E.ARG_REG).1.setUsedRegs
        st0.fi.usedRegs).emitTest (E.lastLineOf e) (st0.expToOpArg E e E.ARG_REG).2 0).1.emitJmp
        (E.lastLineOf e) 0 0).2 := by
      simp only [CgState.emitJmp, CgState.emitTest, CgState.emit_snd]
      omega
    have dj : ((((st0.expToOpArg E e E.ARG_REG).1.setUsedRegs
        st0.fi.usedRegs).emitTest (E.lastLineOf e) (st0.expToOpArg E e E.ARG_REG).2 0).1.emitJmp
        (E.lastLineOf e) 0 0).1.fi.scopes.length = a.fi.scopes.length := by
      simp [hE.expToOpArg_scopes, d0a]
    change Kept d0 lo st ((((st0.expToOpArg E e E.ARG_REG).1.setUsedRegs
        st0.fi.usedRegs).emitTest (E.lastLineOf e) (st0.expToOpArg E e E.ARG_REG).2 0).1.emitJmp
        (E.lastLineOf e) 0 0).1 at kj
    revert h kj hj2 dj
    generalize ((((st0.expToOpArg E e E.ARG_REG).1.setUsedRegs st0.fi.usedRegs).emitTest
      (E.lastLineOf e) (st0.expToOpArg E e E.ARG_REG).2 0).1.emitJmp (E.lastLineOf e) 0 0) = j
    intro h hj2 dj kj
    split at h
    · simp at h
    · next block hblk =>
      split at h
      · simp at h
      · next s3 hr =>
        have hbk := hb block (List.getElem?_mem hblk)
        have hd3 : s3.fi.scopes.length = a.fi.scopes.length + 1 := by
          rw [LoweredAt.depth (hbk _ _ hr).1]
          simp [dj]
        have k5 : Kept d0 lo st ((s3.closeOpenUpvals E block.LastLine).exitScope
            ((s3.closeOpenUpvals E block.LastLine).fi.pc + 1)) :=
          (((kj.thenEnter (by omega) false).thenBody (hbk _ _ hr).2 (by simp; omega)
            hlo).thenCloseOpenUpvals E block.LastLine).thenExit (by simp; omega) _
        have d5 : ((s3.closeOpenUpvals E block.LastLine).exitScope
            ((s3.closeOpenUpvals E block.LastLine).fi.pc + 1)).fi.scopes.length
              = a.fi.scopes.length := by
          simp [hd3]
        have l5 := k5.2.1
        split at h
        · next hc =>
          rw [if_pos hc]
          obtain ⟨r1, r2⟩ := keeps_cgIfLoop hE n blocks hb d0 lo st hlo rest _ _ _ _ st'
            (k5.thenEmit (.jmp block.LastLine 0 0)) (by simp [hd3]; omega) (fun _ => hj2) h
          refine ⟨r1, fun he => r2 ?_⟩
          intro pc hpc
          rcases List.mem_append.1 hpc with h1 | h1
          · exact he pc h1
          · simp only [List.mem_singleton] at h1
            subst h1
            simp only [CgState.emitJmp, CgState.emit_snd]
            omega
        · next hc =>
          rw [if_neg hc]
          obtain ⟨r1, r2⟩ := keeps_cgIfLoop hE n blocks hb d0 lo st hlo rest _ _ _ _ st'
            k5 (by omega) (fun _ => hj2) h
          refine ⟨r1, fun he => r2 ?_⟩
          intro pc hpc
          rcases List.mem_append.1 hpc with h1 | h1
          · exact he pc h1
          · simp only [List.mem_singleton] at h1
            subst h1
            exact hj2

theorem keeps_cgIfStat {E : Collaborators} (hE : E.Lawful) (st st' : CgState)
    (exps : List Expression) (blocks : List LoweredBlock)
    (hb : ∀ b ∈ blocks, ∀ s s', b.run s = .done s' → Lowered s s' ∧ Keeps s s')
    (h : cgIfStat E st exps blocks = .done st') : Keeps st st' := by
  unfold cgIfStat at h
  obtain ⟨s1, hr, h⟩ := Outcome.andThen_done h
  simp only [Outcome.done.injEq] at h
  subst h
  intro d0 lo hd hlo hB
  obtain ⟨r1, r2⟩ := keeps_cgIfLoop hE _ blocks hb d0 lo st hlo exps st (-1) [] 0 s1
    (Kept.start hB) hd (by omega) hr
  exact kept_fixJmpToEnds _ _ r1 (r2 (by simp))

theorem keeps_cgForNumStat {E : Collaborators} (hE : E.Lawful) (st st' : CgState)
    (lineOfFor lineOfDo : Int) (varName : String) (e1 e2 e3 : Expression) (block : LoweredBlock)
    (hb : ∀ s s', block.run s = .done s' → Lowered s s' ∧ Keeps s s')
    (h : cgForNumStat E st lineOfFor lineOfDo varName e1 e2 e3 block = .done st') :
    Keeps st st' := by
  unfold cgForNumStat at h
  obtain ⟨s4, hr, h⟩ := Outcome.andThen_done h
  simp only [Outcome.done.injEq] at h
  subst h
  intro d0 lo hd hlo hB
  have kS2 := ((Kept.start hB).thenEnter hd true).localVarDecl hE 0
    ["(for index)", "(for limit)", "(for step)"] [e1, e2, e3]
  have dS2 := LoweredAt.depth (cgLocalVarDeclStat_loweredAt hE (st.enterScope true) 0
    ["(for index)", "(for limit)", "(for step)"] [e1, e2, e3] (Nat.zero_le _))
  simp only [CgState.enterScope_scopes, List.length_cons] at dS2
  revert hr kS2 dS2
  generalize cgLocalVarDeclStat E (st.enterScope true) 0
    ["(for index)", "(for limit)", "(for step)"] [e1, e2, e3] = S2
  intro hr kS2 dS2
  have kS3 := kS2.addLocalVariable varName (S2.fi.pc + 2)
  have l3 := kS3.2.1
  have kP := kS3.thenEmit (.forPrep lineOfDo ((S2.addLocalVariable varName
    (S2.fi.pc + 2)).1.fi.usedRegs - 4) 0)
  have hd4 := LoweredAt.depth (hb _ _ hr).1
  simp only [CgState.emitForPrep, CgState.emit_scopes, CgState.addLocalVariable_scopes_length]
    at hd4
  have k4 := kP.thenBody (hb _ _ hr).2
    (by simp only [CgState.emit_scopes, CgState.addLocalVariable_scopes_length]; omega) hlo
  have k5 := (k4.thenCloseOpenUpvals E block.LastLine).thenEmit (.forLoop lineOfFor
    ((S2.addLocalVariable varName (S2.fi.pc + 2)).1.fi.usedRegs - 4) 0)
  have l4 := (k4.thenCloseOpenUpvals E block.LastLine).2.1
  refine Kept.thenFixEndPC (Kept.thenFixEndPC (Kept.thenFixEndPC (Kept.thenExit
    (Kept.thenFixSbx (Kept.thenFixSbx k5 _ _
    ?_) _ _ ?_) ?_ _) _ _) _ _) _ _
  · simp only [CgState.emitForPrep, CgState.emit_snd]
    omega
  · simp only [CgState.emitForLoop, CgState.emit_snd]
    omega
  · simp
    omega

theorem keeps_cgForInStat {E : Collaborators} (hE : E.Lawful) (st st' : CgState)
    (lineOfDo : Int) (nameList : List String) (exps : List Expression) (block : LoweredBlock)
    (hb : ∀ s s', block.run s = .done s' → Lowered s s' ∧ Keeps s s')
    (h : cgForInStat E st lineOfDo nameList exps block = .done st') : Keeps st st' := by
  unfold cgForInStat at h
  obtain ⟨s4, hr, h⟩ := Outcome.andThen_done h
  intro d0 lo hd hlo hB
  have kS2 := ((Kept.start hB).thenEnter hd true).localVarDecl hE 0
    ["(for generator)", "(for state)", "(for control)"] exps
  have dS2 := LoweredAt.depth (cgLocalVarDeclStat_loweredAt hE (st.enterScope true) 0
    ["(for generator)", "(for state)", "(for control)"] exps (Nat.zero_le _))
  simp only [CgState.enterScope_scopes, List.length_cons] at dS2
  revert hr h kS2 dS2
  generalize cgLocalVarDeclStat E (st.enterScope true) 0
    ["(for generator)", "(for state)", "(for control)"] exps = S2
  intro hr h kS2 dS2
  have kS3 := kept_addLoopVariables nameList S2 kS2
  have dS3 := LoweredAt.depth (addLoopVariables_loweredAt 0 nameList S2)
  revert hr h kS3 dS3
  generalize addLoopVariables S2 nameList = S3
  intro hr h kS3 dS3
  have l3 := kS3.2.1
  have kJ := kS3.thenEmit (.jmp lineOfDo 0 0)
  have hd4 := LoweredAt.depth (hb _ _ hr).1
  simp only [CgState.emitJmp, CgState.emit_scopes] at hd4
  have k4 := kJ.thenBody (hb _ _ hr).2 (by simp only [CgState.emit_scopes]; omega) hlo
  cases exps with
  | nil => simp at h
  | cons exp0 rest =>
    simp only [Outcome.done.injEq] at h
    subst h
    refine Kept.thenFixEndPC (Kept.thenFixEndPC (Kept.thenFixEndPC (Kept.thenExit
      (Kept.thenEmit (Kept.thenEmit
      (Kept.thenFixSbx (k4.thenCloseOpenUpvals E block.LastLine) _ _ ?_) _) _) ?_ _) _ _) _ _) _ _
    · simp only [CgState.emitJmp, CgState.emit_snd]
      omega
    · simp
      omega

theorem keeps_closed {E : Collaborators} (hE : E.Lawful) : E.Closed Keeps where
  rrefl _ := fun _ _ _ _ hB => Kept.start hB
  rtrans _ _ _ hab _ h1 h2 := fun d0 lo hd hlo hB =>
    (h1 d0 lo hd hlo hB).thenBody h2 (by rw [LoweredAt.depth hab]; exact hd) hlo
  callStat st c := fun _ _ _ _ hB =>
    ((Kept.start hB).thenAllocReg.thenAppends (b := st.allocReg.1.cgFuncCallExp E c st.allocReg.2 0)
      (hE.cgFuncCallExp _ c _ 0).1).step rfl (KeepsBelow.fromEq _ rfl)
  breakStat st line := fun _ _ _ hlo hB =>
    ((Kept.start hB).thenEmit (.jmp line 0 0)).addBreakJmp _
      (by simp only [CgState.emitJmp, CgState.emit_snd]; omega)
  doStat st st' block hb h := keeps_cgDoStat E st st' block hb h
  whileStat st st' e block hb h := keeps_cgWhileStat hE st st' e block hb h
  repeatStat st st' block e hb h := keeps_cgRepeatStat hE st st' block e hb h
  ifStat st st' exps blocks hb h := keeps_cgIfStat hE st st' exps blocks hb h
  forNumStat st st' lineOfFor lineOfDo varName e1 e2 e3 block hb h :=
    keeps_cgForNumStat hE st st' lineOfFor lineOfDo varName e1 e2 e3 block hb h
  forInStat st st' lineOfDo nameList exps block hb h :=
    keeps_cgForInStat hE st st' lineOfDo nameList exps block hb h
  assignStat st st' lastLine vars exps h := by
    rw [cgAssignStat_body] at h
    obtain ⟨s3, hb, h⟩ := Outcome.andThen_done h
    simp only [Outcome.done.injEq] at h
    subst h
    intro d0 lo hd hlo hB
    exact ((Kept.start hB).thenAppends
      (appends_assignBody hE st s3 lastLine vars exps hb)).thenSetUsedRegs _
  localVarDecl st lastLine names exps := fun _ _ _ _ hB =>
    (Kept.start hB).localVarDecl hE lastLine names exps
  localFuncDef st name f := fun _ _ _ _ hB =>
    ((Kept.start hB).addLocalVariable name (st.fi.pc + 2)).thenAppends
      (b := (st.addLocalVariable name (st.fi.pc + 2)).1.cgFuncDefExp E f
        (st.addLocalVariable name (st.fi.pc + 2)).2) (hE.cgFuncDefExp _ f _).1

theorem BreaksFrom.top (lo : Nat) (fi : FuncInfo) : BreaksFrom fi.scopes.length lo fi := by
  intro l hl
  simp at hl

theorem ownConds_append (d : Nat) (a b : List Event) :
    ownConds d (a ++ b) = ownConds d a ++ ownConds d b := by
  simp [ownConds, List.filterMap_append]

theorem Step.ownConds_below {d d2 : Nat} {new : List Event} {st st2 : CgState}
    (h : Step d new st st2) (hd : d2 < d) : ownConds d2 new = [] := by
  rw [ownConds, List.filterMap_eq_nil_iff]
  intro ev hev
  obtain ⟨h1, _⟩ := h.events ev hev
  unfold Event.ownCond
  split
  · rw [if_neg (by omega)]
  · rfl

/-- An iteration of the first loop of `cgIfStat` that finds a pending
false-jump is the iteration without one run after the patch of source
line 125. -/
theorem cgIfLoop_pending (E : Collaborators) (n : Int) (blocks : List LoweredBlock)
    (st : CgState) (pj : Int) (ends : List Int) (i : Nat) (e : Expression)
    (rest : List Expression) :
    cgIfLoop E n blocks st pj ends i (e :: rest)
      = cgIfLoop E n blocks (if pj ≥ 0 then st.fixSbx pj (st.fi.pc - pj) else st) (-1) ends i
        (e :: rest) := by
  rw [cgIfLoop, cgIfLoop]
  simp only [show ¬ ((-1 : Int) ≥ 0) by decide, if_false]

/-- The pending false-jump is patched by the next iteration to the offset
`pc() - PC`, and nothing later touches it. -/
theorem cgIfLoop_patches {E : Collaborators} (hE : E.Lawful) (n : Int)
    (blocks : List LoweredBlock)
    (hb : ∀ b ∈ blocks, ∀ s s', b.run s = .done s' → Lowered s s' ∧ Keeps s s')
    (a : CgState) (pj : Int) (ends : List Int) (i : Nat) (e : Expression)
    (rest : List Expression) (s1 : CgState)
    (h : (cgIfLoop E n blocks a pj ends i (e :: rest)).1 = .done s1)
    (k : Nat) (l o : Int) (hk : pj = (k : Int)) (hi : a.fi.insts[k]? = some (.jmp l 0 o)) :
    s1.fi.insts[k]? = some (.jmp l 0 ((a.fi.insts.length : Int) - 1 - k)) := by
  rw [cgIfLoop_pending, if_pos (by omega)] at h
  have hlt : k < a.fi.insts.length := by
    by_contra hc
    rw [List.getElem?_eq_none (by omega)] at hi
    cases hi
  obtain ⟨r1, _⟩ := keeps_cgIfLoop hE n blocks hb (a.fixSbx pj (a.fi.pc - pj)).fi.scopes.length
    a.fi.insts.length (a.fixSbx pj (a.fi.pc - pj)) (by simp) (e :: rest) _ (-1) ends i s1
    (Kept.start (BreaksFrom.top _ _)) (le_refl _) (by omega) h
  rw [r1.2.2 k hlt (by simpa using hlt)]
  simp only [CgState.fixSbx, CgState.onFi_fi, FuncInfo.fixSbx_getElem?]
  rw [if_pos hk, hi]
  simp only [Option.map_some', Instruction.setSBx, FuncInfo.pc, hk]

/-- One branch of the if chain, entered without a pending false-jump: the
condition starts at the buffer length on entry; the routine itself emits
the test at some PC `p` and the false-jump at `p + 1`, nothing else at its
depth; when the scope of the block is left the false-jump is in the buffer
as emitted and the scope depth is as on entry. -/
theorem ifBranch {E : Collaborators} (hE : E.Lawful) (st0 : CgState) (e : Expression)
    (block : LoweredBlock)
    (hb : ∀ s s', block.run s = .done s' → Lowered s s' ∧ Keeps s s') (s3 : CgState)
    (hr : block.run (((((st0.expToOpArg E e E.ARG_REG).1.setUsedRegs st0.fi.usedRegs).emit
      (.test (E.lastLineOf e) (st0.expToOpArg E e E.ARG_REG).2 0)).1.emit
      (.jmp (E.lastLineOf e) 0 0)).1.enterScope false) = .done s3) :
    ∃ (p : Nat) (seg : List Event),
      ((((st0.expToOpArg E e E.ARG_REG).1.setUsedRegs st0.fi.usedRegs).emit
        (.test (E.lastLineOf e) (st0.expToOpArg E e E.ARG_REG).2 0)).1.emit
        (.jmp (E.lastLineOf e) 0 0)).2 = ((p + 1 : Nat) : Int) ∧
      st0.fi.insts.length ≤ p ∧
      ((s3.closeOpenUpvals E block.LastLine).exitScope
        ((s3.closeOpenUpvals E block.LastLine).fi.pc + 1)).trace = st0.trace ++ seg ∧
      ownEmits st0.fi.scopes.length seg
        = [(p, .test (E.lastLineOf e) (st0.expToOpArg E e E.ARG_REG).2 0),
           (p + 1, .jmp (E.lastLineOf e) 0 0)] ∧
      ownConds st0.fi.scopes.length seg = [st0.fi.insts.length] ∧
      ((s3.closeOpenUpvals E block.LastLine).exitScope
        ((s3.closeOpenUpvals E block.LastLine).fi.pc + 1)).fi.scopes.length
          = st0.fi.scopes.length ∧
      p + 2 ≤ ((s3.closeOpenUpvals E block.LastLine).exitScope
        ((s3.closeOpenUpvals E block.LastLine).fi.pc + 1)).fi.insts.length ∧
      ((s3.closeOpenUpvals E block.LastLine).exitScope
        ((s3.closeOpenUpvals E block.LastLine).fi.pc + 1)).fi.insts[p + 1]?
          = some (.jmp (E.lastLineOf e) 0 0) := by
  obtain ⟨_, _, ext, hext⟩ := hE.expToOpArg st0.fi e E.ARG_REG
  have hds : ((st0.expToOpArg E e E.ARG_REG).1.setUsedRegs st0.fi.usedRegs).fi.scopes.length
      = st0.fi.scopes.length := by
    simp [hE.expToOpArg_scopes]
  have hin : ((st0.expToOpArg E e E.ARG_REG).1.setUsedRegs st0.fi.usedRegs).fi.insts
      = st0.fi.insts ++ ext := by
    simpa using hext
  have hdo : cgDoStat E ((((st0.expToOpArg E e E.ARG_REG).1.setUsedRegs st0.fi.usedRegs).emit
      (.test (E.lastLineOf e) (st0.expToOpArg E e E.ARG_REG).2 0)).1.emit
      (.jmp (E.lastLineOf e) 0 0)).1 block = .done ((s3.closeOpenUpvals E block.LastLine).exitScope
        ((s3.closeOpenUpvals E block.LastLine).fi.pc + 1)) := by
    simp only [cgDoStat, hr, Outcome.andThen]
  have kd := keeps_cgDoStat E _ _ block hb hdo _ _ (le_refl _) (le_refl _) (BreaksFrom.top _ _)
  have d3 := LoweredAt.depth (hb _ _ hr).1
  obtain ⟨nB, _, sB, _⟩ := (hb _ _ hr).1
  simp only [CgState.enterScope_scopes, List.length_cons, CgState.emit_scopes, hds] at d3 sB
  obtain ⟨nC, sC, _, _⟩ := Quiet.closeOpenUpvals E s3 block.LastLine
    (d := st0.fi.scopes.length + 1) (by omega)
  have sBC := sB.strans sC
  have oBC := sBC.ownEmits_below (Nat.lt_succ_self _)
  have cBC := sBC.ownConds_below (Nat.lt_succ_self _)
  have tBC := sBC.trace
  simp only [CgState.enterScope_trace, CgState.emit_trace, CgState.setUsedRegs_trace,
    CgState.expToOpArg_trace] at tBC
  revert hr hdo kd d3 sB tBC hds hin
  generalize ((st0.expToOpArg E e E.ARG_REG).1.setUsedRegs st0.fi.usedRegs) = sT
  generalize (st0.expToOpArg E e E.ARG_REG).2 = a
  intro hr hds hin hdo kd d3 sB tBC
  refine ⟨sT.fi.insts.length, [⟨st0.fi, .expToOpArg e E.ARG_REG⟩] ++
      ([⟨sT.fi, .emit (.test (E.lastLineOf e) a 0)⟩,
        ⟨(sT.emit (.test (E.lastLineOf e) a 0)).1.fi, .emit (.jmp (E.lastLineOf e) 0 0)⟩]
        ++ (nB ++ nC)), ?_, ?_, ?_, ?_, ?_, ?_, ?_, ?_⟩
  · simp
  · rw [hin]
    simp
  · rw [CgState.exitScope_trace, tBC]
    simp
  · simp only [ownEmits_append, oBC, List.append_nil]
    simp [ownEmits, Event.ownEmit, hds]
  · simp only [ownConds_append, cBC, List.append_nil]
    simp [ownConds, Event.ownCond]
  · simp [d3]
  · have := kd.2.1
    simpa using this
  · rw [kd.2.2 (sT.fi.insts.length + 1) (by simp) (by simp)]
    simp only [CgState.emit_insts, List.append_assoc, List.singleton_append]
    rw [List.getElem?_append_right (by omega)]
    simp

/-- The first loop of `cgIfStat`, from a state `a` on: the branch records
of the chain, where their conditions start, and the false-jump of every
branch but the last, which holds the offset that leads right after the
jump to the end of its branch and is not an entry of `pcJmpToEnds`. -/
theorem cgIfLoop_falseJumps {E : Collaborators} (hE : E.Lawful) (n : Int)
    (blocks : List LoweredBlock)
    (hb : ∀ b ∈ blocks, ∀ s s', b.run s = .done s' → Lowered s s' ∧ Keeps s s') :
    ∀ (exps : List Expression) (a : CgState) (pj : Int) (ends : List Int) (i : Nat)
      (s1 : CgState) (ends' : List Int),
      cgIfLoop E n blocks a pj ends i exps = (.done s1, ends') →
      (i : Int) + exps.length = n →
      ∃ new bs, s1.trace = a.trace ++ new ∧ bs.length = exps.length ∧
        ownEmits a.fi.scopes.length new = chainEmits bs ∧
        ownConds a.fi.scopes.length new = condStarts a.fi.insts.length bs ∧
        ends' = ends ++ (chainEnds bs).map (fun (k : Nat) => (k : Int)) ∧
        (∀ b ∈ bs, a.fi.insts.length ≤ b.p) ∧
        (∀ pc ∈ chainEnds bs, a.fi.insts.length ≤ pc) ∧
        ∀ (m : Nat) (b : Branch), bs[m]? = some b → m + 1 < bs.length →
          s1.fi.insts[b.p + 1]? = some (.jmp b.line 0 ((b.q : Int) - ((b.p + 1 : Nat) : Int))) ∧
          b.p + 1 ∉ chainEnds bs
  | [], a, pj, ends, i, s1, ends', h, _ => by
    simp only [cgIfLoop, Prod.mk.injEq, Outcome.done.injEq] at h
    obtain ⟨h1, h2⟩ := h
    subst h1
    subst h2
    exact ⟨[], [], by simp, rfl, rfl, rfl, by simp [chainEnds], by simp, by simp [chainEnds],
      by simp⟩
  | e :: rest, a, pj, ends, i, s1, ends', h, hn => by
    rw [cgIfLoop_pending] at h
    have t0 : (if pj ≥ 0 then a.fixSbx pj (a.fi.pc - pj) else a).trace = a.trace := by
      split <;> simp
    have c0 : (if pj ≥ 0 then a.fixSbx pj (a.fi.pc - pj) else a).fi.scopes.length
        = a.fi.scopes.length := by
      split <;> simp
    have l0 : (if pj ≥ 0 then a.fixSbx pj (a.fi.pc - pj) else a).fi.insts.length
        = a.fi.insts.length := by
      split <;> simp
    revert h t0 c0 l0
    generalize (if pj ≥ 0 then a.fixSbx pj (a.fi.pc - pj) else a) = st0
    intro h t0 c0 l0
    rw [cgIfLoop] at h
    dsimp only at h
    simp only [show ¬ ((-1 : Int) ≥ 0) by decide, if_false, CgState.emitJmp, CgState.emitTest]
      at h
    split at h
    · simp at h
    · next block hblk =>
      have hbk := hb block (List.getElem?_mem hblk)
      split at h
      · simp at h
      · next s3 hr =>
        obtain ⟨p, seg, hj, hp, ht, ho, hc, hd, hl, hi⟩ := ifBranch hE st0 e block hbk s3 hr
        rw [hj] at h
        clear hr hj
        rw [t0] at ht
        rw [c0] at ho hc hd
        rw [l0] at hp hc
        revert h ht hd hl hi
        generalize ((s3.closeOpenUpvals E block.LastLine).exitScope
          ((s3.closeOpenUpvals E block.LastLine).fi.pc + 1)) = s5
        generalize (st0.expToOpArg E e E.ARG_REG).2 = x at ho
        intro h ht hd hl hi
        split at h
        · next hlt =>
          obtain ⟨new2, bs2, ht2, hl2, ho2, hc2, he2, hp2, hq2, hA2⟩ :=
            cgIfLoop_falseJumps hE n blocks hb rest _ _ _ _ s1 ends' h
              (by simp only [List.length_cons] at hn; push_cast at hn ⊢; omega)
          simp only [CgState.emit_scopes, CgState.emit_trace, CgState.emit_snd,
            CgState.emit_insts, List.length_append, List.length_singleton, hd]
            at ht2 ho2 hc2 he2 hp2 hq2
          have hne : bs2 ≠ [] := by
            intro hc
            rw [hc] at hl2
            simp only [List.length_cons, List.length_nil] at hn hl2
            rw [← hl2] at hn
            push_cast at hn
            omega
          obtain ⟨c, r, hcr⟩ := List.exists_cons_of_ne_nil hne
          subst hcr
          have hrest : rest ≠ [] := by
            intro hc
            rw [hc] at hl2
            simp at hl2
          obtain ⟨e2, rest2, hr2⟩ := List.exists_cons_of_ne_nil hrest
          subst hr2
          have hpat := cgIfLoop_patches hE n blocks hb _ _ _ _ e2 rest2 s1
            (congrArg Prod.fst h) (p + 1) (E.lastLineOf e) 0 rfl
            (by
              rw [CgState.emit_insts, List.getElem?_append_left (by omega)]
              exact hi)
          refine ⟨seg ++ ([⟨s5.fi, .emit (.jmp block.LastLine 0 0)⟩] ++ new2),
            ⟨p, E.lastLineOf e, x, s5.fi.insts.length, block.LastLine⟩ :: c :: r,
            ?_, ?_, ?_, ?_, ?_, ?_, ?_, ?_⟩
          · rw [ht2, ht]
            simp
          · simp [hl2]
          · have o5 : ownEmits a.fi.scopes.length
                [⟨s5.fi, .emit (.jmp block.LastLine 0 0)⟩]
                = [(s5.fi.insts.length, .jmp block.LastLine 0 0)] := by
              simp only [ownEmits, List.filterMap_cons, Event.ownEmit, hd, if_true,
                List.filterMap_nil]
            simp only [ownEmits_append, ho, ho2, o5]
            simp [chainEmits]
          · have c5 : ownConds a.fi.scopes.length
                [⟨s5.fi, .emit (.jmp block.LastLine 0 0)⟩] = [] := by
              simp [ownConds, Event.ownCond]
            simp only [ownConds_append, hc, hc2, c5]
            simp [condStarts]
          · rw [he2]
            simp [chainEnds]
          · intro b hb
            rcases List.mem_cons.1 hb with h1 | h1
            · subst h1
              exact hp
            · have := hp2 b h1
              omega
          · intro pc hpc
            simp only [chainEnds, List.mem_cons] at hpc
            rcases hpc with h1 | h1
            · omega
            · have := hq2 pc (by simpa [chainEnds] using h1)
              omega
          · intro m b hm hlen
            cases m with
            | zero =>
              simp only [List.getElem?_cons_zero, Option.some.injEq] at hm
              subst hm
              refine ⟨?_, ?_⟩
              · rw [hpat]
                simp only [CgState.emit_insts, List.length_append, List.length_singleton]
                congr 2
                push_cast
                omega
              · simp only [chainEnds, List.mem_cons]
                rintro (h1 | h1)
                · omega
                · have := hq2 _ h1
                  omega
            | succ m =>
              simp only [List.getElem?_cons_succ] at hm
              simp only [List.length_cons] at hlen
              obtain ⟨g1, g2⟩ := hA2 m b hm (by simp only [List.length_cons]; omega)
              refine ⟨g1, ?_⟩
              simp only [chainEnds, List.mem_cons]
              rintro (h1 | h1)
              · have := hp2 b (List.mem_iff_getElem?.2 ⟨m, hm⟩)
                omega
              · exact g2 h1
        · next hge =>
          have hr0 : rest = [] := by
            cases rest with
            | nil => rfl
            | cons e r =>
              simp only [List.length_cons] at hn
              push_cast at hn
              omega
          subst hr0
          simp only [cgIfLoop, Prod.mk.injEq, Outcome.done.injEq] at h
          obtain ⟨h1, h2⟩ := h
          subst h1
          subst h2
          refine ⟨seg, [⟨p, E.lastLineOf e, x, 0, 0⟩], ht, rfl, ?_, ?_, ?_, ?_, ?_, ?_⟩
          · rw [ho]
            simp [chainEmits]
          · rw [hc]
            simp [condStarts]
          · simp [chainEnds]
          · intro b hb
            simp only [List.mem_singleton] at hb
            subst hb
            exact hp
          · intro pc hpc
            simp only [chainEnds, List.mem_singleton] at hpc
            omega
          · intro m b _ hlen
            simp at hlen

theorem cgIfStat_falseJumps {E : Collaborators} (hE : E.Lawful) (st st' : CgState)
    (expressions : List Expression) (blocks : List LoweredBlock)
    (hb : ∀ b ∈ blocks, ∀ s s', b.run s = .done s' → Lowered s s' ∧ Keeps s s')
    (h : cgIfStat E st expressions blocks = .done st') :
    ∃ new bs, st'.trace = st.trace ++ new ∧ bs.length = expressions.length ∧
      ownEmits st.fi.scopes.length new = chainEmits bs ∧
      ownConds st.fi.scopes.length new = condStarts st.fi.insts.length bs ∧
      ∀ (m : Nat) (b : Branch), bs[m]? = some b → m + 1 < bs.length →
        st'.fi.insts[b.p + 1]? = some (.jmp b.line 0 ((b.q : Int) - ((b.p + 1 : Nat) : Int))) := by
  unfold cgIfStat at h
  obtain ⟨s1, hr, h2⟩ := Outcome.andThen_done h
  clear h
  simp only [Outcome.done.injEq] at h2
  subst h2
  obtain ⟨new, bs, ht, hl, ho, hc, he, _, _, hA⟩ := cgIfLoop_falseJumps hE _ blocks hb
    expressions st (-1) [] 0 s1 _ (Prod.ext hr rfl) (by simp)
  refine ⟨new, bs, by rw [fixJmpToEnds_trace, ht], hl, ho, hc, fun m b hm hlen => ?_⟩
  obtain ⟨g1, g2⟩ := hA m b hm hlen
  have hnin : ¬ (((b.p + 1 : Nat) : Int)
      ∈ ([] : List Int) ++ (chainEnds bs).map (fun (k : Nat) => (k : Int))) := by
    simp only [List.nil_append, List.mem_map, not_exists, not_and]
    intro k hk hkeq
    have : k = b.p + 1 := by exact_mod_cast hkeq
    subst this
    exact g2 hk
  rw [← he] at hnin
  rw [fixJmpToEnds_fi, FuncInfo.patchBreaks_getElem?, if_neg hnin, g1]

/-- Claim C16: when `cgStat` returns on an if statement with `K` condition
expressions, there are `K` branch records such that the instructions the
routine emitted itself, at the scope depth it was entered at, are exactly
the chain of these records (per branch the test at PC `p` and the
false-jump at `p + 1`, and after each branch but the last the jump to the
end at PC `q`), and the conditions were handed to the expression emitter
with the buffer at the lengths `condStarts` lists: the first at the length
on entry, the condition of branch `i + 1` at `q + 1` for the `q` of branch
`i`.  For every branch `i` with `i + 1 < K` the final buffer holds at
`p + 1` a jump whose target, its PC + 1 + its offset, is `q + 1`: the PC
right after the jump to the end of branch `i`, where the instructions of the
condition of branch `i + 1` start. -/
theorem if_false_jumps_land (E : Collaborators) (hE : E.Lawful) (st st' : CgState)
    (expressions : List Expression) (blocks : List Block)
    (h : cgStat E st (.IfStatement expressions blocks) = .done st') :
    ∃ bs : List Branch, bs.length = expressions.length ∧
      ownEmits st.fi.scopes.length (st'.trace.drop st.trace.length) = chainEmits bs ∧
      ownConds st.fi.scopes.length (st'.trace.drop st.trace.length)
        = condStarts st.fi.insts.length bs ∧
      ∀ (i : Nat) (b : Branch), bs[i]? = some b → i + 1 < bs.length →
        ∃ off : Int, st'.fi.insts[b.p + 1]? = some (.jmp b.line 0 off) ∧
          ((b.p + 1 : Nat) : Int) + 1 + off = (b.q : Int) + 1 := by
  simp only [cgStat] at h
  obtain ⟨new, bs, ht, hl, ho, hc, hA⟩ := cgIfStat_falseJumps hE st st' expressions
    (lowerBlocks E blocks) (lowerBlocks_closed hE (keeps_closed hE) blocks) h
  have hd : st'.trace.drop st.trace.length = new := by rw [ht, List.drop_left]
  rw [hd]
  refine ⟨bs, hl, ho, hc, fun i b hi hlen => ⟨_, hA i b hi hlen, ?_⟩⟩
  push_cast
  omega

/-- C16 at `if e1 then f() elseif e2 then g() end` from the initial state:
the false-jump of the first branch, at PC 2, has offset 2 and so leads to
PC 5, right after the jump to the end at PC 4. -/
theorem if_false_jumps_land_witness :
    (cgStat sampleEmitter initialState sampleIf).state.fi.insts
      = [.other 5 0 0 0, .test 0 0 0, .jmp 0 0 2, .other 2 0 0 0, .jmp 1 0 4, .other 5 0 0 0,
         .test 0 0 0, .jmp 0 0 1, .other 2 0 0 0] ∧
    ∃ bs : List Branch, bs.length = 2 ∧
      ownEmits initialState.fi.scopes.length
        ((cgStat sampleEmitter initialState sampleIf).state.trace.drop
          initialState.trace.length) = chainEmits bs ∧
      ownConds initialState.fi.scopes.length
        ((cgStat sampleEmitter initialState sampleIf).state.trace.drop
          initialState.trace.length) = condStarts initialState.fi.insts.length bs ∧
      ∀ (i : Nat) (b : Branch), bs[i]? = some b → i + 1 < bs.length →
        ∃ off : Int,
          (cgStat sampleEmitter initialState sampleIf).state.fi.insts[b.p + 1]?
            = some (.jmp b.line 0 off) ∧
          ((b.p + 1 : Nat) : Int) + 1 + off = (b.q : Int) + 1 :=
  ⟨by decide,
   if_false_jumps_land sampleEmitter sampleEmitter_lawful initialState
    (cgStat sampleEmitter initialState sampleIf).state
    [.OtherExpression 1, .OtherExpression 2]
    [.mk [.FunctionCallStatement 0] 1, .mk [.FunctionCallStatement 1] 2] rfl⟩

/-! ### Loops: the break statements of the body and the break jumps recorded -/

theorem Instruction.jmpLine?_erase (i : Instruction) : i.erase.jmpLine? = i.jmpLine? := by
  cases i <;> rfl

theorem jmpLineAt_grow {fin fin' ext : List Instruction}
    (hg : fin'.map Instruction.erase = fin.map Instruction.erase ++ ext) {pc l : Int}
    (h : jmpLineAt fin pc = some l) : jmpLineAt fin' pc = some l := by
  unfold jmpLineAt at h ⊢
  split at h
  · next hp =>
    rw [if_pos hp]
    cases hi : fin[pc.toNat]? with
    | none => simp [hi] at h
    | some i =>
      simp only [hi, Option.some_bind] at h
      have hk : (fin[pc.toNat]?).map Instruction.erase = some i.erase := by simp [hi]
      have h2 := grow_getElem?_some hg hk
      cases hj : fin'[pc.toNat]? with
      | none => simp [hj] at h2
      | some j =>
        simp only [hj, Option.map_some', Option.some.injEq] at h2
        simp only [Option.some_bind]
        rw [← Instruction.jmpLine?_erase, h2, Instruction.jmpLine?_erase, h]
  · cases h

theorem map_jmpLineAt_grow {fin fin' ext : List Instruction}
    (hg : fin'.map Instruction.erase = fin.map Instruction.erase ++ ext) :
    ∀ (xs ls : List Int), xs.map (jmpLineAt fin) = ls.map some →
      xs.map (jmpLineAt fin') = ls.map some
  | [], [], _ => rfl
  | [], _ :: _, h => by simp at h
  | _ :: _, [], h => by simp at h
  | x :: xs, l :: ls, h => by
    simp only [List.map_cons, List.cons.injEq] at h ⊢
    exact ⟨jmpLineAt_grow hg h.1, map_jmpLineAt_grow hg xs ls h.2⟩

theorem LogAt.chain {h : Nat} {l1 l2 : List Int} {a b c : CgState} (h1 : LogAt h l1 a b)
    (h2 : LogAt h l2 b c) : LogAt h (l1 ++ l2) a c := by
  obtain ⟨n1, s1, e1⟩ := h1
  obtain ⟨n2, s2, e2⟩ := h2
  obtain ⟨ext, hg⟩ := s2.insts
  refine ⟨n1 ++ n2, s1.strans s2, ?_⟩
  rw [evBreaks_append, List.map_append, map_jmpLineAt_grow hg _ _ e1, e2, List.map_append]

theorem NoBreaks.logAt {a b : CgState} (h : Nat) (hn : NoBreaks a b) : LogAt h [] a b := by
  obtain ⟨new, s, e⟩ := hn
  exact ⟨new, s, by simp [e h]⟩

theorem LogAt.after {h : Nat} {l : List Int} {a b c : CgState} (h1 : LogAt h l a b)
    (h2 : NoBreaks b c) : LogAt h l a c := by
  simpa using h1.chain (h2.logAt h)

theorem LogAt.before {h : Nat} {l : List Int} {a b c : CgState} (h1 : NoBreaks a b)
    (h2 : LogAt h l b c) : LogAt h l a c := by
  simpa using (h1.logAt h).chain h2

theorem NoBreaks.ofQuiet {d : Nat} {a b : CgState} (q : Quiet d a b) : NoBreaks a b := by
  obtain ⟨new, s, e, _⟩ := q
  exact ⟨new, s.sweaken (Nat.zero_le _), e⟩

theorem NoBreaks.both {a b c : CgState} (h1 : NoBreaks a b) (h2 : NoBreaks b c) :
    NoBreaks a c := by
  obtain ⟨n1, s1, e1⟩ := h1
  obtain ⟨n2, s2, e2⟩ := h2
  exact ⟨n1 ++ n2, s1.strans s2, fun h => by simp [evBreaks_append, e1, e2]⟩

theorem NoBreaks.enterScope (a : CgState) (b : Bool) : NoBreaks a (a.enterScope b) :=
  ⟨[], Step.sOnFi 0 a (fun fi => fi.enterScope b) rfl ⟨[], by simp [FuncInfo.enterScope]⟩,
    fun _ => rfl⟩

theorem NoBreaks.exitScope (a : CgState) (e : Int) : NoBreaks a (a.exitScope e) :=
  ⟨[], Step.sOnFi 0 a (fun fi => fi.exitScope e) (FuncInfo.exitScope_insts_erase _ _)
    ⟨[], by simp [FuncInfo.exitScope_key]⟩, fun _ => rfl⟩

theorem NoBreaks.declare (a : CgState) (name : String) (p : Int) :
    NoBreaks a (a.addLocalVariable name p).1 :=
  ⟨[], Step.sOnFi 0 a (fun fi => (fi.addLocalVariable name p).1) rfl
    ⟨[(name, a.fi.usedRegs)], by simp [FuncInfo.addLocalVariable, LocVarInfo.key]⟩, fun _ => rfl⟩

theorem noBreaks_addLocalVariables :
    ∀ (names : List String) (a : CgState) (p : Int), NoBreaks a (addLocalVariables a p names)
  | [], a, _ => NoBreaks.ofQuiet (Quiet.qrefl 0 a)
  | n :: rest, a, p =>
    (NoBreaks.declare a n p).both (noBreaks_addLocalVariables rest _ p)

theorem noBreaks_addLoopVariables :
    ∀ (names : List String) (a : CgState), NoBreaks a (addLoopVariables a names)
  | [], a => NoBreaks.ofQuiet (Quiet.qrefl 0 a)
  | n :: rest, a =>
    (NoBreaks.declare a n _).both (noBreaks_addLoopVariables rest _)

theorem noBreaks_cgLocalVarDeclStat {E : Collaborators} (hE : E.Lawful) (st : CgState)
    (lastLine : Int) (nameList : List String) (expressionList : List Expression) :
    NoBreaks st (cgLocalVarDeclStat E st lastLine nameList expressionList) := by
  unfold cgLocalVarDeclStat
  have q : Quiet 0 st
      (if ((removeTailNils expressionList).length : Int) = (nameList.length : Int) then
        cgExpsEqual E st (removeTailNils expressionList)
      else if ((removeTailNils expressionList).length : Int) > (nameList.length : Int) then
        cgExpsMore E (removeTailNils expressionList).length st 0 (removeTailNils expressionList)
      else cgExpsFill E st lastLine nameList.length (removeTailNils expressionList).length
        (removeTailNils expressionList)) := by
    split
    · exact quiet_cgExpsEqual hE _ _ (Nat.zero_le _)
    · split
      · exact quiet_cgExpsMore hE _ _ _ _ (Nat.zero_le _)
      · exact quiet_cgExpsFill hE _ _ _ _ _ (Nat.zero_le _)
  exact (NoBreaks.ofQuiet (q.qtrans (Quiet.setUsedRegs 0 _ st.fi.usedRegs))).both
    (noBreaks_addLocalVariables _ _ _)

theorem noBreaks_cgFuncCallStat {E : Collaborators} (hE : E.Lawful) (st : CgState) (call : Nat) :
    NoBreaks st (cgFuncCallStat E st call) :=
  NoBreaks.ofQuiet (((Quiet.allocReg 0 st).qtrans
    (Quiet.cgFuncCallExp hE st.allocReg.1 call st.allocReg.2 0 (Nat.zero_le _))).qtrans
    (Quiet.freeReg 0 _))

theorem noBreaks_cgLocalFuncDefStat {E : Collaborators} (hE : E.Lawful) (st : CgState)
    (name : String) (f : Nat) : NoBreaks st (cgLocalFuncDefStat E st name f) :=
  (NoBreaks.declare st name (st.fi.pc + 2)).both
    (NoBreaks.ofQuiet (Quiet.cgFuncDefExp hE (st.addLocalVariable name (st.fi.pc + 2)).1 f
      (st.addLocalVariable name (st.fi.pc + 2)).2 (Nat.zero_le _)))

theorem noBreaks_cgAssignStat {E : Collaborators} (hE : E.Lawful) (st st' : CgState)
    (lastLine : Int) (variableList expressionList : List Expression)
    (h : cgAssignStat E st lastLine variableList expressionList = .done st') :
    NoBreaks st st' := by
  unfold cgAssignStat at h
  obtain ⟨s1, ht, h⟩ := Outcome.andThen_done h
  simp only [Outcome.done.injEq] at h
  subst h
  have q1 := quiet_cgAssignTargets hE variableList st [] [] s1 (Nat.zero_le _) ht
  have q2 : Quiet 0 s1
      (if ((removeTailNils expressionList).length : Int) ≥ (variableList.length : Int) then
        cgAssignExps E variableList.length (removeTailNils expressionList).length s1 0
          (removeTailNils expressionList)
      else cgExpsFill E s1 lastLine variableList.length (removeTailNils expressionList).length
        (removeTailNils expressionList)) := by
    split
    · exact quiet_cgAssignExps hE _ _ _ _ _ (Nat.zero_le _)
    · exact quiet_cgExpsFill hE _ _ _ _ _ (Nat.zero_le _)
  exact NoBreaks.ofQuiet (((q1.qtrans q2).qtrans (quiet_cgAssignStores E _ _ _ _ _ _ _
    (Nat.zero_le _))).qtrans (Quiet.setUsedRegs _ _ _))

theorem LowerFrames.breakLevel_same {brk : Nat → List Int} :
    ∀ {sc sc' : List Scope}, LowerFrames brk sc sc' → breakLevel sc' = breakLevel sc
  | [], [], _ => rfl
  | [], _ :: _, h => by simp [LowerFrames] at h
  | _ :: _, [], h => by simp [LowerFrames] at h
  | f :: rest, f' :: rest', h => by
    simp only [LowerFrames] at h
    simp only [breakLevel, h.1, LowerFrames.length_eq h.2.2.2, LowerFrames.breakLevel_same h.2.2.2]

theorem LoweredAt.breakLevel_eq {d : Nat} {a b : CgState} (h : LoweredAt d a b) :
    breakLevel b.fi.scopes = breakLevel a.fi.scopes := by
  obtain ⟨_, _, _, hF⟩ := h
  rcases hF with ⟨h1, h2⟩ | ⟨f, rest, f', rest', h1, h2, hb, _, _, _, _, hlow⟩
  · rw [h1, h2]
  · rw [h1, h2]
    simp only [breakLevel, hb, LowerFrames.length_eq hlow, LowerFrames.breakLevel_same hlow]

theorem breakLog_cgBreakStat (st : CgState) (line : Int) :
    BreakLog [line] st (cgBreakStat st line) := by
  intro h _
  obtain ⟨⟨new, s, _⟩, _⟩ := cgBreakStat_neutral st line
  have hnew : new = [⟨st.fi, .emit (.jmp line 0 0)⟩,
      ⟨(st.emit (.jmp line 0 0)).1.fi, .breakJmp st.fi.insts.length⟩] := by
    have := s.trace
    simp only [cgBreakStat, CgState.addBreakJmp, CgState.emitJmp, CgState.emit_trace,
      CgState.emit_snd, List.append_assoc, List.singleton_append] at this
    exact (List.append_cancel_left this).symm
  subst hnew
  refine ⟨_, s.sweaken (Nat.zero_le _), ?_⟩
  have hj : jmpLineAt (cgBreakStat st line).fi.insts (st.fi.insts.length : Int) = some line := by
    simp [jmpLineAt, cgBreakStat, CgState.addBreakJmp, FuncInfo.addBreakJmp,
      Instruction.jmpLine?]
  by_cases hb : breakLevel st.fi.scopes = some h
  · rw [if_pos hb]
    simp [evBreaks, Event.breakAt, List.filterMap_cons, hb, hj]
  · rw [if_neg hb]
    simp [evBreaks, Event.breakAt, List.filterMap_cons, hb]

theorem logAt_cgDoStat (E : Collaborators) (st st' : CgState) (block : LoweredBlock)
    (h : Nat) (l : List Int)
    (hl : ∀ s s', block.run s = .done s' → s.fi.scopes.length = st.fi.scopes.length + 1 →
      breakLevel s.fi.scopes = breakLevel (st.enterScope false).fi.scopes → LogAt h l s s')
    (hd : cgDoStat E st block = .done st') : LogAt h l st st' := by
  unfold cgDoStat at hd
  obtain ⟨s1, hr, hd⟩ := Outcome.andThen_done hd
  simp only [Outcome.done.injEq] at hd
  subst hd
  exact (((hl _ _ hr (by simp) rfl).before (NoBreaks.enterScope st false)).after
    (NoBreaks.ofQuiet (Quiet.closeOpenUpvals E s1 block.LastLine (Nat.zero_le _)))).after
    (NoBreaks.exitScope _ _)

theorem logAt_cgWhileStat {E : Collaborators} (hE : E.Lawful) (st st' : CgState)
    (e : Expression) (block : LoweredBlock) (h : Nat) (l : List Int)
    (hl : ∀ s s', block.run s = .done s' → s.fi.scopes.length = st.fi.scopes.length + 1 →
      breakLevel s.fi.scopes = breakLevel (st.enterScope true).fi.scopes → LogAt h l s s')
    (hd : cgWhileStat E st e block = .done st') : LogAt h l st st' := by
  unfold cgWhileStat at hd
  obtain ⟨s1, hr, hd⟩ := Outcome.andThen_done hd
  simp only [Outcome.done.injEq] at hd
  subst hd
  have q3 := quiet_condTest hE st e E.ARG_REG st.fi.usedRegs (E.lastLineOf e)
    (st.expToOpArg E e E.ARG_REG).2 0 (Nat.zero_le _)
  have q4 := q3.qtrans (Quiet.emit _ (.jmp (E.lastLineOf e) 0 0)
    (Nat.zero_le _) (by simp [Instruction.isLoopOp]))
  have b1 := hl _ _ hr (by simp [hE.expToOpArg_scopes])
    (by simp [FuncInfo.enterScope, breakLevel, hE.expToOpArg_scopes])
  exact (((((b1.before (NoBreaks.enterScope _ true)).before (NoBreaks.ofQuiet q4)).after
    (NoBreaks.ofQuiet (Quiet.closeOpenUpvals E s1 block.LastLine (Nat.zero_le _)))).after
    (NoBreaks.ofQuiet (Quiet.emit _ _ (Nat.zero_le _) (by simp [Instruction.isLoopOp])))).after
    (NoBreaks.exitScope _ _)).after (NoBreaks.ofQuiet (Quiet.fixSbx 0 _ _ _))

theorem logAt_cgRepeatStat {E : Collaborators} (hE : E.Lawful) (st st' : CgState)
    (block : LoweredBlock) (e : Expression) (h : Nat) (l : List Int)
    (hl : ∀ s s', block.run s = .done s' → s.fi.scopes.length = st.fi.scopes.length + 1 →
      breakLevel s.fi.scopes = breakLevel (st.enterScope true).fi.scopes → LogAt h l s s')
    (hd : cgRepeatStat E st block e = .done st') : LogAt h l st st' := by
  unfold cgRepeatStat at hd
  obtain ⟨s2, hr, hd⟩ := Outcome.andThen_done hd
  simp only [Outcome.done.injEq] at hd
  subst hd
  have q3 := quiet_condTest hE s2 e E.ARG_REG s2.fi.usedRegs (E.lastLineOf e)
    (s2.expToOpArg E e E.ARG_REG).2 0 (Nat.zero_le _)
  have b1 := hl _ _ hr (by simp) rfl
  exact ((((b1.before (NoBreaks.enterScope _ true)).after (NoBreaks.ofQuiet q3)).after
    (NoBreaks.ofQuiet (Quiet.emit _ _ (Nat.zero_le _) (by simp [Instruction.isLoopOp])))).after
    (NoBreaks.ofQuiet (Quiet.closeOpenUpvals E _ (E.lastLineOf e) (Nat.zero_le _)))).after
    (NoBreaks.exitScope _ _)

theorem logAt_cgForNumStat {E : Collaborators} (hE : E.Lawful) (st st' : CgState)
    (lineOfFor lineOfDo : Int) (varName : String) (e1 e2 e3 : Expression) (block : LoweredBlock)
    (hb : block.Ok) (h : Nat) (l : List Int)
    (hl : ∀ s s', block.run s = .done s' → s.fi.scopes.length = st.fi.scopes.length + 1 →
      breakLevel s.fi.scopes = breakLevel (st.enterScope true).fi.scopes → LogAt h l s s')
    (hd : cgForNumStat E st lineOfFor lineOfDo varName e1 e2 e3 block = .done st') :
    LogAt h l st st' := by
  unfold cgForNumStat at hd
  obtain ⟨s4, hr, hd⟩ := Outcome.andThen_done hd
  simp only [Outcome.done.injEq] at hd
  subst hd
  have n2 := noBreaks_cgLocalVarDeclStat hE (st.enterScope true) 0
    ["(for index)", "(for limit)", "(for step)"] [e1, e2, e3]
  have l2 := cgLocalVarDeclStat_loweredAt hE (st.enterScope true) 0
    ["(for index)", "(for limit)", "(for step)"] [e1, e2, e3] (Nat.zero_le _)
  revert hr n2 l2
  generalize cgLocalVarDeclStat E (st.enterScope true) 0
    ["(for index)", "(for limit)", "(for step)"] [e1, e2, e3] = S2
  intro hr n2 l2
  have l3 := l2.trans (addLocalVariable_loweredAt 0 S2 varName (S2.fi.pc + 2))
  have d3 := l3.depth
  have b3 := l3.breakLevel_eq
  simp only [CgState.enterScope_scopes, List.length_cons] at d3
  have n3 := NoBreaks.declare S2 varName (S2.fi.pc + 2)
  have n4 := NoBreaks.ofQuiet (Quiet.emit (d := 0) (S2.addLocalVariable varName (S2.fi.pc + 2)).1
    (.forPrep lineOfDo ((S2.addLocalVariable varName (S2.fi.pc + 2)).1.fi.usedRegs - 4) 0)
    (Nat.zero_le _) (fun _ => by omega))
  have d4 := LoweredAt.depth (hb _ _ hr)
  simp only [CgState.emitForPrep, CgState.emit_scopes, d3] at d4
  have b1 := hl _ _ hr (by simp only [CgState.emitForPrep, CgState.emit_scopes]; exact d3)
    (by simp only [CgState.emitForPrep, CgState.emit_scopes]; exact b3)
  have n5 := NoBreaks.ofQuiet (Quiet.closeOpenUpvals E s4 block.LastLine (Nat.zero_le _))
  have n6 := NoBreaks.ofQuiet (Quiet.emit (d := 0) (s4.closeOpenUpvals E block.LastLine)
    (.forLoop lineOfFor ((S2.addLocalVariable varName (S2.fi.pc + 2)).1.fi.usedRegs - 4) 0)
    (Nat.zero_le _) (fun _ => by simp only [CgState.closeOpenUpvals_scopes]; omega))
  exact ((((((((((((b1.before n4).before n3).before n2).before
    (NoBreaks.enterScope st true)).after n5).after n6).after
    (NoBreaks.ofQuiet (Quiet.fixSbx 0 _ _ _))).after
    (NoBreaks.ofQuiet (Quiet.fixSbx 0 _ _ _))).after (NoBreaks.exitScope _ _)).after
    (NoBreaks.ofQuiet (Quiet.fixEndPC 0 _ _ _))).after
    (NoBreaks.ofQuiet (Quiet.fixEndPC 0 _ _ _))).after
    (NoBreaks.ofQuiet (Quiet.fixEndPC 0 _ _ _)))

theorem logAt_cgForInStat {E : Collaborators} (hE : E.Lawful) (st st' : CgState)
    (lineOfDo : Int) (nameList : List String) (exps : List Expression) (block : LoweredBlock)
    (hb : block.Ok) (h : Nat) (l : List Int)
    (hl : ∀ s s', block.run s = .done s' → s.fi.scopes.length = st.fi.scopes.length + 1 →
      breakLevel s.fi.scopes = breakLevel (st.enterScope true).fi.scopes → LogAt h l s s')
    (hd : cgForInStat E st lineOfDo nameList exps block = .done st') : LogAt h l st st' := by
  unfold cgForInStat at hd
  obtain ⟨s4, hr, hd⟩ := Outcome.andThen_done hd
  have n2 := noBreaks_cgLocalVarDeclStat hE (st.enterScope true) 0
    ["(for generator)", "(for state)", "(for control)"] exps
  have l2 := cgLocalVarDeclStat_loweredAt hE (st.enterScope true) 0
    ["(for generator)", "(for state)", "(for control)"] exps (Nat.zero_le _)
  revert hr hd n2 l2
  generalize cgLocalVarDeclStat E (st.enterScope true) 0
    ["(for generator)", "(for state)", "(for control)"] exps = S2
  intro hr hd n2 l2
  have l3 := l2.trans (addLoopVariables_loweredAt 0 nameList S2)
  have n3 := noBreaks_addLoopVariables nameList S2
  revert hr hd l3 n3
  generalize addLoopVariables S2 nameList = S3
  intro hr hd l3 n3
  have d3 := l3.depth
  have b3 := l3.breakLevel_eq
  simp only [CgState.enterScope_scopes, List.length_cons] at d3
  have n4 := NoBreaks.ofQuiet (Quiet.emit (d := 0) S3 (.jmp lineOfDo 0 0) (Nat.zero_le _)
    (by simp [Instruction.isLoopOp]))
  have d4 := LoweredAt.depth (hb _ _ hr)
  simp only [CgState.emitJmp, CgState.emit_scopes, d3] at d4
  have b1 := hl _ _ hr (by simp only [CgState.emitJmp, CgState.emit_scopes]; exact d3)
    (by simp only [CgState.emitJmp, CgState.emit_scopes]; exact b3)
  have n5 := NoBreaks.ofQuiet (Quiet.closeOpenUpvals E s4 block.LastLine (Nat.zero_le _))
  cases exps with
  | nil => simp at hd
  | cons exp0 rest =>
    simp only [Outcome.done.injEq] at hd
    subst hd
    refine ((((((((((((b1.before n4).before n3).before n2).before
      (NoBreaks.enterScope st true)).after n5).after
      (NoBreaks.ofQuiet (Quiet.fixSbx 0 _ _ _))).after
      (NoBreaks.ofQuiet (Quiet.emit (d := 0) _ _ (Nat.zero_le _) (fun _ => ?_)))).after
      (NoBreaks.ofQuiet (Quiet.emit (d := 0) _ _ (Nat.zero_le _) (fun _ => ?_)))).after
      (NoBreaks.exitScope _ _)).after
      (NoBreaks.ofQuiet (Quiet.fixEndPC 0 _ _ _))).after
      (NoBreaks.ofQuiet (Quiet.fixEndPC 0 _ _ _))).after
      (NoBreaks.ofQuiet (Quiet.fixEndPC 0 _ _ _)))
    · simp
      omega
    · simp
      omega

theorem lowerBlocks_getElem? (E : Collaborators) :
    ∀ (bs : List Block) (i : Nat), (lowerBlocks E bs)[i]?
      = (bs[i]?).map (fun b => (⟨b.LastLine, fun s => cgBlock E s b⟩ : LoweredBlock))
  | [], i => by simp [lowerBlocks]
  | b :: rest, 0 => by simp [lowerBlocks]
  | b :: rest, i + 1 => by simpa [lowerBlocks] using lowerBlocks_getElem? E rest i

theorem Block.ownBreaksOf_zero (bs : List Block) : Block.ownBreaksOf bs 0 = [] := by
  cases bs <;> simp [Block.ownBreaksOf]

theorem Block.ownBreaksOf_drop {bs : List Block} {i : Nat} {b : Block} (h : bs[i]? = some b)
    (n : Nat) :
    Block.ownBreaksOf (bs.drop i) (n + 1) = b.ownBreaks ++ Block.ownBreaksOf (bs.drop (i + 1)) n := by
  have hlt : i < bs.length := by
    by_contra hc
    rw [List.getElem?_eq_none (by omega)] at h
    cases h
  have hb : bs[i] = b := by
    rw [List.getElem?_eq_getElem hlt] at h
    exact Option.some.inj h
  rw [List.drop_eq_getElem_cons hlt, hb, Block.ownBreaksOf]

theorem NoBreaks.breakLog {a b : CgState} (h : NoBreaks a b) : BreakLog [] a b := by
  intro k _
  simpa using h.logAt k

/-- The first loop of `cgIfStat`, from branch `i` on: the break jumps that
the frame of height `h` gets are those of the blocks it lowers. -/
theorem logAt_cgIfLoop {E : Collaborators} (hE : E.Lawful) (n : Int) (bs : List Block)
    (D : Nat) (B : Option Nat) (h : Nat) (c : Prop) [Decidable c]
    (hl : ∀ b ∈ bs, ∀ s s', cgBlock E s b = .done s' → s.fi.scopes.length = D + 1 →
      breakLevel s.fi.scopes = B → LogAt h (if c then b.ownBreaks else []) s s') :
    ∀ (exps : List Expression) (a : CgState) (pj : Int) (ends : List Int) (i : Nat)
      (s1 : CgState), a.fi.scopes.length = D → breakLevel a.fi.scopes = B →
      (cgIfLoop E n (lowerBlocks E bs) a pj ends i exps).1 = .done s1 →
      LogAt h (if c then Block.ownBreaksOf (bs.drop i) exps.length else []) a s1
  | [], a, _, _, i, s1, _, _, hr => by
    simp only [cgIfLoop, Outcome.done.injEq] at hr
    subst hr
    simpa [Block.ownBreaksOf_zero] using (NoBreaks.ofQuiet (Quiet.qrefl 0 a)).logAt h
  | e :: rest, a, pj, ends, i, s1, hD, hB, hr => by
    rw [cgIfLoop] at hr
    dsimp only at hr
    simp only [CgState.emitJmp, CgState.emitTest] at hr
    have q0 : Quiet 0 a (if pj ≥ 0 then a.fixSbx pj (a.fi.pc - pj) else a) := by
      split
      · exact Quiet.fixSbx _ _ _ _
      · exact Quiet.qrefl _ _
    revert hr q0
    generalize (if pj ≥ 0 then a.fixSbx pj (a.fi.pc - pj) else a) = st0
    intro hr q0
    have q3 := q0.qtrans (quiet_condTest hE st0 e E.ARG_REG st0.fi.usedRegs (E.lastLineOf e)
      (st0.expToOpArg E e E.ARG_REG).2 0 (Nat.zero_le _))
    have q4 := q3.qtrans (Quiet.emit _ (.jmp (E.lastLineOf e) 0 0) (Nat.zero_le _)
      (by simp [Instruction.isLoopOp]))
    revert hr q4
    generalize ((((st0.expToOpArg E e E.ARG_REG).1.setUsedRegs st0.fi.usedRegs).emit
      (.test (E.lastLineOf e) (st0.expToOpArg E e E.ARG_REG).2 0)).1.emit
      (.jmp (E.lastLineOf e) 0 0)) = j
    intro hr q4
    split at hr
    · simp at hr
    · next lb hblk =>
      rw [lowerBlocks_getElem?] at hblk
      cases hbi : bs[i]? with
      | none => simp [hbi] at hblk
      | some blk =>
        simp only [hbi, Option.map_some', Option.some.injEq] at hblk
        subst hblk
        split at hr
        · simp at hr
        · next s3 hrun =>
          have hrun2 : cgBlock E (j.1.enterScope false) blk = .done s3 := hrun
          dsimp only at hr
          have hmem : blk ∈ bs := List.getElem?_mem hbi
          have hok : (⟨blk.LastLine, fun s => cgBlock E s blk⟩ : LoweredBlock).Ok :=
            fun s s' hs => cgBlock_lowered hE blk s s' hs
          have hdo : cgDoStat E j.1 ⟨blk.LastLine, fun s => cgBlock E s blk⟩
              = .done ((s3.closeOpenUpvals E blk.LastLine).exitScope
                ((s3.closeOpenUpvals E blk.LastLine).fi.pc + 1)) := by
            simp only [cgDoStat, hrun2, Outcome.andThen]
          have hsj := q4.scopes
          have g1 := logAt_cgDoStat E j.1 _ _ h (if c then blk.ownBreaks else [])
            (fun s s' hs hd hb => hl blk hmem s s' hs (by rw [hd, hsj, hD])
              (by rw [hb]; simp [breakLevel, hsj, hB])) hdo
          have g0 := g1.before (NoBreaks.ofQuiet q4)
          have n1 := (cgDoStat_neutral E j.1 _ _ hok hdo).toLoweredAt
          have d5 := n1.depth
          have b5 := n1.breakLevel_eq
          rw [hsj] at d5 b5
          revert hr g0 d5 b5
          generalize ((s3.closeOpenUpvals E blk.LastLine).exitScope
            ((s3.closeOpenUpvals E blk.LastLine).fi.pc + 1)) = s5
          intro hr g0 d5 b5
          simp only [List.length_cons]
          rw [Block.ownBreaksOf_drop hbi]
          split at hr
          · have ih := logAt_cgIfLoop hE n bs D B h c hl rest _ _ _ _ s1
              (by simp [d5, hD]) (by simp [b5, hB]) hr
            have := (g0.after (NoBreaks.ofQuiet (Quiet.emit (d := 0) s5
              (.jmp blk.LastLine 0 0) (Nat.zero_le _) (by simp [Instruction.isLoopOp])))).chain ih
            by_cases hc : c
            · simpa [hc] using this
            · simpa [hc] using this
          · have ih := logAt_cgIfLoop hE n bs D B h c hl rest _ _ _ _ s1
              (by simp [d5, hD]) (by simp [b5, hB]) hr
            have := g0.chain ih
            by_cases hc : c
            · simpa [hc] using this
            · simpa [hc] using this

theorem logAt_cgIfStat {E : Collaborators} (hE : E.Lawful) (st st' : CgState)
    (exps : List Expression) (bs : List Block) (h : Nat) (c : Prop) [Decidable c]
    (hl : ∀ b ∈ bs, ∀ s s', cgBlock E s b = .done s' →
      s.fi.scopes.length = st.fi.scopes.length + 1 →
      breakLevel s.fi.scopes = breakLevel st.fi.scopes →
      LogAt h (if c then b.ownBreaks else []) s s')
    (hd : cgIfStat E st exps (lowerBlocks E bs) = .done st') :
    LogAt h (if c then Block.ownBreaksOf bs exps.length else []) st st' := by
  unfold cgIfStat at hd
  obtain ⟨s1, hr, hd⟩ := Outcome.andThen_done hd
  simp only [Outcome.done.injEq] at hd
  subst hd
  have := logAt_cgIfLoop hE _ bs _ _ h c hl exps st (-1) [] 0 s1 rfl rfl hr
  simp only [List.drop_zero] at this
  exact this.after (NoBreaks.ofQuiet (quiet_fixJmpToEnds 0 _ _))

theorem breakLevel_enterScope_false (st : CgState) :
    breakLevel (st.enterScope false).fi.scopes = breakLevel st.fi.scopes := by
  simp [breakLevel]

theorem breakLevel_enterScope_true (st : CgState) :
    breakLevel (st.enterScope true).fi.scopes = some st.fi.scopes.length := by
  simp [breakLevel]

/-- Inside the scope of a loop the frames that were open before the loop
get nothing from the body. -/
theorem BreakLog.inLoop {l : List Int} {st s s' : CgState} {h : Nat} (hb : BreakLog l s s')
    (hh : h < st.fi.scopes.length) (hd : s.fi.scopes.length = st.fi.scopes.length + 1)
    (hl : breakLevel s.fi.scopes = breakLevel (st.enterScope true).fi.scopes) :
    LogAt h [] s s' := by
  have := hb h (by omega)
  rw [hl, breakLevel_enterScope_true, if_neg] at this
  · exact this
  · intro hc
    have := Option.some.inj hc
    omega

/-- Inside the scope of a loop the frame of the loop gets the jumps of the
body's own break statements. -/
theorem BreakLog.ofLoop {l : List Int} {st s s' : CgState} (hb : BreakLog l s s')
    (hd : s.fi.scopes.length = st.fi.scopes.length + 1)
    (hl : breakLevel s.fi.scopes = breakLevel (st.enterScope true).fi.scopes) :
    LogAt st.fi.scopes.length l s s' := by
  have := hb st.fi.scopes.length (by omega)
  rw [hl, breakLevel_enterScope_true, if_pos rfl] at this
  exact this

mutual
theorem cgStat_breakLog {E : Collaborators} (hE : E.Lawful) :
    ∀ (s : Statement) (st st' : CgState), cgStat E st s = .done st' →
      BreakLog s.ownBreaks st st'
  | .FunctionCallStatement call, st, st', h => by
    simp only [cgStat, Outcome.done.injEq] at h
    subst h
    exact (noBreaks_cgFuncCallStat hE st call).breakLog
  | .BreakStatement line, st, st', h => by
    simp only [cgStat, Outcome.done.injEq] at h
    subst h
    exact breakLog_cgBreakStat st line
  | .DoStatement block, st, st', h => by
    simp only [cgStat] at h
    intro k hk
    refine logAt_cgDoStat E st st' _ k _ (fun s s' hs hd hb => ?_) h
    have := cgBlock_breakLog hE block s s' hs k (by omega)
    rw [hb, breakLevel_enterScope_false] at this
    exact this
  | .WhileStatement expression block, st, st', h => by
    simp only [cgStat] at h
    intro k hk
    simp only [Statement.ownBreaks, ite_self]
    exact logAt_cgWhileStat hE st st' expression _ k []
      (fun s s' hs hd hb => (cgBlock_breakLog hE block s s' hs).inLoop hk hd hb) h
  | .RepeatStatement block expression, st, st', h => by
    simp only [cgStat] at h
    intro k hk
    simp only [Statement.ownBreaks, ite_self]
    exact logAt_cgRepeatStat hE st st' _ expression k []
      (fun s s' hs hd hb => (cgBlock_breakLog hE block s s' hs).inLoop hk hd hb) h
  | .IfStatement expressions blocks, st, st', h => by
    simp only [cgStat] at h
    intro k hk
    refine logAt_cgIfStat hE st st' expressions blocks k _ (fun b hb s s' hs hd hl => ?_) h
    have := blocks_breakLog hE blocks b hb s s' hs k (by omega)
    rw [hl] at this
    exact this
  | .ForNumStatement lineOfFor lineOfDo varName e1 e2 e3 block, st, st', h => by
    simp only [cgStat] at h
    intro k hk
    simp only [Statement.ownBreaks, ite_self]
    exact logAt_cgForNumStat hE st st' lineOfFor lineOfDo varName e1 e2 e3 _
      (fun s s' hs => cgBlock_lowered hE block s s' hs) k []
      (fun s s' hs hd hb => (cgBlock_breakLog hE block s s' hs).inLoop hk hd hb) h
  | .ForInStatement lineOfDo nameList expressionList block, st, st', h => by
    simp only [cgStat] at h
    intro k hk
    simp only [Statement.ownBreaks, ite_self]
    exact logAt_cgForInStat hE st st' lineOfDo nameList expressionList _
      (fun s s' hs => cgBlock_lowered hE block s s' hs) k []
      (fun s s' hs hd hb => (cgBlock_breakLog hE block s s' hs).inLoop hk hd hb) h
  | .AssignStatement lastLine variableList expressionList, st, st', h => by
    simp only [cgStat] at h
    exact (noBreaks_cgAssignStat hE st st' lastLine variableList expressionList h).breakLog
  | .LocalVariableDeclareStatement lastLine nameList expressionList, st, st', h => by
    simp only [cgStat, Outcome.done.injEq] at h
    subst h
    exact (noBreaks_cgLocalVarDeclStat hE st lastLine nameList expressionList).breakLog
  | .LocalFunctionDefineStatement name expression, st, st', h => by
    simp only [cgStat, Outcome.done.injEq] at h
    subst h
    exact (noBreaks_cgLocalFuncDefStat hE st name expression).breakLog
  | .LabelStatement _, st, st', h => by simp [cgStat] at h
  | .GotoStatement _, st, st', h => by simp [cgStat] at h
theorem cgBlock_breakLog {E : Collaborators} (hE : E.Lawful) :
    ∀ (b : Block) (st st' : CgState), cgBlock E st b = .done st' → BreakLog b.ownBreaks st st'
  | .mk stats _, st, st', h => by
    simp only [cgBlock] at h
    exact cgStats_breakLog hE stats st st' h
theorem cgStats_breakLog {E : Collaborators} (hE : E.Lawful) :
    ∀ (ss : List Statement) (st st' : CgState), cgStats E st ss = .done st' →
      BreakLog (Statement.ownBreaksAll ss) st st'
  | [], st, st', h => by
    simp only [cgStats, Outcome.done.injEq] at h
    subst h
    exact (NoBreaks.ofQuiet (Quiet.qrefl 0 st)).breakLog
  | s :: rest, st, st', h => by
    simp only [cgStats] at h
    cases h1 : cgStat E st s with
    | panicked e s1 => simp [h1] at h
    | done s1 =>
      simp only [h1] at h
      intro k hk
      have l1 := (cgStat_lowered hE s st s1 h1).1
      have g1 := cgStat_breakLog hE s st s1 h1 k hk
      have g2 := cgStats_breakLog hE rest s1 st' h k (by rw [LoweredAt.depth l1]; exact hk)
      rw [LoweredAt.breakLevel_eq l1] at g2
      have := g1.chain g2
      simp only [Statement.ownBreaksAll]
      by_cases hc : breakLevel st.fi.scopes = some k
      · simpa [hc] using this
      · simpa [hc] using this
theorem blocks_breakLog {E : Collaborators} (hE : E.Lawful) :
    ∀ (bs : List Block), ∀ b ∈ bs, ∀ st st', cgBlock E st b = .done st' →
      BreakLog b.ownBreaks st st'
  | [], b, hb => by simp at hb
  | blk :: rest, b, hb => by
    simp only [List.mem_cons] at hb
    rcases hb with hb | hb
    · subst hb
      exact fun st st' hs => cgBlock_breakLog hE b st st' hs
    · exact blocks_breakLog hE rest b hb
end

/-- For a loop statement: what its frame, of height `st.fi.scopes.length`,
has recorded when the routine returns are the jumps of the break statements
of the body that belong to the loop, by their lines. -/
theorem cgStat_loopBreaks {E : Collaborators} (hE : E.Lawful) (st st' : CgState) (s : Statement)
    (hs : s.isLoop = true) (h : cgStat E st s = .done st') :
    LogAt st.fi.scopes.length s.loopBreaks st st' := by
  cases s <;> simp only [Statement.isLoop] at hs <;> simp only [cgStat] at h
  case WhileStatement expression block =>
    exact logAt_cgWhileStat hE st st' expression _ _ _
      (fun s s' hs hd hb => (cgBlock_breakLog hE block s s' hs).ofLoop hd hb) h
  case RepeatStatement block expression =>
    exact logAt_cgRepeatStat hE st st' _ expression _ _
      (fun s s' hs hd hb => (cgBlock_breakLog hE block s s' hs).ofLoop hd hb) h
  case ForNumStatement lineOfFor lineOfDo varName e1 e2 e3 block =>
    exact logAt_cgForNumStat hE st st' lineOfFor lineOfDo varName e1 e2 e3 _
      (fun s s' hs => cgBlock_lowered hE block s s' hs) _ _
      (fun s s' hs hd hb => (cgBlock_breakLog hE block s s' hs).ofLoop hd hb) h
  case ForInStatement lineOfDo nameList expressionList block =>
    exact logAt_cgForInStat hE st st' lineOfDo nameList expressionList _
      (fun s s' hs => cgBlock_lowered hE block s s' hs) _ _
      (fun s s' hs hd hb => (cgBlock_breakLog hE block s s' hs).ofLoop hd hb) h
  all_goals simp at hs

/-- Claim C3: when the lowering of a while, repeat-until, numeric for or
generic for statement returns, the break jumps in the frame of that loop
(the PCs that `cgBreakStat` handed to `addBreakJmp` in a state whose
innermost breakable frame is the one the loop opened, which has height
`st.fi.scopes.length`) are, one for one and in source order, the jumps of
the break statements of the body that belong to the loop: those in the body
itself, in the blocks of its do statements and in the branches of its if
statements, at any depth of such nesting, and not those inside a nested
loop.  The jump of the `i`-th of them is in the final buffer with the line
of that break statement, and its target, its PC + 1 + its offset, is the PC
right after the last instruction emitted for the loop: the length of the
buffer.  The expression emitter is under its contract. -/
theorem break_jumps_land (E : Collaborators) (hE : E.Lawful) (st st' : CgState) (s : Statement)
    (hs : s.isLoop = true) (h : cgStat E st s = .done st') :
    (evBreaks st.fi.scopes.length (st'.trace.drop st.trace.length)).length
      = s.loopBreaks.length ∧
    (∀ (i : Nat) (line : Int), s.loopBreaks[i]? = some line →
      ∃ (k : Nat) (a off : Int),
        (evBreaks st.fi.scopes.length (st'.trace.drop st.trace.length))[i]? = some (k : Int) ∧
        st'.fi.insts[k]? = some (.jmp line a off) ∧
        (k : Int) + 1 + off = st'.fi.insts.length) ∧
    BreaksLand (evBreaks st.fi.scopes.length (st'.trace.drop st.trace.length)) st'.fi.insts := by
  obtain ⟨new, s0, e⟩ := cgStat_loopBreaks hE st st' s hs h
  obtain ⟨new2, ht, hb⟩ := (cgStat_loopShape hE st st' s hs h).breaks
  have hn : new2 = new := by
    have := s0.trace
    rw [ht] at this
    exact List.append_cancel_left this
  subst hn
  have hd : st'.trace.drop st.trace.length = new2 := by rw [ht, List.drop_left]
  rw [hd]
  refine ⟨?_, ?_, hb⟩
  · have := congrArg List.length e
    simpa using this
  · intro i line hi
    have h1 : ((evBreaks st.fi.scopes.length new2).map (jmpLineAt st'.fi.insts))[i]?
        = some (some line) := by
      rw [e, List.getElem?_map, hi]
      rfl
    rw [List.getElem?_map] at h1
    cases hx : (evBreaks st.fi.scopes.length new2)[i]? with
    | none => simp [hx] at h1
    | some pc =>
      simp only [hx, Option.map_some', Option.some.injEq] at h1
      obtain ⟨k, hk, l, a, off, hins, htgt⟩ := hb pc (List.mem_iff_getElem?.2 ⟨i, hx⟩)
      subst hk
      have hl : l = line := by
        simpa [jmpLineAt, hins, Instruction.jmpLine?] using h1
      subst hl
      exact ⟨k, a, off, rfl, hins, htgt⟩

/-- C3 at `while e do if e1 then break end; f() end` from the initial
state: the one break statement, on line 7 inside the if statement, has its
jump at PC 6 in the frame of the loop; the jump has offset 2 and so leads to
PC 9, right after the back-jump of the loop at PC 8, not to the call at
PC 7. -/
theorem break_jumps_land_witness :
    cgStat sampleEmitter initialState sampleBreakInIf
      = .done (cgStat sampleEmitter initialState sampleBreakInIf).state ∧
    sampleBreakInIf.loopBreaks = [7] ∧
    evBreaks 1 (cgStat sampleEmitter initialState sampleBreakInIf).state.trace = [6] ∧
    (cgStat sampleEmitter initialState sampleBreakInIf).state.fi.insts =
      [.other 5 0 0 0, .test 0 0 0, .jmp 0 0 6, .other 5 0 0 0, .test 0 0 0, .jmp 0 0 1,
       .jmp 7 0 2, .other 2 0 0 0, .jmp 3 0 (-9)] ∧
    (evBreaks initialState.fi.scopes.length
        ((cgStat sampleEmitter initialState sampleBreakInIf).state.trace.drop
          initialState.trace.length)).length = sampleBreakInIf.loopBreaks.length ∧
    (∀ (i : Nat) (line : Int), sampleBreakInIf.loopBreaks[i]? = some line →
      ∃ (k : Nat) (a off : Int),
        (evBreaks initialState.fi.scopes.length
          ((cgStat sampleEmitter initialState sampleBreakInIf).state.trace.drop
            initialState.trace.length))[i]? = some (k : Int) ∧
        (cgStat sampleEmitter initialState sampleBreakInIf).state.fi.insts[k]?
          = some (.jmp line a off) ∧
        (k : Int) + 1 + off
          = (cgStat sampleEmitter initialState sampleBreakInIf).state.fi.insts.length) ∧
    BreaksLand
      (evBreaks initialState.fi.scopes.length
        ((cgStat sampleEmitter initialState sampleBreakInIf).state.trace.drop
          initialState.trace.length))
      (cgStat sampleEmitter initialState sampleBreakInIf).state.fi.insts :=
  ⟨rfl, by decide, by decide, by decide,
    break_jumps_land sampleEmitter sampleEmitter_lawful initialState _ sampleBreakInIf rfl rfl⟩

end Codegen
